import Mathlib

/-! # d-config: the configuration tree, its expanders and the facade

A shallow embedding of `src/config_node.hpp`, `src/config_param_expander.hpp`,
`src/config_node_expander.hpp` and `src/config.hpp`.

* A `std::string` is a list of characters (`Str`).
* A `const char*` is the list of characters stored from the pointer onwards; the
  C string it denotes ends at the first NUL character or at the end of the list
  (where the implicit terminator stands).  `strchr` and `strlen` stop there.
* `std::shared_ptr<ConfigNode>` is an index into a `Store` (an arena of nodes), so that
  sharing of nodes and the `parent` back pointer are kept as they are in the source.
* The `multi_index_container` of a node is the list of its elements in the order of its
  `sequenced` index; the `ordered` and `referenced` indices are keyed lookups in that list.
* `size_t` is a natural number below `2 ^ 64`; `SIZE_MAX` is the default `index` argument.
* An `assert` that fails makes the operation return `none`.
* Recursion that the source leaves to the call stack takes a budget (`fuel`); theorems state
  when the budget suffices.
* The headers `separator.hpp` and `node.hpp` are not among the sources.  `Separator` is
  the character it holds.  The parameter expander is written against `detail::Node`; its
  `accept` and `getValues` are those of `ConfigNode`, the one node type of the
  specification, and its `visit` overloads ignore the index that `accept` passes.
-/

namespace dconfig

/-- Contents of a `std::string`. -/
abbrev Str := List Char

/-- The NUL character that terminates a C string. -/
def NUL : Char := Char.ofNat 0

/-- Modelled from the spec: `Separator` (header `separator.hpp`) is a value type holding
one character, by which paths are split; the specification requires it to be non-null, which
theorems state as the hypothesis `sep ≠ NUL`. -/
abbrev Separator := Char

/-- Value of `std::numeric_limits<size_t>::max()`. -/
def SIZE_MAX : Nat := 2 ^ 64 - 1

/-- Element of a children container, `ConfigNode::ElementType<List>`. -/
structure ElementType (L : Type) where
  key : Str
  value : L
deriving DecidableEq

/-- Handle of a node, `ConfigNode::node_type`, as an index into the store. -/
abbrev NodePtr := Nat

/-- Sequence of scalars under one key, `ConfigNode::value_list`. -/
abbrev value_list := List Str

/-- Sequence of subnodes under one key, `ConfigNode::node_list`. -/
abbrev node_list := List NodePtr

/-- Children container in the order of its `sequenced` index. -/
abbrev children_container (L : Type) := List (ElementType L)

/-- Data members of `ConfigNode`. -/
structure ConfigNode where
  nodes : children_container node_list
  values : children_container value_list
  parent : Option NodePtr
deriving DecidableEq

/-- Arena holding every node; a `NodePtr` is a position in it. -/
abbrev Store := List ConfigNode

/-! ## C strings -/

/-- Character `key[i]` of a C string; the terminator is read at the end of the list. -/
def charAt (key : Str) (i : Nat) : Char := key.getD i NUL

/-- Offset returned by `std::strchr(key, c)`, or `none` for a null result. -/
def strchr : Str → Char → Option Nat
  | [], c => if c = NUL then some 0 else none
  | x :: xs, c =>
    if x = c then some 0
    else if x = NUL then none
    else (strchr xs c).map (· + 1)

/-- Result of `std::strlen(key)`. -/
def strlen : Str → Nat
  | [] => 0
  | x :: xs => if x = NUL then 0 else strlen xs + 1

/-- Offset returned by `std::strrchr(key, c)`, or `none` for a null result. -/
def strrchr : Str → Char → Option Nat
  | [], c => if c = NUL then some 0 else none
  | x :: xs, c =>
    if x = NUL then (if c = NUL then some 0 else none)
    else match strrchr xs c with
      | some i => some (i + 1)
      | none => if x = c then some 0 else none

/-! ## Children containers -/

/-- Lookup `find(key)` in the `ordered` or `referenced` index of a container. -/
def find {L : Type} (c : children_container L) (key : Str) : Option (ElementType L) :=
  List.find? (fun e => decide (e.key = key)) c

/-- Call `modify(it, f)` on the element that `find(key)` returns. -/
def modify {L : Type} (f : L → L) (key : Str) : children_container L → children_container L
  | [] => []
  | e :: es => if e.key = key then { e with value := f e.value } :: es else e :: modify f key es

/-- Call `erase(key)` on the `referenced` index of a container. -/
def eraseKey {L : Type} (c : children_container L) (key : Str) : children_container L :=
  List.filter (fun e => !decide (e.key = key)) c

/-- Result of `ConfigNode::noValues()`. -/
def noValues : value_list := []

/-- Result of `ConfigNode::noNodes()`. -/
def noNodes : node_list := []

/-- Node that a handle points to; a handle outside the store has no children. -/
def deref (h : Store) (p : NodePtr) : ConfigNode :=
  h.getD p { nodes := [], values := [], parent := none }

/-! ## Lookups of `ConfigNode` -/

/-- Overload `getValues(const boost::string_ref& key)`. -/
def getValuesKey (h : Store) (self : NodePtr) (key : Str) : value_list :=
  match find (deref h self).values key with
  | some child => child.value
  | none => noValues

/-- Overload `getNodes(const boost::string_ref& key)`. -/
def getNodesKey (h : Store) (self : NodePtr) (key : Str) : node_list :=
  match find (deref h self).nodes key with
  | some child => child.value
  | none => noNodes

/-- Static helper `clearJustSeparatorKey(key, separator)`: the new value of `key`. -/
def clearJustSeparatorKey (key : Str) (separator : Separator) : Str :=
  if charAt key 0 ≠ NUL ∧ charAt key 1 = NUL ∧ charAt key 0 = separator then [] else key

/-- Body of `getValues(const char* key, Separator separator)`; each recursive call of the
source consumes one unit of `fuel`. -/
def getValuesFuel (h : Store) (separator : Separator) : Nat → NodePtr → Option Str → value_list
  | 0, _, _ => noValues
  | fuel + 1, self, key =>
    match key with
    | none => noValues
    | some key =>
      let key := clearJustSeparatorKey key separator
      match strchr key separator with
      | some first =>
        match getNodesKey h self (key.take first) with
        | [] => noValues
        | n0 :: _ => getValuesFuel h separator fuel n0 (some (key.drop (first + 1)))
      | none => getValuesKey h self (key.take (strlen key))

/-- Body of `getNodes(const char* key, Separator separator)`; each recursive call of the
source consumes one unit of `fuel`. -/
def getNodesFuel (h : Store) (separator : Separator) : Nat → NodePtr → Option Str → node_list
  | 0, _, _ => noNodes
  | fuel + 1, self, key =>
    match key with
    | none => noNodes
    | some key =>
      let key := clearJustSeparatorKey key separator
      match strchr key separator with
      | some first =>
        match getNodesKey h self (key.take first) with
        | [] => noNodes
        | n0 :: _ => getNodesFuel h separator fuel n0 (some (key.drop (first + 1)))
      | none => getNodesKey h self (key.take (strlen key))

/-- Number of recursive calls that a path can cause, plus one. -/
def pathFuel : Option Str → Nat
  | none => 1
  | some key => key.length + 1

/-- Member `getValues(const char* key, Separator separator)`; a null `key` is `none`. -/
def getValues (h : Store) (self : NodePtr) (key : Option Str) (separator : Separator) : value_list :=
  getValuesFuel h separator (pathFuel key) self key

/-- Member `getNodes(const char* key, Separator separator)`; a null `key` is `none`. -/
def getNodes (h : Store) (self : NodePtr) (key : Option Str) (separator : Separator) : node_list :=
  getNodesFuel h separator (pathFuel key) self key

/-- Overload `getValues(const std::string& key, Separator separator)`. -/
def getValuesStr (h : Store) (self : NodePtr) (key : Str) (separator : Separator) : value_list :=
  getValues h self (some key) separator

/-- Overload `getNodes(const std::string& key, Separator separator)`. -/
def getNodesStr (h : Store) (self : NodePtr) (key : Str) (separator : Separator) : node_list :=
  getNodes h self (some key) separator

/-! ## The walk that the specification describes -/

/-- Segments of a path split on the separator, as the specification words it. -/
def splitPath (sep : Char) : Str → List Str
  | [] => [[]]
  | c :: cs =>
    if c = sep then [] :: splitPath sep cs
    else match splitPath sep cs with
      | [] => [[c]]
      | s :: ss => (c :: s) :: ss

/-- Walk of the specification for scalars: every intermediate segment follows the first
subnode under that key, the last segment is looked up among the scalars. -/
def walkValues (h : Store) : NodePtr → List Str → value_list
  | _, [] => []
  | n, [k] => getValuesKey h n k
  | n, k :: k2 :: ks =>
    match getNodesKey h n k with
    | [] => []
    | m :: _ => walkValues h m (k2 :: ks)

/-- Walk of the specification for subnodes: as `walkValues`, the last segment is looked
up among the subnodes. -/
def walkNodes (h : Store) : NodePtr → List Str → node_list
  | _, [] => []
  | n, [k] => getNodesKey h n k
  | n, k :: k2 :: ks =>
    match getNodesKey h n k with
    | [] => []
    | m :: _ => walkNodes h m (k2 :: ks)

/-- Characters of the C string that a pointer denotes. -/
def cstr (key : Str) : Str := key.take (strlen key)

/-- Path that the lookups really walk: a final separator that stands alone, or that
follows another separator, is dropped. -/
def normPath (sep : Char) (p : Str) : Str :=
  if p = [sep] ∨ [sep, sep] <:+ p then p.dropLast else p

/-- Common shape of the two path lookups: `term` is the lookup of the last segment. -/
def lookupFuel {α : Type} (h : Store) (term : NodePtr → Str → List α) (separator : Separator) :
    Nat → NodePtr → Option Str → List α
  | 0, _, _ => []
  | fuel + 1, self, key =>
    match key with
    | none => []
    | some key =>
      let key := clearJustSeparatorKey key separator
      match strchr key separator with
      | some first =>
        match getNodesKey h self (key.take first) with
        | [] => []
        | n0 :: _ => lookupFuel h term separator fuel n0 (some (key.drop (first + 1)))
      | none => term self (key.take (strlen key))

/-- Common shape of the two walks of the specification. -/
def walkGen {α : Type} (h : Store) (term : NodePtr → Str → List α) : NodePtr → List Str → List α
  | _, [] => []
  | n, [k] => term n k
  | n, k :: k2 :: ks =>
    match getNodesKey h n k with
    | [] => []
    | m :: _ => walkGen h term m (k2 :: ks)

/-! ## Mutators of `ConfigNode` -/

/-- Member `setValue(key, value, index)`; `index = SIZE_MAX` is the default argument. -/
def setValue (h : Store) (self : NodePtr) (key : Str) (value : Str) (index : Nat) :
    Option Store :=
  let me := deref h self
  match find me.values key with
  | none => some (h.set self { me with values := me.values ++ [{ key := key, value := [value] }] })
  | some it =>
    if index = SIZE_MAX then
      some (h.set self { me with values := modify (fun l => l ++ [value]) key me.values })
    else if it.value.length > index then
      some (h.set self { me with values := modify (fun l => l.set index value) key me.values })
    else none

/-- Assignment `node->parent = parent`. -/
def setParent (h : Store) (node : NodePtr) (parent : Option NodePtr) : Store :=
  h.set node { deref h node with parent := parent }

/-- Member `setNode(key, node, index)`; `index = SIZE_MAX` is the default argument. -/
def setNode (h : Store) (self : NodePtr) (key : Str) (node : NodePtr) (index : Nat) :
    Option Store :=
  let h := setParent h node (some self)
  let me := deref h self
  match find me.nodes key with
  | none => some (h.set self { me with nodes := me.nodes ++ [{ key := key, value := [node] }] })
  | some it =>
    if index = SIZE_MAX then
      some (h.set self { me with nodes := modify (fun l => l ++ [node]) key me.nodes })
    else if it.value.length > index then
      some (h.set self { me with nodes := modify (fun l => l.set index node) key me.nodes })
    else none

/-- Member `getParent()`. -/
def getParent (h : Store) (self : NodePtr) : Option NodePtr := (deref h self).parent

/-- Member `erase(key)`. -/
def erase (h : Store) (self : NodePtr) (key : Str) : Store :=
  let me := deref h self
  h.set self { me with nodes := eraseKey me.nodes key, values := eraseKey me.values key }

/-- Member `eraseValue(key, index)`. -/
def eraseValue (h : Store) (self : NodePtr) (key : Str) (index : Nat) : Option Store :=
  let me := deref h self
  match find me.values key with
  | some it =>
    if it.value.length > index then
      some (h.set self { me with values := modify (fun l => l.eraseIdx index) key me.values })
    else none
  | none => some h

/-- Member `eraseNode(key, index)`. -/
def eraseNode (h : Store) (self : NodePtr) (key : Str) (index : Nat) : Option Store :=
  let me := deref h self
  match find me.nodes key with
  | some it =>
    if it.value.length > index then
      some (h.set self { me with nodes := modify (fun l => l.eraseIdx index) key me.nodes })
    else none
  | none => some h

/-! ## Traversal: `ConfigNode::accept` -/

/-- Ways in which an expander pass ends without a tree: the recursion through the subnodes
went deeper than the budget given to the model, `std::invalid_argument` was thrown, a member
was called through a null pointer, or an `assert` failed. -/
inductive Failure where
  | depth : Failure
  | invalid_argument (what : Str) : Failure
  | null_pointer : Failure
  | assertion : Failure
deriving DecidableEq

/-- Outcome of an operation that may throw. -/
inductive Outcome (α : Type) where
  | ok (result : α) : Outcome α
  | error (e : Failure) : Outcome α
deriving DecidableEq

/-- Visitor handed to `accept`, with its own state `σ`.  `visitValue` is the overload
`visit(parent, key, index, std::string& value)`: it reads the store and returns the string
that the reference `value` holds when it returns.  `visitNode` is the overload
`visit(parent, key, index, ConfigNode& node)`. -/
structure Visitor (σ : Type) where
  visitValue : Store → σ → NodePtr → Str → Nat → Str → Outcome (σ × Str)
  visitNode : Store → σ → NodePtr → Str → Nat → NodePtr → Outcome (Store × σ)

/-- String that the reference `value` denotes: element `index` of the scalar entry at
position `pos` of the node `self`. -/
def valueAt (h : Store) (self : NodePtr) (pos index : Nat) : Str :=
  match (deref h self).values[pos]? with
  | some child => child.value.getD index []
  | none => []

/-- Assignment through the reference `value` of the element `index` of the scalar entry
at position `pos` of the node `self`. -/
def assignValue (h : Store) (self : NodePtr) (pos index : Nat) (value : Str) : Store :=
  let me := deref h self
  h.set self { me with
    values := me.values.modify (fun child => { child with value := child.value.set index value }) pos }

/-- Inner loop of `accept` over the subnodes of one entry, `index` counting up. -/
def acceptNodeList {σ : Type} (v : Visitor σ) (self : NodePtr) (key : Str) :
    node_list → Nat → Store × σ → Outcome (Store × σ)
  | [], _, st => .ok st
  | node :: rest, index, st =>
    match v.visitNode st.1 st.2 self key index node with
    | .error e => .error e
    | .ok st => acceptNodeList v self key rest (index + 1) st

/-- Outer loop of `accept` over the subnode entries in sequenced order. -/
def acceptNodes {σ : Type} (v : Visitor σ) (self : NodePtr) :
    children_container node_list → Store × σ → Outcome (Store × σ)
  | [], st => .ok st
  | child :: rest, st =>
    match acceptNodeList v self child.key child.value 0 st with
    | .error e => .error e
    | .ok st => acceptNodes v self rest st

/-- Inner loop of `accept` over the scalars of the entry at position `pos`, `index` counting
up; the visitor gets the string as it stands in the store when it is called. -/
def acceptValueList {σ : Type} (v : Visitor σ) (self : NodePtr) (pos : Nat) (key : Str) :
    value_list → Nat → Store × σ → Outcome (Store × σ)
  | [], _, st => .ok st
  | _ :: rest, index, st =>
    match v.visitValue st.1 st.2 self key index (valueAt st.1 self pos index) with
    | .error e => .error e
    | .ok r =>
      acceptValueList v self pos key rest (index + 1) (assignValue st.1 self pos index r.2, r.1)

/-- Outer loop of `accept` over the scalar entries in sequenced order, `pos` counting the
entries. -/
def acceptValues {σ : Type} (v : Visitor σ) (self : NodePtr) :
    children_container value_list → Nat → Store × σ → Outcome (Store × σ)
  | [], _, st => .ok st
  | child :: rest, pos, st =>
    match acceptValueList v self pos child.key child.value 0 st with
    | .error e => .error e
    | .ok st => acceptValues v self rest (pos + 1) st

/-- Member `accept(visitor)`: the subnode entries first, then the scalar entries.  The
visitors of this program assign scalars and never insert or erase children of a node
while it is traversed, so the loops run over the entries the node has when `accept` starts. -/
def accept {σ : Type} (v : Visitor σ) (self : NodePtr) (st : Store × σ) :
    Outcome (Store × σ) :=
  let me := deref st.1 self
  match acceptNodes v self me.nodes st with
  | .error e => .error e
  | .ok st => acceptValues v self me.values 0 st

/-- One call of `visit` as a visitor sees it. -/
inductive Visit where
  | node (parent : NodePtr) (key : Str) (index : Nat) (node : NodePtr) : Visit
  | value (parent : NodePtr) (key : Str) (index : Nat) (value : Str) : Visit
deriving DecidableEq

/-- Visitor that appends every call it receives to a log and changes nothing. -/
def Recorder : Visitor (List Visit) where
  visitValue := fun _ log parent key index value =>
    .ok (log ++ [Visit.value parent key index value], value)
  visitNode := fun h log parent key index node =>
    .ok (h, log ++ [Visit.node parent key index node])

/-- Calls that the specification expects for the subnodes of a node: entries in insertion
order, within an entry the indices ascending from 0. -/
def expectedNodeVisits (self : NodePtr) (me : ConfigNode) : List Visit :=
  me.nodes.flatMap (fun child =>
    child.value.enum.map (fun p => Visit.node self child.key p.1 p.2))

/-- Calls that the specification expects for the scalars of a node: entries in insertion
order, within an entry the indices ascending from 0. -/
def expectedValueVisits (self : NodePtr) (me : ConfigNode) : List Visit :=
  me.values.flatMap (fun child =>
    child.value.enum.map (fun p => Visit.value self child.key p.1 p.2))

/-- One call of `visit` as `accept` issues it: a subnode with its key and index, or the
scalar at an index of the entry at position `pos`. -/
inductive Step where
  | node (key : Str) (index : Nat) (node : NodePtr) : Step
  | value (pos : Nat) (key : Str) (index : Nat) : Step
deriving DecidableEq

/-- Steps that the specification expects from `accept` on a node: all subnode elements,
entries in insertion order and indices ascending from 0, then all scalar elements in the
same manner. -/
def visitSteps (me : ConfigNode) : List Step :=
  me.nodes.flatMap (fun child => child.value.enum.map (fun p => Step.node child.key p.1 p.2))
  ++ me.values.enum.flatMap (fun q =>
      (List.range q.2.value.length).map (fun i => Step.value q.1 q.2.key i))

/-- Call of `visit` for one step, with `self` as the parent. -/
def runStep {σ : Type} (v : Visitor σ) (self : NodePtr) (st : Store × σ) :
    Step → Outcome (Store × σ)
  | Step.node key index node => v.visitNode st.1 st.2 self key index node
  | Step.value pos key index =>
    match v.visitValue st.1 st.2 self key index (valueAt st.1 self pos index) with
    | .error e => .error e
    | .ok r => .ok (assignValue st.1 self pos index r.2, r.1)

/-- Calls of `visit` for a list of steps, one after the other, until one throws. -/
def runSteps {σ : Type} (v : Visitor σ) (self : NodePtr) :
    List Step → Store × σ → Outcome (Store × σ)
  | [], st => .ok st
  | s :: rest, st =>
    match runStep v self st s with
    | .error e => .error e
    | .ok st => runSteps v self rest st

/-! ## The parameter expander -/

/-- Literal `"%config."` with which the regex of the parameter expander starts. -/
def configHead : Str := "%config.".toList

/-- Text before and behind the first `'%'` of a string. -/
def untilPercent : Str → Option (Str × Str)
  | [] => none
  | c :: t =>
    if c = '%' then some ([], t)
    else match untilPercent t with
      | some r => some (c :: r.1, r.2)
      | none => none

/-- Match of the regex `"%config." >> (s1 = -+_) >> "%"` at the start of `s`: the
submatch `s1` (one character, then as few as possible up to a `'%'`) and the text behind
the match. -/
def matchAt (s : Str) : Option (Str × Str) :=
  if configHead <+: s then
    match s.drop configHead.length with
    | [] => none
    | c :: t =>
      match untilPercent t with
      | some r => some (c :: r.1, r.2)
      | none => none
  else none

/-- Loop of `regex_replace(value, match, fmt)`: at each position the match is replaced by
`fmt s1` and the search goes on behind it, any other character is copied. -/
def regexReplaceFuel (fmt : Str → Str) : Nat → Str → Str
  | 0, _ => []
  | _ + 1, [] => []
  | fuel + 1, c :: t =>
    match matchAt (c :: t) with
    | some r => fmt r.1 ++ regexReplaceFuel fmt fuel r.2
    | none => c :: regexReplaceFuel fmt fuel t

/-- Call `regex_replace(value, match, fmt)`; every step consumes a character, so the length
of `value` bounds the number of steps. -/
def regex_replace (fmt : Str → Str) (value : Str) : Str :=
  regexReplaceFuel fmt value.length value

/-- Functor `RegexExpander::operator()` applied to the submatch `s1`. -/
def RegexExpander (h : Store) (node : NodePtr) (separator : Separator) (s1 : Str) : Str :=
  match getValues h node (some s1) separator with
  | [] => []
  | v :: _ => v

/-- Members `ConfigParamExpander::Visitor::visit` (the source writes them against
`detail::Node` and without the index); `fuel` bounds the recursion through the subnodes,
which the source leaves to the call stack. -/
def ParamVisitor (root : NodePtr) (separator : Separator) : Nat → Visitor Unit
  | 0 =>
    { visitValue := fun h s _ _ _ value =>
        .ok (s, regex_replace (RegexExpander h root separator) value)
      visitNode := fun _ _ _ _ _ _ => .error Failure.depth }
  | fuel + 1 =>
    { visitValue := fun h s _ _ _ value =>
        .ok (s, regex_replace (RegexExpander h root separator) value)
      visitNode := fun h s _ _ _ node => accept (ParamVisitor root separator fuel) node (h, s) }

/-- Call `ConfigParamExpander::operator()(root)`. -/
def ConfigParamExpander (separator : Separator) (fuel : Nat) (h : Store) (root : NodePtr) :
    Outcome Store :=
  match accept (ParamVisitor root separator fuel) root (h, ()) with
  | .ok st => .ok st.1
  | .error e => .error e

/-! ## Notions for statements about a whole pass of the parameter expander -/

/-- Subnodes of a node, over all its entries. -/
def children (h : Store) (n : NodePtr) : List NodePtr :=
  (deref h n).nodes.flatMap (fun child => child.value)

/-- Check that the recursion of a visitor with budget `fuel` through the subnodes below `n`
never runs out: no chain of subnodes below `n` is longer than `fuel`. -/
def withinDepth (h : Store) : Nat → NodePtr → Bool
  | 0, n => (children h n).isEmpty
  | fuel + 1, n => (children h n).all (fun c => withinDepth h fuel c)

/-- Check that the node `target` is `n` or lies below `n` at a depth of at most `depth`. -/
def reaches (h : Store) (target : NodePtr) : Nat → NodePtr → Bool
  | 0, n => decide (n = target)
  | depth + 1, n => decide (n = target) || (children h n).any (fun c => reaches h target depth c)

/-- Check that a match of the regex of the parameter expander starts somewhere in a string. -/
def hasToken : Str → Bool
  | [] => false
  | c :: t => (matchAt (c :: t)).isSome || hasToken t

/-- Effect of the visit of the parameter expander on the scalar at `index` of the entry at
position `pos` of the node `self`. -/
def expandAt (root : NodePtr) (separator : Separator) (h : Store) (self : NodePtr)
    (pos index : Nat) : Store :=
  assignValue h self pos index
    (regex_replace (RegexExpander h root separator) (valueAt h self pos index))

/-- Relation between a scalar sequence before and after an assignment that turns a string
`v` into `v2`: nothing changed, or one element `v` became `v2`. -/
def Touched (v v2 : Str) (l l2 : value_list) : Prop :=
  l2 = l ∨ ∃ j, l[j]? = some v ∧ l2 = l.set j v2

/-- Property that a pass of the parameter expander over the store `h0` keeps, for a scalar
(at `index` of the entry at `pos` of the node `target`) that is the token of the path `p`
and for the string `w` that the path resolves to: the subnodes are those of `h0`, the path
still resolves to `w`, the scalar is still the token or already `w`, and it still exists. -/
def ParamInv (h0 : Store) (root : NodePtr) (sep : Char) (target pos index : Nat) (p w : Str)
    (h : Store) : Prop :=
  (∀ n, (deref h n).nodes = (deref h0 n).nodes) ∧
  RegexExpander h root sep p = w ∧
  (valueAt h target pos index = configHead ++ p ++ ['%'] ∨ valueAt h target pos index = w) ∧
  ∃ e, (deref h target).values[pos]? = some e ∧ index < e.value.length

/-! ## The substitution that the specification describes -/

/-- Statement that `s` starts with the token `"%config." + path + "%"`, `path` being the
shortest non-empty run of characters that a `'%'` follows, and `rest` the text behind. -/
def IsToken (s path rest : Str) : Prop :=
  s = configHead ++ path ++ '%' :: rest ∧ path ≠ [] ∧
  ∀ path2 rest2, path2 ≠ [] → s = configHead ++ path2 ++ '%' :: rest2 →
    path.length ≤ path2.length

/-- Single pass from left to right of the specification: a token is replaced by
`lookup path` and the pass goes on behind the token, a character at which no token starts
is copied, inserted text is not read again. -/
inductive Expands (lookup : Str → Str) : Str → Str → Prop where
  | done : Expands lookup [] []
  | token (s path rest out : Str) : IsToken s path rest → Expands lookup rest out →
      Expands lookup s (lookup path ++ out)
  | copy (c : Char) (t out : Str) : (∀ path rest, ¬ IsToken (c :: t) path rest) →
      Expands lookup t out → Expands lookup (c :: t) (c :: out)

/-! ## Example trees -/

/-- Tree `{a: {"": ["x"]}}`: node 0 is the root, node 1 the subnode `a`. -/
def trailingStore : Store :=
  [ { nodes := [{ key := "a".toList, value := [1] }], values := [], parent := none },
    { nodes := [], values := [{ key := [], value := ["x".toList] }], parent := some 0 } ]

/-- Tree `{"": ["x"]}`: one node with a scalar under the empty key. -/
def emptyKeyStore : Store :=
  [ { nodes := [], values := [{ key := [], value := ["x".toList] }], parent := none } ]

/-- Tree `{a: {b: ["1", "2"]}, a: second node}` with two subnodes under `a`. -/
def pairStore : Store :=
  [ { nodes := [{ key := "a".toList, value := [1, 2] }], values := [], parent := none },
    { nodes := [], values := [{ key := "b".toList, value := ["1".toList, "2".toList] }],
      parent := some 0 },
    { nodes := [], values := [{ key := "b".toList, value := ["3".toList] }], parent := some 0 } ]

/-- Tree `{name: ["world"], greeting: ["hi %config.name%!"], other: ["a%config.missing%b"]}`. -/
def greetingStore : Store :=
  [ { nodes := [],
      values := [ { key := "name".toList, value := ["world".toList] },
                  { key := "greeting".toList, value := ["hi %config.name%!".toList] },
                  { key := "other".toList, value := ["a%config.missing%b".toList] } ],
      parent := none } ]

/-- Tree `{a: ["%config.b%"], b: ["%config.c%"], c: ["x"]}`. -/
def chainStore : Store :=
  [ { nodes := [],
      values := [ { key := "a".toList, value := ["%config.b%".toList] },
                  { key := "b".toList, value := ["%config.c%".toList] },
                  { key := "c".toList, value := ["x".toList] } ],
      parent := none } ]

/-- Result of the parameter expander on `chainStore`. -/
def chainAfter : Store :=
  [ { nodes := [],
      values := [ { key := "a".toList, value := ["%config.c%".toList] },
                  { key := "b".toList, value := ["x".toList] },
                  { key := "c".toList, value := ["x".toList] } ],
      parent := none } ]

/-- Tree `{sub: {ref: ["%config.name%"]}, name: ["world"]}`: node 0 is the root. -/
def referStore : Store :=
  [ { nodes := [{ key := "sub".toList, value := [1] }],
      values := [{ key := "name".toList, value := ["world".toList] }],
      parent := none },
    { nodes := [], values := [{ key := "ref".toList, value := ["%config.name%".toList] }],
      parent := some 0 } ]

/-! ## The node expander: `src/config_node_expander.hpp` -/

/-- Replacement recorded for a scalar, `ConfigNodeExpander::KeyNode`. -/
structure KeyNode where
  key : Str
  node : NodePtr
  index : Nat
deriving DecidableEq

/-- Map from a parent node to the replacements recorded for its scalars,
`std::unordered_map<ConfigNode*, std::vector<KeyNode>>`, as the list of its entries. -/
abbrev replacement_container := List (NodePtr × List KeyNode)

/-- Expression `(*result)[parent].emplace_back(kn)`. -/
def emplace (result : replacement_container) (parent : NodePtr) (kn : KeyNode) :
    replacement_container :=
  match result with
  | [] => [(parent, [kn])]
  | entry :: rest =>
    if entry.1 = parent then (entry.1, entry.2 ++ [kn]) :: rest
    else entry :: emplace rest parent kn

/-- Expression `result->find(node)`: the vector of the entry, or `none` for `end()`. -/
def findReplacements (result : replacement_container) (node : NodePtr) : Option (List KeyNode) :=
  match result with
  | [] => none
  | entry :: rest => if entry.1 = node then some entry.2 else findReplacements rest node

/-- Modelled from the spec: behaviour that the C++ standard library leaves open and on which
the node expander relies: the order in which a range-for walks the `unordered_map`, and the
order in which `std::sort` leaves elements that compare equal. -/
structure Library where
  iterate : replacement_container → replacement_container
  sort : List KeyNode → List KeyNode

/-- Guarantees of the standard library: iteration visits every entry once, `std::sort` with
the comparator `lhs.index > rhs.index` permutes the vector so that indices never increase. -/
def Library.Conforms (lib : Library) : Prop :=
  (∀ m, List.Perm (lib.iterate m) m) ∧
  (∀ l, List.Perm (lib.sort l) l ∧ List.Sorted (fun a b => a.index ≥ b.index) (lib.sort l))

/-- One conforming library: entries are walked in the order of their insertion, the sort is
an insertion sort. -/
def insertionLibrary : Library where
  iterate := fun m => m
  sort := fun l => List.insertionSort (fun a b => a.index ≥ b.index) l

/-- Data members of `ConfigNodeExpander`; `prefixText` is the member `prefix`. -/
structure ConfigNodeExpander where
  separator : Separator
  prefixText : Str
  levelUp : Str
  currentLevel : Str
deriving DecidableEq

/-- Value of a sum of `char`s converted back to `char`, as in `s += a + b`: the operands are
added as integers and the sum is narrowed to one byte. -/
def charSum (cs : List Char) : Char :=
  Char.ofNat ((cs.map Char.toNat).sum % 256)

/-- Constructor `ConfigNodeExpander(separator, prefix, level)`; `word` is the argument
`prefix`, a C string. -/
def ConfigNodeExpander.construct (separator : Separator) (word : Str) (level : Char) :
    ConfigNodeExpander :=
  if level = NUL then
    { separator := separator
      prefixText := '%' :: cstr word ++ [separator]
      levelUp := [separator]
      currentLevel := [] }
  else
    { separator := separator
      prefixText := '%' :: cstr word
      levelUp := [charSum [level, level, separator]]
      currentLevel := [charSum [level, separator]] }

/-! ### The regex of the node expander

Modelled from the documentation of `boost::xpressive`: `blank` is a space or a tab, `_ln` a
line break, `*` is greedy and gives back one repetition at a time, `-+_` takes one
character and then as few more as possible, `regex_match` must consume the whole string. -/

/-- Characters that `blank | _ln` consumes. -/
def isBlankOrNewline (c : Char) : Bool :=
  c = Char.ofNat 32 || c = Char.ofNat 9 || c = Char.ofNat 10 || c = Char.ofNat 13 ||
  c = Char.ofNat 12

/-- Ways in which `*as_xpr(lit)` matches at the start of `s`, in the order in which the
matcher tries them: the text matched and the text left, most repetitions first. -/
def starLiteral (lit : Str) : Nat → Str → List (Str × Str)
  | 0, s => [([], s)]
  | fuel + 1, s =>
    if lit ≠ [] ∧ lit <+: s then
      (starLiteral lit fuel (s.drop lit.length)).map (fun r => (lit ++ r.1, r.2)) ++ [([], s)]
    else [([], s)]

/-- Match of `(s3 = -+_) >> "%" >> *(blank | _ln)` against all of `r`: the submatch `s3`.
Only the last `'%'` of `r` can close the token, since nothing but blanks may follow it. -/
def tailMatch (r : Str) : Option Str :=
  match r.reverse.dropWhile isBlankOrNewline with
  | [] => none
  | c :: s3rev => if c = '%' ∧ s3rev ≠ [] then some s3rev.reverse else none

/-- Call `regex_match(value, what, match)` for the regex that `operator()` builds: the
submatches `what[1]`, `what[2]`, `what[3]`, or `none` when the string does not match.  The
regex without `s1` is used when `currentLevel` is empty; `what[1]` is then empty. -/
def nodeRegex (x : ConfigNodeExpander) (value : Str) : Option (Str × Str × Str) :=
  let s := value.dropWhile isBlankOrNewline
  if cstr x.prefixText <+: s then
    let a := s.drop (cstr x.prefixText).length
    if x.currentLevel ≠ [] then
      (starLiteral (cstr x.currentLevel) a.length a).findSome? (fun r1 =>
        (starLiteral (cstr x.levelUp) r1.2.length r1.2).findSome? (fun r2 =>
          (tailMatch r2.2).map (fun s3 => (r1.1, r2.1, s3))))
    else
      (starLiteral (cstr x.levelUp) a.length a).findSome? (fun r2 =>
        (tailMatch r2.2).map (fun s3 => ([], r2.1, s3)))
  else none

/-! ### The visitor of the node expander -/

/-- Loop `for (i = 0; i < count && scope; ++i) scope = scope->getParent().get()`. -/
def ascend (h : Store) : Nat → Option NodePtr → Option NodePtr
  | 0, scope => scope
  | _ + 1, none => none
  | count + 1, some scope => ascend h count (getParent h scope)

/-- Member `Visitor::getBaseNode(scope, key)`; `none` is the `KeyNode` with a null node. -/
def getBaseNode (h : Store) (separator : Separator) (scope : NodePtr) (key : Str) :
    Option KeyNode :=
  match getValues h scope (some key) separator with
  | [] => none
  | _ :: _ =>
    match strrchr key separator with
    | none => none
    | some last =>
      match getNodesKey h scope (key.take last) with
      | [] => none
      | n0 :: _ => some { key := cstr (key.drop (last + 1)), node := n0, index := 0 }

/-- Member `Visitor::addKeyNode(scope, parent, key, index, from)`: the value returned and
the map afterwards.  A null `scope` is dereferenced by the first statement. -/
def addKeyNode (h : Store) (separator : Separator) (result : replacement_container)
    (scope : Option NodePtr) (parent : NodePtr) (key : Str) (index : Nat) (source : Str) :
    Outcome (Bool × replacement_container) :=
  match scope with
  | none => .error Failure.null_pointer
  | some scope =>
    match getNodes h scope (some source) separator with
    | n0 :: _ => .ok (true, emplace result parent { key := key, node := n0, index := index })
    | [] =>
      match getBaseNode h separator scope source with
      | none => .ok (false, result)
      | some baseKeyNode =>
        match findReplacements result baseKeyNode.node with
        | none => .ok (false, result)
        | some replacements =>
          match replacements.find? (fun r => decide (r.key = baseKeyNode.key)) with
          | none => .ok (false, result)
          | some replacement =>
            .ok (true, emplace result parent
              { key := key, node := replacement.node, index := index })

/-- Entries whose handles a call of `addKeyNode` can record: a first element of a lookup of
subnodes, or the node of a replacement recorded before. -/
def NodeSource (h : Store) (result : replacement_container) (node : NodePtr) : Prop :=
  (∃ scope source sep t, getNodes h scope (some source) sep = node :: t) ∨
  (∃ entry ∈ result, ∃ r ∈ entry.2, r.node = node)

/-- Result of `std::to_string(index)`. -/
def to_string (index : Nat) : Str := Nat.toDigits 10 index

/-- Text of the exception that `visit` throws. -/
def couldNotFind (value key : Str) (index : Nat) : Str :=
  "Could not find \"".toList ++ value ++ "\" to inject at \"".toList ++ key ++ "[".toList
    ++ to_string index ++ "]\"".toList

/-- Scope from which `visit` resolves a token with the submatches `what`. -/
def tokenScope (x : ConfigNodeExpander) (root : NodePtr) (h : Store) (parent : NodePtr)
    (what : Str × Str × Str) : Option NodePtr :=
  let scope := some root
  let scope := if what.1 ≠ [] then some parent else scope
  if what.2.1 ≠ [] then ascend h (what.2.1.length / x.levelUp.length) (some parent)
  else scope

/-- Member `Visitor::visit(parent, key, index, std::string& value)`: the map afterwards and
the string, which `visit` leaves as it is. -/
def nodeVisitValue (x : ConfigNodeExpander) (root : NodePtr) (h : Store)
    (result : replacement_container) (parent : NodePtr) (key : Str) (index : Nat)
    (value : Str) : Outcome (replacement_container × Str) :=
  match nodeRegex x value with
  | none => .ok (result, value)
  | some what =>
    let scope := tokenScope x root h parent what
    match addKeyNode h x.separator result scope parent key index what.2.2 with
    | .error e => .error e
    | .ok r =>
      if r.1 then .ok (r.2, value)
      else if scope = some root then
        match addKeyNode h x.separator r.2 (some parent) parent key index what.2.2 with
        | .error e => .error e
        | .ok r2 =>
          if r2.1 then .ok (r2.2, value)
          else .error (Failure.invalid_argument (couldNotFind value key index))
      else .error (Failure.invalid_argument (couldNotFind value key index))

/-- Members `ConfigNodeExpander::Visitor::visit`; `fuel` bounds the recursion through the
subnodes, which the source leaves to the call stack. -/
def NodeVisitor (x : ConfigNodeExpander) (root : NodePtr) : Nat → Visitor replacement_container
  | 0 =>
    { visitValue := fun h s parent key index value =>
        nodeVisitValue x root h s parent key index value
      visitNode := fun _ _ _ _ _ _ => .error Failure.depth }
  | fuel + 1 =>
    { visitValue := fun h s parent key index value =>
        nodeVisitValue x root h s parent key index value
      visitNode := fun h s _ _ _ node => accept (NodeVisitor x root fuel) node (h, s) }

/-- First inner loop of `operator()`: `eraseValue` for every replacement. -/
def eraseLoop (h : Store) (parent : NodePtr) : List KeyNode → Option Store
  | [] => some h
  | replacement :: rest =>
    match eraseValue h parent replacement.key replacement.index with
    | none => none
    | some h => eraseLoop h parent rest

/-- Second inner loop of `operator()`: `setNode` for every replacement. -/
def setLoop (h : Store) (parent : NodePtr) : List KeyNode → Option Store
  | [] => some h
  | replacement :: rest =>
    match setNode h parent replacement.key replacement.node SIZE_MAX with
    | none => none
    | some h => setLoop h parent rest

/-- Outer loop of `operator()` over the entries of the map, in the order given. -/
def applyLoop (lib : Library) (h : Store) : replacement_container → Outcome Store
  | [] => .ok h
  | replacementAt :: rest =>
    match eraseLoop h replacementAt.1 (lib.sort replacementAt.2) with
    | none => .error Failure.assertion
    | some h1 =>
      match setLoop h1 replacementAt.1 (lib.sort replacementAt.2) with
      | none => .error Failure.assertion
      | some h2 => applyLoop lib h2 rest

/-- Call `ConfigNodeExpander::operator()(root)`. -/
def ConfigNodeExpander.run (lib : Library) (x : ConfigNodeExpander) (fuel : Nat) (h : Store)
    (root : NodePtr) : Outcome Store :=
  match accept (NodeVisitor x root fuel) root (h, []) with
  | .error e => .error e
  | .ok st => applyLoop lib st.1 (lib.iterate st.2)

/-! ## Notions for statements about a whole pass of the node expander -/

/-- Number of times that the traversal of `accept` with budget `fuel`, started at the node
`n`, comes to the node `p`: once for every chain of subnodes of at most that length that
leads from `n` to `p`. -/
def visitCount (h : Store) (p : NodePtr) : Nat → NodePtr → Nat
  | 0, n => if n = p then 1 else 0
  | fuel + 1, n =>
    ((children h n).map (visitCount h p fuel)).sum + (if n = p then 1 else 0)

/-- Vector that the map holds for a node, empty when the map has no entry for it. -/
def entriesAt (result : replacement_container) (node : NodePtr) : List KeyNode :=
  (findReplacements result node).getD []

/-- Key and index of a replacement. -/
def KeyNode.place (r : KeyNode) : Str × Nat := (r.key, r.index)

/-- Key and index of the scalar of a step of `accept` on the node `p`, when the regex of the
node expander matches the scalar. -/
def placeOf (x : ConfigNodeExpander) (h : Store) (p : NodePtr) : Step → List (Str × Nat)
  | Step.node _ _ _ => []
  | Step.value pos key i =>
    if (nodeRegex x (valueAt h p pos i)).isSome then [(key, i)] else []

/-- Keys and indices of the scalars of the node `p` that the regex of the node expander
matches, in the order in which `accept` visits them. -/
def tokenPlaces (x : ConfigNodeExpander) (h : Store) (p : NodePtr) : List (Str × Nat) :=
  (visitSteps (deref h p)).flatMap (placeOf x h p)

/-! ## Example trees of the node expander -/

/-- Tree `{template: {port: ["8080"]}, service: {bind: ["%node.template%"]}}`: node 0 is the
root, node 1 `template`, node 2 `service`. -/
def templateStore : Store :=
  [ { nodes := [ { key := "template".toList, value := [1] },
                 { key := "service".toList, value := [2] } ],
      values := [], parent := none },
    { nodes := [], values := [{ key := "port".toList, value := ["8080".toList] }],
      parent := some 0 },
    { nodes := [], values := [{ key := "bind".toList, value := ["%node.template%".toList] }],
      parent := some 0 } ]

/-- Tree `{svc: {tpl: {port: ["9000"]}, bind: ["%node.tpl%"]}}`: node 0 is the root, node 1
`svc`, node 2 `tpl`. -/
def svcStore : Store :=
  [ { nodes := [{ key := "svc".toList, value := [1] }], values := [], parent := none },
    { nodes := [{ key := "tpl".toList, value := [2] }],
      values := [{ key := "bind".toList, value := ["%node.tpl%".toList] }],
      parent := some 0 },
    { nodes := [], values := [{ key := "port".toList, value := ["9000".toList] }],
      parent := some 1 } ]

/-- Tree `{k: ["%node.nope%"]}` with no subnode at all. -/
def nopeStore : Store :=
  [ { nodes := [], values := [{ key := "k".toList, value := ["%node.nope%".toList] }],
      parent := none } ]

/-! ## `swap` and `updateParents` of `ConfigNode` -/

/-- Argument of `updateParents`, `ConfigNode::Recurse`. -/
inductive Recurse where
  | yes : Recurse
  | no : Recurse
deriving DecidableEq

/-- Member `updateParents(recurse)`; `fuel` bounds the recursion of `Recurse::yes`, which
the source leaves to the call stack, and `none` says that it was exceeded. -/
def updateParents : Nat → Recurse → Store → NodePtr → Option Store
  | _, Recurse.no, h, self =>
    some ((children h self).foldl (fun h node => setParent h node (some self)) h)
  | 0, Recurse.yes, h, self => if (children h self).isEmpty then some h else none
  | fuel + 1, Recurse.yes, h, self =>
    (children h self).foldl
      (fun r node =>
        match r with
        | none => none
        | some h => updateParents fuel Recurse.yes (setParent h node (some self)) node)
      (some h)

/-- Member `swap(other)`: the containers of the two nodes are exchanged, then the subnodes
that `self` holds get `self` as parent. -/
def swap (h : Store) (self other : NodePtr) : Option Store :=
  let a := deref h self
  let b := deref h other
  let h1 := h.set self { a with nodes := b.nodes, values := b.values }
  let h2 := h1.set other { deref h1 other with nodes := a.nodes, values := a.values }
  updateParents 0 Recurse.no h2 self

/-- Invariant I1 of the specification for one node: every entry of either container has a
non-empty sequence. -/
def nonEmptyEntries (n : ConfigNode) : Bool :=
  n.values.all (fun e => !e.value.isEmpty) && n.nodes.all (fun e => !e.value.isEmpty)

/-- Invariant I1 of the specification for all nodes of a store. -/
def invariantI1 (h : Store) : Bool := h.all nonEmptyEntries

/-- Parent invariant without uniqueness: every node that some node holds among its subnodes
has a parent, and that parent holds it. -/
def ParentHolds (h : Store) : Prop :=
  ∀ c q, c ∈ children h q → ∃ p, (deref h c).parent = some p ∧ c ∈ children h p

/-- Stores in which every handle held in a subnode container points into the store. -/
def Closed (h : Store) : Prop :=
  ∀ q c, c ∈ children h q → c < h.length

/-! ## The facade: `src/config.hpp` -/

/-- Data members of `Config`.  `root` stands for the shared `ConfigBuilder` (header
`config_builder.hpp` is not among the sources), of which only the root node matters here;
`node` is the cursor, `none` when it is null. -/
structure Config where
  root : NodePtr
  separator : Separator
  node : Option NodePtr
deriving DecidableEq

/-- Specialisation `Config::get<std::string>(path)`; `boost::optional` is `Option`. -/
def Config.get (h : Store) (c : Config) (path : Str) : Option Str :=
  match c.node with
  | none => none
  | some node =>
    match getValuesStr h node path c.separator with
    | [] => none
    | v :: _ => some v

/-- Specialisation `Config::getAll<std::string>(path)`. -/
def Config.getAll (h : Store) (c : Config) (path : Str) : List Str :=
  match c.node with
  | none => []
  | some node => getValuesStr h node path c.separator

/-- Member `Config::getRef(path)`. -/
def Config.getRef (h : Store) (c : Config) (path : Str) : List Str :=
  match c.node with
  | none => []
  | some node => getValuesStr h node path c.separator

/-- Member `Config::scope(path)`. -/
def Config.scope (h : Store) (c : Config) (path : Str) : Config :=
  match c.node with
  | none => { root := c.root, separator := c.separator, node := none }
  | some node =>
    match getNodesStr h node path c.separator with
    | [] => { root := c.root, separator := c.separator, node := none }
    | n0 :: _ => { root := c.root, separator := c.separator, node := some n0 }

/-- Member `Config::scopes(path)`. -/
def Config.scopes (h : Store) (c : Config) (path : Str) : List Config :=
  match c.node with
  | none => []
  | some node =>
    (getNodesStr h node path c.separator).map
      (fun sub => { root := c.root, separator := c.separator, node := some sub })

/-- Conversion `explicit operator bool()`. -/
def Config.toBool (c : Config) : Bool := c.node.isSome

/-- Tree `{"": {x: ["1"]}}`: node 0 is the root, node 1 the subnode under the empty key. -/
def emptySegmentStore : Store :=
  [ { nodes := [{ key := [], value := [1] }], values := [], parent := none },
    { nodes := [], values := [{ key := "x".toList, value := ["1".toList] }],
      parent := some 0 } ]

/-- Tree `{k: ["only"]}`. -/
def singleStore : Store :=
  [ { nodes := [], values := [{ key := "k".toList, value := ["only".toList] }],
      parent := none } ]

/-- Result of `eraseValue("k", 0)` on the root of `singleStore`. -/
def singleAfter : Store :=
  [ { nodes := [], values := [{ key := "k".toList, value := [] }], parent := none } ]

/-- Result of the default node expander on `svcStore`. -/
def svcAfter : Store :=
  [ { nodes := [{ key := "svc".toList, value := [1] }], values := [], parent := none },
    { nodes := [{ key := "tpl".toList, value := [2] }, { key := "bind".toList, value := [2] }],
      values := [{ key := "bind".toList, value := [] }],
      parent := some 0 },
    { nodes := [], values := [{ key := "port".toList, value := ["9000".toList] }],
      parent := some 1 } ]

/-- Result of the default node expander on `templateStore`. -/
def templateAfter : Store :=
  [ { nodes := [ { key := "template".toList, value := [1] },
                 { key := "service".toList, value := [2] } ],
      values := [], parent := none },
    { nodes := [], values := [{ key := "port".toList, value := ["8080".toList] }],
      parent := some 2 },
    { nodes := [{ key := "bind".toList, value := [1] }],
      values := [{ key := "bind".toList, value := [] }],
      parent := some 0 } ]

/-! ## Further example trees of the node expander -/

/-- Tree `{k: ["%node..x%"]}`: the only scalar sits at the root and asks for one level up. -/
def aboveRootStore : Store :=
  [ { nodes := [], values := [{ key := "k".toList, value := ["%node..x%".toList] }],
      parent := none } ]

/-- Tree `{a: {b: ["%node.t%"]}, t: {port: ["1"]}, p: {a: {b: {port: ["2"]}},
k: ["%node.a.b%"]}}`: node 0 is the root, node 1 `a`, node 2 `t`, node 3 `p`, node 4 `p.a`,
node 5 `p.a.b`. -/
def pendingStore : Store :=
  [ { nodes := [ { key := "a".toList, value := [1] }, { key := "t".toList, value := [2] },
                 { key := "p".toList, value := [3] } ],
      values := [], parent := none },
    { nodes := [], values := [{ key := "b".toList, value := ["%node.t%".toList] }],
      parent := some 0 },
    { nodes := [], values := [{ key := "port".toList, value := ["1".toList] }],
      parent := some 0 },
    { nodes := [{ key := "a".toList, value := [4] }],
      values := [{ key := "k".toList, value := ["%node.a.b%".toList] }],
      parent := some 0 },
    { nodes := [{ key := "b".toList, value := [5] }], values := [], parent := some 3 },
    { nodes := [], values := [{ key := "port".toList, value := ["2".toList] }],
      parent := some 4 } ]

/-- Tree `{a: {b: {tpl: {port: ["1"]}, bind: ["%node..tpl%"]}}}`: node 0 is the root, node 1
`a`, node 2 `a.b`, node 3 `a.b.tpl`. -/
def upStore : Store :=
  [ { nodes := [{ key := "a".toList, value := [1] }], values := [], parent := none },
    { nodes := [{ key := "b".toList, value := [2] }], values := [], parent := some 0 },
    { nodes := [{ key := "tpl".toList, value := [3] }],
      values := [{ key := "bind".toList, value := ["%node..tpl%".toList] }],
      parent := some 1 },
    { nodes := [], values := [{ key := "port".toList, value := ["1".toList] }],
      parent := some 2 } ]

/-- Tree `{t1: {v: ["1"]}, t2: {v: ["2"]}, p: {k: ["%node.t1%", "keep", "%node.t2%",
"also"]}}`: node 0 is the root, node 1 `t1`, node 2 `t2`, node 3 `p`. -/
def multiStore : Store :=
  [ { nodes := [ { key := "t1".toList, value := [1] }, { key := "t2".toList, value := [2] },
                 { key := "p".toList, value := [3] } ],
      values := [], parent := none },
    { nodes := [], values := [{ key := "v".toList, value := ["1".toList] }], parent := some 0 },
    { nodes := [], values := [{ key := "v".toList, value := ["2".toList] }], parent := some 0 },
    { nodes := [],
      values := [{ key := "k".toList,
                   value := ["%node.t1%".toList, "keep".toList, "%node.t2%".toList,
                             "also".toList] }],
      parent := some 0 } ]

/-- Result of the default node expander on `pendingStore`. -/
def pendingAfter : Store :=
  [ { nodes := [ { key := "a".toList, value := [1] }, { key := "t".toList, value := [2] },
                 { key := "p".toList, value := [3] } ],
      values := [], parent := none },
    { nodes := [{ key := "b".toList, value := [2] }],
      values := [{ key := "b".toList, value := [] }], parent := some 0 },
    { nodes := [], values := [{ key := "port".toList, value := ["1".toList] }],
      parent := some 3 },
    { nodes := [{ key := "a".toList, value := [4] }, { key := "k".toList, value := [2] }],
      values := [{ key := "k".toList, value := [] }],
      parent := some 0 },
    { nodes := [{ key := "b".toList, value := [5] }], values := [], parent := some 3 },
    { nodes := [], values := [{ key := "port".toList, value := ["2".toList] }],
      parent := some 4 } ]

/-- Result of the default node expander on `multiStore`. -/
def multiAfter : Store :=
  [ { nodes := [ { key := "t1".toList, value := [1] }, { key := "t2".toList, value := [2] },
                 { key := "p".toList, value := [3] } ],
      values := [], parent := none },
    { nodes := [], values := [{ key := "v".toList, value := ["1".toList] }], parent := some 3 },
    { nodes := [], values := [{ key := "v".toList, value := ["2".toList] }], parent := some 3 },
    { nodes := [{ key := "k".toList, value := [2, 1] }],
      values := [{ key := "k".toList, value := ["keep".toList, "also".toList] }],
      parent := some 0 } ]

/-- Ways in which `visit` finds the subnode `target` for a token with the submatches `what`
whatever replacements are pending: by the lookup at the scope of the token, or, when that
scope is the root and neither the lookup nor the base-node fallback finds anything there, by
the lookup at the parent of the scalar. -/
def Resolves (x : ConfigNodeExpander) (root : NodePtr) (h : Store) (parent : NodePtr)
    (what : Str × Str × Str) (target : NodePtr) : Prop :=
  (∃ scope t, tokenScope x root h parent what = some scope ∧
    getNodes h scope (some what.2.2) x.separator = target :: t) ∨
  (tokenScope x root h parent what = some root ∧
    getNodes h root (some what.2.2) x.separator = [] ∧
    getBaseNode h x.separator root what.2.2 = none ∧
    ∃ t, getNodes h parent (some what.2.2) x.separator = target :: t)

/-! ## `overwrite` of `ConfigNode`

The header declares `void overwrite(ConfigNode&& other)`; its body is not among the sources.
The definitions of this section follow section 4.3 of the specification. -/

/-- Nodes within `depth` steps below a node, the node itself first: the part of a store
that an operation on the tree below the node can touch. -/
def footprint (h : Store) : Nat → NodePtr → List NodePtr
  | 0, n => [n]
  | depth + 1, n => n :: (children h n).flatMap (footprint h depth)

/-- Check that the keys of each container of a node are distinct, as the unique indices of
the `multi_index_container` guarantee. -/
def keysDistinct (n : ConfigNode) : Bool :=
  decide (n.nodes.map (fun e => e.key)).Nodup && decide (n.values.map (fun e => e.key)).Nodup

/-- Modelled from the spec: the entry of `key` "is replaced entirely" by the sequence of
`other`, and is appended when the container has no entry of that key. -/
def replaceEntry {L : Type} (c : children_container L) (key : Str) (value : L) :
    children_container L :=
  match find c key with
  | some _ => modify (fun _ => value) key c
  | none => c ++ [{ key := key, value := value }]

/-- Modelled from the spec: what `overwrite` does with one subnode element of `other`: it
overwrites the element of `self` at the same index of the same key with it, or, when `self`
has no such element, attaches it under the key. -/
inductive OverwriteStep where
  | merge (own node : NodePtr) : OverwriteStep
  | attach (key : Str) (node : NodePtr) : OverwriteStep
deriving DecidableEq

/-- Modelled from the spec: the steps for one subnode entry `child` of `other` against the
elements `own` that `self` holds under the same key: "element-by-element on matching
indices; extra elements in `other` are appended". -/
def entrySteps (own : node_list) (child : ElementType node_list) : List OverwriteStep :=
  (own.zip child.value).map (fun p => OverwriteStep.merge p.1 p.2)
    ++ (child.value.drop own.length).map (fun node => OverwriteStep.attach child.key node)

/-- Modelled from the spec: the steps for the subnode entries `theirs` of `other`, "in
insertion order", against the subnode entries `mine` of `self`; a key that `self` does not
hold has no matching index, so that its "whole sequence" is attached. -/
def overwriteSteps (mine theirs : children_container node_list) : List OverwriteStep :=
  theirs.flatMap (fun child =>
    entrySteps
      (match find mine child.key with
        | some e => e.value
        | none => [])
      child)

/-- Modelled from the spec: one step of `overwrite`.  An attached element is inserted as by
`setNode`, which makes `self` its parent, and the parents below it are refreshed by
`updateParents` ("recursively for newly attached subtrees"). -/
def runOverwriteStep (recurse : Store → NodePtr → NodePtr → Option Store) (fuel : Nat)
    (self : NodePtr) (h : Store) : OverwriteStep → Option Store
  | OverwriteStep.merge own node => recurse h own node
  | OverwriteStep.attach key node =>
    match setNode h self key node SIZE_MAX with
    | none => none
    | some h => updateParents fuel Recurse.yes h node

/-- Modelled from the spec: the steps of `overwrite`, one after the other. -/
def runOverwriteSteps (recurse : Store → NodePtr → NodePtr → Option Store) (fuel : Nat)
    (self : NodePtr) : Store → List OverwriteStep → Option Store
  | h, [] => some h
  | h, step :: rest =>
    match runOverwriteStep recurse fuel self h step with
    | none => none
    | some h => runOverwriteSteps recurse fuel self h rest

/-- Modelled from the spec: "If a key exists as a subnode in one side and as a scalar in the
other at the same Node, the later document's kind wins": an entry of `self` whose key
`other` holds in the other container only is dropped. -/
def kindWins (h : Store) (self other : NodePtr) : Store :=
  let theirs := deref h other
  let me := deref h self
  h.set self { me with
    nodes := me.nodes.filter (fun e =>
      !((find theirs.values e.key).isSome && (find theirs.nodes e.key).isNone)),
    values := me.values.filter (fun e =>
      !((find theirs.nodes e.key).isSome && (find theirs.values e.key).isNone)) }

/-- Modelled from the spec: "For every (key, sequence) in `other.scalars`: the corresponding
entry in `self.scalars` is replaced entirely". -/
def replaceScalars (theirs : children_container value_list) (h : Store) (self : NodePtr) :
    Store :=
  let me := deref h self
  h.set self { me with
    values := theirs.foldl (fun c child => replaceEntry c child.key child.value) me.values }

/-- Modelled from the spec: member `overwrite(other)` of `ConfigNode`, declared in
`config_node.hpp` without a body.  First the kind of `other` wins, then the subnode entries
of `other` are merged or attached, and at last every scalar entry of `other` replaces that
of `self`.  `fuel` bounds the recursion through the subnodes; `none` says that it was
exceeded. -/
def overwrite : Nat → Store → NodePtr → NodePtr → Option Store
  | 0, _, _, _ => none
  | fuel + 1, h, self, other =>
    let theirs := deref h other
    let h := kindWins h self other
    match runOverwriteSteps (fun s own node => overwrite fuel s own node) fuel self h
        (overwriteSteps (deref h self).nodes theirs.nodes) with
    | none => none
    | some h => some (replaceScalars theirs.values h self)

/-- What the specification says of the part below an element that `overwrite` has attached
("re-parenting", "recursively for newly attached subtrees"), down to `depth` levels: every
subnode below the element has the node that holds it as parent, and its own containers. -/
def Reattached : Nat → Store → Store → NodePtr → Prop
  | 0, _, _, _ => True
  | depth + 1, h, h2, node =>
    ∀ c ∈ children h node,
      (deref h2 c).parent = some node ∧ (deref h2 c).nodes = (deref h c).nodes ∧
      (deref h2 c).values = (deref h c).values ∧ Reattached depth h h2 c

/-- What the specification says of the store `h2` after `self.overwrite(other)` on the store
`h`, down to `depth` levels.  The parent of `self` is as before, and `other` is as before.
Every scalar entry of `other` has replaced that of `self`; a scalar entry of `self` whose
key `other` does not hold is kept, and so is such a subnode entry; a key that `other` holds
in one kind only is held by `self` in that kind only.  A subnode of `self` that has no
element of `other` at its index of its key is as before, with all that is below it.  Under
a subnode key of `other`, `self` holds its former elements followed by the extra elements of
`other`; each former element with an element of `other` at its index is overlaid with that
element in turn; each extra element has `self` as parent and its own containers, and the
part below it is re-attached. -/
def Overlaid : Nat → Store → Store → NodePtr → NodePtr → Prop
  | 0, _, _, _, _ => True
  | depth + 1, h, h2, self, other =>
    (deref h2 self).parent = (deref h self).parent ∧
    deref h2 other = deref h other ∧
    (∀ k, (find (deref h other).values k).isSome = true →
      getValuesKey h2 self k = getValuesKey h other k) ∧
    (∀ k, find (deref h other).values k = none → find (deref h other).nodes k = none →
      getValuesKey h2 self k = getValuesKey h self k ∧
      getNodesKey h2 self k = getNodesKey h self k) ∧
    (∀ k, (find (deref h other).nodes k).isSome = true → find (deref h other).values k = none →
      getValuesKey h2 self k = noValues) ∧
    (∀ k, (find (deref h other).values k).isSome = true → find (deref h other).nodes k = none →
      getNodesKey h2 self k = noNodes) ∧
    (∀ own ∈ children h self,
      (∀ (k : Str) (i : Nat), (getNodesKey h self k)[i]? = some own →
        (getNodesKey h other k)[i]? = none) →
      ∀ n ∈ footprint h depth own, deref h2 n = deref h n) ∧
    (∀ k, (find (deref h other).nodes k).isSome = true →
      getNodesKey h2 self k
        = getNodesKey h self k ++ (getNodesKey h other k).drop (getNodesKey h self k).length ∧
      (∀ (i : Nat) (own node : NodePtr), (getNodesKey h self k)[i]? = some own →
        (getNodesKey h other k)[i]? = some node → Overlaid depth h h2 own node) ∧
      (∀ node ∈ (getNodesKey h other k).drop (getNodesKey h self k).length,
        (deref h2 node).parent = some self ∧ (deref h2 node).nodes = (deref h node).nodes ∧
        (deref h2 node).values = (deref h node).values ∧ Reattached depth h h2 node))

/-- Subnode elements that a step of `overwrite` starts from. -/
def OverwriteStep.roots : OverwriteStep → List NodePtr
  | OverwriteStep.merge own node => [own, node]
  | OverwriteStep.attach _ node => [node]

/-- Nodes that a step of `overwrite` may read or write, down to `depth` levels below its
subnode elements. -/
def OverwriteStep.region (h : Store) (depth : Nat) (step : OverwriteStep) : List NodePtr :=
  step.roots.flatMap (footprint h depth)

/-- Elements that a step of `overwrite` appends under `key`. -/
def OverwriteStep.attached (key : Str) : OverwriteStep → List NodePtr
  | OverwriteStep.merge _ _ => []
  | OverwriteStep.attach k node => if k = key then [node] else []

/-- What a step of `overwrite` on the store `h` needs in order to return: for a merge, that
the recursive call `recurse` returns the overlay from every store that agrees with `h` on
the region of the step, and changes that region only; for an attached element, that the
part below it is a tree of valid handles within the budget. -/
def OverwriteStep.Ready (recurse : Store → NodePtr → NodePtr → Option Store) (depth : Nat)
    (h : Store) : OverwriteStep → Prop
  | OverwriteStep.merge own node =>
    ∀ s : Store, s.length = h.length →
      (∀ n ∈ footprint h depth own ++ footprint h depth node, deref s n = deref h n) →
      ∃ s2, recurse s own node = some s2 ∧ s2.length = s.length ∧
        (∀ n, n ∉ footprint h depth own ++ footprint h depth node → deref s2 n = deref s n) ∧
        Overlaid depth h s2 own node
  | OverwriteStep.attach _ node =>
    withinDepth h depth node = true ∧ (footprint h depth node).Nodup ∧
      ∀ n ∈ footprint h depth node, n < h.length

/-- What a step of `overwrite` on the store `h` has established in the store `s2`. -/
def OverwriteStep.Done (depth : Nat) (self : NodePtr) (h s2 : Store) : OverwriteStep → Prop
  | OverwriteStep.merge own node => Overlaid depth h s2 own node
  | OverwriteStep.attach _ node =>
    (deref s2 node).parent = some self ∧ (deref s2 node).nodes = (deref h node).nodes ∧
      (deref s2 node).values = (deref h node).values ∧ Reattached depth h s2 node

/-- Two documents in one store: node 0 is `{a: {x: ["1"], y: ["2"]}}` with the subnode 1,
node 2 is `{a: {x: ["9"]}}` with the subnode 3. -/
def documentStore : Store :=
  [ { nodes := [{ key := "a".toList, value := [1] }], values := [], parent := none },
    { nodes := [],
      values := [ { key := "x".toList, value := ["1".toList] },
                  { key := "y".toList, value := ["2".toList] } ],
      parent := some 0 },
    { nodes := [{ key := "a".toList, value := [3] }], values := [], parent := none },
    { nodes := [], values := [{ key := "x".toList, value := ["9".toList] }],
      parent := some 2 } ]

/-- The store `documentStore` after `overwrite` of node 2 on node 0: node 1 is
`{x: ["9"], y: ["2"]}`. -/
def documentAfter : Store :=
  [ { nodes := [{ key := "a".toList, value := [1] }], values := [], parent := none },
    { nodes := [],
      values := [ { key := "x".toList, value := ["9".toList] },
                  { key := "y".toList, value := ["2".toList] } ],
      parent := some 0 },
    { nodes := [{ key := "a".toList, value := [3] }], values := [], parent := none },
    { nodes := [], values := [{ key := "x".toList, value := ["9".toList] }],
      parent := some 2 } ]

/-- Two trees in one store: node 0 is `{k: ["1"]}`, node 1 is `{k: {x: ["9"]}}` with the
subnode 2. -/
def kindStore : Store :=
  [ { nodes := [], values := [{ key := "k".toList, value := ["1".toList] }], parent := none },
    { nodes := [{ key := "k".toList, value := [2] }], values := [], parent := none },
    { nodes := [], values := [{ key := "x".toList, value := ["9".toList] }],
      parent := some 1 } ]

/-- The store `kindStore` after `overwrite` of node 1 on node 0: node 0 is
`{k: {x: ["9"]}}`, its scalar entry `k` is gone. -/
def kindAfter : Store :=
  [ { nodes := [{ key := "k".toList, value := [2] }], values := [], parent := none },
    { nodes := [{ key := "k".toList, value := [2] }], values := [], parent := none },
    { nodes := [], values := [{ key := "x".toList, value := ["9".toList] }],
      parent := some 0 } ]

/-- Two trees in one store.  Node 0 is `{a: [{x: ["1"]}, {y: ["2"]}], c: {z: ["3"]}}` with
the subnodes 1, 2 and 3; node 4 is `{a: [{x: ["9"]}], b: {d: {w: ["7"]}}}` with the
subnodes 5 and 6, node 7 being the subnode `d` of node 6. -/
def extraStore : Store :=
  [ { nodes := [ { key := "a".toList, value := [1, 2] }, { key := "c".toList, value := [3] } ],
      values := [], parent := none },
    { nodes := [], values := [{ key := "x".toList, value := ["1".toList] }], parent := some 0 },
    { nodes := [], values := [{ key := "y".toList, value := ["2".toList] }], parent := some 0 },
    { nodes := [], values := [{ key := "z".toList, value := ["3".toList] }], parent := some 0 },
    { nodes := [ { key := "a".toList, value := [5] }, { key := "b".toList, value := [6] } ],
      values := [], parent := none },
    { nodes := [], values := [{ key := "x".toList, value := ["9".toList] }], parent := some 4 },
    { nodes := [{ key := "d".toList, value := [7] }], values := [], parent := some 4 },
    { nodes := [], values := [{ key := "w".toList, value := ["7".toList] }],
      parent := some 6 } ]

/-- The store `extraStore` after `overwrite` of node 4 on node 0: node 1 has the scalar of
node 5, the nodes 2 and 3 are as before, node 6 is held by node 0 under `b`. -/
def extraAfter : Store :=
  [ { nodes := [ { key := "a".toList, value := [1, 2] }, { key := "c".toList, value := [3] },
                 { key := "b".toList, value := [6] } ],
      values := [], parent := none },
    { nodes := [], values := [{ key := "x".toList, value := ["9".toList] }], parent := some 0 },
    { nodes := [], values := [{ key := "y".toList, value := ["2".toList] }], parent := some 0 },
    { nodes := [], values := [{ key := "z".toList, value := ["3".toList] }], parent := some 0 },
    { nodes := [ { key := "a".toList, value := [5] }, { key := "b".toList, value := [6] } ],
      values := [], parent := none },
    { nodes := [], values := [{ key := "x".toList, value := ["9".toList] }], parent := some 4 },
    { nodes := [{ key := "d".toList, value := [7] }], values := [], parent := some 0 },
    { nodes := [], values := [{ key := "w".toList, value := ["7".toList] }],
      parent := some 6 } ]

/-! ## Grafts of a pass of the node expander -/

/-- The map of replacements `R` grafts the node `c` into the node `q`: it holds, for `q`, a
replacement with the node `c`. -/
def Grafted (R : replacement_container) (q c : NodePtr) : Prop :=
  ∃ entry ∈ R, entry.1 = q ∧ ∃ r ∈ entry.2, r.node = c

/-! # Theorems -/

theorem getValuesFuel_eq_lookupFuel (h : Store) (sep : Char) (fuel : Nat) (n : NodePtr)
    (key : Option Str) :
    getValuesFuel h sep fuel n key = lookupFuel h (getValuesKey h) sep fuel n key := by
  induction fuel generalizing n key with
  | zero => rfl
  | succ f ih =>
    cases key with
    | none => rfl
    | some k =>
      simp only [getValuesFuel, lookupFuel]
      cases strchr (clearJustSeparatorKey k sep) sep with
      | none => rfl
      | some i =>
        simp only
        cases getNodesKey h n (List.take i (clearJustSeparatorKey k sep)) with
        | nil => rfl
        | cons n0 t => exact ih _ _

theorem getNodesFuel_eq_lookupFuel (h : Store) (sep : Char) (fuel : Nat) (n : NodePtr)
    (key : Option Str) :
    getNodesFuel h sep fuel n key = lookupFuel h (getNodesKey h) sep fuel n key := by
  induction fuel generalizing n key with
  | zero => rfl
  | succ f ih =>
    cases key with
    | none => rfl
    | some k =>
      simp only [getNodesFuel, lookupFuel]
      cases strchr (clearJustSeparatorKey k sep) sep with
      | none => rfl
      | some i =>
        simp only
        cases getNodesKey h n (List.take i (clearJustSeparatorKey k sep)) with
        | nil => rfl
        | cons n0 t => exact ih _ _

theorem walkValues_eq_walkGen (h : Store) (n : NodePtr) (ks : List Str) :
    walkValues h n ks = walkGen h (getValuesKey h) n ks := by
  induction ks generalizing n with
  | nil => rfl
  | cons k ks ih =>
    cases ks with
    | nil => rfl
    | cons k2 ks =>
      simp only [walkValues, walkGen]
      cases getNodesKey h n k with
      | nil => rfl
      | cons m t => exact ih _

theorem walkNodes_eq_walkGen (h : Store) (n : NodePtr) (ks : List Str) :
    walkNodes h n ks = walkGen h (getNodesKey h) n ks := by
  induction ks generalizing n with
  | nil => rfl
  | cons k ks ih =>
    cases ks with
    | nil => rfl
    | cons k2 ks =>
      simp only [walkNodes, walkGen]
      cases getNodesKey h n k with
      | nil => rfl
      | cons m t => exact ih _

/-! ### C string facts -/

theorem strchr_some_lt {sep : Char} (hsep : sep ≠ NUL) :
    ∀ (k : Str) (i : Nat), strchr k sep = some i → i < k.length
  | [], i, h => by simp [strchr, hsep] at h
  | x :: xs, i, h => by
    simp only [strchr] at h
    by_cases hx : x = sep
    · simp [hx] at h; subst h; simp
    · by_cases hn : x = NUL
      · subst hn; simp [hx] at h
      · simp only [hx, hn, if_false] at h
        cases hs : strchr xs sep with
        | none => simp [hs] at h
        | some j =>
          simp [hs] at h
          have := strchr_some_lt hsep xs j hs
          subst h; simp; omega

theorem cstr_nil : cstr [] = [] := rfl

theorem cstr_cons (x : Char) (xs : Str) :
    cstr (x :: xs) = if x = NUL then [] else x :: cstr xs := by
  unfold cstr
  simp only [strlen]
  split <;> simp

/-- Shape of a C string in which `strchr` finds the separator. -/
theorem cstr_of_strchr_some {sep : Char} (hsep : sep ≠ NUL) :
    ∀ (k : Str) (i : Nat), strchr k sep = some i →
      cstr k = k.take i ++ sep :: cstr (k.drop (i + 1)) ∧ sep ∉ k.take i
  | [], i, h => by simp [strchr, hsep] at h
  | x :: xs, i, h => by
    simp only [strchr] at h
    by_cases hx : x = sep
    · simp [hx] at h; subst h; subst hx
      simp [cstr_cons, hsep]
    · by_cases hn : x = NUL
      · subst hn; simp [hx] at h
      · simp only [hx, hn, if_false] at h
        cases hs : strchr xs sep with
        | none => simp [hs] at h
        | some j =>
          simp [hs] at h
          obtain ⟨h1, h2⟩ := cstr_of_strchr_some hsep xs j hs
          subst h
          simp [cstr_cons, hn, h1, h2]
          exact fun hc => hx hc.symm

theorem cstr_of_strchr_none {sep : Char} (hsep : sep ≠ NUL) :
    ∀ (k : Str), strchr k sep = none → sep ∉ cstr k
  | [], _ => by simp [cstr]
  | x :: xs, h => by
    simp only [strchr] at h
    by_cases hx : x = sep
    · simp [hx] at h
    · by_cases hn : x = NUL
      · simp [cstr_cons, hn]
      · simp only [hx, hn, if_false] at h
        cases hs : strchr xs sep with
        | some j => simp [hs] at h
        | none =>
          have := cstr_of_strchr_none hsep xs hs
          simp [cstr_cons, hn, this]
          exact fun hc => hx hc.symm

theorem splitPath_ne_nil (sep : Char) (p : Str) : splitPath sep p ≠ [] := by
  cases p with
  | nil => simp [splitPath]
  | cons c cs =>
    simp only [splitPath]
    split
    · simp
    · split <;> simp

theorem splitPath_of_not_mem (sep : Char) : ∀ (p : Str), sep ∉ p → splitPath sep p = [p]
  | [], _ => rfl
  | c :: cs, h => by
    have hc : c ≠ sep := fun e => h (by simp [e])
    have hcs : sep ∉ cs := fun e => h (by simp [e])
    simp [splitPath, hc, splitPath_of_not_mem sep cs hcs]

theorem splitPath_append (sep : Char) : ∀ (a r : Str), sep ∉ a →
    splitPath sep (a ++ sep :: r) = a :: splitPath sep r
  | [], r, _ => by simp [splitPath]
  | c :: cs, r, h => by
    have hc : c ≠ sep := fun e => h (by simp [e])
    have hcs : sep ∉ cs := fun e => h (by simp [e])
    simp [splitPath, hc, splitPath_append sep cs r hcs]

/-! ### The normalised path -/

theorem normPath_of_not_mem (sep : Char) (q : Str) (h : sep ∉ q) : normPath sep q = q := by
  unfold normPath
  rw [if_neg]
  rintro (h1 | h2)
  · exact h (by simp [h1])
  · exact h (h2.subset (by simp))

theorem normPath_nil (sep : Char) : normPath sep [] = [] := by
  simp [normPath]

theorem normPath_cons (sep c : Char) (l : Str) (hl : l ≠ []) (h : l = [sep] → c = sep) :
    normPath sep (c :: l) = c :: normPath sep l := by
  have hcond : (c :: l = [sep] ∨ [sep, sep] <:+ c :: l) ↔ (l = [sep] ∨ [sep, sep] <:+ l) := by
    rw [List.suffix_cons_iff]
    constructor
    · rintro (h1 | h2 | h3)
      · simp at h1; exact absurd h1.2 hl
      · simp at h2; exact Or.inl h2.2.symm
      · exact Or.inr h3
    · rintro (h1 | h2)
      · right; left; rw [h1, h h1]
      · right; right; exact h2
  unfold normPath
  by_cases hc : (l = [sep] ∨ [sep, sep] <:+ l)
  · rw [if_pos (hcond.mpr hc), if_pos hc]
    cases l with
    | nil => exact absurd rfl hl
    | cons y ys => rfl
  · rw [if_neg (fun hh => hc (hcond.mp hh)), if_neg hc]

theorem normPath_append_sep (sep : Char) : ∀ (a : Str), sep ∉ a → a ≠ [] →
    normPath sep (a ++ [sep]) = a ++ [sep]
  | [], _, h => absurd rfl h
  | [c], h, _ => by
    have hc : c ≠ sep := fun e => h (by simp [e])
    have hc2 : sep ≠ c := fun e => hc e.symm
    simp [normPath, List.suffix_cons_iff, hc, hc2]
  | c :: c2 :: a, h, _ => by
    have hcs : sep ∉ c2 :: a := fun e => h (List.mem_cons_of_mem _ e)
    have ih := normPath_append_sep sep (c2 :: a) hcs (by simp)
    have : normPath sep (c :: (c2 :: a ++ [sep])) = c :: normPath sep (c2 :: a ++ [sep]) :=
      normPath_cons sep c _ (by simp) (by simp)
    rw [ih] at this
    simpa using this

theorem normPath_append_cons (sep : Char) (r : Str) (hr : r ≠ []) : ∀ (a : Str), sep ∉ a →
    normPath sep (a ++ sep :: r) = a ++ sep :: normPath sep r
  | [], _ => normPath_cons sep sep r hr (fun _ => rfl)
  | c :: a, h => by
    have hcs : sep ∉ a := fun e => h (List.mem_cons_of_mem _ e)
    have ih := normPath_append_cons sep r hr a hcs
    have h1 : normPath sep (c :: (a ++ sep :: r)) = c :: normPath sep (a ++ sep :: r) := by
      apply normPath_cons sep c _ (by simp)
      intro e
      have := congrArg List.length e
      cases r with
      | nil => exact absurd rfl hr
      | cons y ys => simp at this; omega
    rw [ih] at h1
    simpa using h1

/-- Normalisation acts on the part of the path behind its first separator. -/
theorem normPath_split (sep : Char) (a r : Str) (ha : sep ∉ a) (hne : ¬ (a = [] ∧ r = [])) :
    normPath sep (a ++ sep :: r) = a ++ sep :: normPath sep r := by
  by_cases hr : r = []
  · subst hr
    rw [normPath_nil]
    exact normPath_append_sep sep a ha (fun e => hne ⟨e, rfl⟩)
  · exact normPath_append_cons sep r hr a ha

/-- The guard of `clearJustSeparatorKey` holds exactly for the C string made of one separator. -/
theorem clear_cond_iff (sep : Char) (key : Str) :
    (charAt key 0 ≠ NUL ∧ charAt key 1 = NUL ∧ charAt key 0 = sep) ↔ cstr key = [sep] := by
  cases key with
  | nil => simp [charAt, cstr, strlen]
  | cons x xs =>
    cases xs with
    | nil =>
      simp only [charAt, cstr_cons, cstr_nil, List.getD_cons_zero]
      by_cases hx : x = NUL
      · subst hx; simp
      · simp [hx]
    | cons y ys =>
      simp only [charAt, cstr_cons, List.getD_cons_zero, List.getD_cons_succ]
      by_cases hx : x = NUL
      · subst hx; simp
      · by_cases hy : y = NUL
        · simp [hx, hy]
        · simp [hx, hy]

theorem walkGen_cons {α : Type} (h : Store) (term : NodePtr → Str → List α) (n : NodePtr)
    (k : Str) (ks : List Str) (hks : ks ≠ []) :
    walkGen h term n (k :: ks) =
      match getNodesKey h n k with
      | [] => []
      | m :: _ => walkGen h term m ks := by
  cases ks with
  | nil => exact absurd rfl hks
  | cons k2 ks => rfl

/-- With enough fuel the lookup of the source is the walk of the specification along the
normalised path. -/
theorem lookupFuel_eq_walkGen {α : Type} (h : Store) (term : NodePtr → Str → List α)
    {sep : Char} (hsep : sep ≠ NUL) :
    ∀ (fuel : Nat) (n : NodePtr) (key : Str), key.length < fuel →
      lookupFuel h term sep fuel n (some key)
        = walkGen h term n (splitPath sep (normPath sep (cstr key)))
  | 0, _, _, hf => absurd hf (Nat.not_lt_zero _)
  | f + 1, n, key, hf => by
    simp only [lookupFuel]
    by_cases hc : charAt key 0 ≠ NUL ∧ charAt key 1 = NUL ∧ charAt key 0 = sep
    · have hk : cstr key = [sep] := (clear_cond_iff sep key).mp hc
      have hclear : clearJustSeparatorKey key sep = [] := by
        unfold clearJustSeparatorKey; rw [if_pos hc]
      have hs : strchr ([] : Str) sep = none := by simp [strchr, hsep]
      rw [hclear, hs, hk]
      simp [normPath, splitPath, walkGen, strlen]
    · have hclear : clearJustSeparatorKey key sep = key := by
        unfold clearJustSeparatorKey; rw [if_neg hc]
      rw [hclear]
      cases hs : strchr key sep with
      | none =>
        have hm := cstr_of_strchr_none hsep key hs
        rw [normPath_of_not_mem sep _ hm, splitPath_of_not_mem sep _ hm]
        rfl
      | some i =>
        obtain ⟨hk, ha⟩ := cstr_of_strchr_some hsep key i hs
        have hi := strchr_some_lt hsep key i hs
        have hne : ¬ (key.take i = [] ∧ cstr (key.drop (i + 1)) = []) := by
          rintro ⟨h1, h2⟩
          apply hc
          rw [clear_cond_iff, hk, h1, h2]
          rfl
        rw [hk, normPath_split sep _ _ ha hne, splitPath_append sep _ _ ha,
          walkGen_cons h term n _ _ (splitPath_ne_nil sep _)]
        simp only
        cases getNodesKey h n (List.take i key) with
        | nil => rfl
        | cons m t =>
          simp only
          apply lookupFuel_eq_walkGen h term hsep f m
          simp only [List.length_drop]
          omega

theorem getValues_eq_walkGen (h : Store) (n : NodePtr) (p : Str) {sep : Char}
    (hsep : sep ≠ NUL) :
    getValues h n (some p) sep
      = walkGen h (getValuesKey h) n (splitPath sep (normPath sep (cstr p))) := by
  unfold getValues pathFuel
  rw [getValuesFuel_eq_lookupFuel]
  exact lookupFuel_eq_walkGen h _ hsep _ n p (Nat.lt_succ_self _)

theorem getNodes_eq_walkGen (h : Store) (n : NodePtr) (p : Str) {sep : Char}
    (hsep : sep ≠ NUL) :
    getNodes h n (some p) sep
      = walkGen h (getNodesKey h) n (splitPath sep (normPath sep (cstr p))) := by
  unfold getNodes pathFuel
  rw [getNodesFuel_eq_lookupFuel]
  exact lookupFuel_eq_walkGen h _ hsep _ n p (Nat.lt_succ_self _)

/-! ## C1: `getValues` and the walk over the split path -/

/-- C1 as stated fails: on the tree `{a: {"": ["x"]}}` the path `a..` splits into the
segments `a`, `""`, `""`, whose walk finds no subnode `""` and is empty, while `getValues`
returns the scalars under the empty key of `a`. -/
theorem getValues_split_counterexample :
    getValues trailingStore 0 (some "a..".toList) '.' = ["x".toList] ∧
    walkValues trailingStore 0 (splitPath '.' "a..".toList) = [] := by
  decide

/-- C1 (amended): for a non-null separator, `getValues(p, sep)` is the walk of the
specification over the segments of the path `p` (read up to its terminator) after a final
separator that stands alone or follows another separator has been dropped; every
intermediate segment follows the first subnode, the last one returns the whole scalar
sequence, and a failed step gives the empty sequence. -/
theorem getValues_eq_walkValues (h : Store) (n : NodePtr) (p : Str) (sep : Char)
    (hsep : sep ≠ NUL) :
    getValues h n (some p) sep
      = walkValues h n (splitPath sep (normPath sep (cstr p))) := by
  rw [walkValues_eq_walkGen]
  exact getValues_eq_walkGen h n p hsep

/-- Witness of C1 (amended) on the path `a.b` of a tree with two subnodes `a`. -/
theorem getValues_eq_walkValues_witness :
    getValues pairStore 0 (some "a.b".toList) '.'
      = walkValues pairStore 0 (splitPath '.' (normPath '.' (cstr "a.b".toList))) :=
  getValues_eq_walkValues pairStore 0 "a.b".toList '.' (by decide)

/-! ## C2: `getNodes` walks as `getValues` does -/

/-- C2: for a non-null separator, `getNodes(p, sep)` and `getValues(p, sep)` walk the same
segments through the first subnode of every intermediate segment; they differ only in the
container in which the last segment is looked up, and `getNodes` returns the whole subnode
sequence found there (empty when a step fails). -/
theorem getNodes_same_walk (h : Store) (n : NodePtr) (p : Str) (sep : Char)
    (hsep : sep ≠ NUL) :
    getNodes h n (some p) sep
        = walkGen h (getNodesKey h) n (splitPath sep (normPath sep (cstr p))) ∧
    getValues h n (some p) sep
        = walkGen h (getValuesKey h) n (splitPath sep (normPath sep (cstr p))) ∧
    getNodes h n (some p) sep
        = walkNodes h n (splitPath sep (normPath sep (cstr p))) ∧
    getNodes h n none sep = [] :=
  ⟨getNodes_eq_walkGen h n p hsep, getValues_eq_walkGen h n p hsep, by
    rw [walkNodes_eq_walkGen]; exact getNodes_eq_walkGen h n p hsep, rfl⟩

/-- Witness of C2 on the path `a` of a tree with two subnodes `a`. -/
theorem getNodes_same_walk_witness :
    getNodes pairStore 0 (some "a".toList) '.' = [1, 2] ∧
    getNodes pairStore 0 (some "a".toList) '.'
        = walkGen pairStore (getNodesKey pairStore) 0
            (splitPath '.' (normPath '.' (cstr "a".toList))) :=
  ⟨by decide, (getNodes_same_walk pairStore 0 "a".toList '.' (by decide)).1⟩

/-! ## C3: null, empty and separator-only paths -/

/-- C3 as stated fails: on the tree `{"": ["x"]}` the empty path returns the scalars stored
under the empty key, not the empty sequence. -/
theorem getValues_empty_path_counterexample :
    getValues emptyKeyStore 0 (some []) '.' = ["x".toList] ∧
    getValues emptyKeyStore 0 (some ".".toList) '.' = ["x".toList] := by
  decide

/-- C3 (amended): a null path returns the empty sequence; for a non-null separator the
empty path returns the scalar sequence stored under the empty key (the empty sequence when
the node has no such entry), and the separator-only path returns the same as the empty
path. -/
theorem getValues_degenerate_paths (h : Store) (n : NodePtr) (sep : Char)
    (hsep : sep ≠ NUL) :
    getValues h n none sep = [] ∧
    getValues h n (some []) sep = getValuesKey h n [] ∧
    getValues h n (some [sep]) sep = getValues h n (some []) sep := by
  have hs : strchr ([] : Str) sep = none := by simp [strchr, hsep]
  have hc : clearJustSeparatorKey [sep] sep = [] := by
    simp [clearJustSeparatorKey, charAt, hsep]
  have hc0 : clearJustSeparatorKey [] sep = [] := by
    simp [clearJustSeparatorKey]
  refine ⟨rfl, ?_, ?_⟩
  · simp [getValues, pathFuel, getValuesFuel, hc0, hs, strlen]
  · simp [getValues, pathFuel, getValuesFuel, hc, hc0, hs, strlen]

/-- Witness of C3 (amended) on the tree `{"": ["x"]}`. -/
theorem getValues_degenerate_paths_witness :
    getValues emptyKeyStore 0 none '.' = [] ∧
    getValues emptyKeyStore 0 (some []) '.' = getValuesKey emptyKeyStore 0 [] ∧
    getValues emptyKeyStore 0 (some ['.']) '.' = getValues emptyKeyStore 0 (some []) '.' :=
  getValues_degenerate_paths emptyKeyStore 0 '.' (by decide)

/-! ### Containers -/

theorem find_eq_none_of_forall {L : Type} (c : children_container L) (key : Str)
    (hc : ∀ x ∈ c, x.key ≠ key) : find c key = none := by
  unfold find
  rw [List.find?_eq_none]
  intro x hx
  simpa using hc x hx

theorem find_append_cons {L : Type} (pre post : children_container L) (e : ElementType L)
    (key : Str) (hpre : ∀ x ∈ pre, x.key ≠ key) (he : e.key = key) :
    find (pre ++ e :: post) key = some e := by
  induction pre with
  | nil => simp [find, he]
  | cons x xs ih =>
    have hx : x.key ≠ key := hpre x (by simp)
    have := ih (fun y hy => hpre y (by simp [hy]))
    simp only [find] at this
    simp [find, hx, this]

theorem modify_append_cons {L : Type} (f : L → L) (pre post : children_container L)
    (e : ElementType L) (key : Str) (hpre : ∀ x ∈ pre, x.key ≠ key) (he : e.key = key) :
    modify f key (pre ++ e :: post) = pre ++ { key := key, value := f e.value } :: post := by
  induction pre with
  | nil => simp [modify, he]
  | cons x xs ih =>
    have hx : x.key ≠ key := hpre x (by simp)
    simp [modify, hx, ih (fun y hy => hpre y (by simp [hy]))]

theorem find_eraseKey_self {L : Type} (c : children_container L) (key : Str) :
    find (eraseKey c key) key = none := by
  apply find_eq_none_of_forall
  intro x hx
  simp [eraseKey] at hx
  exact hx.2

theorem find_eraseKey_of_ne {L : Type} (c : children_container L) (key k : Str)
    (hk : k ≠ key) : find (eraseKey c key) k = find c k := by
  induction c with
  | nil => rfl
  | cons x xs ih =>
    simp only [eraseKey, find] at ih ⊢
    by_cases hx : x.key = key
    · have hxk : x.key ≠ k := fun e => hk (e.symm.trans hx)
      rw [List.filter_cons_of_neg (by simp [hx]), List.find?_cons_of_neg _ (by simp [hxk])]
      exact ih
    · rw [List.filter_cons_of_pos (by simp [hx])]
      by_cases hxk : x.key = k
      · rw [List.find?_cons_of_pos _ (by simp [hxk]), List.find?_cons_of_pos _ (by simp [hxk])]
      · rw [List.find?_cons_of_neg _ (by simp [hxk]), List.find?_cons_of_neg _ (by simp [hxk])]
        exact ih

/-! ### The store -/

theorem deref_set_self (h : Store) (p : NodePtr) (n : ConfigNode) (hp : p < h.length) :
    deref (h.set p n) p = n := by
  simp [deref, List.getD_eq_getElem?_getD, List.getElem?_set, hp]

theorem deref_set_of_ne (h : Store) (p q : NodePtr) (n : ConfigNode) (hq : q ≠ p) :
    deref (h.set p n) q = deref h q := by
  have : p ≠ q := fun e => hq e.symm
  simp [deref, List.getD_eq_getElem?_getD, List.getElem?_set, this]

/-! ## C4: `setValue` -/

/-- C4: `setValue(key, value, index)` on a node `self` of the store.  When `key` has no
scalar entry, the entry `(key, [value])` is appended behind all scalar entries, whatever
`index` is.  When the first entry under `key` is `e`, an index that is given and smaller
than the length of `e.value` replaces exactly that element (the length stays), and the
default index appends `value` to `e.value`.  In every case only the scalar container of
`self` changes, and in it only that entry: the other entries, their order, the subnodes,
the parent and every other node of the store are as before. -/
theorem setValue_spec (h : Store) (self : NodePtr) (key value : Str) (index : Nat)
    (hself : self < h.length) :
    (find (deref h self).values key = none →
      setValue h self key value index = some (h.set self { deref h self with
        values := (deref h self).values ++ [{ key := key, value := [value] }] })) ∧
    (∀ pre e post, (deref h self).values = pre ++ e :: post →
      (∀ x ∈ pre, x.key ≠ key) → e.key = key →
      (index ≠ SIZE_MAX → index < e.value.length →
        setValue h self key value index = some (h.set self { deref h self with
          values := pre ++ { key := key, value := e.value.set index value } :: post }) ∧
        (e.value.set index value).length = e.value.length ∧
        (e.value.set index value)[index]? = some value ∧
        ∀ j, j ≠ index → (e.value.set index value)[j]? = e.value[j]?) ∧
      (index = SIZE_MAX →
        setValue h self key value index = some (h.set self { deref h self with
          values := pre ++ { key := key, value := e.value ++ [value] } :: post }))) ∧
    (∀ h2, setValue h self key value index = some h2 →
      h2.length = h.length ∧
      (deref h2 self).nodes = (deref h self).nodes ∧
      (deref h2 self).parent = (deref h self).parent ∧
      ∀ m, m ≠ self → deref h2 m = deref h m) := by
  refine ⟨?_, ?_, ?_⟩
  · intro hf
    simp only [setValue, hf]
  · intro pre e post hv hpre he
    have hf : find (deref h self).values key = some e := by
      rw [hv]; exact find_append_cons pre post e key hpre he
    refine ⟨?_, ?_⟩
    · intro hi hlt
      refine ⟨?_, by simp, ?_, ?_⟩
      · simp only [setValue, hf, if_neg hi, if_pos (show e.value.length > index from hlt)]
        rw [hv, modify_append_cons _ pre post e key hpre he]
      · simp [List.getElem?_set, hlt]
      · intro j hj
        have : index ≠ j := fun e => hj e.symm
        simp [List.getElem?_set, this]
    · intro hi
      simp only [setValue, hf, if_pos hi]
      rw [hv, modify_append_cons _ pre post e key hpre he]
  · intro h2 hs
    have key_fact : ∀ (vs : children_container value_list),
        h2 = h.set self { deref h self with values := vs } →
        h2.length = h.length ∧ (deref h2 self).nodes = (deref h self).nodes ∧
        (deref h2 self).parent = (deref h self).parent ∧
        ∀ m, m ≠ self → deref h2 m = deref h m := by
      intro vs e
      subst e
      refine ⟨by simp, ?_, ?_, ?_⟩
      · rw [deref_set_self _ _ _ hself]
      · rw [deref_set_self _ _ _ hself]
      · intro m hm
        exact deref_set_of_ne _ _ _ _ hm
    simp only [setValue] at hs
    split at hs
    · exact key_fact _ (Option.some.inj hs).symm
    · split at hs
      · exact key_fact _ (Option.some.inj hs).symm
      · split at hs
        · exact key_fact _ (Option.some.inj hs).symm
        · exact absurd hs (by simp)

/-- Witness of C4: overwriting element 0 of `b` in the first subnode `a` of `pairStore`. -/
theorem setValue_spec_witness :
    setValue pairStore 1 "b".toList "9".toList 0 = some (pairStore.set 1
      { deref pairStore 1 with
        values := [] ++ { key := "b".toList,
                          value := ["1".toList, "2".toList].set 0 "9".toList } :: [] }) :=
  (((setValue_spec pairStore 1 "b".toList "9".toList 0 (by decide)).2.1 []
    { key := "b".toList, value := ["1".toList, "2".toList] } []
    (by decide) (by simp) rfl).1 (by decide) (by decide)).1

theorem find_modify {L : Type} (f : L → L) (key : Str) (c : children_container L) :
    find (modify f key c) key
      = (find c key).map (fun e => { key := e.key, value := f e.value }) := by
  induction c with
  | nil => rfl
  | cons x xs ih =>
    simp only [find] at ih
    by_cases hx : x.key = key
    · simp [modify, find, hx]
    · simp [modify, find, hx, ih]

theorem find_append_of_none {L : Type} (c : children_container L) (x : ElementType L)
    (key : Str) (hc : find c key = none) (hx : x.key = key) :
    find (c ++ [x]) key = some x := by
  unfold find at hc
  rw [List.find?_eq_none] at hc
  exact find_append_cons c [] x key (fun y hy => by simpa using hc y hy) hx

theorem length_setParent (h : Store) (node : NodePtr) (p : Option NodePtr) :
    (setParent h node p).length = h.length := by
  simp [setParent]

theorem deref_setParent_nodes (h : Store) (node m : NodePtr) (p : Option NodePtr) :
    (deref (setParent h node p) m).nodes = (deref h m).nodes := by
  by_cases hm : m = node
  · subst hm
    by_cases hl : m < h.length
    · unfold setParent; rw [deref_set_self _ _ _ hl]
    · unfold setParent; rw [List.set_eq_of_length_le (Nat.le_of_not_lt hl)]
  · unfold setParent; rw [deref_set_of_ne _ _ _ _ hm]

theorem deref_setParent_values (h : Store) (node m : NodePtr) (p : Option NodePtr) :
    (deref (setParent h node p) m).values = (deref h m).values := by
  by_cases hm : m = node
  · subst hm
    by_cases hl : m < h.length
    · unfold setParent; rw [deref_set_self _ _ _ hl]
    · unfold setParent; rw [List.set_eq_of_length_le (Nat.le_of_not_lt hl)]
  · unfold setParent; rw [deref_set_of_ne _ _ _ _ hm]

theorem deref_setParent_parent (h : Store) (node : NodePtr) (p : Option NodePtr)
    (hl : node < h.length) : (deref (setParent h node p) node).parent = p := by
  unfold setParent; rw [deref_set_self _ _ _ hl]

/-! ## C5: `setNode` -/

/-- C5: `setNode(key, node, index)` on a node `self` first makes `self` the parent of
`node`, then acts on the subnode container as `setValue` does on the scalars: a new entry
`(key, [node])` behind all entries when `key` is absent, the element at an index that is
given and in range replaced, the handle appended for the default index.  After a call that
returns, the parent of `node` is `self`, `getNodes(key)` contains `node`, the scalars of
`self` are untouched and no node other than `self` and `node` has changed. -/
theorem setNode_spec (h : Store) (self : NodePtr) (key : Str) (node : NodePtr) (index : Nat)
    (hself : self < h.length) (hnode : node < h.length) :
    (find (deref h self).nodes key = none →
      setNode h self key node index = some ((setParent h node (some self)).set self
        { deref (setParent h node (some self)) self with
          nodes := (deref h self).nodes ++ [{ key := key, value := [node] }] })) ∧
    (∀ pre e post, (deref h self).nodes = pre ++ e :: post →
      (∀ x ∈ pre, x.key ≠ key) → e.key = key →
      (index ≠ SIZE_MAX → index < e.value.length →
        setNode h self key node index = some ((setParent h node (some self)).set self
          { deref (setParent h node (some self)) self with
            nodes := pre ++ { key := key, value := e.value.set index node } :: post })) ∧
      (index = SIZE_MAX →
        setNode h self key node index = some ((setParent h node (some self)).set self
          { deref (setParent h node (some self)) self with
            nodes := pre ++ { key := key, value := e.value ++ [node] } :: post }))) ∧
    (∀ h2, setNode h self key node index = some h2 →
      (deref h2 node).parent = some self ∧
      node ∈ getNodesKey h2 self key ∧
      (deref h2 self).values = (deref h self).values ∧
      h2.length = h.length ∧
      (node ≠ self → (deref h2 self).parent = (deref h self).parent) ∧
      (node ≠ self → deref h2 node = { deref h node with parent := some self }) ∧
      ∀ m, m ≠ self → m ≠ node → deref h2 m = deref h m) := by
  have hn1 : (deref (setParent h node (some self)) self).nodes = (deref h self).nodes :=
    deref_setParent_nodes h node self _
  have hself1 : self < (setParent h node (some self)).length := by
    rw [length_setParent]; exact hself
  refine ⟨?_, ?_, ?_⟩
  · intro hf
    simp only [setNode, hn1, hf]
  · intro pre e post hv hpre he
    have hf : find (deref h self).nodes key = some e := by
      rw [hv]; exact find_append_cons pre post e key hpre he
    refine ⟨?_, ?_⟩
    · intro hi hlt
      simp only [setNode, hn1, hf, if_neg hi, if_pos (show e.value.length > index from hlt)]
      rw [hv, modify_append_cons _ pre post e key hpre he]
    · intro hi
      simp only [setNode, hn1, hf, if_pos hi]
      rw [hv, modify_append_cons _ pre post e key hpre he]
  · intro h2 hs
    have key_fact : ∀ (ns : children_container node_list),
        (∃ e, find ns key = some e ∧ node ∈ e.value) →
        h2 = (setParent h node (some self)).set self
          { deref (setParent h node (some self)) self with nodes := ns } →
        (deref h2 node).parent = some self ∧
        node ∈ getNodesKey h2 self key ∧
        (deref h2 self).values = (deref h self).values ∧
        h2.length = h.length ∧
        (node ≠ self → (deref h2 self).parent = (deref h self).parent) ∧
        (node ≠ self → deref h2 node = { deref h node with parent := some self }) ∧
        ∀ m, m ≠ self → m ≠ node → deref h2 m = deref h m := by
      rintro ns ⟨e, hfe, hmem⟩ heq
      subst heq
      refine ⟨?_, ?_, ?_, ?_, ?_, ?_, ?_⟩
      · by_cases hns : node = self
        · subst hns
          rw [deref_set_self _ _ _ hself1]
          exact deref_setParent_parent h node _ hnode
        · rw [deref_set_of_ne _ _ _ _ hns]
          exact deref_setParent_parent h node _ hnode
      · unfold getNodesKey
        rw [deref_set_self _ _ _ hself1]
        simp only [hfe]
        exact hmem
      · rw [deref_set_self _ _ _ hself1]
        exact deref_setParent_values h node self _
      · simp [length_setParent]
      · intro hns
        rw [deref_set_self _ _ _ hself1]
        unfold setParent
        rw [deref_set_of_ne _ _ _ _ (fun e => hns e.symm)]
      · intro hns
        rw [deref_set_of_ne _ _ _ _ hns]
        unfold setParent
        rw [deref_set_self _ _ _ hnode]
      · intro m hm1 hm2
        rw [deref_set_of_ne _ _ _ _ hm1]
        unfold setParent
        rw [deref_set_of_ne _ _ _ _ hm2]
    simp only [setNode, hn1] at hs
    cases hf : find (deref h self).nodes key with
    | none =>
      simp only [hf] at hs
      refine key_fact _ ⟨{ key := key, value := [node] }, find_append_of_none _ _ key hf rfl, ?_⟩
        (Option.some.inj hs).symm
      simp
    | some it =>
      simp only [hf] at hs
      split at hs
      · refine key_fact _ ⟨{ key := it.key, value := it.value ++ [node] }, ?_, ?_⟩
          (Option.some.inj hs).symm
        · rw [find_modify, hf]; rfl
        · simp
      · split at hs
        · rename_i hlt
          refine key_fact _ ⟨{ key := it.key, value := it.value.set index node }, ?_, ?_⟩
            (Option.some.inj hs).symm
          · rw [find_modify, hf]; rfl
          · exact List.mem_iff_getElem?.mpr ⟨index, by simp [List.getElem?_set, hlt]⟩
        · exact absurd hs (by simp)

/-- Witness of C5: node 2 of `pairStore` set as the subnode `c` of node 1. -/
theorem setNode_spec_witness :
    setNode pairStore 1 "c".toList 2 SIZE_MAX = some ((setParent pairStore 2 (some 1)).set 1
      { deref (setParent pairStore 2 (some 1)) 1 with
        nodes := (deref pairStore 1).nodes ++ [{ key := "c".toList, value := [2] }] }) :=
  (setNode_spec pairStore 1 "c".toList 2 SIZE_MAX (by decide) (by decide)).1 (by decide)

theorem eraseKey_sublist {L : Type} (c : children_container L) (key : Str) :
    List.Sublist (eraseKey c key) c :=
  List.filter_sublist c

theorem mem_eraseKey {L : Type} (c : children_container L) (key : Str) (e : ElementType L)
    (he : e ∈ c) (hk : e.key ≠ key) : e ∈ eraseKey c key := by
  simp [eraseKey, he, hk]

/-! ## C6: `erase` -/

/-- C6: after `erase(key)` on a node `self`, the one-segment lookups `getValues(key)` and
`getNodes(key)` are empty; for every other key both lookups return what they returned
before; the entries that remain are the former entries with another key, in their former
order; the parent of `self` and all other nodes are untouched. -/
theorem erase_spec (h : Store) (self : NodePtr) (key : Str) (hself : self < h.length) :
    getValuesKey (erase h self key) self key = [] ∧
    getNodesKey (erase h self key) self key = [] ∧
    (∀ k, k ≠ key →
      getValuesKey (erase h self key) self k = getValuesKey h self k ∧
      getNodesKey (erase h self key) self k = getNodesKey h self k) ∧
    List.Sublist (deref (erase h self key) self).values (deref h self).values ∧
    List.Sublist (deref (erase h self key) self).nodes (deref h self).nodes ∧
    (∀ e ∈ (deref h self).values, e.key ≠ key → e ∈ (deref (erase h self key) self).values) ∧
    (∀ e ∈ (deref h self).nodes, e.key ≠ key → e ∈ (deref (erase h self key) self).nodes) ∧
    (deref (erase h self key) self).parent = (deref h self).parent ∧
    (erase h self key).length = h.length ∧
    ∀ m, m ≠ self → deref (erase h self key) m = deref h m := by
  have hd : deref (erase h self key) self = { deref h self with
      nodes := eraseKey (deref h self).nodes key,
      values := eraseKey (deref h self).values key } := by
    unfold erase
    exact deref_set_self _ _ _ hself
  refine ⟨?_, ?_, ?_, ?_, ?_, ?_, ?_, ?_, ?_, ?_⟩
  · unfold getValuesKey
    rw [hd]
    simp only [find_eraseKey_self]
    rfl
  · unfold getNodesKey
    rw [hd]
    simp only [find_eraseKey_self]
    rfl
  · intro k hk
    unfold getValuesKey getNodesKey
    rw [hd]
    simp [find_eraseKey_of_ne _ key k hk]
  · rw [hd]; exact eraseKey_sublist _ _
  · rw [hd]; exact eraseKey_sublist _ _
  · intro e he hk
    rw [hd]; exact mem_eraseKey _ _ e he hk
  · intro e he hk
    rw [hd]; exact mem_eraseKey _ _ e he hk
  · rw [hd]
  · simp [erase]
  · intro m hm
    unfold erase
    exact deref_set_of_ne _ _ _ _ hm

/-- Witness of C6: erasing `b` from node 1 of `pairStore`. -/
theorem erase_spec_witness :
    getValuesKey (erase pairStore 1 "b".toList) 1 "b".toList = [] :=
  (erase_spec pairStore 1 "b".toList (by decide)).1

/-! ## C7: `eraseValue` and `eraseNode` -/

/-- C7: when the first scalar entry of `self` under `key` is `e` and `index` is smaller than
the length of `e.value`, `eraseValue(key, index)` leaves under `key` the sequence `e.value`
without its element at `index` (the others in their order, one element fewer) and changes
nothing else in the store; `eraseNode(key, index)` does the same in the subnode container;
when `key` has no entry either call leaves the store as it is. -/
theorem eraseValue_eraseNode_spec (h : Store) (self : NodePtr) (key : Str) (index : Nat)
    (hself : self < h.length) :
    (∀ pre e post, (deref h self).values = pre ++ e :: post →
      (∀ x ∈ pre, x.key ≠ key) → e.key = key → index < e.value.length →
      eraseValue h self key index = some (h.set self { deref h self with
        values := pre ++ { key := key, value := e.value.eraseIdx index } :: post }) ∧
      e.value.eraseIdx index = e.value.take index ++ e.value.drop (index + 1) ∧
      (e.value.eraseIdx index).length = e.value.length - 1) ∧
    (∀ pre e post, (deref h self).nodes = pre ++ e :: post →
      (∀ x ∈ pre, x.key ≠ key) → e.key = key → index < e.value.length →
      eraseNode h self key index = some (h.set self { deref h self with
        nodes := pre ++ { key := key, value := e.value.eraseIdx index } :: post }) ∧
      e.value.eraseIdx index = e.value.take index ++ e.value.drop (index + 1) ∧
      (e.value.eraseIdx index).length = e.value.length - 1) ∧
    (find (deref h self).values key = none → eraseValue h self key index = some h) ∧
    (find (deref h self).nodes key = none → eraseNode h self key index = some h) ∧
    (∀ vs, (deref (h.set self { deref h self with values := vs }) self).nodes
        = (deref h self).nodes) ∧
    (∀ ns, (deref (h.set self { deref h self with nodes := ns }) self).values
        = (deref h self).values) := by
  refine ⟨?_, ?_, ?_, ?_, ?_, ?_⟩
  · intro pre e post hv hpre he hlt
    have hf : find (deref h self).values key = some e := by
      rw [hv]; exact find_append_cons pre post e key hpre he
    refine ⟨?_, List.eraseIdx_eq_take_drop_succ _ _, ?_⟩
    · simp only [eraseValue, hf, if_pos (show e.value.length > index from hlt)]
      rw [hv, modify_append_cons _ pre post e key hpre he]
    · rw [List.length_eraseIdx]; simp [hlt]
  · intro pre e post hv hpre he hlt
    have hf : find (deref h self).nodes key = some e := by
      rw [hv]; exact find_append_cons pre post e key hpre he
    refine ⟨?_, List.eraseIdx_eq_take_drop_succ _ _, ?_⟩
    · simp only [eraseNode, hf, if_pos (show e.value.length > index from hlt)]
      rw [hv, modify_append_cons _ pre post e key hpre he]
    · rw [List.length_eraseIdx]; simp [hlt]
  · intro hf
    simp only [eraseValue, hf]
  · intro hf
    simp only [eraseNode, hf]
  · intro vs
    rw [deref_set_self _ _ _ hself]
  · intro ns
    rw [deref_set_self _ _ _ hself]

/-- Witness of C7: erasing element 0 of `b` in node 1 of `pairStore`. -/
theorem eraseValue_eraseNode_spec_witness :
    eraseValue pairStore 1 "b".toList 0 = some (pairStore.set 1
      { deref pairStore 1 with
        values := [] ++ { key := "b".toList,
                          value := ["1".toList, "2".toList].eraseIdx 0 } :: [] }) :=
  ((eraseValue_eraseNode_spec pairStore 1 "b".toList 0 (by decide)).1 []
    { key := "b".toList, value := ["1".toList, "2".toList] } []
    (by decide) (by simp) rfl (by decide)).1

/-! ### `accept` as a list of steps -/

theorem runSteps_append {σ : Type} (v : Visitor σ) (self : NodePtr) (a b : List Step)
    (st : Store × σ) :
    runSteps v self (a ++ b) st =
      match runSteps v self a st with
      | .error e => .error e
      | .ok st2 => runSteps v self b st2 := by
  induction a generalizing st with
  | nil => rfl
  | cons s rest ih =>
    simp only [List.cons_append, runSteps]
    cases runStep v self st s with
    | error e => rfl
    | ok st2 => exact ih st2

theorem acceptNodeList_eq {σ : Type} (v : Visitor σ) (self : NodePtr) (key : Str)
    (l : node_list) (index : Nat) (st : Store × σ) :
    acceptNodeList v self key l index st
      = runSteps v self ((l.enumFrom index).map (fun p => Step.node key p.1 p.2)) st := by
  induction l generalizing index st with
  | nil => rfl
  | cons n rest ih =>
    simp only [acceptNodeList, List.enumFrom, List.map, runSteps, runStep]
    cases v.visitNode st.1 st.2 self key index n with
    | error e => rfl
    | ok st2 => exact ih _ _

theorem acceptNodes_eq {σ : Type} (v : Visitor σ) (self : NodePtr)
    (cs : children_container node_list) (st : Store × σ) :
    acceptNodes v self cs st
      = runSteps v self (cs.flatMap (fun child =>
          child.value.enum.map (fun p => Step.node child.key p.1 p.2))) st := by
  induction cs generalizing st with
  | nil => rfl
  | cons c rest ih =>
    simp only [acceptNodes, List.flatMap_cons, runSteps_append, List.enum]
    rw [acceptNodeList_eq]
    cases runSteps v self (List.map (fun p => Step.node c.key p.1 p.2) (List.enumFrom 0 c.value)) st with
    | error e => rfl
    | ok st2 => exact ih _

theorem acceptValueList_eq {σ : Type} (v : Visitor σ) (self : NodePtr) (pos : Nat) (key : Str)
    (l : value_list) (index : Nat) (st : Store × σ) :
    acceptValueList v self pos key l index st
      = runSteps v self ((List.range' index l.length).map (fun i => Step.value pos key i)) st := by
  induction l generalizing index st with
  | nil => rfl
  | cons x rest ih =>
    simp only [acceptValueList, List.length_cons, List.range'_succ, List.map, runSteps, runStep]
    cases v.visitValue st.1 st.2 self key index (valueAt st.1 self pos index) with
    | error e => rfl
    | ok r => exact ih _ _

theorem acceptValues_eq {σ : Type} (v : Visitor σ) (self : NodePtr)
    (cs : children_container value_list) (pos : Nat) (st : Store × σ) :
    acceptValues v self cs pos st
      = runSteps v self ((cs.enumFrom pos).flatMap (fun q =>
          (List.range q.2.value.length).map (fun i => Step.value q.1 q.2.key i))) st := by
  induction cs generalizing pos st with
  | nil => rfl
  | cons c rest ih =>
    simp only [acceptValues, List.enumFrom, List.flatMap_cons, runSteps_append]
    rw [acceptValueList_eq, List.range_eq_range']
    cases runSteps v self (List.map (fun i => Step.value pos c.key i) (List.range' 0 c.value.length)) st with
    | error e => rfl
    | ok st2 => exact ih _ _

/-- The loops of `accept` issue exactly the steps of the specification, in that order. -/
theorem accept_eq_runSteps {σ : Type} (v : Visitor σ) (self : NodePtr) (st : Store × σ) :
    accept v self st = runSteps v self (visitSteps (deref st.1 self)) st := by
  simp only [accept, visitSteps, runSteps_append, List.enum]
  rw [acceptNodes_eq]
  simp only [List.enum]
  cases runSteps v self (List.flatMap (deref st.1 self).nodes fun child =>
      List.map (fun p => Step.node child.key p.1 p.2) (List.enumFrom 0 child.value)) st with
  | error e => rfl
  | ok st2 => exact acceptValues_eq _ _ _ _ _

/-! ### The recording visitor -/

theorem lt_length_of_values_ne_nil (h : Store) (self : NodePtr)
    (hv : (deref h self).values ≠ []) : self < h.length := by
  by_contra hl
  apply hv
  simp [deref, List.getD_eq_getElem?_getD, List.getElem?_eq_none (Nat.le_of_not_lt hl)]

theorem set_deref_self (h : Store) (self : NodePtr) : h.set self (deref h self) = h := by
  by_cases hl : self < h.length
  · apply List.ext_getElem?
    intro j
    by_cases hj : self = j
    · subst hj
      simp [List.getElem?_set, hl, deref, List.getD_eq_getElem?_getD]
    · simp [List.getElem?_set, hj]
  · exact List.set_eq_of_length_le (Nat.le_of_not_lt hl)

theorem modify_eq_self {α : Type} (f : α → α) (l : List α) (pos : Nat) (x : α)
    (hx : l[pos]? = some x) (hf : f x = x) : l.modify f pos = l := by
  induction l generalizing pos with
  | nil => simp
  | cons y ys ih =>
    cases pos with
    | zero =>
      simp at hx
      subst hx
      simp [List.modify_zero_cons, hf]
    | succ p =>
      simp at hx
      simp [List.modify_succ_cons, ih p hx]

theorem set_getElem_same {α : Type} (l : List α) (i : Nat) (hi : i < l.length) :
    l.set i l[i] = l := by
  apply List.ext_getElem?
  intro j
  by_cases hj : i = j
  · subst hj
    simp [List.getElem?_set, hi]
  · simp [List.getElem?_set, hj]

/-- Writing back the string that a reference holds leaves the store as it is. -/
theorem assignValue_valueAt (h : Store) (self : NodePtr) (pos index : Nat)
    (child : ElementType value_list) (hc : (deref h self).values[pos]? = some child)
    (hi : index < child.value.length) :
    assignValue h self pos index (valueAt h self pos index) = h := by
  have hval : valueAt h self pos index = child.value[index] := by
    simp [valueAt, hc, List.getD_eq_getElem?_getD, List.getElem?_eq_getElem hi]
  unfold assignValue
  rw [hval]
  have : (deref h self).values.modify
      (fun c => { c with value := c.value.set index child.value[index] }) pos
      = (deref h self).values := by
    apply modify_eq_self _ _ _ child hc
    show ({ key := child.key, value := child.value.set index child.value[index] } :
      ElementType value_list) = child
    rw [set_getElem_same _ _ hi]
  dsimp only
  rw [this]
  exact set_deref_self h self

theorem acceptNodeList_Recorder (self : NodePtr) (key : Str) (l : node_list) (index : Nat)
    (h : Store) (log : List Visit) :
    acceptNodeList Recorder self key l index (h, log)
      = .ok (h, log ++ (l.enumFrom index).map (fun p => Visit.node self key p.1 p.2)) := by
  induction l generalizing index log with
  | nil => simp [acceptNodeList]
  | cons n rest ih =>
    simp only [acceptNodeList, Recorder]
    have := ih (index + 1) (log ++ [Visit.node self key index n])
    simp only [Recorder] at this
    rw [this]
    simp [List.enumFrom]

theorem acceptNodes_Recorder (self : NodePtr) (cs : children_container node_list)
    (h : Store) (log : List Visit) :
    acceptNodes Recorder self cs (h, log)
      = .ok (h, log ++ cs.flatMap (fun child =>
          child.value.enum.map (fun p => Visit.node self child.key p.1 p.2))) := by
  induction cs generalizing log with
  | nil => simp [acceptNodes]
  | cons c rest ih =>
    simp only [acceptNodes, acceptNodeList_Recorder]
    rw [ih]
    simp [List.enum]

theorem acceptValueList_Recorder (self : NodePtr) (pos : Nat) (h : Store)
    (child : ElementType value_list) (hc : (deref h self).values[pos]? = some child) :
    ∀ (l : value_list) (index : Nat) (log : List Visit), child.value.drop index = l →
      acceptValueList Recorder self pos child.key l index (h, log)
        = .ok (h, log ++ (l.enumFrom index).map (fun p => Visit.value self child.key p.1 p.2))
  | [], _, _, _ => by simp [acceptValueList]
  | x :: rest, index, log, hl => by
    have hi : index < child.value.length := by
      by_contra hn
      rw [List.drop_of_length_le (Nat.le_of_not_lt hn)] at hl
      exact absurd hl (by simp)
    have hcons := List.drop_eq_getElem_cons hi
    rw [hl] at hcons
    have hx : child.value[index] = x := (List.cons.inj hcons).1.symm
    have hrest : child.value.drop (index + 1) = rest := (List.cons.inj hcons).2.symm
    have hval : valueAt h self pos index = x := by
      simp [valueAt, hc, List.getD_eq_getElem?_getD, List.getElem?_eq_getElem hi, hx]
    have hassign := assignValue_valueAt h self pos index child hc hi
    rw [hval] at hassign
    simp only [acceptValueList, Recorder, hval, hassign]
    have ih := acceptValueList_Recorder self pos h child hc rest (index + 1)
      (log ++ [Visit.value self child.key index x]) hrest
    simp only [Recorder] at ih
    rw [ih]
    simp [List.enumFrom]

theorem acceptValues_Recorder (self : NodePtr) (h : Store) :
    ∀ (cs : children_container value_list) (pos : Nat) (log : List Visit),
      (deref h self).values.drop pos = cs →
      acceptValues Recorder self cs pos (h, log)
        = .ok (h, log ++ cs.flatMap (fun child =>
            child.value.enum.map (fun p => Visit.value self child.key p.1 p.2)))
  | [], _, _, _ => by simp [acceptValues]
  | c :: rest, pos, log, hl => by
    have hi : pos < (deref h self).values.length := by
      by_contra hn
      rw [List.drop_of_length_le (Nat.le_of_not_lt hn)] at hl
      exact absurd hl (by simp)
    have hcons := List.drop_eq_getElem_cons hi
    rw [hl] at hcons
    have hc : (deref h self).values[pos]? = some c := by
      rw [List.getElem?_eq_getElem hi, (List.cons.inj hcons).1]
    simp only [acceptValues]
    rw [acceptValueList_Recorder self pos h c hc c.value 0 log (by simp)]
    simp only
    rw [acceptValues_Recorder self h rest (pos + 1) _ (List.cons.inj hcons).2.symm]
    simp [List.enum]

/-! ## C8: order of the calls of `accept` -/

/-- C8: for every visitor, `accept` on a node issues exactly the steps `visitSteps`: every
subnode element, the entries in insertion order and within an entry the indices ascending
from 0, then every scalar element in the same manner, each with the node itself as parent,
the key of the entry and the index of the element.  The log of a recording visitor is
therefore the list of all subnode elements followed by the list of all scalar elements,
each element once. -/
theorem accept_visit_order (h : Store) (self : NodePtr) :
    (∀ (σ : Type) (v : Visitor σ) (s : σ),
      accept v self (h, s) = runSteps v self (visitSteps (deref h self)) (h, s)) ∧
    accept Recorder self (h, [])
      = .ok (h, expectedNodeVisits self (deref h self)
                ++ expectedValueVisits self (deref h self)) := by
  refine ⟨fun σ v s => accept_eq_runSteps v self (h, s), ?_⟩
  simp only [accept, acceptNodes_Recorder]
  rw [acceptValues_Recorder self h _ 0 _ (by simp)]
  simp [expectedNodeVisits, expectedValueVisits]

/-! ### The regex of the parameter expander -/

theorem untilPercent_eq_some (t a rest : Str) :
    untilPercent t = some (a, rest) ↔ t = a ++ '%' :: rest ∧ '%' ∉ a := by
  induction t generalizing a with
  | nil => simp [untilPercent]
  | cons c t ih =>
    simp only [untilPercent]
    by_cases hc : c = '%'
    · subst hc
      simp only [if_true, Option.some.injEq, Prod.mk.injEq]
      constructor
      · rintro ⟨rfl, rfl⟩; simp
      · rintro ⟨h1, h2⟩
        cases a with
        | nil => simp at h1; exact ⟨rfl, h1⟩
        | cons x xs =>
          simp at h1
          exact absurd (List.mem_cons.mpr (Or.inl h1.1)) h2
    · simp only [hc, if_false]
      cases hu : untilPercent t with
      | none =>
        simp only
        constructor
        · intro h; exact absurd h (by simp)
        · rintro ⟨h1, h2⟩
          cases a with
          | nil => simp at h1; exact absurd h1.1 hc
          | cons x xs =>
            simp at h1
            have := (ih xs).mpr ⟨h1.2, fun hm => h2 (List.mem_cons_of_mem _ hm)⟩
            rw [hu] at this
            exact absurd this (by simp)
      | some r =>
        obtain ⟨r1, r2⟩ := r
        have hr := (ih r1).mp
        simp only [Option.some.injEq, Prod.mk.injEq]
        constructor
        · rintro ⟨rfl, rfl⟩
          have := (ih r1).mp (by rw [hu])
          refine ⟨by simp [this.1], ?_⟩
          simp only [List.mem_cons, not_or]
          exact ⟨fun e => hc e.symm, this.2⟩
        · rintro ⟨h1, h2⟩
          cases a with
          | nil => simp at h1; exact absurd h1.1 hc
          | cons x xs =>
            simp at h1
            have := (ih xs).mpr ⟨h1.2, fun hm => h2 (List.mem_cons_of_mem _ hm)⟩
            rw [hu] at this
            simp at this
            exact ⟨by rw [h1.1, this.1], this.2⟩

theorem untilPercent_eq_none (t : Str) : untilPercent t = none ↔ '%' ∉ t := by
  induction t with
  | nil => simp [untilPercent]
  | cons c t ih =>
    simp only [untilPercent]
    by_cases hc : c = '%'
    · subst hc; simp
    · simp only [hc, if_false]
      have hc2 : ¬ '%' = c := fun e => hc e.symm
      cases hu : untilPercent t with
      | none => simp [hc2, ih.mp hu]
      | some r =>
        simp only [List.mem_cons, not_or]
        constructor
        · intro h; exact absurd h (by simp)
        rintro ⟨_, hn⟩
        exfalso
        have := ih.mpr hn
        rw [hu] at this
        exact absurd this (by simp)

/-- The regex matches at the start of `s` exactly in this shape. -/
theorem matchAt_eq_some (s p rest : Str) :
    matchAt s = some (p, rest) ↔
      ∃ c a, p = c :: a ∧ s = configHead ++ c :: a ++ '%' :: rest ∧ '%' ∉ a := by
  unfold matchAt
  by_cases hp : configHead <+: s
  · obtain ⟨u, rfl⟩ := hp
    simp only [List.prefix_append, if_true, List.drop_left]
    cases u with
    | nil =>
      simp only [List.append_nil]
      constructor
      · intro h; exact absurd h (by simp)
      · rintro ⟨c, a, _, h2, _⟩
        have := congrArg List.length h2
        simp at this
    | cons c t =>
      simp only
      cases hu : untilPercent t with
      | none =>
        simp only
        constructor
        · intro h; exact absurd h (by simp)
        · rintro ⟨c2, a, _, h2, h3⟩
          rw [List.append_assoc, List.append_cancel_left_eq] at h2
          simp at h2
          have := (untilPercent_eq_some t a rest).mpr ⟨h2.2, h3⟩
          rw [hu] at this
          exact absurd this (by simp)
      | some r =>
        obtain ⟨r1, r2⟩ := r
        obtain ⟨h1, h2⟩ := (untilPercent_eq_some t r1 r2).mp hu
        simp only [Option.some.injEq, Prod.mk.injEq]
        constructor
        · rintro ⟨rfl, rfl⟩
          exact ⟨c, r1, rfl, by simp [h1], h2⟩
        · rintro ⟨c2, a, h3, h4, h5⟩
          rw [List.append_assoc, List.append_cancel_left_eq] at h4
          simp at h4
          have := (untilPercent_eq_some t a rest).mpr ⟨h4.2, h5⟩
          rw [hu] at this
          simp at this
          rw [h3, h4.1, this.1, this.2]
          exact ⟨rfl, rfl⟩
  · simp only [hp, if_false]
    constructor
    · intro h; exact absurd h (by simp)
    · rintro ⟨c, a, _, h2, _⟩
      exact absurd ⟨c :: a ++ '%' :: rest, by rw [h2]; simp⟩ hp

/-- A token of the specification is a match of the regex, and conversely. -/
theorem isToken_iff_matchAt (s p rest : Str) :
    IsToken s p rest ↔ matchAt s = some (p, rest) := by
  rw [matchAt_eq_some]
  constructor
  · rintro ⟨hs, hne, hmin⟩
    cases p with
    | nil => exact absurd rfl hne
    | cons c a =>
      refine ⟨c, a, rfl, by simp [hs], ?_⟩
      intro hmem
      obtain ⟨a1, a2, ha⟩ := List.append_of_mem hmem
      have hlen := hmin (c :: a1) (a2 ++ '%' :: rest) (by simp) (by rw [hs, ha]; simp)
      rw [ha] at hlen
      simp at hlen
  · rintro ⟨c, a, rfl, hs, hmem⟩
    refine ⟨by simp [hs], by simp, ?_⟩
    intro p2 r2 hp2 hs2
    cases p2 with
    | nil => exact absurd rfl hp2
    | cons c2 a2 =>
      rw [hs] at hs2
      simp only [List.append_assoc, List.append_cancel_left_eq, List.cons_append,
        List.cons.injEq] at hs2
      obtain ⟨_, h2⟩ := hs2
      rcases List.append_eq_append_iff.mp h2 with ⟨x, hx1, _⟩ | ⟨x, hx1, hx2⟩
      · rw [hx1]; simp
      · cases x with
        | nil => simp at hx1; simp [hx1]
        | cons y ys =>
          simp at hx2
          exact absurd (by rw [hx1, hx2.1]; simp) hmem

theorem matchAt_rest_length (s p rest : Str) (h : matchAt s = some (p, rest)) :
    rest.length < s.length := by
  obtain ⟨c, a, _, hs, _⟩ := (matchAt_eq_some s p rest).mp h
  rw [hs]
  simp
  omega

theorem matchAt_eq_none_iff (s : Str) :
    matchAt s = none ↔ ∀ p rest, ¬ IsToken s p rest := by
  constructor
  · intro h p rest ht
    rw [isToken_iff_matchAt, h] at ht
    exact absurd ht (by simp)
  · intro h
    cases hm : matchAt s with
    | none => rfl
    | some r => exact absurd ((isToken_iff_matchAt s r.1 r.2).mpr hm) (h r.1 r.2)

/-- The loop of `regex_replace` carries out the pass of the specification. -/
theorem expands_regexReplaceFuel (lookup : Str → Str) :
    ∀ (fuel : Nat) (s : Str), s.length ≤ fuel →
      Expands lookup s (regexReplaceFuel lookup fuel s)
  | 0, s, hf => by
    have : s = [] := List.length_eq_zero.mp (Nat.le_zero.mp hf)
    subst this
    exact Expands.done
  | fuel + 1, [], _ => Expands.done
  | fuel + 1, c :: t, hf => by
    simp only [regexReplaceFuel]
    cases hm : matchAt (c :: t) with
    | none =>
      exact Expands.copy c t _ ((matchAt_eq_none_iff _).mp hm)
        (expands_regexReplaceFuel lookup fuel t (by simpa using hf))
    | some r =>
      have hlen := matchAt_rest_length _ r.1 r.2 hm
      exact Expands.token (c :: t) r.1 r.2 _ ((isToken_iff_matchAt _ _ _).mpr hm)
        (expands_regexReplaceFuel lookup fuel r.2 (by simp at hf hlen; omega))

/-- The pass of the specification has one result only. -/
theorem expands_unique (lookup : Str → Str) (s out : Str) (hex : Expands lookup s out) :
    ∀ fuel, s.length ≤ fuel → out = regexReplaceFuel lookup fuel s := by
  induction hex with
  | done =>
    intro fuel _
    cases fuel <;> rfl
  | token s p rest out ht _ ih =>
    intro fuel hf
    have hm := (isToken_iff_matchAt s p rest).mp ht
    have hlen := matchAt_rest_length s p rest hm
    cases fuel with
    | zero => omega
    | succ f =>
      cases s with
      | nil => simp at hlen
      | cons c t =>
        simp only [regexReplaceFuel, hm]
        rw [← ih f (by simp at hf hlen; omega)]
  | copy c t out hno _ ih =>
    intro fuel hf
    cases fuel with
    | zero => simp at hf
    | succ f =>
      simp only [regexReplaceFuel, (matchAt_eq_none_iff _).mpr hno]
      rw [← ih f (by simpa using hf)]

/-! ## C9: the substitution of the parameter expander -/

/-- C9: when the parameter expander visits a scalar, the string it leaves in the scalar is
the result of the single pass from left to right of the specification, and the only one:
every token `"%config." + path + "%"`, `path` being the shortest non-empty run that a `'%'`
follows, is replaced by the first element of `getValues(path, separator)` on the root, or by
nothing when that sequence is empty; other characters are copied and inserted text is not
read again.  With the root `{name: ["world"]}` the scalar `hi %config.name%!` becomes
`hi world!` and `a%config.missing%b` becomes `ab`. -/
theorem paramVisit_spec (h : Store) (root : NodePtr) (sep : Char) (fuel : Nat)
    (parent : NodePtr) (key : Str) (index : Nat) (value : Str) :
    (ParamVisitor root sep fuel).visitValue h () parent key index value
        = .ok ((), regex_replace (RegexExpander h root sep) value) ∧
    Expands (RegexExpander h root sep) value (regex_replace (RegexExpander h root sep) value) ∧
    (∀ out, Expands (RegexExpander h root sep) value out →
        out = regex_replace (RegexExpander h root sep) value) ∧
    (∀ path, RegexExpander h root sep path = (getValues h root (some path) sep).headD []) ∧
    regex_replace (RegexExpander greetingStore 0 '.') "hi %config.name%!".toList
        = "hi world!".toList ∧
    regex_replace (RegexExpander greetingStore 0 '.') "a%config.missing%b".toList
        = "ab".toList := by
  refine ⟨?_, ?_, ?_, ?_, by decide, by decide⟩
  · cases fuel <;> rfl
  · exact expands_regexReplaceFuel _ _ _ (Nat.le_refl _)
  · intro out hex
    exact expands_unique _ _ _ hex _ (Nat.le_refl _)
  · intro path
    unfold RegexExpander
    cases getValues h root (some path) sep <;> rfl

/-! ### Assignments through a reference -/

theorem deref_set (h : Store) (p q : NodePtr) (n : ConfigNode) :
    deref (h.set p n) q = if q = p ∧ p < h.length then n else deref h q := by
  by_cases hq : q = p
  · subst hq
    by_cases hl : q < h.length
    · simp [hl, deref_set_self]
    · simp [hl, List.set_eq_of_length_le (Nat.le_of_not_lt hl)]
  · simp [hq, deref_set_of_ne]

theorem deref_assignValue_of_ne (h : Store) (q pos index : Nat) (v : Str) (n : NodePtr)
    (hn : n ≠ q) : deref (assignValue h q pos index v) n = deref h n := by
  unfold assignValue
  exact deref_set_of_ne _ _ _ _ hn

theorem deref_assignValue_nodes (h : Store) (q pos index : Nat) (v : Str) (n : NodePtr) :
    (deref (assignValue h q pos index v) n).nodes = (deref h n).nodes := by
  unfold assignValue
  dsimp only
  rw [deref_set]
  split
  · rename_i hc; rw [hc.1]
  · rfl

theorem deref_assignValue_values (h : Store) (q pos index : Nat) (v : Str) :
    (deref (assignValue h q pos index v) q).values
      = (deref h q).values.modify
          (fun child => { key := child.key, value := child.value.set index v }) pos := by
  unfold assignValue
  dsimp only
  rw [deref_set]
  split
  · rfl
  · rename_i hc
    have hl : ¬ q < h.length := fun hl => hc ⟨rfl, hl⟩
    have : (deref h q).values = [] := by
      simp [deref, List.getD_eq_getElem?_getD, List.getElem?_eq_none (Nat.le_of_not_lt hl)]
    rw [this]
    simp

theorem length_assignValue (h : Store) (q pos index : Nat) (v : Str) :
    (assignValue h q pos index v).length = h.length := by
  simp [assignValue]

theorem children_assignValue (h : Store) (q pos index : Nat) (v : Str) (n : NodePtr) :
    children (assignValue h q pos index v) n = children h n := by
  unfold children
  rw [deref_assignValue_nodes]

theorem getNodesKey_assignValue (h : Store) (q pos index : Nat) (v : Str) (n : NodePtr)
    (k : Str) : getNodesKey (assignValue h q pos index v) n k = getNodesKey h n k := by
  unfold getNodesKey
  rw [deref_assignValue_nodes]

theorem getElem?_modify_values (l : children_container value_list) (pos index : Nat) (v : Str)
    (j : Nat) :
    (l.modify (fun child => { key := child.key, value := child.value.set index v }) pos)[j]?
      = if j = pos then (l[j]?).map (fun child => { key := child.key, value := child.value.set index v })
        else l[j]? := by
  rw [List.getElem?_modify]
  by_cases hj : j = pos
  · subst hj; simp
  · have : ¬ pos = j := fun e => hj e.symm
    simp [hj, this]

/-- String found through a reference after an assignment through a reference. -/
theorem valueAt_assignValue (h : Store) (q pos index : Nat) (v : Str) (n pos2 index2 : Nat) :
    valueAt (assignValue h q pos index v) n pos2 index2
      = if n = q ∧ pos2 = pos ∧ index2 = index ∧
            (∃ e, (deref h q).values[pos]? = some e ∧ index < e.value.length)
        then v else valueAt h n pos2 index2 := by
  by_cases hn : n = q
  · subst hn
    unfold valueAt
    rw [deref_assignValue_values, getElem?_modify_values]
    by_cases hp : pos2 = pos
    · subst hp
      cases he : (deref h n).values[pos2]? with
      | none => simp
      | some e =>
        simp only [if_true, Option.map_some', true_and]
        by_cases hi : index2 = index
        · subst hi
          by_cases hl : index2 < e.value.length
          · simp [hl, List.getD_eq_getElem?_getD, List.getElem?_set]
          · simp [hl, List.getD_eq_getElem?_getD, List.set_eq_of_length_le (Nat.le_of_not_lt hl)]
        · have : ¬ index = index2 := fun e => hi e.symm
          simp [hi, List.getD_eq_getElem?_getD, List.getElem?_set, this]
    · simp [hp]
  · unfold valueAt
    rw [deref_assignValue_of_ne _ _ _ _ _ _ hn]
    simp [hn]

/-- An assignment through a reference keeps the keys and the lengths of the entries. -/
theorem values_shape_assignValue (h : Store) (q pos index : Nat) (v : Str) (n pos2 : Nat)
    (e : ElementType value_list) (he : (deref h n).values[pos2]? = some e) :
    ∃ e2, (deref (assignValue h q pos index v) n).values[pos2]? = some e2 ∧
      e2.key = e.key ∧ e2.value.length = e.value.length := by
  by_cases hn : n = q
  · subst hn
    rw [deref_assignValue_values, getElem?_modify_values]
    by_cases hp : pos2 = pos
    · subst hp
      exact ⟨{ key := e.key, value := e.value.set index v }, by simp [he], rfl, by simp⟩
    · exact ⟨e, by simp [hp, he], rfl, rfl⟩
  · rw [deref_assignValue_of_ne _ _ _ _ _ _ hn]
    exact ⟨e, he, rfl, rfl⟩

theorem find_modify_pos {L : Type} (f : ElementType L → ElementType L)
    (hf : ∀ e, (f e).key = e.key) (k : Str) :
    ∀ (l : children_container L) (pos : Nat),
      find (l.modify f pos) k = find l k ∨
      ∃ e, l[pos]? = some e ∧ find l k = some e ∧ find (l.modify f pos) k = some (f e)
  | [], _ => by simp
  | x :: xs, 0 => by
    by_cases hx : x.key = k
    · right
      exact ⟨x, by simp, by simp [find, hx], by simp [find, List.modify_zero_cons, hf, hx]⟩
    · left
      simp [find, List.modify_zero_cons, hf, hx]
  | x :: xs, p + 1 => by
    by_cases hx : x.key = k
    · left
      simp [find, List.modify_succ_cons, hx]
    · rcases find_modify_pos f hf k xs p with h1 | ⟨e, h1, h2, h3⟩
      · left
        simp only [find] at h1
        simp [find, List.modify_succ_cons, hx, h1]
      · right
        simp only [find] at h2 h3
        exact ⟨e, by simpa using h1, by simp [find, hx, h2],
          by simp [find, List.modify_succ_cons, hx, h3]⟩

theorem getValuesKey_assignValue (h : Store) (q pos index : Nat) (v2 : Str) (n : NodePtr)
    (k : Str) :
    Touched (valueAt h q pos index) v2 (getValuesKey h n k)
      (getValuesKey (assignValue h q pos index v2) n k) := by
  by_cases hn : n = q
  · subst hn
    unfold getValuesKey
    rw [deref_assignValue_values]
    rcases find_modify_pos
      (fun child : ElementType value_list =>
        { key := child.key, value := child.value.set index v2 })
      (fun _ => rfl) k (deref h n).values pos with h1 | ⟨e, h1, h2, h3⟩
    · left; rw [h1]
    · rw [h2, h3]
      simp only
      by_cases hl : index < e.value.length
      · right
        refine ⟨index, ?_, rfl⟩
        simp [valueAt, h1, List.getD_eq_getElem?_getD, List.getElem?_eq_getElem hl]
      · left
        exact List.set_eq_of_length_le (Nat.le_of_not_lt hl)
  · left
    unfold getValuesKey
    rw [deref_assignValue_of_ne _ _ _ _ _ _ hn]

theorem getValuesFuel_assignValue (h : Store) (q pos index : Nat) (v2 : Str) (sep : Char) :
    ∀ (fuel : Nat) (n : NodePtr) (key : Option Str),
      Touched (valueAt h q pos index) v2 (getValuesFuel h sep fuel n key)
        (getValuesFuel (assignValue h q pos index v2) sep fuel n key)
  | 0, _, _ => Or.inl rfl
  | fuel + 1, n, none => Or.inl rfl
  | fuel + 1, n, some key => by
    simp only [getValuesFuel, getNodesKey_assignValue]
    cases strchr (clearJustSeparatorKey key sep) sep with
    | none => exact getValuesKey_assignValue h q pos index v2 n _
    | some first =>
      simp only
      cases getNodesKey h n (List.take first (clearJustSeparatorKey key sep)) with
      | nil => exact Or.inl rfl
      | cons n0 t => exact getValuesFuel_assignValue h q pos index v2 sep fuel n0 _

/-- The string that a token resolves to survives an assignment that maps it to itself. -/
theorem RegexExpander_assignValue (h : Store) (q pos index : Nat) (v2 : Str) (root : NodePtr)
    (sep : Char) (p w : Str) (hw : RegexExpander h root sep p = w)
    (hv : valueAt h q pos index = w → v2 = w) :
    RegexExpander (assignValue h q pos index v2) root sep p = w := by
  unfold RegexExpander getValues at hw ⊢
  rcases getValuesFuel_assignValue h q pos index v2 sep (pathFuel (some p)) root (some p)
    with h1 | ⟨j, h1, h2⟩
  · rw [h1]; exact hw
  · rw [h2]
    cases hL : getValuesFuel h sep (pathFuel (some p)) root (some p) with
    | nil => rw [hL] at h1; simp at h1
    | cons x t =>
      rw [hL] at h1 hw
      cases j with
      | zero =>
        simp at h1
        simp only [List.set_cons_zero]
        simp only at hw
        exact hv (by rw [← h1, hw])
      | succ j => simpa using hw

theorem regexReplaceFuel_noToken (fmt : Str → Str) :
    ∀ (fuel : Nat) (s : Str), s.length ≤ fuel → hasToken s = false →
      regexReplaceFuel fmt fuel s = s
  | 0, s, hf, _ => by
    have : s = [] := List.length_eq_zero.mp (Nat.le_zero.mp hf)
    subst this; rfl
  | fuel + 1, [], _, _ => rfl
  | fuel + 1, c :: t, hf, ht => by
    simp only [hasToken, Bool.or_eq_false_iff] at ht
    have hm : matchAt (c :: t) = none := by
      cases hm : matchAt (c :: t) with
      | none => rfl
      | some r => rw [hm] at ht; simp at ht
    simp only [regexReplaceFuel, hm]
    rw [regexReplaceFuel_noToken fmt fuel t (by simpa using hf) ht.2]

theorem regex_replace_noToken (fmt : Str → Str) (s : Str) (ht : hasToken s = false) :
    regex_replace fmt s = s :=
  regexReplaceFuel_noToken fmt _ s (Nat.le_refl _) ht

/-- A scalar that is one token becomes what the token resolves to. -/
theorem regex_replace_token (fmt : Str → Str) (p : Str) (hp : p ≠ [])
    (hp2 : '%' ∉ p.tail) : regex_replace fmt (configHead ++ p ++ ['%']) = fmt p := by
  have hm : matchAt (configHead ++ p ++ ['%']) = some (p, []) := by
    rw [matchAt_eq_some]
    cases p with
    | nil => exact absurd rfl hp
    | cons c a => exact ⟨c, a, rfl, by simp, by simpa using hp2⟩
  unfold regex_replace
  have hlen : (configHead ++ p ++ ['%']).length = (configHead ++ p).length + 1 := by
    simp only [List.length_append, List.length_singleton]
  rw [hlen]
  cases hs : configHead ++ p ++ ['%'] with
  | nil => simp at hs
  | cons c t =>
    rw [hs] at hm
    simp only [regexReplaceFuel, hm]
    cases (configHead ++ p).length <;> simp [regexReplaceFuel]

/-! ### A whole pass of the parameter expander -/

theorem runStep_param_value (root : NodePtr) (sep : Char) (fuel : Nat) (n : NodePtr)
    (st : Store × Unit) (pos : Nat) (key : Str) (i : Nat) :
    runStep (ParamVisitor root sep fuel) n st (Step.value pos key i)
      = .ok (expandAt root sep st.1 n pos i, ()) := by
  cases fuel <;> rfl

theorem mem_children_of_step (me : ConfigNode) (key : Str) (idx : Nat) (c : NodePtr)
    (hs : Step.node key idx c ∈ visitSteps me) :
    c ∈ me.nodes.flatMap (fun child => child.value) := by
  simp only [visitSteps, List.mem_append, List.mem_flatMap, List.mem_map] at hs ⊢
  rcases hs with ⟨child, hc, p, hp, heq⟩ | ⟨q, _, i, _, heq⟩
  · injection heq with _ _ h3
    refine ⟨child, hc, ?_⟩
    rw [← h3]
    exact List.mem_iff_getElem?.mpr ⟨p.1, List.mem_enum_iff_getElem?.mp hp⟩
  · exact absurd heq (by simp)

theorem step_of_mem_children (me : ConfigNode) (c : NodePtr)
    (hc : c ∈ me.nodes.flatMap (fun child => child.value)) :
    ∃ key idx, Step.node key idx c ∈ visitSteps me := by
  simp only [List.mem_flatMap] at hc
  obtain ⟨child, hch, hcv⟩ := hc
  obtain ⟨idx, hidx⟩ := List.mem_iff_getElem?.mp hcv
  refine ⟨child.key, idx, ?_⟩
  simp only [visitSteps, List.mem_append, List.mem_flatMap, List.mem_map]
  left
  exact ⟨child, hch, (idx, c), List.mk_mem_enum_iff_getElem?.mpr hidx, rfl⟩

theorem step_of_value (me : ConfigNode) (pos i : Nat) (e : ElementType value_list)
    (he : me.values[pos]? = some e) (hi : i < e.value.length) :
    Step.value pos e.key i ∈ visitSteps me := by
  simp only [visitSteps, List.mem_append, List.mem_flatMap, List.mem_map, List.mem_range]
  right
  exact ⟨(pos, e), List.mk_mem_enum_iff_getElem?.mpr he, i, hi, rfl⟩

/-- Steps that all succeed and keep a property `K` of the store. -/
theorem runSteps_good {σ : Type} (v : Visitor σ) (self : NodePtr) (K : Store → Prop) :
    ∀ (steps : List Step),
      (∀ s ∈ steps, ∀ st : Store × σ, K st.1 → ∃ st2, runStep v self st s = .ok st2 ∧ K st2.1) →
      ∀ st : Store × σ, K st.1 → ∃ st2, runSteps v self steps st = .ok st2 ∧ K st2.1
  | [], _, st, hk => ⟨st, rfl, hk⟩
  | s :: rest, hgood, st, hk => by
    obtain ⟨st1, h1, hk1⟩ := hgood s (by simp) st hk
    obtain ⟨st2, h2, hk2⟩ := runSteps_good v self K rest
      (fun x hx => hgood x (List.mem_cons_of_mem _ hx)) st1 hk1
    exact ⟨st2, by simp only [runSteps, h1, h2], hk2⟩

/-- Steps that all succeed and keep `K` and `K2`, one of them leading from `K` to `K2`. -/
theorem runSteps_establish {σ : Type} (v : Visitor σ) (self : NodePtr) (K K2 : Store → Prop)
    (steps : List Step) (s : Step) (hs : s ∈ steps)
    (hK : ∀ x ∈ steps, ∀ st : Store × σ, K st.1 → ∃ st2, runStep v self st x = .ok st2 ∧ K st2.1)
    (hK2 : ∀ x ∈ steps, ∀ st : Store × σ, K2 st.1 →
      ∃ st2, runStep v self st x = .ok st2 ∧ K2 st2.1)
    (hE : ∀ st : Store × σ, K st.1 → ∃ st2, runStep v self st s = .ok st2 ∧ K2 st2.1)
    (st : Store × σ) (hk : K st.1) :
    ∃ st2, runSteps v self steps st = .ok st2 ∧ K2 st2.1 := by
  obtain ⟨l1, l2, hl⟩ := List.append_of_mem hs
  subst hl
  obtain ⟨st1, h1, hk1⟩ := runSteps_good v self K l1
    (fun x hx => hK x (List.mem_append_left _ hx)) st hk
  obtain ⟨st2, h2, hk2⟩ := hE st1 hk1
  obtain ⟨st3, h3, hk3⟩ := runSteps_good v self K2 l2
    (fun x hx => hK2 x (List.mem_append_right _ (List.mem_cons_of_mem _ hx))) st2 hk2
  refine ⟨st3, ?_, hk3⟩
  rw [runSteps_append, h1]
  simp only [runSteps, h2, h3]

/-- Every step of `accept` under the parameter expander succeeds and keeps a property that
every visit of a scalar keeps, when the subnodes are not deeper than the budget. -/
theorem param_step_good (h0 : Store) (root : NodePtr) (sep : Char) (K : Store → Prop)
    (hK : ∀ h q pos i, K h → K (expandAt root sep h q pos i))
    (fuel : Nat)
    (hrec : ∀ f, fuel = f + 1 → ∀ c h, withinDepth h0 f c = true → K h →
      ∃ h2, accept (ParamVisitor root sep f) c (h, ()) = .ok (h2, ()) ∧ K h2)
    (n : NodePtr) (h : Store) (hd : withinDepth h0 fuel n = true)
    (hch : children h n = children h0 n) :
    ∀ s ∈ visitSteps (deref h n), ∀ st : Store × Unit, K st.1 →
      ∃ st2, runStep (ParamVisitor root sep fuel) n st s = .ok st2 ∧ K st2.1 := by
  intro s hs st hst
  cases s with
  | value pos key i =>
    exact ⟨_, runStep_param_value root sep fuel n st pos key i, hK _ _ _ _ hst⟩
  | node key idx c =>
    have hc : c ∈ children h0 n := by
      rw [← hch]
      exact mem_children_of_step _ key idx c hs
    cases fuel with
    | zero =>
      simp only [withinDepth, List.isEmpty_iff] at hd
      rw [hd] at hc
      exact absurd hc (by simp)
    | succ f =>
      simp only [withinDepth, List.all_eq_true] at hd
      obtain ⟨h2, he, hk2⟩ := hrec f rfl c st.1 (hd c hc) hst
      exact ⟨(h2, ()), he, hk2⟩

/-- With subnodes not deeper than the budget, `accept` under the parameter expander returns
and keeps every property that every visit of a scalar keeps. -/
theorem param_accept_good (h0 : Store) (root : NodePtr) (sep : Char) (K : Store → Prop)
    (hK : ∀ h q pos i, K h → K (expandAt root sep h q pos i))
    (hKn : ∀ h, K h → ∀ n, children h n = children h0 n) :
    ∀ (fuel : Nat) (n : NodePtr) (h : Store), withinDepth h0 fuel n = true → K h →
      ∃ h2, accept (ParamVisitor root sep fuel) n (h, ()) = .ok (h2, ()) ∧ K h2 := by
  intro fuel
  induction fuel with
  | zero =>
    intro n h hd hk
    rw [accept_eq_runSteps]
    obtain ⟨st2, h2, hk2⟩ := runSteps_good (ParamVisitor root sep 0) n K _
      (param_step_good h0 root sep K hK 0 (fun f hf => absurd hf (by simp)) n h hd (hKn h hk n))
      (h, ()) hk
    exact ⟨st2.1, h2, hk2⟩
  | succ f ih =>
    intro n h hd hk
    rw [accept_eq_runSteps]
    obtain ⟨st2, h2, hk2⟩ := runSteps_good (ParamVisitor root sep (f + 1)) n K _
      (param_step_good h0 root sep K hK (f + 1)
        (fun f2 hf => by
          have : f = f2 := by omega
          subst this
          exact ih) n h hd (hKn h hk n))
      (h, ()) hk
    exact ⟨st2.1, h2, hk2⟩

/-- With the budget covering the depth, `accept` under the parameter expander on a node from
which the node `target` is reached visits the scalar at `index` of the entry at `pos` of
`target`: a property `K2` that this visit brings about and every visit keeps holds after
the call. -/
theorem param_accept_reach (h0 : Store) (root : NodePtr) (sep : Char) (K K2 : Store → Prop)
    (target pos index : Nat)
    (hK : ∀ h q pos i, K h → K (expandAt root sep h q pos i))
    (hKn : ∀ h, K h → ∀ n, children h n = children h0 n)
    (hK2 : ∀ h q pos i, K2 h → K2 (expandAt root sep h q pos i))
    (hK2n : ∀ h, K2 h → ∀ n, children h n = children h0 n)
    (hE : ∀ h, K h → K2 (expandAt root sep h target pos index))
    (hshape : ∀ h, K h → ∃ e, (deref h target).values[pos]? = some e ∧ index < e.value.length) :
    ∀ (fuel : Nat) (n : NodePtr) (h : Store), withinDepth h0 fuel n = true →
      reaches h0 target fuel n = true → K h →
      ∃ h2, accept (ParamVisitor root sep fuel) n (h, ()) = .ok (h2, ()) ∧ K2 h2 := by
  intro fuel
  induction fuel with
  | zero =>
    intro n h hd hr hk
    simp only [reaches, decide_eq_true_eq] at hr
    subst hr
    obtain ⟨e, he, hi⟩ := hshape h hk
    rw [accept_eq_runSteps]
    obtain ⟨st2, h2, hk2⟩ := runSteps_establish (ParamVisitor root sep 0) n K K2 _
      (Step.value pos e.key index) (step_of_value _ pos index e he hi)
      (param_step_good h0 root sep K hK 0 (fun f hf => absurd hf (by simp)) n h hd (hKn h hk n))
      (param_step_good h0 root sep K2 hK2 0 (fun f hf => absurd hf (by simp)) n h hd
        (hKn h hk n))
      (fun st hst => ⟨_, runStep_param_value root sep 0 n st pos e.key index, hE _ hst⟩)
      (h, ()) hk
    exact ⟨st2.1, h2, hk2⟩
  | succ f ih =>
    intro n h hd hr hk
    have hgK := param_step_good h0 root sep K hK (f + 1)
      (fun f2 hf => by
        have : f = f2 := by omega
        subst this
        exact param_accept_good h0 root sep K hK hKn f) n h hd (hKn h hk n)
    have hgK2 := param_step_good h0 root sep K2 hK2 (f + 1)
      (fun f2 hf => by
        have : f = f2 := by omega
        subst this
        exact param_accept_good h0 root sep K2 hK2 hK2n f) n h hd (hKn h hk n)
    rw [accept_eq_runSteps]
    simp only [reaches, Bool.or_eq_true, decide_eq_true_eq, List.any_eq_true] at hr
    rcases hr with hr | ⟨c, hc, hrc⟩
    · subst hr
      obtain ⟨e, he, hi⟩ := hshape h hk
      obtain ⟨st2, h2, hk2⟩ := runSteps_establish (ParamVisitor root sep (f + 1)) n K K2 _
        (Step.value pos e.key index) (step_of_value _ pos index e he hi) hgK hgK2
        (fun st hst => ⟨_, runStep_param_value root sep (f + 1) n st pos e.key index, hE _ hst⟩)
        (h, ()) hk
      exact ⟨st2.1, h2, hk2⟩
    · have hc2 : c ∈ (deref h n).nodes.flatMap (fun child => child.value) := by
        have := hKn h hk n
        unfold children at this
        rw [this]
        exact hc
      obtain ⟨key, idx, hstep⟩ := step_of_mem_children _ c hc2
      simp only [withinDepth, List.all_eq_true] at hd
      obtain ⟨st2, h2, hk2⟩ := runSteps_establish (ParamVisitor root sep (f + 1)) n K K2 _
        (Step.node key idx c) hstep hgK hgK2
        (fun st hst => by
          obtain ⟨h3, he3, hk3⟩ := ih c st.1 (hd c hc) hrc hst
          exact ⟨(h3, ()), he3, hk3⟩)
        (h, ()) hk
      exact ⟨st2.1, h2, hk2⟩

theorem RegexExpander_eq_headD (h : Store) (root : NodePtr) (sep : Char) (path : Str) :
    RegexExpander h root sep path = (getValues h root (some path) sep).headD [] := by
  unfold RegexExpander
  cases getValues h root (some path) sep <;> rfl

theorem paramInv_children (h0 : Store) (root : NodePtr) (sep : Char) (target pos index : Nat)
    (p w : Str) (h : Store) (hk : ParamInv h0 root sep target pos index p w h) (n : NodePtr) :
    children h n = children h0 n := by
  unfold children
  rw [hk.1 n]

/-- New string of the visited scalar when the invariant holds. -/
theorem paramInv_new_value (h0 : Store) (root : NodePtr) (sep : Char) (target pos index : Nat)
    (p w : Str) (hp : p ≠ []) (hp2 : '%' ∉ p.tail) (hw : hasToken w = false) (h : Store)
    (hk : ParamInv h0 root sep target pos index p w h) :
    regex_replace (RegexExpander h root sep) (valueAt h target pos index) = w := by
  rcases hk.2.2.1 with ht | ht
  · rw [ht, regex_replace_token _ p hp hp2]
    exact hk.2.1
  · rw [ht]
    exact regex_replace_noToken _ w hw

/-- Every visit of a scalar keeps the invariant. -/
theorem paramInv_expandAt (h0 : Store) (root : NodePtr) (sep : Char) (target pos index : Nat)
    (p w : Str) (hp : p ≠ []) (hp2 : '%' ∉ p.tail) (hw : hasToken w = false) (h : Store)
    (q pos2 i2 : Nat) (hk : ParamInv h0 root sep target pos index p w h) :
    ParamInv h0 root sep target pos index p w (expandAt root sep h q pos2 i2) := by
  obtain ⟨h1, h2, h3, e, he, hi⟩ := hk
  refine ⟨?_, ?_, ?_, ?_⟩
  · intro n
    unfold expandAt
    rw [deref_assignValue_nodes]
    exact h1 n
  · unfold expandAt
    apply RegexExpander_assignValue _ _ _ _ _ _ _ _ _ h2
    intro hv
    rw [hv]
    exact regex_replace_noToken _ w hw
  · unfold expandAt
    rw [valueAt_assignValue]
    split
    · rename_i hc
      obtain ⟨rfl, rfl, rfl, _⟩ := hc
      right
      exact paramInv_new_value h0 root sep target pos index p w hp hp2 hw h
        ⟨h1, h2, h3, e, he, hi⟩
    · exact h3
  · unfold expandAt
    obtain ⟨e2, he2, _, hl⟩ := values_shape_assignValue h q pos2 i2
      (regex_replace (RegexExpander h root sep) (valueAt h q pos2 i2)) target pos e he
    exact ⟨e2, he2, by rw [hl]; exact hi⟩

/-- The visit of the scalar itself leaves in it the string that the path resolves to. -/
theorem paramInv_establish (h0 : Store) (root : NodePtr) (sep : Char) (target pos index : Nat)
    (p w : Str) (hp : p ≠ []) (hp2 : '%' ∉ p.tail) (hw : hasToken w = false) (h : Store)
    (hk : ParamInv h0 root sep target pos index p w h) :
    valueAt (expandAt root sep h target pos index) target pos index = w := by
  unfold expandAt
  rw [valueAt_assignValue, if_pos ⟨rfl, rfl, rfl, hk.2.2.2⟩]
  exact paramInv_new_value h0 root sep target pos index p w hp hp2 hw h hk

/-- Once the scalar holds the string that the path resolves to, every visit keeps it. -/
theorem paramInv_done_expandAt (root : NodePtr) (sep : Char)
    (target pos index : Nat) (w : Str) (hw : hasToken w = false) (h : Store)
    (q pos2 i2 : Nat) (hd : valueAt h target pos index = w) :
    valueAt (expandAt root sep h q pos2 i2) target pos index = w := by
  unfold expandAt
  rw [valueAt_assignValue]
  split
  · rename_i hc
    obtain ⟨rfl, rfl, rfl, _⟩ := hc
    rw [hd]
    exact regex_replace_noToken _ w hw
  · exact hd

/-! ## C10: a scalar that is a single parameter token, after the whole pass -/

/-- C10 as stated fails: on `{a: ["%config.b%"], b: ["%config.c%"], c: ["x"]}` the pass
visits `a` before `b`, so `a` receives the string that `b` holds at that moment,
`%config.c%`, while after the pass the first element of `getValues("b")` is `x`. -/
theorem paramExpander_order_counterexample :
    valueAt chainStore 0 0 0 = configHead ++ "b".toList ++ ['%'] ∧
    ConfigParamExpander '.' 0 chainStore 0 = .ok chainAfter ∧
    valueAt chainAfter 0 0 0 = "%config.c%".toList ∧
    (getValues chainAfter 0 (some "b".toList) '.').headD [] = "x".toList := by
  decide

/-- C10 (amended): let the subnodes below the root be no deeper than the budget of the
pass, and let a scalar element of a node reached from the root be the single token
`%config.p%`.  When the first element of `getValues(p)` on the root (the empty string when
there is none) contains no parameter token, the pass returns, and afterwards the element
equals the first element of `getValues(p)` on the root as it stands after the pass, which is
the one from before the pass. -/
theorem paramExpander_single_token (h : Store) (root : NodePtr) (sep : Char) (fuel : Nat)
    (target pos index : Nat) (e : ElementType value_list) (p : Str)
    (hdepth : withinDepth h fuel root = true)
    (hreach : reaches h target fuel root = true)
    (he : (deref h target).values[pos]? = some e)
    (hi : e.value[index]? = some (configHead ++ p ++ ['%']))
    (hp : p ≠ []) (hp2 : '%' ∉ p.tail)
    (hw : hasToken ((getValues h root (some p) sep).headD []) = false) :
    ∃ h2, ConfigParamExpander sep fuel h root = .ok h2 ∧
      valueAt h2 target pos index = (getValues h2 root (some p) sep).headD [] ∧
      (getValues h2 root (some p) sep).headD [] = (getValues h root (some p) sep).headD [] := by
  rw [← RegexExpander_eq_headD] at hw
  have hlt : index < e.value.length := by
    by_contra hn
    rw [List.getElem?_eq_none (Nat.le_of_not_lt hn)] at hi
    exact absurd hi (by simp)
  have hinit : ParamInv h root sep target pos index p (RegexExpander h root sep p) h := by
    refine ⟨fun _ => rfl, rfl, Or.inl ?_, e, he, hlt⟩
    simp [valueAt, he, List.getD_eq_getElem?_getD, hi]
  obtain ⟨h2, hacc, hk2, hdone⟩ := param_accept_reach h root sep
    (ParamInv h root sep target pos index p (RegexExpander h root sep p))
    (fun x => ParamInv h root sep target pos index p (RegexExpander h root sep p) x ∧
      valueAt x target pos index = RegexExpander h root sep p)
    target pos index
    (fun x q pos2 i2 hk => paramInv_expandAt h root sep target pos index p _ hp hp2 hw x
      q pos2 i2 hk)
    (fun x hk n => paramInv_children h root sep target pos index p _ x hk n)
    (fun x q pos2 i2 hk => ⟨paramInv_expandAt h root sep target pos index p _ hp hp2 hw x
      q pos2 i2 hk.1, paramInv_done_expandAt root sep target pos index _ hw x q pos2 i2 hk.2⟩)
    (fun x hk n => paramInv_children h root sep target pos index p _ x hk.1 n)
    (fun x hk => ⟨paramInv_expandAt h root sep target pos index p _ hp hp2 hw x
      target pos index hk, paramInv_establish h root sep target pos index p _ hp hp2 hw x hk⟩)
    (fun x hk => hk.2.2.2)
    fuel root h hdepth hreach hinit
  refine ⟨h2, ?_, ?_, ?_⟩
  · simp only [ConfigParamExpander, hacc]
  · rw [← RegexExpander_eq_headD, hk2.2.1]
    exact hdone
  · rw [← RegexExpander_eq_headD, ← RegexExpander_eq_headD]
    exact hk2.2.1

/-- Witness of C10 (amended): in `{sub: {ref: ["%config.name%"]}, name: ["world"]}` the
scalar `ref` of the subnode is the token of the path `name`. -/
theorem paramExpander_single_token_witness :
    ∃ h2, ConfigParamExpander '.' 1 referStore 0 = .ok h2 ∧
      valueAt h2 1 0 0 = (getValues h2 0 (some "name".toList) '.').headD [] ∧
      (getValues h2 0 (some "name".toList) '.').headD []
        = (getValues referStore 0 (some "name".toList) '.').headD [] :=
  paramExpander_single_token referStore 0 '.' 1 1 0 0
    { key := "ref".toList, value := ["%config.name%".toList] } "name".toList
    (by decide) (by decide) (by decide) (by decide) (by decide) (by decide) (by decide)

/-! # Theorems on the node expander and the facade -/

/-! ### The library -/

theorem insertionLibrary_conforms : insertionLibrary.Conforms := by
  refine ⟨fun m => List.Perm.refl m, fun l => ⟨List.perm_insertionSort _ l, ?_⟩⟩
  haveI : IsTotal KeyNode (fun a b => a.index ≥ b.index) :=
    ⟨fun a b => Nat.le_total b.index a.index⟩
  haveI : IsTrans KeyNode (fun a b => a.index ≥ b.index) :=
    ⟨fun a b c hab hbc => Nat.le_trans hbc hab⟩
  exact List.sorted_insertionSort _ l

theorem conforms_iterate_single (lib : Library) (hl : lib.Conforms)
    (e : NodePtr × List KeyNode) : lib.iterate [e] = [e] :=
  List.perm_singleton.mp (hl.1 [e])

theorem conforms_iterate_nil (lib : Library) (hl : lib.Conforms) : lib.iterate [] = [] :=
  List.perm_nil.mp (hl.1 [])

theorem conforms_sort_single (lib : Library) (hl : lib.Conforms) (r : KeyNode) :
    lib.sort [r] = [r] :=
  List.perm_singleton.mp (hl.2 [r]).1

/-! ## C14: the up-marker of an expander with a level character -/

/-- C14 fails on the code: the constructor adds the two level characters and the separator
as integers, so for every non-null level character `levelUp` is one character and never the
three-character string; for the level `-` and the separator `.` it is the character 136,
not `--.`, and in the token `%node--.x%` the text `--.` is read as part of the path. -/
theorem levelUp_is_one_character :
    (∀ (sep : Separator) (word : Str) (level : Char), level ≠ NUL →
      (ConfigNodeExpander.construct sep word level).levelUp
        = [Char.ofNat ((level.toNat + level.toNat + sep.toNat) % 256)]) ∧
    (ConfigNodeExpander.construct '.' "node".toList '-').levelUp = [Char.ofNat 136] ∧
    (ConfigNodeExpander.construct '.' "node".toList '-').levelUp ≠ "--.".toList ∧
    nodeRegex (ConfigNodeExpander.construct '.' "node".toList '-') "%node--.x%".toList
      = some ([], [], "--.x".toList) := by
  refine ⟨?_, by decide, by decide, by decide⟩
  intro sep word level hl
  simp [ConfigNodeExpander.construct, hl, charSum, Nat.add_assoc]

/-! ## C15: the separator behind the prefix word -/

/-- C15 as stated fails: with the level character `-` the prefix is `%node`, without the
separator. -/
theorem prefixText_level_counterexample :
    (ConfigNodeExpander.construct '.' "node".toList '-').prefixText = "%node".toList ∧
    (ConfigNodeExpander.construct '.' "node".toList '-').prefixText ≠ "%node.".toList := by
  decide

/-- C15 (amended): the prefix that the expander matches is `%` and the prefix word, followed
by the separator exactly when no level character is given. -/
theorem prefixText_spec (sep : Separator) (word : Str) (level : Char) :
    (ConfigNodeExpander.construct sep word level).prefixText
      = if level = NUL then '%' :: cstr word ++ [sep] else '%' :: cstr word := by
  unfold ConfigNodeExpander.construct
  split <;> rfl

/-! ## C20: missing paths and null cursors in the facade -/

/-- C20: `scope(p)` has a null cursor exactly when the cursor is null or `getNodes(p)` is
empty, and is otherwise cursored on the first subnode at `p`; a `Config` with a null cursor
answers `none` to `get`, the empty sequence to `getAll`, `getRef` and `scopes`, a `Config`
with a null cursor to `scope`, and converts to `false`; the conversion is `true` exactly for
a non-null cursor.  No call of the facade on a missing path is an error. -/
theorem config_null_cursor (h : Store) (c : Config) (p : Str) :
    ((c.scope h p).node = none ↔
      (c.node = none ∨ ∃ n, c.node = some n ∧ getNodes h n (some p) c.separator = [])) ∧
    (∀ n n0 t, c.node = some n → getNodes h n (some p) c.separator = n0 :: t →
      c.scope h p = { root := c.root, separator := c.separator, node := some n0 }) ∧
    (c.node = none →
      c.get h p = none ∧ c.getAll h p = [] ∧ c.getRef h p = [] ∧
      (c.scope h p).node = none ∧ c.scopes h p = [] ∧ c.toBool = false) ∧
    (c.toBool = true ↔ c.node ≠ none) ∧
    (∀ n, c.node = some n → getValues h n (some p) c.separator = [] →
      c.get h p = none ∧ c.getAll h p = [] ∧ c.getRef h p = []) := by
  refine ⟨?_, ?_, ?_, ?_, ?_⟩
  · cases hn : c.node with
    | none => simp [Config.scope, hn]
    | some n =>
      simp only [Config.scope, hn, getNodesStr]
      cases hg : getNodes h n (some p) c.separator with
      | nil => simp [hg]
      | cons n0 t => simp [hg]
  · intro n n0 t hn hg
    simp only [Config.scope, hn, getNodesStr, hg]
  · intro hn
    simp [Config.get, Config.getAll, Config.getRef, Config.scope, Config.scopes,
      Config.toBool, hn]
  · cases hn : c.node <;> simp [Config.toBool, hn]
  · intro n hn hg
    simp [Config.get, Config.getAll, Config.getRef, hn, getValuesStr, hg]

/-! ### Paths put together from two paths -/

theorem cstr_of_not_mem : ∀ (p : Str), NUL ∉ p → cstr p = p
  | [], _ => rfl
  | c :: p, h => by
    have hc : c ≠ NUL := fun e => h (by simp [e])
    rw [cstr_cons, if_neg hc, cstr_of_not_mem p (fun hm => h (List.mem_cons_of_mem _ hm))]

theorem cstr_append_cons : ∀ (p : Str) (sep : Char) (q : Str), NUL ∉ p → sep ≠ NUL →
    cstr (p ++ sep :: q) = p ++ sep :: cstr q
  | [], sep, q, _, hs => by simp [cstr_cons, hs]
  | c :: p, sep, q, h, hs => by
    have hc : c ≠ NUL := fun e => h (by simp [e])
    simp only [List.cons_append, cstr_cons, if_neg hc]
    rw [cstr_append_cons p sep q (fun hm => h (List.mem_cons_of_mem _ hm)) hs]

theorem normPath_append_cons_any (sep : Char) (r : Str) (hr : r ≠ []) : ∀ (p : Str),
    normPath sep (p ++ sep :: r) = p ++ sep :: normPath sep r
  | [] => normPath_cons sep sep r hr (fun _ => rfl)
  | c :: p => by
    have ih := normPath_append_cons_any sep r hr p
    have h1 : normPath sep (c :: (p ++ sep :: r)) = c :: normPath sep (p ++ sep :: r) := by
      apply normPath_cons sep c _ (by simp)
      intro e
      have := congrArg List.length e
      cases r with
      | nil => exact absurd rfl hr
      | cons y ys => simp at this; omega
    rw [ih] at h1
    simpa using h1

theorem normPath_append_single (sep : Char) (p : Str) (hp : p ≠ []) (hs : ¬ [sep] <:+ p) :
    normPath sep (p ++ [sep]) = p ++ [sep] := by
  unfold normPath
  rw [if_neg]
  rintro (h1 | h2)
  · have := congrArg List.length h1
    cases p with
    | nil => exact hp rfl
    | cons c t => simp at this
  · apply hs
    have h3 : [sep] ++ [sep] <:+ p ++ [sep] := h2
    rw [← List.reverse_prefix] at h3 ⊢
    simp only [List.reverse_append, List.reverse_cons, List.reverse_nil, List.nil_append,
      List.singleton_append] at h3 ⊢
    exact (List.cons_prefix_cons.mp h3).2

theorem normPath_of_cond (sep : Char) (p : Str) (h1 : p ≠ [sep]) (h2 : ¬ [sep, sep] <:+ p) :
    normPath sep p = p := by
  unfold normPath
  rw [if_neg]
  rintro (h | h)
  · exact h1 h
  · exact h2 h

theorem splitPath_append_any (sep : Char) (r : Str) : ∀ (p : Str),
    splitPath sep (p ++ sep :: r) = splitPath sep p ++ splitPath sep r
  | [] => by simp [splitPath]
  | c :: p => by
    have ih := splitPath_append_any sep r p
    simp only [List.cons_append, splitPath]
    by_cases hc : c = sep
    · simp [hc, ih]
    · simp only [hc, if_false, List.append_eq]
      rw [ih]
      cases hsp : splitPath sep p with
      | nil => exact absurd hsp (splitPath_ne_nil sep p)
      | cons s ss => simp

theorem walkGen_append {α : Type} (h : Store) (term : NodePtr → Str → List α) (s : List Str)
    (hs : s ≠ []) : ∀ (a : List Str) (n : NodePtr), a ≠ [] →
      walkGen h term n (a ++ s) =
        match walkGen h (getNodesKey h) n a with
        | [] => []
        | m :: _ => walkGen h term m s
  | [], _, ha => absurd rfl ha
  | [k], n, _ => by
    rw [List.singleton_append, walkGen_cons h term n k s hs]
    rfl
  | k :: k2 :: ks, n, _ => by
    rw [List.cons_append, walkGen_cons h term n k _ (by simp),
      walkGen_cons h (getNodesKey h) n k _ (by simp)]
    cases getNodesKey h n k with
    | nil => rfl
    | cons m t => exact walkGen_append h term s hs (k2 :: ks) m (by simp)

/-! ## C19: `scope(p)` followed by `get(q)` -/

/-- C19 as stated fails: on the tree `{"": {x: ["1"]}}` the separator-only path `.` gives a
scope on the subnode under the empty key, in which `get("x")` is `1`, while `get("..x")` on
the root walks two empty segments and finds nothing. -/
theorem scope_get_counterexample :
    (Config.scope emptySegmentStore { root := 0, separator := '.', node := some 0 }
        ".".toList).node = some 1 ∧
    Config.get emptySegmentStore
      (Config.scope emptySegmentStore { root := 0, separator := '.', node := some 0 } ".".toList)
      "x".toList = some "1".toList ∧
    Config.get emptySegmentStore { root := 0, separator := '.', node := some 0 }
      (".".toList ++ '.' :: "x".toList) = none := by
  decide

/-- C19 (amended): for a non-null separator, a path `p` without NUL that is not the
separator alone and does not end in two separators, and a path `q` that is non-empty unless
`p` is non-empty and does not end in the separator: when `scope(p)` has a non-null cursor,
`scope(p).get(q)` equals `get(p + separator + q)`. -/
theorem scope_get_spec (h : Store) (c : Config) (p q : Str)
    (hsep : c.separator ≠ NUL) (hnul : NUL ∉ p) (hp1 : p ≠ [c.separator])
    (hp2 : ¬ [c.separator, c.separator] <:+ p)
    (hq : cstr q ≠ [] ∨ (p ≠ [] ∧ ¬ [c.separator] <:+ p))
    (hscope : (c.scope h p).node ≠ none) :
    (c.scope h p).get h q = c.get h (p ++ c.separator :: q) := by
  cases hn : c.node with
  | none => simp [Config.scope, hn] at hscope
  | some n =>
    have hnorm : normPath c.separator (cstr (p ++ c.separator :: q))
        = p ++ c.separator :: normPath c.separator (cstr q) := by
      rw [cstr_append_cons p _ q hnul hsep]
      by_cases hcq : cstr q = []
      · rcases hq with hq | ⟨hq1, hq2⟩
        · exact absurd hcq hq
        · rw [hcq, normPath_nil]
          exact normPath_append_single _ p hq1 hq2
      · exact normPath_append_cons_any _ _ hcq p
    have hcomb : getValues h n (some (p ++ c.separator :: q)) c.separator
        = match getNodes h n (some p) c.separator with
          | [] => []
          | m :: _ => getValues h m (some q) c.separator := by
      rw [getValues_eq_walkGen h n _ hsep, hnorm, splitPath_append_any,
        walkGen_append h _ _ (splitPath_ne_nil _ _) _ n (splitPath_ne_nil _ _),
        getNodes_eq_walkGen h n p hsep, cstr_of_not_mem p hnul,
        normPath_of_cond _ p hp1 hp2]
      cases walkGen h (getNodesKey h) n (splitPath c.separator p) with
      | nil => rfl
      | cons m t => exact (getValues_eq_walkGen h m q hsep).symm
    simp only [Config.scope, hn, getNodesStr] at hscope ⊢
    cases hg : getNodes h n (some p) c.separator with
    | nil => simp [hg] at hscope
    | cons m t =>
      simp only [Config.get, hn, getValuesStr, hcomb, hg]

/-- Witness of C19 (amended): the scope `a` of a tree with two subnodes `a`, and `b` in it. -/
theorem scope_get_spec_witness :
    Config.get pairStore
        (Config.scope pairStore { root := 0, separator := '.', node := some 0 } "a".toList)
        "b".toList
      = Config.get pairStore { root := 0, separator := '.', node := some 0 }
          ("a".toList ++ '.' :: "b".toList) :=
  scope_get_spec pairStore { root := 0, separator := '.', node := some 0 } "a".toList
    "b".toList (by decide) (by decide) (by decide) (by decide) (by decide) (by decide)

/-! ### Traversal by the visitor of the node expander -/

theorem modify_eq_self_of_none {α : Type} (f : α → α) : ∀ (l : List α) (pos : Nat),
    l[pos]? = none → l.modify f pos = l
  | [], _, _ => by simp
  | _ :: _, 0, h => by simp at h
  | y :: ys, p + 1, h => by
    simp at h
    simp [List.modify_succ_cons, modify_eq_self_of_none f ys p (by simpa using h)]

/-- Writing back the string that a reference holds leaves the store as it is, whatever the
reference. -/
theorem assignValue_valueAt_any (h : Store) (self : NodePtr) (pos index : Nat) :
    assignValue h self pos index (valueAt h self pos index) = h := by
  cases hc : (deref h self).values[pos]? with
  | none =>
    unfold assignValue
    dsimp only
    rw [modify_eq_self_of_none _ _ _ hc]
    exact set_deref_self h self
  | some child =>
    by_cases hi : index < child.value.length
    · exact assignValue_valueAt h self pos index child hc hi
    · unfold assignValue
      dsimp only
      have : (deref h self).values.modify
          (fun c => { c with value := c.value.set index (valueAt h self pos index) }) pos
          = (deref h self).values := by
        apply modify_eq_self _ _ _ child hc
        show ({ key := child.key, value := child.value.set index _ } :
          ElementType value_list) = child
        rw [List.set_eq_of_length_le (Nat.le_of_not_lt hi)]
      rw [this]
      exact set_deref_self h self

theorem mem_of_findReplacements : ∀ (result : replacement_container) (node : NodePtr)
    (l : List KeyNode), findReplacements result node = some l → (node, l) ∈ result
  | [], _, _, h => by simp [findReplacements] at h
  | entry :: rest, node, l, h => by
    simp only [findReplacements] at h
    by_cases he : entry.1 = node
    · simp only [he, if_true, Option.some.injEq] at h
      have : entry = (node, l) := Prod.ext he h
      simp [this]
    · simp only [he, if_false] at h
      exact List.mem_cons_of_mem _ (mem_of_findReplacements rest node l h)

/-- What a call of `addKeyNode` that returns does to the map. -/
theorem addKeyNode_effect (h : Store) (sep : Separator) (result : replacement_container)
    (scope : Option NodePtr) (parent : NodePtr) (key : Str) (index : Nat) (source : Str)
    (r : Bool × replacement_container)
    (hr : addKeyNode h sep result scope parent key index source = .ok r) :
    (r.1 = false ∧ r.2 = result) ∨
    (r.1 = true ∧ ∃ node, NodeSource h result node ∧
      r.2 = emplace result parent { key := key, node := node, index := index }) := by
  unfold addKeyNode at hr
  cases scope with
  | none => simp at hr
  | some s =>
    simp only at hr
    cases hg : getNodes h s (some source) sep with
    | cons n0 t =>
      rw [hg] at hr
      simp only [Outcome.ok.injEq] at hr
      subst hr
      exact Or.inr ⟨rfl, n0, Or.inl ⟨s, source, sep, t, hg⟩, rfl⟩
    | nil =>
      rw [hg] at hr
      simp only at hr
      cases hb : getBaseNode h sep s source with
      | none =>
        rw [hb] at hr
        simp only [Outcome.ok.injEq] at hr
        subst hr
        exact Or.inl ⟨rfl, rfl⟩
      | some b =>
        rw [hb] at hr
        simp only at hr
        cases hf : findReplacements result b.node with
        | none =>
          rw [hf] at hr
          simp only [Outcome.ok.injEq] at hr
          subst hr
          exact Or.inl ⟨rfl, rfl⟩
        | some l =>
          rw [hf] at hr
          simp only at hr
          cases hfind : l.find? (fun r => decide (r.key = b.key)) with
          | none =>
            rw [hfind] at hr
            simp only [Outcome.ok.injEq] at hr
            subst hr
            exact Or.inl ⟨rfl, rfl⟩
          | some rep =>
            rw [hfind] at hr
            simp only [Outcome.ok.injEq] at hr
            subst hr
            refine Or.inr ⟨rfl, rep.node, Or.inr ⟨(b.node, l), ?_, rep, ?_, rfl⟩, rfl⟩
            · exact mem_of_findReplacements _ _ _ hf
            · exact List.mem_of_find?_eq_some hfind

/-- What a call of `visit` on a scalar that returns does: the string stays, and the map
stays when the string does not match, and gains one replacement for this scalar when it
matches. -/
theorem nodeVisitValue_effect (x : ConfigNodeExpander) (root : NodePtr) (h : Store)
    (result : replacement_container) (parent : NodePtr) (key : Str) (index : Nat)
    (value : Str) (r : replacement_container × Str)
    (hr : nodeVisitValue x root h result parent key index value = .ok r) :
    r.2 = value ∧
    ((nodeRegex x value = none ∧ r.1 = result) ∨
     (∃ what node, nodeRegex x value = some what ∧ NodeSource h result node ∧
        r.1 = emplace result parent { key := key, node := node, index := index })) := by
  unfold nodeVisitValue at hr
  cases hm : nodeRegex x value with
  | none =>
    rw [hm] at hr
    simp only [Outcome.ok.injEq] at hr
    subst hr
    exact ⟨rfl, Or.inl ⟨rfl, rfl⟩⟩
  | some what =>
    rw [hm] at hr
    simp only at hr
    cases h1 : addKeyNode h x.separator result (tokenScope x root h parent what) parent key
        index what.2.2 with
    | error e => rw [h1] at hr; simp at hr
    | ok r1 =>
      rw [h1] at hr
      simp only at hr
      rcases addKeyNode_effect _ _ _ _ _ _ _ _ _ h1 with ⟨hf, hres⟩ | ⟨ht, node, hsrc, hres⟩
      · simp only [hf, Bool.false_eq_true, if_false] at hr
        split at hr
        · cases h2 : addKeyNode h x.separator r1.2 (some parent) parent key index what.2.2 with
          | error e => rw [h2] at hr; simp at hr
          | ok r2 =>
            rw [h2] at hr
            simp only at hr
            rcases addKeyNode_effect _ _ _ _ _ _ _ _ _ h2 with
              ⟨hf2, _⟩ | ⟨ht2, node, hsrc, hres2⟩
            · simp [hf2] at hr
            · simp only [ht2, if_true, Outcome.ok.injEq] at hr
              subst hr
              rw [hres] at hsrc hres2
              exact ⟨rfl, Or.inr ⟨what, node, rfl, hsrc, hres2⟩⟩
        · simp at hr
      · simp only [ht, if_true, Outcome.ok.injEq] at hr
        subst hr
        exact ⟨rfl, Or.inr ⟨what, node, rfl, hsrc, hres⟩⟩

theorem NodeVisitor_visitValue (x : ConfigNodeExpander) (root : NodePtr) (fuel : Nat) :
    (NodeVisitor x root fuel).visitValue
      = fun h s parent key index value => nodeVisitValue x root h s parent key index value := by
  cases fuel <;> rfl

/-- Step of `accept` on a scalar under the node expander. -/
theorem runStep_node_value (x : ConfigNodeExpander) (root : NodePtr) (fuel : Nat) (n : NodePtr)
    (st : Store × replacement_container) (pos : Nat) (key : Str) (i : Nat) :
    runStep (NodeVisitor x root fuel) n st (Step.value pos key i)
      = match nodeVisitValue x root st.1 st.2 n key i (valueAt st.1 n pos i) with
        | .error e => .error e
        | .ok r => .ok (st.1, r.1) := by
  simp only [runStep, NodeVisitor_visitValue]
  cases hv : nodeVisitValue x root st.1 st.2 n key i (valueAt st.1 n pos i) with
  | error e => rfl
  | ok r =>
    simp only
    rw [(nodeVisitValue_effect _ _ _ _ _ _ _ _ _ hv).1, assignValue_valueAt_any]

/-- Steps that all keep a property of the state when they return. -/
theorem runSteps_keep {σ : Type} (v : Visitor σ) (self : NodePtr) (K : Store × σ → Prop) :
    ∀ (steps : List Step),
      (∀ s ∈ steps, ∀ st st2, K st → runStep v self st s = .ok st2 → K st2) →
      ∀ st st2, K st → runSteps v self steps st = .ok st2 → K st2
  | [], _, st, st2, hk, hr => by
    simp only [runSteps, Outcome.ok.injEq] at hr
    exact hr ▸ hk
  | s :: rest, hgood, st, st2, hk, hr => by
    simp only [runSteps] at hr
    cases h1 : runStep v self st s with
    | error e => rw [h1] at hr; simp at hr
    | ok st1 =>
      rw [h1] at hr
      exact runSteps_keep v self K rest (fun x hx => hgood x (List.mem_cons_of_mem _ hx))
        st1 st2 (hgood s (by simp) st st1 hk h1) hr

/-- The traversal of the node expander keeps every property of the state that every visit
of a scalar keeps. -/
theorem node_accept_keep (x : ConfigNodeExpander) (root : NodePtr)
    (K : Store × replacement_container → Prop)
    (hK : ∀ st n key i pos r, K st →
      nodeVisitValue x root st.1 st.2 n key i (valueAt st.1 n pos i) = .ok r →
      K (st.1, r.1)) :
    ∀ (fuel : Nat) (n : NodePtr) (st st2 : Store × replacement_container), K st →
      accept (NodeVisitor x root fuel) n st = .ok st2 → K st2 := by
  intro fuel
  induction fuel with
  | zero =>
    intro n st st2 hk hacc
    rw [accept_eq_runSteps] at hacc
    refine runSteps_keep _ n K _ ?_ st st2 hk hacc
    intro s _ st3 st4 hk3 hs
    cases s with
    | node key idx c => simp [runStep, NodeVisitor] at hs
    | value pos key i =>
      rw [runStep_node_value] at hs
      cases hv : nodeVisitValue x root st3.1 st3.2 n key i (valueAt st3.1 n pos i) with
      | error e => rw [hv] at hs; simp at hs
      | ok r =>
        rw [hv] at hs
        simp only [Outcome.ok.injEq] at hs
        exact hs ▸ hK st3 n key i pos r hk3 hv
  | succ f ih =>
    intro n st st2 hk hacc
    rw [accept_eq_runSteps] at hacc
    refine runSteps_keep _ n K _ ?_ st st2 hk hacc
    intro s _ st3 st4 hk3 hs
    cases s with
    | node key idx c => exact ih c st3 st4 hk3 hs
    | value pos key i =>
      rw [runStep_node_value] at hs
      cases hv : nodeVisitValue x root st3.1 st3.2 n key i (valueAt st3.1 n pos i) with
      | error e => rw [hv] at hs; simp at hs
      | ok r =>
        rw [hv] at hs
        simp only [Outcome.ok.injEq] at hs
        exact hs ▸ hK st3 n key i pos r hk3 hv

/-- The traversal of the node expander leaves the tree as it is. -/
theorem node_accept_store (x : ConfigNodeExpander) (root : NodePtr) (fuel : Nat) (n : NodePtr)
    (st st2 : Store × replacement_container)
    (hacc : accept (NodeVisitor x root fuel) n st = .ok st2) : st2.1 = st.1 :=
  node_accept_keep x root (fun s => s.1 = st.1) (fun _ _ _ _ _ _ hk _ => hk) fuel n st st2
    rfl hacc

theorem value_of_step (me : ConfigNode) (pos : Nat) (key : Str) (i : Nat)
    (hs : Step.value pos key i ∈ visitSteps me) :
    ∃ e, me.values[pos]? = some e ∧ e.key = key ∧ i < e.value.length := by
  simp only [visitSteps, List.mem_append, List.mem_flatMap, List.mem_map, List.mem_range] at hs
  rcases hs with ⟨child, _, p, _, heq⟩ | ⟨q, hq, j, hj, heq⟩
  · exact absurd heq (by simp)
  · injection heq with h1 h2 h3
    refine ⟨q.2, ?_, h2, h3 ▸ hj⟩
    rw [← h1]
    exact List.mem_enum_iff_getElem?.mp hq

theorem valueAt_of_getElem (h : Store) (n pos i : Nat) (e : ElementType value_list) (v : Str)
    (he : (deref h n).values[pos]? = some e) (hv : e.value[i]? = some v) :
    valueAt h n pos i = v := by
  simp [valueAt, he, List.getD_eq_getElem?_getD, hv]

theorem runSteps_const {σ : Type} (v : Visitor σ) (self : NodePtr) (st : Store × σ) :
    ∀ (steps : List Step), (∀ s ∈ steps, runStep v self st s = .ok st) →
      runSteps v self steps st = .ok st
  | [], _ => rfl
  | s :: rest, hs => by
    simp only [runSteps, hs s (by simp)]
    exact runSteps_const v self st rest (fun x hx => hs x (List.mem_cons_of_mem _ hx))

theorem runSteps_const_or_error {σ : Type} (v : Visitor σ) (self : NodePtr) (st : Store × σ)
    (err : Failure) :
    ∀ (steps : List Step),
      (∀ s ∈ steps, runStep v self st s = .ok st ∨ runStep v self st s = .error err) →
      (runSteps v self steps st = .ok st ∧ ∀ s ∈ steps, runStep v self st s = .ok st) ∨
      (runSteps v self steps st = .error err ∧ ∃ s ∈ steps, runStep v self st s = .error err)
  | [], _ => Or.inl ⟨rfl, fun _ hs => absurd hs (by simp)⟩
  | s :: rest, hs => by
    rcases hs s (by simp) with h1 | h1
    · rcases runSteps_const_or_error v self st err rest
        (fun x hx => hs x (List.mem_cons_of_mem _ hx)) with ⟨h2, h3⟩ | ⟨h2, x, hx, h3⟩
      · left
        refine ⟨by simp only [runSteps, h1, h2], ?_⟩
        intro y hy
        rcases List.mem_cons.mp hy with rfl | hy
        · exact h1
        · exact h3 y hy
      · right
        exact ⟨by simp only [runSteps, h1, h2], x, List.mem_cons_of_mem _ hx, h3⟩
    · right
      exact ⟨by simp only [runSteps, h1], s, by simp, h1⟩

theorem reaches_of_child (h : Store) (target : NodePtr) (f : Nat) (m c : NodePtr)
    (hc : c ∈ children h m) (hr : reaches h target f c = true) :
    reaches h target (f + 1) m = true := by
  simp only [reaches, Bool.or_eq_true, List.any_eq_true]
  exact Or.inr ⟨c, hc, hr⟩

theorem reaches_self (h : Store) (m : NodePtr) (f : Nat) : reaches h m f m = true := by
  cases f <;> simp [reaches]

theorem nodeVisitValue_no_match (x : ConfigNodeExpander) (root : NodePtr) (h : Store)
    (R : replacement_container) (n : NodePtr) (key : Str) (i : Nat) (v : Str)
    (hv : nodeRegex x v = none) : nodeVisitValue x root h R n key i v = .ok (R, v) := by
  simp only [nodeVisitValue, hv]

/-- Without a scalar that matches, the traversal of the node expander records nothing. -/
theorem node_accept_no_match (x : ConfigNodeExpander) (root : NodePtr) (h : Store) :
    ∀ (fuel : Nat) (m : NodePtr) (R : replacement_container), withinDepth h fuel m = true →
      (∀ n, reaches h n fuel m = true → ∀ e ∈ (deref h n).values, ∀ v ∈ e.value,
        nodeRegex x v = none) →
      accept (NodeVisitor x root fuel) m (h, R) = .ok (h, R) := by
  intro fuel
  induction fuel with
  | zero =>
    intro m R hd hno
    rw [accept_eq_runSteps]
    apply runSteps_const
    intro s hs
    cases s with
    | node key idx c =>
      have hc := mem_children_of_step _ key idx c hs
      simp only [withinDepth, List.isEmpty_iff] at hd
      unfold children at hd
      rw [hd] at hc
      exact absurd hc (by simp)
    | value pos key i =>
      obtain ⟨e, he, _, hi⟩ := value_of_step _ pos key i hs
      have hv := valueAt_of_getElem h m pos i e e.value[i] he (List.getElem?_eq_getElem hi)
      rw [runStep_node_value]
      simp only [hv]
      rw [nodeVisitValue_no_match x root h R m key i _
        (hno m (reaches_self h m 0) e (List.mem_iff_getElem?.mpr ⟨pos, he⟩) _
          (List.getElem_mem hi))]
  | succ f ih =>
    intro m R hd hno
    rw [accept_eq_runSteps]
    apply runSteps_const
    intro s hs
    cases s with
    | node key idx c =>
      have hc : c ∈ children h m := mem_children_of_step _ key idx c hs
      simp only [withinDepth, List.all_eq_true] at hd
      exact ih c R (hd c hc) (fun n hn => hno n (reaches_of_child h n f m c hc hn))
    | value pos key i =>
      obtain ⟨e, he, _, hi⟩ := value_of_step _ pos key i hs
      have hv := valueAt_of_getElem h m pos i e e.value[i] he (List.getElem?_eq_getElem hi)
      rw [runStep_node_value]
      simp only [hv]
      rw [nodeVisitValue_no_match x root h R m key i _
        (hno m (reaches_self h m (f + 1)) e (List.mem_iff_getElem?.mpr ⟨pos, he⟩) _
          (List.getElem_mem hi))]

/-! ## C12: a tree without a scalar that matches -/

/-- C12: when the subnodes below the root are no deeper than the budget and no scalar element
of a node reached from the root matches the regex of the node expander as a whole, the pass
raises no error and returns the tree as it was: every scalar sequence, every subnode
sequence, every key order and every parent. -/
theorem nodeExpander_no_match (lib : Library) (hlib : lib.Conforms) (x : ConfigNodeExpander)
    (h : Store) (root : NodePtr) (fuel : Nat)
    (hdepth : withinDepth h fuel root = true)
    (hno : ∀ n, reaches h n fuel root = true → ∀ e ∈ (deref h n).values, ∀ v ∈ e.value,
      nodeRegex x v = none) :
    x.run lib fuel h root = .ok h := by
  unfold ConfigNodeExpander.run
  rw [node_accept_no_match x root h fuel root [] hdepth hno]
  simp only [conforms_iterate_nil lib hlib, applyLoop]

/-- Witness of C12: the tree `{name: ["world"], greeting: ..., other: ...}` holds no node
token; a scalar that only contains a token does not match. -/
theorem nodeExpander_no_match_witness :
    nodeRegex (ConfigNodeExpander.construct '.' "node".toList NUL) "x %node.a% y".toList = none ∧
    (ConfigNodeExpander.construct '.' "node".toList NUL).run insertionLibrary 0 greetingStore 0
      = .ok greetingStore :=
  ⟨by decide, nodeExpander_no_match insertionLibrary insertionLibrary_conforms
    (ConfigNodeExpander.construct '.' "node".toList NUL) greetingStore 0 0 (by decide)
    (by
      intro n hn e he v hv
      simp only [reaches, decide_eq_true_eq] at hn
      subst hn
      revert v
      revert e
      decide)⟩

theorem addKeyNode_nil (h : Store) (sep : Separator) (s parent : NodePtr) (key : Str)
    (index : Nat) (source : Str) (hg : getNodes h s (some source) sep = []) :
    addKeyNode h sep [] (some s) parent key index source = .ok (false, []) := by
  simp only [addKeyNode, hg]
  cases getBaseNode h sep s source with
  | none => rfl
  | some b => simp [findReplacements]

/-- The visit of a token that no lookup resolves throws. -/
theorem nodeVisitValue_unresolved (x : ConfigNodeExpander) (root : NodePtr) (h : Store)
    (R : replacement_container) (parent : NodePtr) (key : Str) (index : Nat) (value : Str)
    (what : Str × Str × Str) (scope : NodePtr)
    (hm : nodeRegex x value = some what)
    (hscope : tokenScope x root h parent what = some scope)
    (h1 : addKeyNode h x.separator R (some scope) parent key index what.2.2 = .ok (false, R))
    (h2 : scope = root →
      addKeyNode h x.separator R (some parent) parent key index what.2.2 = .ok (false, R)) :
    nodeVisitValue x root h R parent key index value
      = .error (Failure.invalid_argument (couldNotFind value key index)) := by
  simp only [nodeVisitValue, hm, hscope, h1, Bool.false_eq_true, if_false]
  by_cases hr : scope = root
  · simp [hr, h2 hr]
  · simp [hr]

/-- Traversal of a tree in which one scalar matches and cannot be resolved. -/
theorem node_accept_unresolved (x : ConfigNodeExpander) (root : NodePtr) (h : Store)
    (target pos index : Nat) (e : ElementType value_list) (err : Failure)
    (he : (deref h target).values[pos]? = some e) (hi : index < e.value.length)
    (hbad : nodeVisitValue x root h [] target e.key index (valueAt h target pos index)
      = .error err) :
    ∀ (fuel : Nat) (m : NodePtr), withinDepth h fuel m = true →
      (∀ n pos2 e2 i2 v, reaches h n fuel m = true → (deref h n).values[pos2]? = some e2 →
        e2.value[i2]? = some v → (n, pos2, i2) ≠ (target, pos, index) → nodeRegex x v = none) →
      accept (NodeVisitor x root fuel) m (h, [])
        = if reaches h target fuel m = true then .error err else .ok (h, []) := by
  intro fuel
  induction fuel with
  | zero =>
    intro m hd honly
    rw [accept_eq_runSteps]
    have hsteps : ∀ s ∈ visitSteps (deref h m),
        runStep (NodeVisitor x root 0) m (h, []) s = .ok (h, []) ∨
        runStep (NodeVisitor x root 0) m (h, []) s = .error err := by
      intro s hs
      cases s with
      | node key idx c =>
        have hc := mem_children_of_step _ key idx c hs
        simp only [withinDepth, List.isEmpty_iff] at hd
        unfold children at hd
        rw [hd] at hc
        exact absurd hc (by simp)
      | value pos2 key i2 =>
        obtain ⟨e2, he2, hk2, hi2⟩ := value_of_step _ pos2 key i2 hs
        have hv := valueAt_of_getElem h m pos2 i2 e2 e2.value[i2] he2
          (List.getElem?_eq_getElem hi2)
        rw [runStep_node_value]
        by_cases hloc : (m, pos2, i2) = (target, pos, index)
        · right
          injection hloc with h1 h2
          injection h2 with h2 h3
          subst h1; subst h2; subst h3
          rw [he] at he2
          injection he2 with he2
          subst he2
          rw [← hk2]
          simp only [hbad]
        · left
          simp only [hv]
          rw [nodeVisitValue_no_match x root h [] m key i2 _
            (honly m pos2 e2 i2 _ (reaches_self h m 0) he2 (List.getElem?_eq_getElem hi2) hloc)]
    by_cases hr : reaches h target 0 m = true
    · rw [if_pos hr]
      simp only [reaches, decide_eq_true_eq] at hr
      subst hr
      rcases runSteps_const_or_error _ m (h, []) err _ hsteps with ⟨_, hall⟩ | ⟨hrun, _⟩
      · have := hall _ (step_of_value _ pos index e he hi)
        rw [runStep_node_value] at this
        simp only [hbad] at this
        exact absurd this (by simp)
      · exact hrun
    · rw [if_neg hr]
      rcases runSteps_const_or_error _ m (h, []) err _ hsteps with ⟨hrun, _⟩ | ⟨_, s, hs, hserr⟩
      · exact hrun
      · exfalso
        cases s with
        | node key idx c =>
          have hc := mem_children_of_step _ key idx c hs
          simp only [withinDepth, List.isEmpty_iff] at hd
          unfold children at hd
          rw [hd] at hc
          exact absurd hc (by simp)
        | value pos2 key i2 =>
          obtain ⟨e2, he2, hk2, hi2⟩ := value_of_step _ pos2 key i2 hs
          have hv := valueAt_of_getElem h m pos2 i2 e2 e2.value[i2] he2
            (List.getElem?_eq_getElem hi2)
          have hloc : (m, pos2, i2) ≠ (target, pos, index) := by
            intro heq
            injection heq with h1 _
            apply hr
            rw [h1]
            exact reaches_self h target 0
          rw [runStep_node_value] at hserr
          simp only [hv] at hserr
          rw [nodeVisitValue_no_match x root h [] m key i2 _
            (honly m pos2 e2 i2 _ (reaches_self h m 0) he2 (List.getElem?_eq_getElem hi2) hloc)]
            at hserr
          simp at hserr
  | succ f ih =>
    intro m hd honly
    rw [accept_eq_runSteps]
    have hd2 := hd
    simp only [withinDepth, List.all_eq_true] at hd2
    have hchild : ∀ c, c ∈ children h m →
        accept (NodeVisitor x root f) c (h, [])
          = if reaches h target f c = true then .error err else .ok (h, []) := by
      intro c hc
      exact ih c (hd2 c hc) (fun n pos2 e2 i2 v hn => honly n pos2 e2 i2 v
        (reaches_of_child h n f m c hc hn))
    have hsteps : ∀ s ∈ visitSteps (deref h m),
        runStep (NodeVisitor x root (f + 1)) m (h, []) s = .ok (h, []) ∨
        runStep (NodeVisitor x root (f + 1)) m (h, []) s = .error err := by
      intro s hs
      cases s with
      | node key idx c =>
        have hc : c ∈ children h m := mem_children_of_step _ key idx c hs
        show accept (NodeVisitor x root f) c (h, []) = _ ∨ accept (NodeVisitor x root f) c (h, []) = _
        rw [hchild c hc]
        by_cases hrc : reaches h target f c = true
        · right; rw [if_pos hrc]
        · left; rw [if_neg hrc]
      | value pos2 key i2 =>
        obtain ⟨e2, he2, hk2, hi2⟩ := value_of_step _ pos2 key i2 hs
        have hv := valueAt_of_getElem h m pos2 i2 e2 e2.value[i2] he2
          (List.getElem?_eq_getElem hi2)
        rw [runStep_node_value]
        by_cases hloc : (m, pos2, i2) = (target, pos, index)
        · right
          injection hloc with h1 h2
          injection h2 with h2 h3
          subst h1; subst h2; subst h3
          rw [he] at he2
          injection he2 with he2
          subst he2
          rw [← hk2]
          simp only [hbad]
        · left
          simp only [hv]
          rw [nodeVisitValue_no_match x root h [] m key i2 _
            (honly m pos2 e2 i2 _ (reaches_self h m (f + 1)) he2
              (List.getElem?_eq_getElem hi2) hloc)]
    by_cases hr : reaches h target (f + 1) m = true
    · rw [if_pos hr]
      rcases runSteps_const_or_error _ m (h, []) err _ hsteps with ⟨_, hall⟩ | ⟨hrun, _⟩
      · exfalso
        simp only [reaches, Bool.or_eq_true, decide_eq_true_eq, List.any_eq_true] at hr
        rcases hr with hr | ⟨c, hc, hrc⟩
        · subst hr
          have := hall _ (step_of_value _ pos index e he hi)
          rw [runStep_node_value] at this
          simp only [hbad] at this
          exact absurd this (by simp)
        · obtain ⟨key, idx, hstep⟩ := step_of_mem_children (deref h m) c hc
          have := hall _ hstep
          have h2 : runStep (NodeVisitor x root (f + 1)) m (h, []) (Step.node key idx c)
              = accept (NodeVisitor x root f) c (h, []) := rfl
          rw [h2, hchild c hc, if_pos hrc] at this
          exact absurd this (by simp)
      · exact hrun
    · rw [if_neg hr]
      rcases runSteps_const_or_error _ m (h, []) err _ hsteps with ⟨hrun, _⟩ | ⟨_, s, hs, hserr⟩
      · exact hrun
      · exfalso
        cases s with
        | node key idx c =>
          have hc : c ∈ children h m := mem_children_of_step _ key idx c hs
          have h2 : runStep (NodeVisitor x root (f + 1)) m (h, []) (Step.node key idx c)
              = accept (NodeVisitor x root f) c (h, []) := rfl
          rw [h2, hchild c hc] at hserr
          by_cases hrc : reaches h target f c = true
          · exact hr (reaches_of_child h target f m c hc hrc)
          · rw [if_neg hrc] at hserr
            exact absurd hserr (by simp)
        | value pos2 key i2 =>
          obtain ⟨e2, he2, hk2, hi2⟩ := value_of_step _ pos2 key i2 hs
          have hv := valueAt_of_getElem h m pos2 i2 e2 e2.value[i2] he2
            (List.getElem?_eq_getElem hi2)
          have hloc : (m, pos2, i2) ≠ (target, pos, index) := by
            intro heq
            injection heq with h1 _
            apply hr
            rw [h1]
            exact reaches_self h target (f + 1)
          rw [runStep_node_value] at hserr
          simp only [hv] at hserr
          rw [nodeVisitValue_no_match x root h [] m key i2 _
            (honly m pos2 e2 i2 _ (reaches_self h m (f + 1)) he2
              (List.getElem?_eq_getElem hi2) hloc)] at hserr
          simp at hserr

/-! ## C13: a token that cannot be resolved -/

/-- C13: let a scalar element (key `e.key`, index `index`) of a node reached from the root
match the regex, let its scope be non-null, and let no subnode be found at the scope nor, for
the root scope, at the parent.  Then the visit of the element throws `invalid_argument` with
the text `Could not find "<value>" to inject at "<key>[<index>]"` whenever the base-node
fallback finds nothing either; when no other scalar of the tree matches (so that no
replacement is pending for the fallback) the whole pass ends with exactly this error; and
the traversal, which precedes every replacement, never changes the tree. -/
theorem nodeExpander_unresolved (lib : Library) (x : ConfigNodeExpander) (h : Store)
    (root : NodePtr) (fuel : Nat) (target pos index : Nat) (e : ElementType value_list)
    (value : Str) (what : Str × Str × Str) (scope : NodePtr)
    (hdepth : withinDepth h fuel root = true)
    (hreach : reaches h target fuel root = true)
    (he : (deref h target).values[pos]? = some e)
    (hv : e.value[index]? = some value)
    (hm : nodeRegex x value = some what)
    (hscope : tokenScope x root h target what = some scope)
    (hnone : getNodes h scope (some what.2.2) x.separator = [])
    (hretry : scope = root → getNodes h target (some what.2.2) x.separator = [])
    (honly : ∀ n pos2 e2 i2 v, reaches h n fuel root = true →
      (deref h n).values[pos2]? = some e2 → e2.value[i2]? = some v →
      (n, pos2, i2) ≠ (target, pos, index) → nodeRegex x v = none) :
    (∀ R, addKeyNode h x.separator R (some scope) target e.key index what.2.2 = .ok (false, R) →
      (scope = root →
        addKeyNode h x.separator R (some target) target e.key index what.2.2 = .ok (false, R)) →
      nodeVisitValue x root h R target e.key index value
        = .error (Failure.invalid_argument (couldNotFind value e.key index))) ∧
    x.run lib fuel h root = .error (Failure.invalid_argument (couldNotFind value e.key index)) ∧
    couldNotFind value e.key index
      = "Could not find \"".toList ++ value ++ "\" to inject at \"".toList ++ e.key
        ++ "[".toList ++ Nat.toDigits 10 index ++ "]\"".toList ∧
    (∀ n st st2, accept (NodeVisitor x root fuel) n st = .ok st2 → st2.1 = st.1) := by
  have hi : index < e.value.length := by
    by_contra hn
    rw [List.getElem?_eq_none (Nat.le_of_not_lt hn)] at hv
    exact absurd hv (by simp)
  have hval := valueAt_of_getElem h target pos index e value he hv
  have hbad : nodeVisitValue x root h [] target e.key index (valueAt h target pos index)
      = .error (Failure.invalid_argument (couldNotFind value e.key index)) := by
    rw [hval]
    exact nodeVisitValue_unresolved x root h [] target e.key index value what scope hm hscope
      (addKeyNode_nil h _ scope target e.key index _ hnone)
      (fun hr => addKeyNode_nil h _ target target e.key index _ (hretry hr))
  refine ⟨?_, ?_, rfl, fun n st st2 hacc => node_accept_store x root fuel n st st2 hacc⟩
  · intro R h1 h2
    exact nodeVisitValue_unresolved x root h R target e.key index value what scope hm hscope
      h1 h2
  · unfold ConfigNodeExpander.run
    rw [node_accept_unresolved x root h target pos index e _ he hi hbad fuel root hdepth honly,
      if_pos hreach]

/-- Witness of C13: the tree whose only scalar is `%node.nope%`, with no subnode `nope`. -/
theorem nodeExpander_unresolved_witness :
    (ConfigNodeExpander.construct '.' "node".toList NUL).run insertionLibrary 0 nopeStore 0
      = .error (Failure.invalid_argument
          "Could not find \"%node.nope%\" to inject at \"k[0]\"".toList) :=
  (nodeExpander_unresolved insertionLibrary (ConfigNodeExpander.construct '.' "node".toList NUL)
    nopeStore 0 0 0 0 0 { key := "k".toList, value := ["%node.nope%".toList] }
    "%node.nope%".toList ([], [], "nope".toList) 0
    (by decide) (by decide) (by decide) (by decide) (by decide) (by decide) (by decide)
    (by decide)
    (by
      intro n pos2 e2 i2 v hn he2 hv2 hne
      exfalso
      apply hne
      simp only [reaches, decide_eq_true_eq] at hn
      subst hn
      cases pos2 with
      | succ p => simp [deref, nopeStore] at he2
      | zero =>
        have he3 : e2 = { key := "k".toList, value := ["%node.nope%".toList] } := by
          simpa [deref, nopeStore] using he2.symm
        subst he3
        cases i2 with
        | succ j => simp at hv2
        | zero => rfl)).2.1

/-! ## C16: a token without marker under an expander with a level character -/

/-- C16 as stated fails: the expander built with the level character `-` has the prefix
`%node`, reads the token `%node.tpl%` with the path `.tpl`, finds no subnode under the empty
key at the root nor at the parent, and throws. -/
theorem nodeExpander_level_counterexample :
    nodeRegex (ConfigNodeExpander.construct '.' "node".toList '-') "%node.tpl%".toList
      = some ([], [], ".tpl".toList) ∧
    (ConfigNodeExpander.construct '.' "node".toList '-').run insertionLibrary 2 svcStore 0
      = .error (Failure.invalid_argument
          "Could not find \"%node.tpl%\" to inject at \"bind[0]\"".toList) := by
  decide

/-- C16 (amended): with a node expander built without a level character and the separator
`.`, the tree `{svc: {tpl: {port: ["9000"]}, bind: ["%node.tpl%"]}}` expands without error,
through the retry at the parent of the scalar, and afterwards `getValues("svc.bind.port")`
from the root is `["9000"]`. -/
theorem nodeExpander_sibling_default (lib : Library) (hlib : lib.Conforms) :
    (ConfigNodeExpander.construct '.' "node".toList NUL).run lib 2 svcStore 0 = .ok svcAfter ∧
    getValues svcAfter 0 (some "svc.bind.port".toList) '.' = ["9000".toList] := by
  have hacc : accept (NodeVisitor (ConfigNodeExpander.construct '.' "node".toList NUL) 0 2) 0
      (svcStore, []) = .ok (svcStore, [(1, [{ key := "bind".toList, node := 2, index := 0 }])]) := by
    decide
  unfold ConfigNodeExpander.run
  rw [hacc]
  simp only [conforms_iterate_single lib hlib, applyLoop, conforms_sort_single lib hlib]
  exact ⟨by decide, by decide⟩

/-- Witness of C16 (amended) for the insertion-ordered library. -/
theorem nodeExpander_sibling_default_witness :
    (ConfigNodeExpander.construct '.' "node".toList NUL).run insertionLibrary 2 svcStore 0
        = .ok svcAfter ∧
    getValues svcAfter 0 (some "svc.bind.port".toList) '.' = ["9000".toList] :=
  nodeExpander_sibling_default insertionLibrary insertionLibrary_conforms

/-! ### Effects of `eraseValue` and `setNode` on the whole store -/

theorem eraseValue_frame (h : Store) (p : NodePtr) (k : Str) (i : Nat) (h2 : Store)
    (he : eraseValue h p k i = some h2) :
    h2.length = h.length ∧
    (∀ n, (deref h2 n).nodes = (deref h n).nodes) ∧
    (∀ n, (deref h2 n).parent = (deref h n).parent) ∧
    (∀ n, n ≠ p → deref h2 n = deref h n) := by
  unfold eraseValue at he
  dsimp only at he
  cases hf : find (deref h p).values k with
  | none =>
    rw [hf] at he
    simp only [Option.some.injEq] at he
    subst he
    exact ⟨rfl, fun _ => rfl, fun _ => rfl, fun _ _ => rfl⟩
  | some it =>
    rw [hf] at he
    simp only at he
    split at he
    · simp only [Option.some.injEq] at he
      subst he
      refine ⟨by simp, ?_, ?_, ?_⟩
      · intro n
        rw [deref_set]
        split
        · rename_i hc; rw [hc.1]
        · rfl
      · intro n
        rw [deref_set]
        split
        · rename_i hc; rw [hc.1]
        · rfl
      · intro n hn
        exact deref_set_of_ne _ _ _ _ hn
    · simp at he

theorem children_eraseValue (h : Store) (p : NodePtr) (k : Str) (i : Nat) (h2 : Store)
    (he : eraseValue h p k i = some h2) (n : NodePtr) : children h2 n = children h n := by
  unfold children
  rw [(eraseValue_frame h p k i h2 he).2.1 n]

theorem deref_setParent (h : Store) (node : NodePtr) (p : Option NodePtr) (n : NodePtr) :
    deref (setParent h node p) n
      = if n = node ∧ node < h.length then { deref h node with parent := p } else deref h n := by
  unfold setParent
  rw [deref_set]

/-- Result of `setNode` with the default index. -/
theorem setNode_default (h : Store) (p : NodePtr) (k : Str) (node : NodePtr) :
    ∃ ns, setNode h p k node SIZE_MAX = some ((setParent h node (some p)).set p
        { deref (setParent h node (some p)) p with nodes := ns }) ∧
      (∀ c, c ∈ ns.flatMap (fun child => child.value) ↔ (c ∈ children h p ∨ c = node)) ∧
      (ns.all (fun e => !e.value.isEmpty) = true ∨
        ¬ (deref h p).nodes.all (fun e => !e.value.isEmpty) = true) ∧
      node ∈ (match find ns k with
        | some child => child.value
        | none => []) := by
  have hn1 : (deref (setParent h node (some p)) p).nodes = (deref h p).nodes :=
    deref_setParent_nodes h node p (some p)
  cases hf : find (deref h p).nodes k with
  | none =>
    refine ⟨(deref h p).nodes ++ [{ key := k, value := [node] }], ?_, ?_, ?_, ?_⟩
    · simp only [setNode, hn1, hf]
    · intro c
      simp [children, List.flatMap_append]
    · by_cases hall : (deref h p).nodes.all (fun e => !e.value.isEmpty) = true
      · left
        rw [List.all_append, hall]
        rfl
      · exact Or.inr hall
    · rw [find_append_of_none _ _ k hf rfl]
      simp
  | some it =>
    refine ⟨modify (fun l => l ++ [node]) k (deref h p).nodes, ?_, ?_, ?_, ?_⟩
    · simp only [setNode, hn1, hf, if_true]
    · intro c
      unfold find at hf
      obtain ⟨hk, pre, post, hsplit, hpre⟩ := List.find?_eq_some.mp hf
      have hk2 : it.key = k := by simpa using hk
      have hpre2 : ∀ x ∈ pre, x.key ≠ k := fun x hx => by simpa using hpre x hx
      rw [hsplit, modify_append_cons _ pre post it k hpre2 hk2]
      simp only [children, hsplit, List.flatMap_append, List.flatMap_cons, List.mem_append,
        List.mem_singleton]
      tauto
    · by_cases hall : (deref h p).nodes.all (fun e => !e.value.isEmpty) = true
      · left
        unfold find at hf
        obtain ⟨hk, pre, post, hsplit, hpre⟩ := List.find?_eq_some.mp hf
        have hk2 : it.key = k := by simpa using hk
        have hpre2 : ∀ x ∈ pre, x.key ≠ k := fun x hx => by simpa using hpre x hx
        rw [hsplit, modify_append_cons _ pre post it k hpre2 hk2]
        rw [hsplit] at hall
        simp only [List.all_append, List.all_cons, Bool.and_eq_true] at hall ⊢
        exact ⟨hall.1, by simp, hall.2.2⟩
      · exact Or.inr hall
    · rw [find_modify, hf]
      simp

theorem setNode_frame (h : Store) (p : NodePtr) (k : Str) (node : NodePtr) (h2 : Store)
    (hs : setNode h p k node SIZE_MAX = some h2) :
    h2.length = h.length ∧
    (∀ n, (deref h2 n).values = (deref h n).values) ∧
    (∀ n, n ≠ p → (deref h2 n).nodes = (deref h n).nodes) ∧
    (p < h.length → ∀ c, c ∈ children h2 p ↔ (c ∈ children h p ∨ c = node)) ∧
    (∀ n, n ≠ node → (deref h2 n).parent = (deref h n).parent) ∧
    (node < h.length → (deref h2 node).parent = some p) ∧
    (p < h.length → node ∈ getNodesKey h2 p k) ∧
    ((∀ n, (deref h n).nodes.all (fun e => !e.value.isEmpty) = true) →
      ∀ n, (deref h2 n).nodes.all (fun e => !e.value.isEmpty) = true) := by
  obtain ⟨ns, hres, hmem, hall, hkey⟩ := setNode_default h p k node
  rw [hres] at hs
  simp only [Option.some.injEq] at hs
  subst hs
  have hlen : (setParent h node (some p)).length = h.length := length_setParent h node (some p)
  refine ⟨by simp [hlen], ?_, ?_, ?_, ?_, ?_, ?_, ?_⟩
  · intro n
    rw [deref_set]
    split
    · rename_i hc
      rw [hc.1]
      exact deref_setParent_values h node p (some p)
    · exact deref_setParent_values h node n (some p)
  · intro n hn
    rw [deref_set_of_ne _ _ _ _ hn]
    exact deref_setParent_nodes h node n (some p)
  · intro hp c
    unfold children
    rw [deref_set_self _ _ _ (by rw [hlen]; exact hp)]
    exact hmem c
  · intro n hn
    rw [deref_set]
    split
    · rename_i hc
      rw [hc.1, deref_setParent]
      rw [hc.1] at hn
      rw [if_neg (fun hx => hn hx.1)]
    · rw [deref_setParent, if_neg (fun hx => hn hx.1)]
  · intro hnode
    rw [deref_set]
    split
    · rename_i hc
      rw [deref_setParent, ← hc.1, if_pos ⟨rfl, hnode⟩]
    · rw [deref_setParent, if_pos ⟨rfl, hnode⟩]
  · intro hp
    unfold getNodesKey
    rw [deref_set_self _ _ _ (by rw [hlen]; exact hp)]
    exact hkey
  · intro hI n
    rw [deref_set]
    split
    · rcases hall with hall | hall
      · exact hall
      · exact absurd (hI p) hall
    · rw [deref_setParent_nodes]
      exact hI n

theorem children_setNode_of_ne (h : Store) (p : NodePtr) (k : Str) (node : NodePtr)
    (h2 : Store) (hs : setNode h p k node SIZE_MAX = some h2) (n : NodePtr) (hn : n ≠ p) :
    children h2 n = children h n := by
  unfold children
  rw [(setNode_frame h p k node h2 hs).2.2.1 n hn]

/-! ### The replacement phase keeps what each of its steps keeps -/

theorem eraseLoop_keep (K : Store → Prop) (G : KeyNode → Prop) (p : NodePtr)
    (hE : ∀ h r h2, K h → G r → eraseValue h p r.key r.index = some h2 → K h2) :
    ∀ (l : List KeyNode) (h h2 : Store), (∀ r ∈ l, G r) → K h →
      eraseLoop h p l = some h2 → K h2 := by
  intro l
  induction l with
  | nil =>
    intro h h2 _ hK he
    simp only [eraseLoop, Option.some.injEq] at he
    exact he ▸ hK
  | cons r rest ih =>
    intro h h2 hG hK he
    simp only [eraseLoop] at he
    cases hv : eraseValue h p r.key r.index with
    | none => rw [hv] at he; simp at he
    | some h1 =>
      rw [hv] at he
      exact ih h1 h2 (fun x hx => hG x (List.mem_cons_of_mem _ hx))
        (hE h r h1 hK (hG r (List.mem_cons_self _ _)) hv) he

theorem setLoop_keep (K : Store → Prop) (G : KeyNode → Prop) (p : NodePtr)
    (hS : ∀ h r h2, K h → G r → setNode h p r.key r.node SIZE_MAX = some h2 → K h2) :
    ∀ (l : List KeyNode) (h h2 : Store), (∀ r ∈ l, G r) → K h →
      setLoop h p l = some h2 → K h2 := by
  intro l
  induction l with
  | nil =>
    intro h h2 _ hK he
    simp only [setLoop, Option.some.injEq] at he
    exact he ▸ hK
  | cons r rest ih =>
    intro h h2 hG hK he
    simp only [setLoop] at he
    cases hv : setNode h p r.key r.node SIZE_MAX with
    | none => rw [hv] at he; simp at he
    | some h1 =>
      rw [hv] at he
      exact ih h1 h2 (fun x hx => hG x (List.mem_cons_of_mem _ hx))
        (hS h r h1 hK (hG r (List.mem_cons_self _ _)) hv) he

theorem applyLoop_keep (lib : Library) (K : Store → Prop) (G : NodePtr → KeyNode → Prop)
    (hE : ∀ h p r h2, K h → G p r → eraseValue h p r.key r.index = some h2 → K h2)
    (hS : ∀ h p r h2, K h → G p r → setNode h p r.key r.node SIZE_MAX = some h2 → K h2) :
    ∀ (R : replacement_container) (h h2 : Store),
      (∀ entry ∈ R, ∀ r ∈ lib.sort entry.2, G entry.1 r) → K h →
      applyLoop lib h R = .ok h2 → K h2 := by
  intro R
  induction R with
  | nil =>
    intro h h2 _ hK ha
    simp only [applyLoop, Outcome.ok.injEq] at ha
    exact ha ▸ hK
  | cons entry rest ih =>
    intro h h2 hG hK ha
    simp only [applyLoop] at ha
    cases h1 : eraseLoop h entry.1 (lib.sort entry.2) with
    | none => rw [h1] at ha; simp at ha
    | some s1 =>
      rw [h1] at ha
      simp only at ha
      cases h3 : setLoop s1 entry.1 (lib.sort entry.2) with
      | none => rw [h3] at ha; simp at ha
      | some s2 =>
        rw [h3] at ha
        simp only at ha
        have hG1 := hG entry (List.mem_cons_self _ _)
        have k1 : K s1 := eraseLoop_keep K (G entry.1) entry.1
          (fun a r b ka g e => hE a entry.1 r b ka g e) _ h s1 hG1 hK h1
        have k2 : K s2 := setLoop_keep K (G entry.1) entry.1
          (fun a r b ka g e => hS a entry.1 r b ka g e) _ s1 s2 hG1 k1 h3
        exact ih s2 h2 (fun e he => hG e (List.mem_cons_of_mem _ he)) k2 ha

/-- What a successful pass keeps: a property of stores that every `eraseValue` and every
`setNode` of a recorded replacement keeps. -/
theorem run_keep (lib : Library) (hlib : lib.Conforms) (x : ConfigNodeExpander) (fuel : Nat)
    (h : Store) (root : NodePtr) (h2 : Store) (K : Store → Prop) (G : NodePtr → KeyNode → Prop)
    (hE : ∀ s p r s2, K s → G p r → eraseValue s p r.key r.index = some s2 → K s2)
    (hS : ∀ s p r s2, K s → G p r → setNode s p r.key r.node SIZE_MAX = some s2 → K s2)
    (hG : ∀ R, accept (NodeVisitor x root fuel) root (h, []) = .ok (h, R) →
      ∀ entry ∈ R, ∀ r ∈ entry.2, G entry.1 r)
    (hK : K h) (hrun : x.run lib fuel h root = .ok h2) : K h2 := by
  unfold ConfigNodeExpander.run at hrun
  cases hacc : accept (NodeVisitor x root fuel) root (h, []) with
  | error e => rw [hacc] at hrun; simp at hrun
  | ok st =>
    rw [hacc] at hrun
    simp only at hrun
    have hst : st.1 = h := node_accept_store x root fuel root (h, []) st hacc
    obtain ⟨s1, R⟩ := st
    simp only at hst hrun
    subst hst
    refine applyLoop_keep lib K G hE hS (lib.iterate R) s1 h2 ?_ hK hrun
    intro entry he r hr
    exact hG R hacc entry ((hlib.1 R).mem_iff.mp he) r (((hlib.2 entry.2).1).mem_iff.mp hr)

/-! ### Handles recorded by the traversal point into the store -/

theorem nodeRegex_nil (x : ConfigNodeExpander) : nodeRegex x [] = none := by
  simp [nodeRegex, starLiteral, tailMatch]

theorem lt_length_of_valueAt (h : Store) (n : NodePtr) (pos i : Nat)
    (hv : valueAt h n pos i ≠ []) : n < h.length := by
  by_contra hn
  apply hv
  have hd : deref h n = { nodes := [], values := [], parent := none } := by
    unfold deref
    rw [List.getD_eq_getElem?_getD, List.getElem?_eq_none (Nat.le_of_not_lt hn)]
    rfl
  unfold valueAt
  rw [hd]
  rfl

theorem getNodesKey_subset_children (h : Store) (n : NodePtr) (k : Str) (c : NodePtr)
    (hc : c ∈ getNodesKey h n k) : c ∈ children h n := by
  unfold getNodesKey at hc
  cases hf : find (deref h n).nodes k with
  | none => rw [hf] at hc; simp [noNodes] at hc
  | some child =>
    rw [hf] at hc
    unfold find at hf
    have hm := List.mem_of_find?_eq_some hf
    unfold children
    exact List.mem_flatMap.mpr ⟨child, hm, hc⟩

theorem getNodesFuel_subset_children (h : Store) (sep : Separator) :
    ∀ (fuel : Nat) (n : NodePtr) (key : Option Str) (c : NodePtr),
      c ∈ getNodesFuel h sep fuel n key → ∃ m, c ∈ children h m := by
  intro fuel
  induction fuel with
  | zero => intro n key c hc; simp [getNodesFuel, noNodes] at hc
  | succ fuel ih =>
    intro n key c hc
    cases key with
    | none => simp [getNodesFuel, noNodes] at hc
    | some key =>
      simp only [getNodesFuel] at hc
      cases hs : strchr (clearJustSeparatorKey key sep) sep with
      | none =>
        rw [hs] at hc
        exact ⟨n, getNodesKey_subset_children h n _ c hc⟩
      | some first =>
        rw [hs] at hc
        simp only at hc
        cases hk : getNodesKey h n ((clearJustSeparatorKey key sep).take first) with
        | nil => rw [hk] at hc; simp [noNodes] at hc
        | cons n0 t =>
          rw [hk] at hc
          exact ih n0 _ c hc

theorem nodeSource_valid (h : Store) (hcl : Closed h) (R : replacement_container)
    (hR : ∀ entry ∈ R, ∀ r ∈ entry.2, r.node < h.length) (node : NodePtr)
    (hn : NodeSource h R node) : node < h.length := by
  rcases hn with ⟨scope, source, sep, t, hg⟩ | ⟨entry, he, r, hr, hrn⟩
  · obtain ⟨m, hm⟩ := getNodesFuel_subset_children h sep _ scope (some source) node
      (by unfold getNodes at hg; rw [hg]; exact List.mem_cons_self _ _)
    exact hcl m node hm
  · exact hrn ▸ hR entry he r hr

theorem mem_emplace : ∀ (R : replacement_container) (p : NodePtr) (kn : KeyNode)
    (entry : NodePtr × List KeyNode), entry ∈ emplace R p kn → ∀ r ∈ entry.2,
      (∃ e0 ∈ R, e0.1 = entry.1 ∧ r ∈ e0.2) ∨ (entry.1 = p ∧ r = kn)
  | [], p, kn, entry, he, r, hr => by
    simp only [emplace, List.mem_singleton] at he
    subst he
    simp only [List.mem_singleton] at hr
    exact Or.inr ⟨rfl, hr⟩
  | e :: rest, p, kn, entry, he, r, hr => by
    simp only [emplace] at he
    by_cases hp : e.1 = p
    · rw [if_pos hp] at he
      rcases List.mem_cons.mp he with he | he
      · subst he
        simp only at hr
        rcases List.mem_append.mp hr with hr | hr
        · exact Or.inl ⟨e, List.mem_cons_self _ _, rfl, hr⟩
        · exact Or.inr ⟨hp, by simpa using hr⟩
      · exact Or.inl ⟨entry, List.mem_cons_of_mem _ he, rfl, hr⟩
    · rw [if_neg hp] at he
      rcases List.mem_cons.mp he with he | he
      · subst he
        exact Or.inl ⟨entry, List.mem_cons_self _ _, rfl, hr⟩
      · rcases mem_emplace rest p kn entry he r hr with ⟨e0, h0, h1⟩ | h1
        · exact Or.inl ⟨e0, List.mem_cons_of_mem _ h0, h1⟩
        · exact Or.inr h1

/-- In a closed store the traversal records only handles of the store. -/
theorem traversal_valid (x : ConfigNodeExpander) (root : NodePtr) (fuel : Nat) (h : Store)
    (hcl : Closed h) (R : replacement_container)
    (hacc : accept (NodeVisitor x root fuel) root (h, []) = .ok (h, R)) :
    ∀ entry ∈ R, ∀ r ∈ entry.2, entry.1 < h.length ∧ r.node < h.length := by
  have key := node_accept_keep x root
    (fun st => st.1 = h ∧ ∀ entry ∈ st.2, ∀ r ∈ entry.2, entry.1 < h.length ∧ r.node < h.length)
    (by
      intro st n key i pos r hK hv
      obtain ⟨hst, hval⟩ := hK
      refine ⟨hst, ?_⟩
      obtain ⟨_, heff⟩ := nodeVisitValue_effect x root st.1 st.2 n key i _ r hv
      rcases heff with ⟨_, hr⟩ | ⟨what, node, hm, hsrc, hr⟩
      · simp only
        rw [hr]
        exact hval
      · simp only
        rw [hr]
        intro entry he r0 hr0
        rcases mem_emplace st.2 n _ entry he r0 hr0 with ⟨e0, h0, h1, h2⟩ | ⟨h1, h2⟩
        · have := hval e0 h0 r0 h2
          exact ⟨h1 ▸ this.1, this.2⟩
        · constructor
          · rw [h1]
            apply lt_length_of_valueAt h n pos i
            intro hnil
            rw [hst, hnil, nodeRegex_nil] at hm
            simp at hm
          · rw [h2]
            simp only
            rw [hst] at hsrc
            exact nodeSource_valid h hcl st.2 (fun e he0 r1 hr1 => (hval e he0 r1 hr1).2)
              node hsrc)
    fuel root (h, []) (h, R) ⟨rfl, by simp⟩ hacc
  exact key.2

/-! ### Invariant I1 and the mutators -/

theorem nonEmptyEntries_deref (h : Store) (hI : invariantI1 h = true) (n : NodePtr) :
    nonEmptyEntries (deref h n) = true := by
  unfold deref
  rw [List.getD_eq_getElem?_getD]
  cases hn : h[n]? with
  | none => rfl
  | some me =>
    unfold invariantI1 at hI
    exact List.all_eq_true.mp hI me (List.mem_iff_getElem?.mpr ⟨n, hn⟩)

theorem invariantI1_set (h : Store) (hI : invariantI1 h = true) (n : NodePtr) (me : ConfigNode)
    (hme : nonEmptyEntries me = true) : invariantI1 (h.set n me) = true := by
  unfold invariantI1 at hI ⊢
  rw [List.all_eq_true] at hI ⊢
  intro x hx
  rcases List.mem_or_eq_of_mem_set hx with hx | hx
  · exact hI x hx
  · exact hx ▸ hme

theorem invariantI1_setParent (h : Store) (hI : invariantI1 h = true) (node : NodePtr)
    (p : Option NodePtr) : invariantI1 (setParent h node p) = true := by
  unfold setParent
  exact invariantI1_set h hI node _ (nonEmptyEntries_deref h hI node)

theorem all_modify {L : Type} (P : L → Bool) (f : L → L) (k : Str) :
    ∀ (l : children_container L),
      (∀ e ∈ l, e.key = k → P e.value = true → P (f e.value) = true) →
      l.all (fun e => P e.value) = true → (modify f k l).all (fun e => P e.value) = true
  | [], _, _ => rfl
  | e :: es, hf, hl => by
    simp only [List.all_cons, Bool.and_eq_true] at hl
    unfold modify
    by_cases hk : e.key = k
    · rw [if_pos hk]
      simp only [List.all_cons, Bool.and_eq_true]
      exact ⟨hf e (List.mem_cons_self _ _) hk hl.1, hl.2⟩
    · rw [if_neg hk]
      simp only [List.all_cons, Bool.and_eq_true]
      exact ⟨hl.1, all_modify P f k es (fun x hx => hf x (List.mem_cons_of_mem _ hx)) hl.2⟩

theorem invariantI1_setValue (h : Store) (hI : invariantI1 h = true) (self : NodePtr)
    (key value : Str) (index : Nat) (h2 : Store)
    (hs : setValue h self key value index = some h2) : invariantI1 h2 = true := by
  have hme := nonEmptyEntries_deref h hI self
  unfold nonEmptyEntries at hme
  rw [Bool.and_eq_true] at hme
  unfold setValue at hs
  dsimp only at hs
  cases hf : find (deref h self).values key with
  | none =>
    rw [hf] at hs
    simp only [Option.some.injEq] at hs
    subst hs
    apply invariantI1_set h hI
    unfold nonEmptyEntries
    rw [Bool.and_eq_true]
    refine ⟨?_, hme.2⟩
    rw [List.all_append, hme.1]
    rfl
  | some it =>
    rw [hf] at hs
    simp only at hs
    split at hs
    · simp only [Option.some.injEq] at hs
      subst hs
      apply invariantI1_set h hI
      unfold nonEmptyEntries
      rw [Bool.and_eq_true]
      refine ⟨?_, hme.2⟩
      exact all_modify (fun (l : value_list) => !l.isEmpty) _ key _ (fun e _ _ _ => by simp) hme.1
    · split at hs
      · simp only [Option.some.injEq] at hs
        subst hs
        apply invariantI1_set h hI
        unfold nonEmptyEntries
        rw [Bool.and_eq_true]
        refine ⟨?_, hme.2⟩
        refine all_modify (fun (l : value_list) => !l.isEmpty) _ key _ (fun e _ _ he => ?_) hme.1
        cases hv : e.value with
        | nil => rw [hv] at he; simp at he
        | cons a t => cases index <;> simp [List.set]
      · simp at hs

theorem invariantI1_setNode (h : Store) (hI : invariantI1 h = true) (self : NodePtr)
    (key : Str) (node : NodePtr) (index : Nat) (h2 : Store)
    (hs : setNode h self key node index = some h2) : invariantI1 h2 = true := by
  have hI1 := invariantI1_setParent h hI node (some self)
  have hme := nonEmptyEntries_deref _ hI1 self
  unfold nonEmptyEntries at hme
  rw [Bool.and_eq_true] at hme
  unfold setNode at hs
  dsimp only at hs
  cases hf : find (deref (setParent h node (some self)) self).nodes key with
  | none =>
    rw [hf] at hs
    simp only [Option.some.injEq] at hs
    subst hs
    apply invariantI1_set _ hI1
    unfold nonEmptyEntries
    rw [Bool.and_eq_true]
    refine ⟨hme.1, ?_⟩
    rw [List.all_append, hme.2]
    rfl
  | some it =>
    rw [hf] at hs
    simp only at hs
    split at hs
    · simp only [Option.some.injEq] at hs
      subst hs
      apply invariantI1_set _ hI1
      unfold nonEmptyEntries
      rw [Bool.and_eq_true]
      refine ⟨hme.1, ?_⟩
      exact all_modify (fun (l : node_list) => !l.isEmpty) _ key _ (fun e _ _ _ => by simp) hme.2
    · split at hs
      · simp only [Option.some.injEq] at hs
        subst hs
        apply invariantI1_set _ hI1
        unfold nonEmptyEntries
        rw [Bool.and_eq_true]
        refine ⟨hme.1, ?_⟩
        refine all_modify (fun (l : node_list) => !l.isEmpty) _ key _ (fun e _ _ he => ?_) hme.2
        cases hv : e.value with
        | nil => rw [hv] at he; simp at he
        | cons a t => cases index <;> simp [List.set]
      · simp at hs

theorem all_eraseKey {L : Type} (P : ElementType L → Bool) (k : Str)
    (l : children_container L)
    (hl : l.all P = true) : (eraseKey l k).all P = true := by
  rw [List.all_eq_true] at hl ⊢
  intro e he
  unfold eraseKey at he
  exact hl e (List.mem_of_mem_filter he)

theorem invariantI1_erase (h : Store) (hI : invariantI1 h = true) (self : NodePtr)
    (key : Str) : invariantI1 (erase h self key) = true := by
  have hme := nonEmptyEntries_deref h hI self
  unfold nonEmptyEntries at hme
  rw [Bool.and_eq_true] at hme
  unfold erase
  apply invariantI1_set h hI
  unfold nonEmptyEntries
  rw [Bool.and_eq_true]
  exact ⟨all_eraseKey _ key _ hme.1, all_eraseKey _ key _ hme.2⟩

theorem invariantI1_foldl_setParent (p : Option NodePtr) :
    ∀ (l : List NodePtr) (h : Store), invariantI1 h = true →
      invariantI1 (l.foldl (fun s node => setParent s node p) h) = true
  | [], _, hI => hI
  | c :: cs, h, hI => by
    simp only [List.foldl_cons]
    exact invariantI1_foldl_setParent p cs _ (invariantI1_setParent h hI c p)

theorem invariantI1_swap (h : Store) (hI : invariantI1 h = true) (self other : NodePtr)
    (h2 : Store) (hs : swap h self other = some h2) : invariantI1 h2 = true := by
  have ha := nonEmptyEntries_deref h hI self
  have hb := nonEmptyEntries_deref h hI other
  unfold swap at hs
  dsimp only at hs
  unfold updateParents at hs
  simp only [Option.some.injEq] at hs
  subst hs
  apply invariantI1_foldl_setParent
  have h1 : invariantI1 (h.set self { deref h self with
      nodes := (deref h other).nodes, values := (deref h other).values }) = true :=
    invariantI1_set h hI self _ hb
  exact invariantI1_set _ h1 other _ ha

theorem all_modify_first {L : Type} (P : L → Bool) (f : L → L) (k : Str) :
    ∀ (l : children_container L),
      (∀ it, find l k = some it → P (f it.value) = true) →
      l.all (fun e => P e.value) = true → (modify f k l).all (fun e => P e.value) = true
  | [], _, _ => rfl
  | e :: es, hf, hl => by
    simp only [List.all_cons, Bool.and_eq_true] at hl
    unfold modify
    by_cases hk : e.key = k
    · rw [if_pos hk]
      simp only [List.all_cons, Bool.and_eq_true]
      exact ⟨hf e (by simp [find, hk]), hl.2⟩
    · rw [if_neg hk]
      simp only [List.all_cons, Bool.and_eq_true]
      refine ⟨hl.1, all_modify_first P f k es (fun it hit => hf it ?_) hl.2⟩
      simpa [find, hk] using hit

theorem eraseIdx_not_empty {α : Type} (l : List α) (i : Nat) (hl : 2 ≤ l.length) :
    (!(l.eraseIdx i).isEmpty) = true := by
  match l, hl with
  | a :: b :: t, _ => cases i <;> simp [List.eraseIdx]

theorem invariantI1_eraseValue (h : Store) (hI : invariantI1 h = true) (self : NodePtr)
    (key : Str) (index : Nat) (h2 : Store) (hlen : (getValuesKey h self key).length ≠ 1)
    (he : eraseValue h self key index = some h2) : invariantI1 h2 = true := by
  have hme := nonEmptyEntries_deref h hI self
  unfold nonEmptyEntries at hme
  rw [Bool.and_eq_true] at hme
  unfold eraseValue at he
  dsimp only at he
  unfold getValuesKey at hlen
  cases hf : find (deref h self).values key with
  | none =>
    rw [hf] at he
    simp only [Option.some.injEq] at he
    exact he ▸ hI
  | some it =>
    rw [hf] at he hlen
    simp only at he hlen
    split at he
    · rename_i hgt
      simp only [Option.some.injEq] at he
      subst he
      apply invariantI1_set h hI
      unfold nonEmptyEntries
      rw [Bool.and_eq_true]
      refine ⟨?_, hme.2⟩
      refine all_modify_first (fun (l : value_list) => !l.isEmpty) _ key _ (fun e he => ?_) hme.1
      rw [hf] at he
      simp only [Option.some.injEq] at he
      subst he
      exact eraseIdx_not_empty _ _ (by omega)
    · simp at he

theorem invariantI1_eraseNode (h : Store) (hI : invariantI1 h = true) (self : NodePtr)
    (key : Str) (index : Nat) (h2 : Store) (hlen : (getNodesKey h self key).length ≠ 1)
    (he : eraseNode h self key index = some h2) : invariantI1 h2 = true := by
  have hme := nonEmptyEntries_deref h hI self
  unfold nonEmptyEntries at hme
  rw [Bool.and_eq_true] at hme
  unfold eraseNode at he
  dsimp only at he
  unfold getNodesKey at hlen
  cases hf : find (deref h self).nodes key with
  | none =>
    rw [hf] at he
    simp only [Option.some.injEq] at he
    exact he ▸ hI
  | some it =>
    rw [hf] at he hlen
    simp only at he hlen
    split at he
    · rename_i hgt
      simp only [Option.some.injEq] at he
      subst he
      apply invariantI1_set h hI
      unfold nonEmptyEntries
      rw [Bool.and_eq_true]
      refine ⟨hme.1, ?_⟩
      refine all_modify_first (fun (l : node_list) => !l.isEmpty) _ key _ (fun e he => ?_) hme.2
      rw [hf] at he
      simp only [Option.some.injEq] at he
      subst he
      exact eraseIdx_not_empty _ _ (by omega)
    · simp at he

/-- A successful pass of the node expander leaves no subnode entry empty. -/
theorem run_nodes_not_empty (lib : Library) (hlib : lib.Conforms) (x : ConfigNodeExpander)
    (fuel : Nat) (h : Store) (root : NodePtr) (h2 : Store) (hI : invariantI1 h = true)
    (hrun : x.run lib fuel h root = .ok h2) :
    ∀ n, (deref h2 n).nodes.all (fun e => !e.value.isEmpty) = true := by
  refine run_keep lib hlib x fuel h root h2
    (fun s => ∀ n, (deref s n).nodes.all (fun e => !e.value.isEmpty) = true)
    (fun _ _ => True) ?_ ?_ (fun _ _ _ _ _ _ => trivial) ?_ hrun
  · intro s p r s2 hK _ he n
    rw [(eraseValue_frame s p r.key r.index s2 he).2.1 n]
    exact hK n
  · intro s p r s2 hK _ hs
    exact (setNode_frame s p r.key r.node s2 hs).2.2.2.2.2.2.2 hK
  · intro n
    have := nonEmptyEntries_deref h hI n
    unfold nonEmptyEntries at this
    rw [Bool.and_eq_true] at this
    exact this.2

/-! ### Parents after a pass of the node expander -/

theorem setNode_parentHolds (s : Store) (p : NodePtr) (k : Str) (node : NodePtr) (s2 : Store)
    (hp : p < s.length) (hnode : node < s.length) (hcl : Closed s) (hph : ParentHolds s)
    (hs : setNode s p k node SIZE_MAX = some s2) :
    s2.length = s.length ∧ Closed s2 ∧ ParentHolds s2 ∧
    (∀ q c, c ∈ children s q → c ∈ children s2 q) := by
  obtain ⟨hlen, _, _, hch, hpar, hparn, _, _⟩ := setNode_frame s p k node s2 hs
  have hmono : ∀ q c, c ∈ children s q → c ∈ children s2 q := by
    intro q c hc
    by_cases hq : q = p
    · subst hq
      exact (hch hp c).mpr (Or.inl hc)
    · rw [children_setNode_of_ne s p k node s2 hs q hq]
      exact hc
  have hback : ∀ q c, c ∈ children s2 q → c = node ∨ c ∈ children s q := by
    intro q c hc
    by_cases hq : q = p
    · subst hq
      rcases (hch hp c).mp hc with h1 | h1
      · exact Or.inr h1
      · exact Or.inl h1
    · rw [children_setNode_of_ne s p k node s2 hs q hq] at hc
      exact Or.inr hc
  refine ⟨hlen, ?_, ?_, hmono⟩
  · intro q c hc
    rw [hlen]
    rcases hback q c hc with h1 | h1
    · exact h1 ▸ hnode
    · exact hcl q c h1
  · intro c q hc
    by_cases hcn : c = node
    · subst hcn
      exact ⟨p, hparn hnode, (hch hp c).mpr (Or.inr rfl)⟩
    · rcases hback q c hc with h1 | h1
      · exact absurd h1 hcn
      · obtain ⟨p0, hp0, hc0⟩ := hph c q h1
        exact ⟨p0, by rw [hpar c hcn]; exact hp0, hmono p0 c hc0⟩

theorem eraseValue_parentHolds (s : Store) (p : NodePtr) (k : Str) (i : Nat) (s2 : Store)
    (hcl : Closed s) (hph : ParentHolds s) (he : eraseValue s p k i = some s2) :
    s2.length = s.length ∧ Closed s2 ∧ ParentHolds s2 ∧
    (∀ q c, c ∈ children s q → c ∈ children s2 q) := by
  have hch := children_eraseValue s p k i s2 he
  obtain ⟨hlen, _, hpar, _⟩ := eraseValue_frame s p k i s2 he
  refine ⟨hlen, ?_, ?_, ?_⟩
  · intro q c hc
    rw [hch] at hc
    rw [hlen]
    exact hcl q c hc
  · intro c q hc
    rw [hch] at hc
    obtain ⟨p0, hp0, hc0⟩ := hph c q hc
    exact ⟨p0, by rw [hpar c]; exact hp0, by rw [hch]; exact hc0⟩
  · intro q c hc
    rw [hch]
    exact hc

theorem children_of_ge (h : Store) (q : NodePtr) (hq : h.length ≤ q) : children h q = [] := by
  have hd : deref h q = { nodes := [], values := [], parent := none } := by
    unfold deref
    rw [List.getD_eq_getElem?_getD, List.getElem?_eq_none hq]
    rfl
  unfold children
  rw [hd]
  rfl

/-- Check of `Closed` and `ParentHolds` over the nodes of the store. -/
theorem closed_parentHolds_of_check (h : Store)
    (hc : ∀ q, q < h.length → ∀ c ∈ children h q, c < h.length ∧
      (deref h c).parent.any (fun p => decide (c ∈ children h p)) = true) :
    Closed h ∧ ParentHolds h := by
  have key : ∀ q c, c ∈ children h q → c < h.length ∧
      (deref h c).parent.any (fun p => decide (c ∈ children h p)) = true := by
    intro q c hm
    by_cases hq : q < h.length
    · exact hc q hq c hm
    · rw [children_of_ge h q (Nat.le_of_not_lt hq)] at hm
      simp at hm
  refine ⟨fun q c hm => (key q c hm).1, ?_⟩
  intro c q hm
  have := (key q c hm).2
  cases hp : (deref h c).parent with
  | none => rw [hp] at this; simp at this
  | some p =>
    rw [hp] at this
    exact ⟨p, rfl, by simpa using this⟩

/-- C17 (refuted as stated): in `{template: {port: ["8080"]}, service: {bind:
["%node.template%"]}}` every subnode has as parent the only node that holds it; after the
pass of the default node expander the subnode `template` is held by the root and by
`service`, and its parent is `service`, not the root. -/
theorem nodeExpander_parent_counterexample :
    (∀ q, q < templateStore.length → ∀ c ∈ children templateStore q,
      (deref templateStore c).parent = some q) ∧
    (ConfigNodeExpander.construct '.' "node".toList NUL).run insertionLibrary 3 templateStore 0
      = .ok templateAfter ∧
    1 ∈ children templateAfter 0 ∧ 1 ∈ children templateAfter 2 ∧
    (deref templateAfter 1).parent = some 2 := by
  refine ⟨by decide, by decide, by decide, by decide, by decide⟩

theorem eraseLoop_frame (p : NodePtr) : ∀ (l : List KeyNode) (s s2 : Store),
    eraseLoop s p l = some s2 →
    s2.length = s.length ∧ (∀ n, (deref s2 n).nodes = (deref s n).nodes) ∧
      (∀ n, (deref s2 n).parent = (deref s n).parent)
  | [], s, s2, he => by
    simp only [eraseLoop, Option.some.injEq] at he
    subst he
    exact ⟨rfl, fun _ => rfl, fun _ => rfl⟩
  | r :: rest, s, s2, he => by
    simp only [eraseLoop] at he
    cases hv : eraseValue s p r.key r.index with
    | none => rw [hv] at he; simp at he
    | some s1 =>
      rw [hv] at he
      obtain ⟨hl1, hn1, hp1, _⟩ := eraseValue_frame s p r.key r.index s1 hv
      obtain ⟨hl2, hn2, hp2⟩ := eraseLoop_frame p rest s1 s2 he
      exact ⟨hl2.trans hl1, fun n => (hn2 n).trans (hn1 n), fun n => (hp2 n).trans (hp1 n)⟩

/-- The second inner loop on valid handles: the node `p` holds, besides its subnodes, the
nodes of the replacements, and these nodes have `p` as parent; nothing else changes among
holders and parents. -/
theorem setLoop_parents (p : NodePtr) : ∀ (l : List KeyNode) (s s2 : Store),
    (∀ r ∈ l, p < s.length ∧ r.node < s.length) → setLoop s p l = some s2 →
    s2.length = s.length ∧
    (∀ q c, c ∈ children s2 q ↔ c ∈ children s q ∨ (q = p ∧ ∃ r ∈ l, r.node = c)) ∧
    (∀ c, (∀ r ∈ l, r.node ≠ c) → (deref s2 c).parent = (deref s c).parent) ∧
    (∀ c, (∃ r ∈ l, r.node = c) → (deref s2 c).parent = some p)
  | [], s, s2, _, hs => by
    simp only [setLoop, Option.some.injEq] at hs
    subst hs
    refine ⟨rfl, fun q c => ?_, fun _ _ => rfl, fun c hc => ?_⟩
    · simp
    · obtain ⟨r, hr, _⟩ := hc
      simp at hr
  | r :: rest, s, s2, hv, hs => by
    have hp : p < s.length := (hv r (List.mem_cons_self _ _)).1
    simp only [setLoop] at hs
    cases hset : setNode s p r.key r.node SIZE_MAX with
    | none => rw [hset] at hs; simp at hs
    | some s1 =>
      rw [hset] at hs
      obtain ⟨hl1, _, _, hch1, hpar1, hparn1, _, _⟩ := setNode_frame s p r.key r.node s1 hset
      have hother := children_setNode_of_ne s p r.key r.node s1 hset
      obtain ⟨hl2, hch2, hpar2, hsrc2⟩ := setLoop_parents p rest s1 s2
        (fun r2 hr2 => by rw [hl1]; exact hv r2 (List.mem_cons_of_mem _ hr2)) hs
      refine ⟨hl2.trans hl1, fun q c => ?_, fun c hc => ?_, fun c hc => ?_⟩
      · rw [hch2 q c]
        by_cases hq : q = p
        · subst hq
          rw [hch1 hp c]
          constructor
          · rintro ((hx | hx) | ⟨_, r2, hr2, hx⟩)
            · exact Or.inl hx
            · exact Or.inr ⟨rfl, r, List.mem_cons_self _ _, hx.symm⟩
            · exact Or.inr ⟨rfl, r2, List.mem_cons_of_mem _ hr2, hx⟩
          · rintro (hx | ⟨_, r2, hr2, hx⟩)
            · exact Or.inl (Or.inl hx)
            · rcases List.mem_cons.mp hr2 with he | he
              · subst he
                exact Or.inl (Or.inr hx.symm)
              · exact Or.inr ⟨rfl, r2, he, hx⟩
        · rw [hother q hq]
          constructor
          · rintro (hx | ⟨hx, _⟩)
            · exact Or.inl hx
            · exact absurd hx hq
          · rintro (hx | ⟨hx, _⟩)
            · exact Or.inl hx
            · exact absurd hx hq
      · rw [hpar2 c (fun r2 hr2 => hc r2 (List.mem_cons_of_mem _ hr2))]
        exact hpar1 c (fun hx => hc r (List.mem_cons_self _ _) hx.symm)
      · by_cases hrest : ∃ r2 ∈ rest, r2.node = c
        · exact hsrc2 c hrest
        · have hnone : ∀ r2 ∈ rest, r2.node ≠ c := fun r2 hr2 hx => hrest ⟨r2, hr2, hx⟩
          obtain ⟨r2, hr2, hx⟩ := hc
          rcases List.mem_cons.mp hr2 with he | he
          · subst he
            rw [hpar2 c hnone, ← hx]
            exact hparn1 (hv r2 (List.mem_cons_self _ _)).2
          · exact absurd hx (hnone r2 he)

/-- The outer loop on valid handles: a node holds, besides its subnodes, the nodes grafted
into it; a node that is grafted nowhere keeps its parent, and a node that is grafted has as
parent one of the nodes into which it is grafted. -/
theorem applyLoop_parents (lib : Library) (hlib : lib.Conforms) :
    ∀ (R : replacement_container) (s s2 : Store),
      (∀ entry ∈ R, ∀ r ∈ entry.2, entry.1 < s.length ∧ r.node < s.length) →
      applyLoop lib s R = .ok s2 →
      s2.length = s.length ∧
      (∀ q c, c ∈ children s2 q ↔ c ∈ children s q ∨ Grafted R q c) ∧
      (∀ c, (∀ q, ¬ Grafted R q c) → (deref s2 c).parent = (deref s c).parent) ∧
      (∀ c q, Grafted R q c → ∃ p, Grafted R p c ∧ (deref s2 c).parent = some p)
  | [], s, s2, _, ha => by
    simp only [applyLoop, Outcome.ok.injEq] at ha
    subst ha
    refine ⟨rfl, fun q c => ?_, fun _ _ => rfl, fun c q hg => ?_⟩
    · simp [Grafted]
    · simp [Grafted] at hg
  | entry :: rest, s, s2, hv, ha => by
    simp only [applyLoop] at ha
    cases h1 : eraseLoop s entry.1 (lib.sort entry.2) with
    | none => rw [h1] at ha; simp at ha
    | some s1 =>
      rw [h1] at ha
      simp only at ha
      cases h3 : setLoop s1 entry.1 (lib.sort entry.2) with
      | none => rw [h3] at ha; simp at ha
      | some s3 =>
        rw [h3] at ha
        simp only at ha
        have hmem : ∀ r, r ∈ lib.sort entry.2 ↔ r ∈ entry.2 :=
          fun r => (hlib.2 entry.2).1.mem_iff
        obtain ⟨hl1, hn1, hp1⟩ := eraseLoop_frame entry.1 _ s s1 h1
        have hc1 : ∀ q, children s1 q = children s q := by
          intro q
          unfold children
          rw [hn1 q]
        have hve := hv entry (List.mem_cons_self _ _)
        obtain ⟨hl3, hch3, hpar3, hsrc3⟩ := setLoop_parents entry.1 _ s1 s3
          (fun r hr => by rw [hl1]; exact hve r ((hmem r).mp hr)) h3
        obtain ⟨hl2, hch2, hpar2, hsrc2⟩ := applyLoop_parents lib hlib rest s3 s2
          (fun e he => by
            rw [hl3, hl1]
            exact hv e (List.mem_cons_of_mem _ he)) ha
        have hhead : ∀ q c, (q = entry.1 ∧ ∃ r ∈ lib.sort entry.2, r.node = c)
            → Grafted (entry :: rest) q c := by
          rintro q c ⟨hq, r, hr, hx⟩
          exact ⟨entry, List.mem_cons_self _ _, hq.symm, r, (hmem r).mp hr, hx⟩
        have htail : ∀ q c, Grafted rest q c → Grafted (entry :: rest) q c := by
          rintro q c ⟨e, he, hq, hr⟩
          exact ⟨e, List.mem_cons_of_mem _ he, hq, hr⟩
        have hsplit : ∀ q c, Grafted (entry :: rest) q c →
            (q = entry.1 ∧ ∃ r ∈ lib.sort entry.2, r.node = c) ∨ Grafted rest q c := by
          rintro q c ⟨e, he, hq, r, hr, hx⟩
          rcases List.mem_cons.mp he with he | he
          · subst he
            exact Or.inl ⟨hq.symm, r, (hmem r).mpr hr, hx⟩
          · exact Or.inr ⟨e, he, hq, r, hr, hx⟩
        refine ⟨hl2.trans (hl3.trans hl1), fun q c => ?_, fun c hc => ?_, fun c q hg => ?_⟩
        · rw [hch2 q c, hch3 q c, hc1 q]
          constructor
          · rintro ((hx | hx) | hx)
            · exact Or.inl hx
            · exact Or.inr (hhead q c hx)
            · exact Or.inr (htail q c hx)
          · rintro (hx | hx)
            · exact Or.inl (Or.inl hx)
            · rcases hsplit q c hx with hy | hy
              · exact Or.inl (Or.inr hy)
              · exact Or.inr hy
        · rw [hpar2 c (fun q hg => hc q (htail q c hg)),
            hpar3 c (fun r hr hx => hc entry.1 (hhead entry.1 c ⟨rfl, r, hr, hx⟩)), hp1 c]
        · by_cases hrest : ∃ q2, Grafted rest q2 c
          · obtain ⟨q2, hq2⟩ := hrest
            obtain ⟨p, hp, hpp⟩ := hsrc2 c q2 hq2
            exact ⟨p, htail p c hp, hpp⟩
          · have hnone : ∀ q2, ¬ Grafted rest q2 c := fun q2 hx => hrest ⟨q2, hx⟩
            rcases hsplit q c hg with hy | hy
            · refine ⟨entry.1, hhead entry.1 c ⟨rfl, hy.2⟩, ?_⟩
              rw [hpar2 c hnone]
              exact hsrc3 c hy.2
            · exact absurd hy (hnone q)

/-- Every replacement that the traversal records stems from a scalar of its node that the
regex matches. -/
theorem traversal_tokens (x : ConfigNodeExpander) (root : NodePtr) (fuel : Nat) (h : Store)
    (R : replacement_container)
    (hacc : accept (NodeVisitor x root fuel) root (h, []) = .ok (h, R)) :
    ∀ q c, Grafted R q c →
      ∃ (pos i : Nat), (nodeRegex x (valueAt h q pos i)).isSome = true := by
  have key := node_accept_keep x root
    (fun st => ∀ entry ∈ st.2, ∀ r ∈ entry.2,
      ∃ (pos i : Nat), (nodeRegex x (valueAt st.1 entry.1 pos i)).isSome = true)
    (by
      intro st n key i pos r hK hr
      obtain ⟨_, hcase⟩ := nodeVisitValue_effect x root st.1 st.2 n key i _ r hr
      rcases hcase with ⟨_, hsame⟩ | ⟨what, node, hre, _, hem⟩
      · rw [hsame]
        exact hK
      · intro entry he r2 hr2
        rw [hem] at he
        rcases mem_emplace st.2 n _ entry he r2 hr2 with ⟨e0, h0, h1, h2⟩ | ⟨h1, _⟩
        · rw [← h1]
          exact hK e0 h0 r2 h2
        · rw [h1]
          exact ⟨pos, i, by rw [hre]; rfl⟩)
    fuel root (h, []) (h, R) (by simp) hacc
  rintro q c ⟨entry, he, hq, r, hr, _⟩
  rw [← hq]
  exact key entry he r hr

/-- C17 (amended): let every handle held in the tree point into the store and let every held
node have a parent that holds it.  After a successful pass of the node expander both facts
still hold and every node keeps the subnodes it held.  With `R` the replacements that the
traversal records, each of which stems from a scalar that the regex matches: a node holds
exactly its former subnodes and the nodes grafted into it; a node that is grafted nowhere
keeps its parent; a node that is grafted has as parent one of the nodes into which it is
grafted.  So a subnode whose parent was its only holder still has its parent as only
holder, unless it is grafted into another node than that parent. -/
theorem nodeExpander_parent_holds (lib : Library) (hlib : lib.Conforms)
    (x : ConfigNodeExpander) (fuel : Nat) (h : Store) (root : NodePtr) (h2 : Store)
    (hcl : Closed h) (hph : ParentHolds h) (hrun : x.run lib fuel h root = .ok h2) :
    Closed h2 ∧ ParentHolds h2 ∧ (∀ q c, c ∈ children h q → c ∈ children h2 q) ∧
    ∃ R, accept (NodeVisitor x root fuel) root (h, []) = .ok (h, R) ∧
      (∀ q c, Grafted R q c →
        ∃ (pos i : Nat), (nodeRegex x (valueAt h q pos i)).isSome = true) ∧
      (∀ q c, c ∈ children h2 q ↔ c ∈ children h q ∨ Grafted R q c) ∧
      (∀ c, (∀ q, ¬ Grafted R q c) → (deref h2 c).parent = (deref h c).parent) ∧
      (∀ c q, Grafted R q c → ∃ p, Grafted R p c ∧ (deref h2 c).parent = some p) ∧
      (∀ c, (∀ q, c ∈ children h q → (deref h c).parent = some q) →
        (∀ q, Grafted R q c → (deref h c).parent = some q) →
        ∀ q, c ∈ children h2 q → (deref h2 c).parent = some q) := by
  have key := run_keep lib hlib x fuel h root h2
    (fun s => s.length = h.length ∧ Closed s ∧ ParentHolds s ∧
      (∀ q c, c ∈ children h q → c ∈ children s q))
    (fun p r => p < h.length ∧ r.node < h.length)
    (by
      intro s p r s2 hK _ he
      obtain ⟨h1, h2c, h3, h4⟩ := eraseValue_parentHolds s p r.key r.index s2 hK.2.1 hK.2.2.1 he
      exact ⟨h1.trans hK.1, h2c, h3, fun q c hc => h4 q c (hK.2.2.2 q c hc)⟩)
    (by
      intro s p r s2 hK hG hs
      obtain ⟨h1, h2c, h3, h4⟩ := setNode_parentHolds s p r.key r.node s2
        (by rw [hK.1]; exact hG.1) (by rw [hK.1]; exact hG.2) hK.2.1 hK.2.2.1 hs
      exact ⟨h1.trans hK.1, h2c, h3, fun q c hc => h4 q c (hK.2.2.2 q c hc)⟩)
    (fun R hacc => traversal_valid x root fuel h hcl R hacc)
    ⟨rfl, hcl, hph, fun _ _ hc => hc⟩ hrun
  refine ⟨key.2.1, key.2.2.1, key.2.2.2, ?_⟩
  unfold ConfigNodeExpander.run at hrun
  cases hacc : accept (NodeVisitor x root fuel) root (h, []) with
  | error e => rw [hacc] at hrun; simp at hrun
  | ok st =>
    rw [hacc] at hrun
    simp only at hrun
    have hst : st.1 = h := node_accept_store x root fuel root (h, []) st hacc
    obtain ⟨s, R⟩ := st
    simp only at hst
    subst hst
    simp only at hrun
    have hvalid := traversal_valid x root fuel s hcl R hacc
    have hperm : ∀ e, e ∈ lib.iterate R ↔ e ∈ R := fun e => (hlib.1 R).mem_iff
    have hg : ∀ q c, Grafted (lib.iterate R) q c ↔ Grafted R q c := by
      intro q c
      constructor
      · rintro ⟨e, he, hx⟩
        exact ⟨e, (hperm e).mp he, hx⟩
      · rintro ⟨e, he, hx⟩
        exact ⟨e, (hperm e).mpr he, hx⟩
    obtain ⟨_, hch, hpar, hsrc⟩ := applyLoop_parents lib hlib (lib.iterate R) s h2
      (fun e he => hvalid e ((hperm e).mp he)) hrun
    refine ⟨R, rfl, traversal_tokens x root fuel s R hacc, ?_, ?_, ?_, ?_⟩
    · intro q c
      rw [hch q c, hg q c]
    · intro c hc
      exact hpar c (fun q hx => hc q ((hg q c).mp hx))
    · intro c q hx
      obtain ⟨p, hp, hpp⟩ := hsrc c q ((hg q c).mpr hx)
      exact ⟨p, (hg p c).mp hp, hpp⟩
    · intro c hold hgraft q hq
      have hq2 : (deref s c).parent = some q := by
        rcases (hch q c).mp hq with hx | hx
        · exact hold q hx
        · exact hgraft q ((hg q c).mp hx)
      by_cases hsome : ∃ q2, Grafted R q2 c
      · obtain ⟨q2, hx⟩ := hsome
        obtain ⟨p, hp, hpp⟩ := hsrc c q2 ((hg q2 c).mpr hx)
        rw [hpp, ← hgraft p ((hg p c).mp hp), hq2]
      · rw [hpar c (fun q2 hx => hsome ⟨q2, (hg q2 c).mp hx⟩)]
        exact hq2

/-- C17 (amended) on the template tree: `template` (node 1) is grafted into `service`
(node 2) and gets it as parent; `service`, grafted nowhere, keeps the root as parent and as
only holder. -/
theorem nodeExpander_parent_holds_witness :
    (Closed templateStore ∧ ParentHolds templateStore) ∧
    (ConfigNodeExpander.construct '.' "node".toList NUL).run insertionLibrary 3 templateStore 0
      = .ok templateAfter ∧
    accept (NodeVisitor (ConfigNodeExpander.construct '.' "node".toList NUL) 0 3) 0
        (templateStore, [])
      = .ok (templateStore, [(2, [{ key := "bind".toList, node := 1, index := 0 }])]) ∧
    (deref templateAfter 2).parent = some 0 ∧
    (Closed templateAfter ∧ ParentHolds templateAfter ∧
      (∀ q c, c ∈ children templateStore q → c ∈ children templateAfter q) ∧
      ∃ R, accept (NodeVisitor (ConfigNodeExpander.construct '.' "node".toList NUL) 0 3) 0
            (templateStore, []) = .ok (templateStore, R) ∧
        (∀ q c, Grafted R q c → ∃ (pos i : Nat),
          (nodeRegex (ConfigNodeExpander.construct '.' "node".toList NUL)
            (valueAt templateStore q pos i)).isSome = true) ∧
        (∀ q c, c ∈ children templateAfter q ↔ c ∈ children templateStore q ∨ Grafted R q c) ∧
        (∀ c, (∀ q, ¬ Grafted R q c) →
          (deref templateAfter c).parent = (deref templateStore c).parent) ∧
        (∀ c q, Grafted R q c → ∃ p, Grafted R p c ∧ (deref templateAfter c).parent = some p) ∧
        (∀ c, (∀ q, c ∈ children templateStore q → (deref templateStore c).parent = some q) →
          (∀ q, Grafted R q c → (deref templateStore c).parent = some q) →
          ∀ q, c ∈ children templateAfter q → (deref templateAfter c).parent = some q)) :=
  ⟨closed_parentHolds_of_check templateStore (by decide), by decide, by decide, by decide,
    nodeExpander_parent_holds insertionLibrary insertionLibrary_conforms
      (ConfigNodeExpander.construct '.' "node".toList NUL) 3 templateStore 0 templateAfter
      (closed_parentHolds_of_check templateStore (by decide)).1
      (closed_parentHolds_of_check templateStore (by decide)).2 (by decide)⟩

/-- C18 (refuted as stated): `{k: ["only"]}` satisfies invariant I1; `eraseValue("k", 0)`
returns and leaves the entry `k` in place with an empty sequence.  The node expander does
the same to the entry `bind` of `service` in the template tree. -/
theorem eraseValue_invariant_counterexample :
    invariantI1 singleStore = true ∧
    eraseValue singleStore 0 "k".toList 0 = some singleAfter ∧
    invariantI1 singleAfter = false ∧
    invariantI1 templateStore = true ∧
    (ConfigNodeExpander.construct '.' "node".toList NUL).run insertionLibrary 3 templateStore 0
      = .ok templateAfter ∧
    invariantI1 templateAfter = false := by
  refine ⟨by decide, by decide, by decide, by decide, by decide, by decide⟩

/-- C18 (amended): in a store that satisfies invariant I1, `setValue`, `setNode`, `erase` and
`swap` keep it; `eraseValue` and `eraseNode` keep it when the sequence of the key does not
consist of exactly one element; a successful pass of the node expander leaves every subnode
entry with a non-empty sequence. -/
theorem invariantI1_mutators (h : Store) (hI : invariantI1 h = true) (self : NodePtr)
    (key : Str) :
    (∀ value index h2, setValue h self key value index = some h2 → invariantI1 h2 = true) ∧
    (∀ node index h2, setNode h self key node index = some h2 → invariantI1 h2 = true) ∧
    invariantI1 (erase h self key) = true ∧
    (∀ other h2, swap h self other = some h2 → invariantI1 h2 = true) ∧
    (∀ index h2, (getValuesKey h self key).length ≠ 1 →
      eraseValue h self key index = some h2 → invariantI1 h2 = true) ∧
    (∀ index h2, (getNodesKey h self key).length ≠ 1 →
      eraseNode h self key index = some h2 → invariantI1 h2 = true) ∧
    (∀ lib x fuel h2, Library.Conforms lib → ConfigNodeExpander.run lib x fuel h self = .ok h2 →
      ∀ n, (deref h2 n).nodes.all (fun e => !e.value.isEmpty) = true) :=
  ⟨fun value index h2 hs => invariantI1_setValue h hI self key value index h2 hs,
   fun node index h2 hs => invariantI1_setNode h hI self key node index h2 hs,
   invariantI1_erase h hI self key,
   fun other h2 hs => invariantI1_swap h hI self other h2 hs,
   fun index h2 hlen he => invariantI1_eraseValue h hI self key index h2 hlen he,
   fun index h2 hlen he => invariantI1_eraseNode h hI self key index h2 hlen he,
   fun lib x fuel h2 hlib hrun => run_nodes_not_empty lib hlib x fuel h self h2 hI hrun⟩

/-! ### The map of replacements, node by node -/

theorem entriesAt_emplace : ∀ (R : replacement_container) (p : NodePtr) (kn : KeyNode)
    (q : NodePtr),
    entriesAt (emplace R p kn) q = if q = p then entriesAt R p ++ [kn] else entriesAt R q
  | [], p, kn, q => by
    unfold emplace
    by_cases hq : q = p
    · subst hq
      simp [entriesAt, findReplacements]
    · have hq2 : ¬ p = q := fun hx => hq hx.symm
      simp [entriesAt, findReplacements, hq, hq2]
  | e :: rest, p, kn, q => by
    have ih := entriesAt_emplace rest p kn q
    unfold emplace
    by_cases hp : e.1 = p
    · rw [if_pos hp]
      by_cases hq : q = p
      · subst hq
        simp [entriesAt, findReplacements, hp]
      · have hq2 : ¬ e.1 = q := fun hx => hq (hx.symm.trans hp)
        simp [entriesAt, findReplacements, hq, hq2]
    · rw [if_neg hp]
      by_cases hq : q = p
      · subst hq
        rw [if_pos rfl] at ih ⊢
        have : entriesAt (e :: emplace rest q kn) q = entriesAt (emplace rest q kn) q := by
          simp [entriesAt, findReplacements, hp]
        rw [this, ih]
        simp [entriesAt, findReplacements, hp]
      · rw [if_neg hq] at ih ⊢
        by_cases he : e.1 = q
        · simp [entriesAt, findReplacements, he]
        · have h1 : entriesAt (e :: emplace rest p kn) q = entriesAt (emplace rest p kn) q := by
            simp [entriesAt, findReplacements, he]
          have h2 : entriesAt (e :: rest) q = entriesAt rest q := by
            simp [entriesAt, findReplacements, he]
          rw [h1, h2, ih]

theorem keys_emplace : ∀ (R : replacement_container) (p : NodePtr) (kn : KeyNode),
    (R.map Prod.fst).Nodup → ((emplace R p kn).map Prod.fst).Nodup ∧
      ∀ q, q ∈ (emplace R p kn).map Prod.fst → q = p ∨ q ∈ R.map Prod.fst
  | [], p, kn, _ => by simp [emplace]
  | e :: rest, p, kn, hnd => by
    unfold emplace
    by_cases hp : e.1 = p
    · rw [if_pos hp]
      simp only [List.map_cons]
      exact ⟨hnd, fun q hq => Or.inr hq⟩
    · rw [if_neg hp]
      simp only [List.map_cons, List.nodup_cons] at hnd ⊢
      obtain ⟨ih1, ih2⟩ := keys_emplace rest p kn hnd.2
      refine ⟨⟨fun hm => ?_, ih1⟩, ?_⟩
      · rcases ih2 _ hm with h1 | h1
        · exact hp h1
        · exact hnd.1 h1
      · intro q hq
        rcases List.mem_cons.mp hq with h1 | h1
        · exact Or.inr (List.mem_cons.mpr (Or.inl h1))
        · rcases ih2 q h1 with h2 | h2
          · exact Or.inl h2
          · exact Or.inr (List.mem_cons_of_mem _ h2)

theorem findReplacements_of_mem : ∀ (R : replacement_container) (p : NodePtr)
    (L : List KeyNode), (R.map Prod.fst).Nodup → (p, L) ∈ R → findReplacements R p = some L
  | [], _, _, _, hm => by simp at hm
  | e :: rest, p, L, hnd, hm => by
    simp only [List.map_cons, List.nodup_cons] at hnd
    unfold findReplacements
    rcases List.mem_cons.mp hm with h1 | h1
    · subst h1
      simp
    · have hne : ¬ e.1 = p := by
        intro hx
        apply hnd.1
        rw [hx]
        exact List.mem_map.mpr ⟨(p, L), h1, rfl⟩
      rw [if_neg hne]
      exact findReplacements_of_mem rest p L hnd.2 h1

theorem findReplacements_none_of_not_mem : ∀ (R : replacement_container) (p : NodePtr),
    p ∉ R.map Prod.fst → findReplacements R p = none
  | [], _, _ => rfl
  | e :: rest, p, hm => by
    simp only [List.map_cons, List.mem_cons, not_or] at hm
    unfold findReplacements
    rw [if_neg (fun hx => hm.1 hx.symm)]
    exact findReplacements_none_of_not_mem rest p hm.2

/-! ### What the traversal records for one node -/

theorem runSteps_accumulate {σ α β : Type} (v : Visitor σ) (self : NodePtr)
    (K : Store × σ → Prop) (μ : Store × σ → List α) (pl : α → β) (G : α → Prop)
    (w : Step → List β) :
    ∀ (steps : List Step),
      (∀ s ∈ steps, ∀ st st2, K st → runStep v self st s = .ok st2 →
        K st2 ∧ ∃ δ, μ st2 = μ st ++ δ ∧ δ.map pl = w s ∧ ∀ r ∈ δ, G r) →
      ∀ st st2, K st → runSteps v self steps st = .ok st2 →
        K st2 ∧ ∃ Δ, μ st2 = μ st ++ Δ ∧ Δ.map pl = steps.flatMap w ∧ ∀ r ∈ Δ, G r
  | [], _, st, st2, hk, hr => by
    simp only [runSteps, Outcome.ok.injEq] at hr
    subst hr
    exact ⟨hk, [], by simp, by simp, by simp⟩
  | s :: rest, hgood, st, st2, hk, hr => by
    simp only [runSteps] at hr
    cases h1 : runStep v self st s with
    | error e => rw [h1] at hr; simp at hr
    | ok st1 =>
      rw [h1] at hr
      obtain ⟨hk1, δ, hδ1, hδ2, hδ3⟩ := hgood s (by simp) st st1 hk h1
      obtain ⟨hk2, Δ, hΔ1, hΔ2, hΔ3⟩ := runSteps_accumulate v self K μ pl G w rest
        (fun x hx => hgood x (List.mem_cons_of_mem _ hx)) st1 st2 hk1 hr
      refine ⟨hk2, δ ++ Δ, ?_, ?_, ?_⟩
      · rw [hΔ1, hδ1, List.append_assoc]
      · rw [List.map_append, hδ2, hΔ2, List.flatMap_cons]
      · intro r hr2
        rcases List.mem_append.mp hr2 with h2 | h2
        · exact hδ3 r h2
        · exact hΔ3 r h2

theorem flatMap_nodeSteps {β : Type} (g : Step → List β) (f : NodePtr → List β)
    (hg : ∀ key i c, g (Step.node key i c) = f c) (key : Str) :
    ∀ (l : node_list) (s : Nat),
      ((l.enumFrom s).map (fun p => Step.node key p.1 p.2)).flatMap g = l.flatMap f
  | [], _ => rfl
  | c :: cs, s => by
    simp only [List.enumFrom_cons, List.map_cons, List.flatMap_cons, hg]
    rw [flatMap_nodeSteps g f hg key cs (s + 1)]

theorem flatMap_allNodeSteps {β : Type} (g : Step → List β) (f : NodePtr → List β)
    (hg : ∀ key i c, g (Step.node key i c) = f c) :
    ∀ (nodes : children_container node_list),
      (nodes.flatMap (fun child =>
        child.value.enum.map (fun p => Step.node child.key p.1 p.2))).flatMap g
        = (nodes.flatMap (fun child => child.value)).flatMap f
  | [] => rfl
  | child :: rest => by
    simp only [List.flatMap_cons, List.flatMap_append]
    rw [flatMap_allNodeSteps g f hg rest]
    unfold List.enum
    rw [flatMap_nodeSteps g f hg child.key child.value 0]

theorem flatMap_replicate {β : Type} (t : List β) (cnt : NodePtr → Nat) :
    ∀ (l : List NodePtr),
      l.flatMap (fun c => (List.replicate (cnt c) t).flatten)
        = (List.replicate ((l.map cnt).sum) t).flatten
  | [] => rfl
  | c :: cs => by
    simp only [List.flatMap_cons, List.map_cons, List.sum_cons]
    rw [flatMap_replicate t cnt cs, List.replicate_add, List.flatten_append]

/-- Contribution of a step of `accept` on the node `n` to the vector of `p`. -/
theorem flatMap_visitSteps (x : ConfigNodeExpander) (h : Store) (p n : NodePtr)
    (cnt : NodePtr → Nat) (w : Step → List (Str × Nat))
    (hwn : ∀ key i c, w (Step.node key i c) = (List.replicate (cnt c) (tokenPlaces x h p)).flatten)
    (hwv : ∀ pos key i, w (Step.value pos key i)
      = if n = p then placeOf x h p (Step.value pos key i) else []) :
    (visitSteps (deref h n)).flatMap w
      = (List.replicate (((children h n).map cnt).sum + (if n = p then 1 else 0))
          (tokenPlaces x h p)).flatten := by
  unfold visitSteps
  rw [List.flatMap_append, flatMap_allNodeSteps w _ hwn, flatMap_replicate,
    List.replicate_add, List.flatten_append]
  congr 1
  by_cases hn : n = p
  · subst hn
    rw [if_pos rfl]
    simp only [List.replicate_one, List.flatten_cons, List.flatten_nil, List.append_nil]
    unfold tokenPlaces visitSteps
    rw [List.flatMap_append, flatMap_allNodeSteps (placeOf x h n) (fun _ => [])
      (fun _ _ _ => rfl)]
    have hnil : ∀ (l : List NodePtr), l.flatMap (fun _ => ([] : List (Str × Nat))) = [] := by
      intro l
      induction l with
      | nil => rfl
      | cons a t ih => simp
    rw [hnil, List.nil_append]
    apply List.flatMap_congr
    intro s hs
    simp only [List.mem_flatMap, List.mem_map] at hs
    obtain ⟨q, _, i, _, hi⟩ := hs
    rw [← hi, hwv, if_pos rfl]
  · rw [if_neg hn]
    simp only [List.replicate_zero, List.flatten_nil]
    rw [List.flatMap_eq_nil_iff]
    intro s hs
    simp only [List.mem_flatMap, List.mem_map] at hs
    obtain ⟨q, _, i, _, hi⟩ := hs
    rw [← hi, hwv, if_neg hn]

/-- What the traversal from the node `n` adds to the vector of the node `p`: for every time
it comes to `p`, one replacement for every scalar of `p` that the regex matches. -/
theorem node_accept_entries (x : ConfigNodeExpander) (root : NodePtr) (h : Store) (p : NodePtr)
    (G : KeyNode → Prop)
    (hG : ∀ R pos key i r, Step.value pos key i ∈ visitSteps (deref h p) →
      nodeVisitValue x root h R p key i (valueAt h p pos i) = .ok r →
      ∀ kn, r.1 = emplace R p kn → G kn) :
    ∀ (fuel : Nat) (n : NodePtr) (R : replacement_container)
      (st2 : Store × replacement_container),
      accept (NodeVisitor x root fuel) n (h, R) = .ok st2 →
      ∃ L, entriesAt st2.2 p = entriesAt R p ++ L ∧
        L.map KeyNode.place
          = (List.replicate (visitCount h p fuel n) (tokenPlaces x h p)).flatten ∧
        ∀ r ∈ L, G r := by
  have hvalue : ∀ (fuel : Nat) (n : NodePtr) (pos : Nat) (key : Str) (i : Nat)
      (st st2 : Store × replacement_container),
      Step.value pos key i ∈ visitSteps (deref h n) → st.1 = h →
      runStep (NodeVisitor x root fuel) n st (Step.value pos key i) = .ok st2 →
      st2.1 = h ∧ ∃ δ, entriesAt st2.2 p = entriesAt st.2 p ++ δ ∧
        δ.map KeyNode.place
          = (if n = p then placeOf x h p (Step.value pos key i) else []) ∧
        ∀ r ∈ δ, G r := by
    intro fuel n pos key i st st2 hmem hst hs
    rw [runStep_node_value] at hs
    cases hv : nodeVisitValue x root st.1 st.2 n key i (valueAt st.1 n pos i) with
    | error e => rw [hv] at hs; simp at hs
    | ok r =>
      rw [hv] at hs
      simp only [Outcome.ok.injEq] at hs
      subst hs
      refine ⟨hst, ?_⟩
      simp only
      obtain ⟨_, heff⟩ := nodeVisitValue_effect x root st.1 st.2 n key i _ r hv
      rcases heff with ⟨hnone, hr⟩ | ⟨what, node, hm, _, hr⟩
      · refine ⟨[], by rw [hr, List.append_nil], ?_, by simp⟩
        by_cases hn : n = p
        · subst hn
          rw [hst] at hnone
          simp [placeOf, hnone]
        · simp [hn]
      · by_cases hn : n = p
        · subst hn
          refine ⟨[{ key := key, node := node, index := i }], ?_, ?_, ?_⟩
          · rw [hr, entriesAt_emplace, if_pos rfl]
          · rw [hst] at hm
            simp [placeOf, hm, KeyNode.place]
          · intro r0 hr0
            simp only [List.mem_singleton] at hr0
            subst hr0
            rw [hst] at hv
            exact hG st.2 pos key i r hmem hv _ hr
        · refine ⟨[], ?_, by simp [hn], by simp⟩
          rw [hr, entriesAt_emplace, if_neg (fun hx => hn hx.symm), List.append_nil]
  intro fuel
  induction fuel with
  | zero =>
    intro n R st2 hacc
    rw [accept_eq_runSteps] at hacc
    have key := runSteps_accumulate (NodeVisitor x root 0) n (fun st => st.1 = h)
      (fun st => entriesAt st.2 p) KeyNode.place G
      (fun s => match s with
        | Step.node _ _ _ => (List.replicate 0 (tokenPlaces x h p)).flatten
        | Step.value pos key i => if n = p then placeOf x h p (Step.value pos key i) else [])
      (visitSteps (deref h n))
      (by
        intro s hs st st3 hst hrun
        cases s with
        | node key idx c => simp [runStep, NodeVisitor] at hrun
        | value pos key i => exact hvalue 0 n pos key i st st3 hs hst hrun)
      (h, R) st2 rfl hacc
    obtain ⟨_, Δ, h1, h2, h3⟩ := key
    refine ⟨Δ, h1, ?_, h3⟩
    rw [h2, flatMap_visitSteps x h p n (fun _ => 0) _ (fun _ _ _ => rfl) (fun _ _ _ => rfl)]
    simp [visitCount]
  | succ f ih =>
    intro n R st2 hacc
    rw [accept_eq_runSteps] at hacc
    have key := runSteps_accumulate (NodeVisitor x root (f + 1)) n (fun st => st.1 = h)
      (fun st => entriesAt st.2 p) KeyNode.place G
      (fun s => match s with
        | Step.node _ _ c => (List.replicate (visitCount h p f c) (tokenPlaces x h p)).flatten
        | Step.value pos key i => if n = p then placeOf x h p (Step.value pos key i) else [])
      (visitSteps (deref h n))
      (by
        intro s hs st st3 hst hrun
        cases s with
        | node key idx c =>
          have hrun2 : accept (NodeVisitor x root f) c (h, st.2) = .ok st3 := by
            rw [← hst]
            exact hrun
          have hs3 := node_accept_store x root f c (h, st.2) st3 hrun2
          exact ⟨hs3, ih c st.2 st3 hrun2⟩
        | value pos key i => exact hvalue (f + 1) n pos key i st st3 hs hst hrun)
      (h, R) st2 rfl hacc
    obtain ⟨_, Δ, h1, h2, h3⟩ := key
    refine ⟨Δ, h1, ?_, h3⟩
    rw [h2, flatMap_visitSteps x h p n (visitCount h p f) _ (fun _ _ _ => rfl)
      (fun _ _ _ => rfl)]
    simp [visitCount]

/-- The traversal leaves at most one entry for each node in the map. -/
theorem node_accept_keys (x : ConfigNodeExpander) (root : NodePtr) (fuel : Nat) (n : NodePtr)
    (st st2 : Store × replacement_container) (hnd : (st.2.map Prod.fst).Nodup)
    (hacc : accept (NodeVisitor x root fuel) n st = .ok st2) : (st2.2.map Prod.fst).Nodup := by
  refine node_accept_keep x root (fun s => (s.2.map Prod.fst).Nodup) ?_ fuel n st st2 hnd hacc
  intro s m key i pos r hK hv
  obtain ⟨_, heff⟩ := nodeVisitValue_effect x root s.1 s.2 m key i _ r hv
  rcases heff with ⟨_, hr⟩ | ⟨what, node, _, _, hr⟩
  · simp only
    rw [hr]
    exact hK
  · simp only
    rw [hr]
    exact (keys_emplace s.2 m _ hK).1

/-! ### A whole-scalar token of the default node expander -/

theorem tailMatch_token (path : Str) (hpath : path ≠ []) :
    tailMatch (path ++ ['%']) = some path := by
  unfold tailMatch
  rw [List.reverse_append]
  have hb : isBlankOrNewline '%' = false := by decide
  simp only [List.reverse_cons, List.reverse_nil, List.nil_append, List.singleton_append,
    List.dropWhile_cons, hb]
  simp [hpath]

theorem starLiteral_no_match (lit : Str) (fuel : Nat) (s : Str) (hs : ¬ lit <+: s) :
    starLiteral lit fuel s = [([], s)] := by
  cases fuel with
  | zero => rfl
  | succ f =>
    unfold starLiteral
    rw [if_neg (fun hx => hs hx.2)]

theorem nodeRegex_token (sep : Separator) (hsep : sep ≠ NUL) (path : Str) (hpath : path ≠ [])
    (hhead : path.head? ≠ some sep) :
    nodeRegex (ConfigNodeExpander.construct sep "node".toList NUL)
      ("%node".toList ++ sep :: path ++ ['%']) = some ([], [], path) := by
  have hpre : cstr ('%' :: cstr "node".toList ++ [sep]) = "%node".toList ++ [sep] := by
    have h1 : cstr "node".toList = "node".toList := by decide
    rw [h1]
    have h2 : '%' :: "node".toList ++ [sep] = "%node".toList ++ sep :: [] := rfl
    rw [h2, cstr_append_cons _ _ _ (by decide) hsep]
    rfl
  have hlev : cstr [sep] = [sep] := by
    rw [cstr_cons, if_neg hsep]
    rfl
  have hval : ("%node".toList ++ sep :: path ++ ['%']).dropWhile isBlankOrNewline
      = ("%node".toList ++ [sep]) ++ (path ++ ['%']) := by
    have : "%node".toList ++ sep :: path ++ ['%'] = '%' :: ("node".toList ++ sep :: path ++ ['%']) :=
      rfl
    rw [this, List.dropWhile_cons]
    have hb : isBlankOrNewline '%' = false := by decide
    rw [hb]
    simp
  have hno : ¬ [sep] <+: path ++ ['%'] := by
    intro hx
    cases path with
    | nil => exact hpath rfl
    | cons c t =>
      apply hhead
      obtain ⟨u, hu⟩ := hx
      simp only [List.singleton_append, List.cons_append, List.cons.injEq] at hu
      simp [hu.1]
  unfold nodeRegex
  simp only [ConfigNodeExpander.construct, if_true, hpre, hlev, hval]
  rw [if_pos (List.prefix_append _ _)]
  simp only [List.drop_left, ne_eq, not_true_eq_false, if_false]
  rw [starLiteral_no_match _ _ _ hno]
  simp [tailMatch_token path hpath]

theorem nodeVisitValue_token (sep : Separator) (hsep : sep ≠ NUL) (path : Str)
    (hpath : path ≠ []) (hhead : path.head? ≠ some sep) (root : NodePtr) (h : Store)
    (R : replacement_container) (p : NodePtr) (k : Str) (i : Nat) (target : NodePtr)
    (t : node_list) (htarget : getNodes h root (some path) sep = target :: t) :
    nodeVisitValue (ConfigNodeExpander.construct sep "node".toList NUL) root h R p k i
      ("%node".toList ++ sep :: path ++ ['%'])
      = .ok (emplace R p { key := k, node := target, index := i },
          "%node".toList ++ sep :: path ++ ['%']) := by
  unfold nodeVisitValue
  rw [nodeRegex_token sep hsep path hpath hhead]
  have hs : (ConfigNodeExpander.construct sep "node".toList NUL).separator = sep := by
    simp [ConfigNodeExpander.construct]
  simp only [tokenScope, ne_eq, not_true_eq_false, if_false, addKeyNode, hs, htarget, if_true]

/-! ### Places of the tokens under one key -/

theorem find_split {L : Type} (c : children_container L) (k : Str) (e : ElementType L)
    (hf : find c k = some e) (hnd : (c.map (fun x => x.key)).Nodup) :
    e.key = k ∧ ∃ pre post, c = pre ++ e :: post ∧ (∀ x ∈ pre, x.key ≠ k) ∧
      (∀ x ∈ post, x.key ≠ k) := by
  unfold find at hf
  obtain ⟨hk, pre, post, hsplit, hpre⟩ := List.find?_eq_some.mp hf
  have hk2 : e.key = k := by simpa using hk
  refine ⟨hk2, pre, post, hsplit, fun x hx => by simpa using hpre x hx, ?_⟩
  intro x hx hxk
  rw [hsplit, List.map_append, List.map_cons] at hnd
  have h2 := (List.nodup_append.mp hnd).2.1
  rw [List.nodup_cons] at h2
  apply h2.1
  rw [hk2, ← hxk]
  exact List.mem_map.mpr ⟨x, hx, rfl⟩

theorem flatMap_enumFrom_nil {α β : Type} (g : Nat × α → List β) :
    ∀ (l : List α) (s : Nat), (∀ q ∈ l.enumFrom s, g q = []) → (l.enumFrom s).flatMap g = []
  | [], _, _ => rfl
  | a :: t, s, hg => by
    rw [List.flatMap_eq_nil_iff]
    exact hg

theorem mem_of_mem_enumFrom {α : Type} : ∀ (l : List α) (s : Nat) (q : Nat × α),
    q ∈ l.enumFrom s → q.2 ∈ l
  | [], _, _, hq => by simp at hq
  | a :: t, s, q, hq => by
    simp only [List.enumFrom_cons, List.mem_cons] at hq
    rcases hq with h1 | h1
    · simp [h1]
    · exact List.mem_cons_of_mem _ (mem_of_mem_enumFrom t (s + 1) q h1)

/-- Indices of the scalars of a sequence that the regex of the node expander matches. -/
theorem tokenPlaces_key (x : ConfigNodeExpander) (h : Store) (p : NodePtr) (k : Str)
    (e : ElementType value_list) (hf : find (deref h p).values k = some e)
    (hnd : ((deref h p).values.map (fun c => c.key)).Nodup) :
    ((tokenPlaces x h p).filter (fun q => decide (q.1 = k))).map Prod.snd
      = (List.range e.value.length).filter
          (fun i => (nodeRegex x (e.value.getD i [])).isSome) := by
  obtain ⟨hk, pre, post, hsplit, hpre, hpost⟩ := find_split _ k e hf hnd
  have hat : (deref h p).values[pre.length]? = some e := by
    rw [hsplit, List.getElem?_append_right (Nat.le_refl _)]
    simp
  unfold tokenPlaces visitSteps
  rw [List.flatMap_append, flatMap_allNodeSteps (placeOf x h p) (fun _ => [])
    (fun _ _ _ => rfl)]
  have hnil : ∀ (l : List NodePtr), l.flatMap (fun _ => ([] : List (Str × Nat))) = [] := by
    intro l
    induction l with
    | nil => rfl
    | cons a t ih => simp
  rw [hnil, List.nil_append, List.filter_flatMap, List.map_flatMap, List.flatMap_assoc]
  have hval : ∀ i, valueAt h p pre.length i = e.value.getD i [] := by
    intro i
    unfold valueAt
    rw [hat]
  generalize hg : (fun (q : Nat × ElementType value_list) =>
    ((List.range q.2.value.length).map (fun i => Step.value q.1 q.2.key i)).flatMap
      (fun a => List.map Prod.snd (List.filter (fun q => decide (q.1 = k))
        (placeOf x h p a)))) = g
  have hother : ∀ q : Nat × ElementType value_list, q.2.key ≠ k → g q = [] := by
    intro q hq
    rw [← hg]
    rw [List.flatMap_eq_nil_iff]
    intro s hs
    obtain ⟨i, _, hi⟩ := List.mem_map.mp hs
    rw [← hi]
    simp only [placeOf]
    split
    · simp [hq]
    · rfl
  have hself : g (pre.length, e) = (List.range e.value.length).filter
      (fun i => (nodeRegex x (e.value.getD i [])).isSome) := by
    rw [← hg]
    simp only
    generalize List.range e.value.length = rg
    induction rg with
    | nil => rfl
    | cons i rest ih =>
      simp only [List.map_cons, List.flatMap_cons]
      rw [ih]
      simp only [placeOf]
      rw [hval i]
      by_cases hm : (nodeRegex x (e.value.getD i [])).isSome = true
      · rw [if_pos hm, List.filter_cons (p := fun i => (nodeRegex x (e.value.getD i [])).isSome),
          if_pos hm]
        simp [hk]
      · rw [if_neg hm, List.filter_cons (p := fun i => (nodeRegex x (e.value.getD i [])).isSome),
          if_neg hm]
        rfl
  unfold List.enum
  rw [hsplit, List.enumFrom_append, List.flatMap_append, List.enumFrom_cons,
    List.flatMap_cons]
  rw [flatMap_enumFrom_nil g pre 0
    (fun q hq => hother q (hpre q.2 (mem_of_mem_enumFrom pre 0 q hq)))]
  rw [flatMap_enumFrom_nil g post _
    (fun q hq => hother q (hpost q.2 (mem_of_mem_enumFrom post _ q hq)))]
  simp only [List.nil_append, List.append_nil, Nat.zero_add]
  exact hself

/-! ### Erasing the matched indices from the highest down -/

theorem foldr_eraseIdx_succ {α : Type} (a : α) : ∀ (js : List Nat) (w : List α),
    (js.map Nat.succ).foldr (fun j acc => acc.eraseIdx j) (a :: w)
      = a :: js.foldr (fun j acc => acc.eraseIdx j) w
  | [], _ => rfl
  | j :: rest, w => by
    simp only [List.map_cons, List.foldr_cons]
    rw [foldr_eraseIdx_succ a rest w]
    rfl

theorem foldr_eraseIdx_filter {α : Type} (d : α) (m : α → Bool) : ∀ (v : List α),
    ((List.range v.length).filter (fun i => m (v.getD i d))).foldr
      (fun j acc => acc.eraseIdx j) v = v.filter (fun a => !m a)
  | [] => rfl
  | a :: v => by
    have ih := foldr_eraseIdx_filter d m v
    rw [List.length_cons, List.range_succ_eq_map, List.filter_cons, List.filter_map]
    have hcomp : ((fun i => m ((a :: v).getD i d)) ∘ Nat.succ) = fun i => m (v.getD i d) := by
      funext i
      simp
    rw [hcomp]
    by_cases hm : m a = true
    · have h0 : m ((a :: v).getD 0 d) = true := by simpa using hm
      rw [if_pos h0, List.foldr_cons, foldr_eraseIdx_succ, ih]
      simp [hm]
    · have h0 : ¬ m ((a :: v).getD 0 d) = true := by simpa using hm
      rw [if_neg h0, foldr_eraseIdx_succ, ih]
      simp [hm]

theorem sorted_desc_unique (js idx : List Nat) (hperm : js.Perm idx)
    (hs : js.Sorted (fun a b => a ≥ b)) (hidx : idx.Sorted (fun a b => a < b)) :
    js = idx.reverse := by
  have h2 : idx.reverse.Sorted (fun a b => a ≥ b) := by
    unfold List.Sorted
    rw [List.pairwise_reverse]
    exact List.Pairwise.imp (fun hab => Nat.le_of_lt hab) hidx
  exact List.eq_of_perm_of_sorted (hperm.trans (List.reverse_perm idx).symm) hs h2

/-! ### The replacement phase, seen from one key of one node -/

theorem find_modify_of_ne {L : Type} (f : L → L) (key k : Str) (hk : key ≠ k) :
    ∀ (c : children_container L), find (modify f key c) k = find c k
  | [] => rfl
  | e :: es => by
    unfold modify
    by_cases he : e.key = key
    · rw [if_pos he]
      have h1 : ¬ e.key = k := fun hx => hk (he.symm.trans hx)
      simp [find, h1]
    · rw [if_neg he]
      have ih := find_modify_of_ne f key k hk es
      unfold find at ih ⊢
      by_cases h1 : e.key = k
      · simp [h1]
      · simp only [List.find?_cons, h1, decide_False]
        exact ih

theorem eraseValue_getValuesKey (s : Store) (p : NodePtr) (key : Str) (idx : Nat) (s2 : Store)
    (he : eraseValue s p key idx = some s2) (q : NodePtr) (k : Str) :
    getValuesKey s2 q k
      = if p = q ∧ key = k then (getValuesKey s q k).eraseIdx idx else getValuesKey s q k := by
  unfold eraseValue at he
  dsimp only at he
  cases hf : find (deref s p).values key with
  | none =>
    rw [hf] at he
    simp only [Option.some.injEq] at he
    subst he
    split
    · rename_i hc
      rw [← hc.1, ← hc.2]
      unfold getValuesKey
      rw [hf]
      rfl
    · rfl
  | some it =>
    rw [hf] at he
    simp only at he
    have hp : p < s.length := by
      apply lt_length_of_values_ne_nil
      intro hnil
      rw [hnil] at hf
      simp [find] at hf
    split at he
    · simp only [Option.some.injEq] at he
      subst he
      by_cases hq : p = q
      · subst hq
        by_cases hk : key = k
        · subst hk
          rw [if_pos ⟨rfl, rfl⟩]
          unfold getValuesKey
          rw [deref_set_self _ _ _ hp]
          simp only
          rw [find_modify, hf]
          rfl
        · rw [if_neg (fun hx => hk hx.2)]
          unfold getValuesKey
          rw [deref_set_self _ _ _ hp]
          simp only
          rw [find_modify_of_ne _ key k hk]
      · rw [if_neg (fun hx => hq hx.1)]
        unfold getValuesKey
        rw [deref_set_of_ne _ _ _ _ (fun hx => hq hx.symm)]
    · simp at he

theorem setNode_getValuesKey (s : Store) (p : NodePtr) (key : Str) (node : NodePtr)
    (s2 : Store) (hs : setNode s p key node SIZE_MAX = some s2) (q : NodePtr) (k : Str) :
    getValuesKey s2 q k = getValuesKey s q k := by
  unfold getValuesKey
  rw [(setNode_frame s p key node s2 hs).2.1 q]

theorem eraseLoop_values (p : NodePtr) (k : Str) : ∀ (l : List KeyNode) (s s2 : Store),
    eraseLoop s p l = some s2 →
    getValuesKey s2 p k
      = ((l.filter (fun r => decide (r.key = k))).map (fun r => r.index)).foldl
          List.eraseIdx (getValuesKey s p k)
  | [], s, s2, he => by
    simp only [eraseLoop, Option.some.injEq] at he
    subst he
    rfl
  | r :: rest, s, s2, he => by
    simp only [eraseLoop] at he
    cases hv : eraseValue s p r.key r.index with
    | none => rw [hv] at he; simp at he
    | some s1 =>
      rw [hv] at he
      rw [eraseLoop_values p k rest s1 s2 he, eraseValue_getValuesKey s p r.key r.index s1 hv]
      by_cases hk : r.key = k
      · rw [if_pos ⟨rfl, hk⟩, List.filter_cons]
        simp [hk]
      · rw [if_neg (fun hx => hk hx.2), List.filter_cons]
        simp [hk]

theorem setLoop_values (p q : NodePtr) (k : Str) : ∀ (l : List KeyNode) (s s2 : Store),
    setLoop s p l = some s2 → getValuesKey s2 q k = getValuesKey s q k := by
  intro l s s2 hs
  exact setLoop_keep (fun t => getValuesKey t q k = getValuesKey s q k) (fun _ => True) p
    (fun a r b hK _ hset => by
      show getValuesKey b q k = getValuesKey s q k
      rw [setNode_getValuesKey a p r.key r.node b hset q k]
      exact hK)
    l s s2 (fun _ _ => trivial) rfl hs

theorem eraseLoop_values_other (p q : NodePtr) (hpq : p ≠ q) (k : Str) :
    ∀ (l : List KeyNode) (s s2 : Store),
    eraseLoop s p l = some s2 → getValuesKey s2 q k = getValuesKey s q k := by
  intro l s s2 hs
  exact eraseLoop_keep (fun t => getValuesKey t q k = getValuesKey s q k) (fun _ => True) p
    (fun a r b hK _ he => by
      show getValuesKey b q k = getValuesKey s q k
      rw [eraseValue_getValuesKey a p r.key r.index b he q k, if_neg (fun hx => hpq hx.1)]
      exact hK)
    l s s2 (fun _ _ => trivial) rfl hs

/-- Scalars under the key `k` of the node `p` after the replacement phase, when the map holds
one entry for `p`. -/
theorem applyLoop_values (lib : Library) (p : NodePtr) (k : Str) (L : List KeyNode) :
    ∀ (R : replacement_container) (s s2 : Store), (R.map Prod.fst).Nodup → (p, L) ∈ R →
      applyLoop lib s R = .ok s2 →
      getValuesKey s2 p k
        = (((lib.sort L).filter (fun r => decide (r.key = k))).map (fun r => r.index)).foldl
            List.eraseIdx (getValuesKey s p k)
  | [], _, _, _, hm, _ => by simp at hm
  | entry :: rest, s, s2, hnd, hm, ha => by
    simp only [List.map_cons, List.nodup_cons] at hnd
    simp only [applyLoop] at ha
    cases h1 : eraseLoop s entry.1 (lib.sort entry.2) with
    | none => rw [h1] at ha; simp at ha
    | some s1 =>
      rw [h1] at ha
      simp only at ha
      cases h3 : setLoop s1 entry.1 (lib.sort entry.2) with
      | none => rw [h3] at ha; simp at ha
      | some s3 =>
        rw [h3] at ha
        simp only at ha
        rcases List.mem_cons.mp hm with hme | hme
        · have he1 : entry.1 = p := by rw [← hme]
          have he2 : entry.2 = L := by rw [← hme]
          rw [he1, he2] at h1 h3
          rw [he1] at hnd
          have hrest : getValuesKey s2 p k = getValuesKey s3 p k := by
            refine applyLoop_keep lib (fun t => getValuesKey t p k = getValuesKey s3 p k)
              (fun q _ => q ≠ p) ?_ ?_ rest s3 s2 ?_ rfl ha
            · intro a q r b hK hq he
              show getValuesKey b p k = getValuesKey s3 p k
              rw [eraseValue_getValuesKey a q r.key r.index b he p k,
                if_neg (fun hx => hq hx.1)]
              exact hK
            · intro a q r b hK _ hset
              show getValuesKey b p k = getValuesKey s3 p k
              rw [setNode_getValuesKey a q r.key r.node b hset p k]
              exact hK
            · intro e2 he2m r _ hx
              apply hnd.1
              rw [← hx]
              exact List.mem_map.mpr ⟨e2, he2m, rfl⟩
          rw [hrest, setLoop_values p p k _ s1 s3 h3, eraseLoop_values p k _ s s1 h1]
        · have hne : entry.1 ≠ p := by
            intro hx
            apply hnd.1
            rw [hx]
            exact List.mem_map.mpr ⟨(p, L), hme, rfl⟩
          rw [applyLoop_values lib p k L rest s3 s2 hnd.2 hme ha,
            setLoop_values entry.1 p k _ s1 s3 h3,
            eraseLoop_values_other entry.1 p hne k _ s s1 h1]

/-! ### The replacement phase, seen from the subnodes of one node -/

theorem getNodesKey_setNode_mono (s : Store) (p : NodePtr) (key : Str) (node : NodePtr)
    (s2 : Store) (hs : setNode s p key node SIZE_MAX = some s2) (q : NodePtr) (k : Str)
    (c : NodePtr) (hc : c ∈ getNodesKey s q k) : c ∈ getNodesKey s2 q k := by
  by_cases hq : q = p
  · subst hq
    have hn1 : (deref (setParent s node (some q)) q).nodes = (deref s q).nodes :=
      deref_setParent_nodes s node q (some q)
    unfold getNodesKey at hc ⊢
    unfold setNode at hs
    dsimp only at hs
    rw [hn1] at hs
    by_cases hl : q < s.length
    · have hl2 : q < (setParent s node (some q)).length := by
        rw [length_setParent]
        exact hl
      cases hf : find (deref s q).nodes key with
      | none =>
        rw [hf] at hs
        simp only [Option.some.injEq] at hs
        subst hs
        rw [deref_set_self _ _ _ hl2]
        simp only
        cases hk : find (deref s q).nodes k with
        | none => rw [hk] at hc; simp [noNodes] at hc
        | some c0 =>
          rw [hk] at hc
          have : find ((deref s q).nodes ++ [{ key := key, value := [node] }]) k = some c0 := by
            unfold find at hk ⊢
            rw [List.find?_append, hk]
            rfl
          rw [this]
          exact hc
      | some it =>
        rw [hf] at hs
        simp only [if_true, Option.some.injEq] at hs
        subst hs
        rw [deref_set_self _ _ _ hl2]
        simp only
        by_cases hkk : key = k
        · subst hkk
          rw [find_modify, hf]
          rw [hf] at hc
          simp only [Option.map_some'] at hc ⊢
          exact List.mem_append_left _ hc
        · rw [find_modify_of_ne _ key k hkk]
          exact hc
    · have hd : deref s q = { nodes := [], values := [], parent := none } := by
        unfold deref
        rw [List.getD_eq_getElem?_getD, List.getElem?_eq_none (Nat.le_of_not_lt hl)]
        rfl
      rw [hd] at hc
      simp [find, noNodes] at hc
  · unfold getNodesKey at hc ⊢
    rw [(setNode_frame s p key node s2 hs).2.2.1 q hq]
    exact hc

theorem getNodesKey_eraseValue (s : Store) (p : NodePtr) (key : Str) (idx : Nat) (s2 : Store)
    (he : eraseValue s p key idx = some s2) (q : NodePtr) (k : Str) :
    getNodesKey s2 q k = getNodesKey s q k := by
  unfold getNodesKey
  rw [(eraseValue_frame s p key idx s2 he).2.1 q]

theorem setLoop_establish (I K : Store → Prop) (p : NodePtr) (r0 : KeyNode)
    (hI : ∀ (s : Store) (r : KeyNode) (s2 : Store), I s → setNode s p r.key r.node SIZE_MAX = some s2 → I s2)
    (hK : ∀ (s : Store) (r : KeyNode) (s2 : Store), I s → K s → setNode s p r.key r.node SIZE_MAX = some s2 → K s2)
    (hE : ∀ s s2, I s → setNode s p r0.key r0.node SIZE_MAX = some s2 → K s2) :
    ∀ (l : List KeyNode) (s s2 : Store), I s → (r0 ∈ l ∨ K s) → setLoop s p l = some s2 →
      I s2 ∧ K s2
  | [], s, s2, hi, hor, hs => by
    simp only [setLoop, Option.some.injEq] at hs
    subst hs
    rcases hor with h1 | h1
    · simp at h1
    · exact ⟨hi, h1⟩
  | r :: rest, s, s2, hi, hor, hs => by
    simp only [setLoop] at hs
    cases hv : setNode s p r.key r.node SIZE_MAX with
    | none => rw [hv] at hs; simp at hs
    | some s1 =>
      rw [hv] at hs
      refine setLoop_establish I K p r0 hI hK hE rest s1 s2 (hI s r s1 hi hv) ?_ hs
      rcases hor with h1 | h1
      · rcases List.mem_cons.mp h1 with h2 | h2
        · subst h2
          exact Or.inr (hE s s1 hi hv)
        · exact Or.inl h2
      · exact Or.inr (hK s r s1 hi h1 hv)

theorem applyLoop_establish (lib : Library) (I K : Store → Prop) (p : NodePtr)
    (L : List KeyNode) (r0 : KeyNode) (hr0 : r0 ∈ lib.sort L)
    (hIe : ∀ (s : Store) (q : NodePtr) (r : KeyNode) (s2 : Store), I s → eraseValue s q r.key r.index = some s2 → I s2)
    (hIs : ∀ (s : Store) (q : NodePtr) (r : KeyNode) (s2 : Store), I s → setNode s q r.key r.node SIZE_MAX = some s2 → I s2)
    (hKe : ∀ (s : Store) (q : NodePtr) (r : KeyNode) (s2 : Store), I s → K s → eraseValue s q r.key r.index = some s2 → K s2)
    (hKs : ∀ (s : Store) (q : NodePtr) (r : KeyNode) (s2 : Store), I s → K s → setNode s q r.key r.node SIZE_MAX = some s2 → K s2)
    (hE : ∀ s s2, I s → setNode s p r0.key r0.node SIZE_MAX = some s2 → K s2) :
    ∀ (R : replacement_container) (s s2 : Store), I s → ((p, L) ∈ R ∨ K s) →
      applyLoop lib s R = .ok s2 → K s2
  | [], s, s2, _, hor, ha => by
    simp only [applyLoop, Outcome.ok.injEq] at ha
    subst ha
    rcases hor with h1 | h1
    · simp at h1
    · exact h1
  | entry :: rest, s, s2, hi, hor, ha => by
    simp only [applyLoop] at ha
    cases h1 : eraseLoop s entry.1 (lib.sort entry.2) with
    | none => rw [h1] at ha; simp at ha
    | some s1 =>
      rw [h1] at ha
      simp only at ha
      cases h3 : setLoop s1 entry.1 (lib.sort entry.2) with
      | none => rw [h3] at ha; simp at ha
      | some s3 =>
        rw [h3] at ha
        simp only at ha
        have he := eraseLoop_keep (fun t => I t ∧ (K s → K t)) (fun _ => True) entry.1
          (fun a r b hk _ hv => ⟨hIe a entry.1 r b hk.1 hv,
            fun hks => hKe a entry.1 r b hk.1 (hk.2 hks) hv⟩)
          _ s s1 (fun _ _ => trivial) ⟨hi, fun hks => hks⟩ h1
        have hor2 : (p, L) ∈ rest ∨ K s3 ∨ (entry = (p, L) ∧ ¬ K s1) := by
          rcases hor with h5 | h5
          · rcases List.mem_cons.mp h5 with h6 | h6
            · by_cases hk1 : K s1
              · right
                left
                exact (setLoop_establish I K entry.1 r0 (fun a r b => hIs a entry.1 r b)
                  (fun a r b => hKs a entry.1 r b) (fun a b hia hset => by
                    rw [← h6] at hset
                    exact hE a b hia hset) _ s1 s3 he.1
                  (Or.inr hk1) h3).2
              · exact Or.inr (Or.inr ⟨h6.symm, hk1⟩)
            · exact Or.inl h6
          · right
            left
            have hk1 : K s1 := he.2 h5
            exact setLoop_keep (fun t => I t ∧ K t) (fun _ => True) entry.1
              (fun a r b hk _ hset => ⟨hIs a entry.1 r b hk.1 hset,
                hKs a entry.1 r b hk.1 hk.2 hset⟩)
              _ s1 s3 (fun _ _ => trivial) ⟨he.1, hk1⟩ h3 |>.2
        have hi3 : I s3 := setLoop_keep I (fun _ => True) entry.1
          (fun a r b hk _ hset => hIs a entry.1 r b hk hset) _ s1 s3 (fun _ _ => trivial)
          he.1 h3
        rcases hor2 with h7 | h7 | h7
        · exact applyLoop_establish lib I K p L r0 hr0 hIe hIs hKe hKs hE rest s3 s2 hi3
            (Or.inl h7) ha
        · exact applyLoop_establish lib I K p L r0 hr0 hIe hIs hKe hKs hE rest s3 s2 hi3
            (Or.inr h7) ha
        · have hk3 : K s3 := by
            have hent := h7.1
            have h3b := h3
            rw [hent] at h3b
            exact (setLoop_establish I K p r0 (fun a r b => hIs a p r b)
              (fun a r b => hKs a p r b) hE _ s1 s3 he.1 (Or.inl hr0) h3b).2
          exact applyLoop_establish lib I K p L r0 hr0 hIe hIs hKe hKs hE rest s3 s2 hi3
            (Or.inr hk3) ha

/-! ### C11: a whole-scalar token is replaced by the subnode it names -/

theorem entry_unique {L : Type} (c : children_container L) (k : Str) (e e2 : ElementType L)
    (hf : find c k = some e) (hnd : (c.map (fun x => x.key)).Nodup)
    (hm : e2 ∈ c) (hk : e2.key = k) : e2 = e := by
  obtain ⟨_, pre, post, hsplit, hpre, hpost⟩ := find_split c k e hf hnd
  rw [hsplit] at hm
  rcases List.mem_append.mp hm with h1 | h1
  · exact absurd hk (hpre e2 h1)
  · rcases List.mem_cons.mp h1 with h3 | h3
    · exact h3
    · exact absurd hk (hpost e2 h3)

theorem places_of_key (L : List KeyNode) (k : Str) :
    (L.filter (fun r => decide (r.key = k))).map (fun r => r.index)
      = ((L.map KeyNode.place).filter (fun q => decide (q.1 = k))).map Prod.snd := by
  induction L with
  | nil => rfl
  | cons r rest ih =>
    simp only [List.map_cons, List.filter_cons, KeyNode.place]
    by_cases hk : r.key = k
    · simp only [hk, decide_True, if_true, List.map_cons]
      rw [← ih]
    · simp only [hk, decide_False, Bool.false_eq_true, if_false]
      rw [← ih]

/-- Core of C11, for any expander and any scalar that the traversal resolves to `target`. -/
theorem run_graft (lib : Library) (hlib : lib.Conforms) (x : ConfigNodeExpander)
    (fuel : Nat) (h : Store) (root P : NodePtr) (k : Str) (i : Nat)
    (e : ElementType value_list) (value : Str) (target : NodePtr) (h2 : Store)
    (hfind : find (deref h P).values k = some e)
    (hkeys : ((deref h P).values.map (fun c => c.key)).Nodup)
    (hval : e.value[i]? = some value)
    (hm : (nodeRegex x value).isSome = true)
    (hvisitValue : ∀ R, nodeVisitValue x root h R P k i value
      = .ok (emplace R P { key := k, node := target, index := i }, value))
    (hvisit : visitCount h P fuel root = 1)
    (hrun : x.run lib fuel h root = .ok h2) :
    getValuesKey h2 P k = e.value.filter (fun v => (nodeRegex x v).isNone) ∧
    target ∈ getNodesKey h2 P k := by
  unfold ConfigNodeExpander.run at hrun
  cases hacc : accept (NodeVisitor x root fuel) root (h, []) with
  | error err => rw [hacc] at hrun; simp at hrun
  | ok st =>
    rw [hacc] at hrun
    simp only at hrun
    have hst : st.1 = h := node_accept_store x root fuel root (h, []) st hacc
    obtain ⟨s1, R⟩ := st
    simp only at hst hrun
    subst hst
    have hP : P < s1.length := by
      apply lt_length_of_values_ne_nil
      intro hnil
      rw [hnil] at hfind
      simp [find] at hfind
    have hi : i < e.value.length := by
      by_contra hge
      rw [List.getElem?_eq_none (Nat.le_of_not_lt hge)] at hval
      simp at hval
    -- what the traversal recorded for `P`
    obtain ⟨L, hL1, hL2, hL3⟩ := node_accept_entries x root s1 P
      (fun kn => kn.place = (k, i) → kn.node = target)
      (by
        intro R0 pos key j r hstep hv kn hr hplace
        obtain ⟨_, heff⟩ := nodeVisitValue_effect x root s1 R0 P key j _ r hv
        have hkn : r.1 = R0 ∨ ∃ node, kn = { key := key, node := node, index := j } := by
          rcases heff with ⟨_, h1⟩ | ⟨_, node, _, _, h1⟩
          · exact Or.inl h1
          · right
            refine ⟨node, ?_⟩
            have h2 := congrArg (fun m => entriesAt m P) (hr.symm.trans h1)
            simp only [entriesAt_emplace, if_true] at h2
            simpa using h2
        rcases hkn with h1 | ⟨node, h1⟩
        · have h2 := congrArg (fun m => (entriesAt m P).length) (hr.symm.trans h1)
          simp only [entriesAt_emplace, if_true, List.length_append, List.length_singleton]
            at h2
          omega
        · rw [h1] at hplace
          simp only [KeyNode.place, Prod.mk.injEq] at hplace
          obtain ⟨hk1, hj⟩ := hplace
          subst hk1
          subst hj
          obtain ⟨e2, he2, he2k, _⟩ := value_of_step _ pos key j hstep
          have hee := entry_unique _ key e e2 hfind hkeys
            (List.mem_iff_getElem?.mpr ⟨pos, he2⟩) he2k
          rw [hee] at he2
          rw [valueAt_of_getElem s1 P pos j e value he2 hval, hvisitValue R0] at hv
          simp only [Outcome.ok.injEq] at hv
          rw [← hv] at hr
          have h2 := congrArg (fun m => entriesAt m P) hr
          simp only [entriesAt_emplace, if_true] at h2
          have h3 : kn = { key := key, node := target, index := j } := by simpa using h2.symm
          rw [h3])
      fuel root [] (s1, R) hacc
    rw [hvisit] at hL2
    simp only [List.replicate_one, List.flatten_cons, List.flatten_nil, List.append_nil] at hL2
    have hL0 : entriesAt R P = L := by
      rw [hL1]
      rfl
    simp only at hL0
    have hidx := tokenPlaces_key x s1 P k e hfind hkeys
    -- the replacement of the scalar itself
    have hmem : i ∈ (List.range e.value.length).filter
        (fun j => (nodeRegex x (e.value.getD j [])).isSome) := by
      rw [List.mem_filter]
      refine ⟨List.mem_range.mpr hi, ?_⟩
      rw [List.getD_eq_getElem?_getD, hval]
      exact hm
    rw [← hidx, ← hL2, ← places_of_key] at hmem
    obtain ⟨r0, hr0, hr0i⟩ := List.mem_map.mp hmem
    have hr0L : r0 ∈ L := List.mem_of_mem_filter hr0
    have hr0k : r0.key = k := by simpa using (List.mem_filter.mp hr0).2
    have hr0n : r0.node = target := hL3 r0 hr0L (by simp [KeyNode.place, hr0k, hr0i])
    have hfindR : findReplacements R P = some L := by
      unfold entriesAt at hL0
      cases hfr : findReplacements R P with
      | none =>
        rw [hfr] at hL0
        simp only [Option.getD_none] at hL0
        rw [← hL0] at hr0L
        simp at hr0L
      | some L2 =>
        rw [hfr] at hL0
        simp only [Option.getD_some] at hL0
        rw [hL0]
    have hPL : (P, L) ∈ lib.iterate R :=
      (hlib.1 R).mem_iff.mpr (mem_of_findReplacements R P L hfindR)
    have hnd : ((lib.iterate R).map Prod.fst).Nodup :=
      ((hlib.1 R).map Prod.fst).nodup_iff.mpr
        (node_accept_keys x root fuel root (s1, []) (s1, R) (by simp) hacc)
    constructor
    · rw [applyLoop_values lib P k L (lib.iterate R) s1 h2 hnd hPL hrun]
      have hgv : getValuesKey s1 P k = e.value := by
        unfold getValuesKey
        rw [hfind]
      rw [hgv]
      have hjs : ((lib.sort L).filter (fun r => decide (r.key = k))).map (fun r => r.index)
          = ((List.range e.value.length).filter
              (fun j => (nodeRegex x (e.value.getD j [])).isSome)).reverse := by
        apply sorted_desc_unique
        · rw [← hidx, ← hL2, ← places_of_key]
          exact (((hlib.2 L).1).filter _).map _
        · have hs := ((hlib.2 L).2).filter (fun r => decide (r.key = k))
          exact List.pairwise_map.mpr hs
        · exact (List.sorted_lt_range _).filter _
      rw [hjs, List.foldl_reverse]
      have hfl := foldr_eraseIdx_filter ([] : Str) (fun v => (nodeRegex x v).isSome) e.value
      simp only at hfl
      rw [hfl]
      apply List.filter_congr
      intro v _
      cases nodeRegex x v <;> rfl
    · refine applyLoop_establish lib (fun s => s.length = s1.length)
        (fun s => target ∈ getNodesKey s P k) P L r0
        ((hlib.2 L).1.mem_iff.mpr hr0L) ?_ ?_ ?_ ?_ ?_ (lib.iterate R) s1 h2 rfl
        (Or.inl hPL) hrun
      · intro s q r s2 hI he
        exact (eraseValue_frame s q r.key r.index s2 he).1.trans hI
      · intro s q r s2 hI hs
        exact (setNode_frame s q r.key r.node s2 hs).1.trans hI
      · intro s q r s2 _ hK he
        show target ∈ getNodesKey s2 P k
        rw [getNodesKey_eraseValue s q r.key r.index s2 he P k]
        exact hK
      · intro s q r s2 _ hK hs
        exact getNodesKey_setNode_mono s q r.key r.node s2 hs P k target hK
      · intro s s2 hI hs
        rw [hr0k, hr0n] at hs
        exact (setNode_frame s P k target s2 hs).2.2.2.2.2.2.1 (by rw [hI]; exact hP)

/-! ### A pass over a tree with one token returns -/

theorem reaches_of_visitCount (h : Store) (q : NodePtr) :
    ∀ (fuel : Nat) (n : NodePtr), visitCount h q fuel n ≠ 0 → reaches h q fuel n = true := by
  intro fuel
  induction fuel with
  | zero =>
    intro n hv
    simp only [visitCount] at hv
    by_cases hn : n = q
    · simp [reaches, hn]
    · simp [hn] at hv
  | succ f ih =>
    intro n hv
    simp only [visitCount] at hv
    by_cases hn : n = q
    · rw [hn]
      exact reaches_self h q (f + 1)
    · simp only [hn, if_false, Nat.add_zero] at hv
      have : ∃ c ∈ children h n, visitCount h q f c ≠ 0 := by
        by_contra hall
        apply hv
        apply List.sum_eq_zero
        intro y hy
        obtain ⟨c, hc, hcy⟩ := List.mem_map.mp hy
        by_contra hne
        exact hall ⟨c, hc, by rw [hcy]; exact hne⟩
      obtain ⟨c, hc, hcv⟩ := this
      exact reaches_of_child h q f n c hc (ih c hcv)

theorem mem_tokenPlaces (x : ConfigNodeExpander) (h : Store) (q : NodePtr) (a : Str × Nat)
    (ha : a ∈ tokenPlaces x h q) :
    ∃ (pos : Nat) (e : ElementType value_list) (v : Str),
      (deref h q).values[pos]? = some e ∧ e.key = a.1 ∧ e.value[a.2]? = some v ∧
      (nodeRegex x v).isSome = true := by
  unfold tokenPlaces at ha
  obtain ⟨s, hs, has⟩ := List.mem_flatMap.mp ha
  cases s with
  | node key idx c => simp [placeOf] at has
  | value pos key j =>
    simp only [placeOf] at has
    split at has
    · rename_i hm
      simp only [List.mem_singleton] at has
      subst has
      obtain ⟨e, he, hek, hj⟩ := value_of_step _ pos key j hs
      refine ⟨pos, e, e.value[j], he, hek, List.getElem?_eq_getElem hj, ?_⟩
      rw [valueAt_of_getElem h q pos j e e.value[j] he (List.getElem?_eq_getElem hj)] at hm
      exact hm
    · simp at has

theorem tokenPlaces_nil (x : ConfigNodeExpander) (h : Store) (q : NodePtr)
    (hno : ∀ (pos : Nat) (e : ElementType value_list) (j : Nat) (v : Str),
      (deref h q).values[pos]? = some e → e.value[j]? = some v →
      nodeRegex x v = none) : tokenPlaces x h q = [] := by
  apply List.eq_nil_iff_forall_not_mem.mpr
  intro a ha
  obtain ⟨pos, e, v, he, _, hv, hm⟩ := mem_tokenPlaces x h q a ha
  rw [hno pos e a.2 v he hv] at hm
  simp at hm

theorem filter_range_single (p : Nat → Bool) (n i : Nat) (hi : i < n) (hp : p i = true)
    (honly : ∀ j, j < n → p j = true → j = i) : (List.range n).filter p = [i] := by
  apply List.perm_singleton.mp
  apply (List.perm_ext_iff_of_nodup ((List.nodup_range n).filter p)
    (List.nodup_singleton i)).mpr
  intro j
  simp only [List.mem_filter, List.mem_range, List.mem_singleton]
  constructor
  · rintro ⟨hj, hpj⟩
    exact honly j hj hpj
  · intro hj
    subst hj
    exact ⟨hi, hp⟩

theorem tokenPlaces_single (x : ConfigNodeExpander) (h : Store) (P : NodePtr) (k : Str)
    (i : Nat) (e : ElementType value_list) (value : Str)
    (hfind : find (deref h P).values k = some e)
    (hkeys : ((deref h P).values.map (fun c => c.key)).Nodup)
    (hval : e.value[i]? = some value) (hm : (nodeRegex x value).isSome = true)
    (honly : ∀ (pos : Nat) (e2 : ElementType value_list) (j : Nat) (v : Str),
      (deref h P).values[pos]? = some e2 → e2.value[j]? = some v →
      (e2.key, j) ≠ (k, i) → nodeRegex x v = none) :
    tokenPlaces x h P = [(k, i)] := by
  have hi : i < e.value.length := by
    by_contra hge
    rw [List.getElem?_eq_none (Nat.le_of_not_lt hge)] at hval
    simp at hval
  have hall : ∀ a ∈ tokenPlaces x h P, a = (k, i) := by
    intro a ha
    obtain ⟨pos, e2, v, he2, hek, hv, hmv⟩ := mem_tokenPlaces x h P a ha
    by_contra hne
    have := honly pos e2 a.2 v he2 hv (by rw [hek]; exact hne)
    rw [this] at hmv
    simp at hmv
  have hkeyidx := tokenPlaces_key x h P k e hfind hkeys
  have hfilter : (tokenPlaces x h P).filter (fun q => decide (q.1 = k)) = tokenPlaces x h P := by
    rw [List.filter_eq_self]
    intro a ha
    rw [hall a ha]
    simp
  rw [hfilter] at hkeyidx
  obtain ⟨he0, pre, post, hsplit, _, _⟩ := find_split _ k e hfind hkeys
  have hat : (deref h P).values[pre.length]? = some e := by
    rw [hsplit, List.getElem?_append_right (Nat.le_refl _)]
    simp
  rw [filter_range_single _ e.value.length i hi
    (by rw [List.getD_eq_getElem?_getD, hval]; exact hm)
    (by
      intro j hj hpj
      by_contra hne
      have := honly pre.length e j e.value[j] hat (List.getElem?_eq_getElem hj)
        (by rw [he0]; intro hx; exact hne (Prod.mk.inj hx).2)
      rw [List.getD_eq_getElem?_getD, List.getElem?_eq_getElem hj] at hpj
      simp only [Option.getD_some] at hpj
      rw [this] at hpj
      simp at hpj)] at hkeyidx
  cases htp : tokenPlaces x h P with
  | nil => rw [htp] at hkeyidx; simp at hkeyidx
  | cons a rest =>
    rw [htp] at hkeyidx hall
    simp only [List.map_cons, List.cons.injEq, List.map_eq_nil_iff] at hkeyidx
    rw [hkeyidx.2, hall a (by simp)]

/-- The traversal returns when the recursion stays within the budget and every visit of a
scalar of a node that it comes to returns. -/
theorem node_accept_total (x : ConfigNodeExpander) (root : NodePtr) (h : Store) :
    ∀ (fuel : Nat) (m : NodePtr), withinDepth h fuel m = true →
      (∀ n, reaches h n fuel m = true → ∀ R pos key j,
        Step.value pos key j ∈ visitSteps (deref h n) →
        ∃ r, nodeVisitValue x root h R n key j (valueAt h n pos j) = .ok r) →
      ∀ R, ∃ R2, accept (NodeVisitor x root fuel) m (h, R) = .ok (h, R2) := by
  intro fuel
  induction fuel with
  | zero =>
    intro m hd hok R
    rw [accept_eq_runSteps]
    obtain ⟨st2, hrun, hst⟩ := runSteps_good (NodeVisitor x root 0) m (fun s => s = h)
      (visitSteps (deref h m))
      (by
        intro s hs st hst
        obtain ⟨s0, R0⟩ := st
        simp only at hst
        subst hst
        cases s with
        | node key idx c =>
          have hc := mem_children_of_step _ key idx c hs
          simp only [withinDepth, List.isEmpty_iff] at hd
          unfold children at hd
          rw [hd] at hc
          exact absurd hc (by simp)
        | value pos key j =>
          obtain ⟨r, hr⟩ := hok m (reaches_self s0 m 0) R0 pos key j hs
          exact ⟨(s0, r.1), by rw [runStep_node_value]; simp only [hr], rfl⟩)
      (h, R) rfl
    obtain ⟨s2, R2⟩ := st2
    simp only at hst
    subst hst
    exact ⟨R2, hrun⟩
  | succ f ih =>
    intro m hd hok R
    rw [accept_eq_runSteps]
    obtain ⟨st2, hrun, hst⟩ := runSteps_good (NodeVisitor x root (f + 1)) m (fun s => s = h)
      (visitSteps (deref h m))
      (by
        intro s hs st hst
        obtain ⟨s0, R0⟩ := st
        simp only at hst
        subst hst
        cases s with
        | node key idx c =>
          have hc : c ∈ children s0 m := mem_children_of_step _ key idx c hs
          simp only [withinDepth, List.all_eq_true] at hd
          obtain ⟨R2, hR2⟩ := ih c (hd c hc)
            (fun n hn => hok n (reaches_of_child s0 n f m c hc hn)) R0
          exact ⟨(s0, R2), hR2, rfl⟩
        | value pos key j =>
          obtain ⟨r, hr⟩ := hok m (reaches_self s0 m (f + 1)) R0 pos key j hs
          exact ⟨(s0, r.1), by rw [runStep_node_value]; simp only [hr], rfl⟩)
      (h, R) rfl
    obtain ⟨s2, R2⟩ := st2
    simp only at hst
    subst hst
    exact ⟨R2, hrun⟩

theorem emplace_ne_nil : ∀ (R : replacement_container) (p : NodePtr) (kn : KeyNode),
    (∀ entry ∈ R, entry.2 ≠ []) → ∀ entry ∈ emplace R p kn, entry.2 ≠ []
  | [], p, kn, _, entry, he => by
    simp only [emplace, List.mem_singleton] at he
    subst he
    simp
  | a :: rest, p, kn, hR, entry, he => by
    unfold emplace at he
    by_cases hp : a.1 = p
    · rw [if_pos hp] at he
      rcases List.mem_cons.mp he with h1 | h1
      · subst h1
        simp
      · exact hR entry (List.mem_cons_of_mem _ h1)
    · rw [if_neg hp] at he
      rcases List.mem_cons.mp he with h1 | h1
      · subst h1
        exact hR _ (List.mem_cons_self _ _)
      · exact emplace_ne_nil rest p kn (fun e2 h2 => hR e2 (List.mem_cons_of_mem _ h2))
          entry h1

theorem node_accept_ne_nil (x : ConfigNodeExpander) (root : NodePtr) (fuel : Nat) (n : NodePtr)
    (st st2 : Store × replacement_container) (hne : ∀ entry ∈ st.2, entry.2 ≠ [])
    (hacc : accept (NodeVisitor x root fuel) n st = .ok st2) :
    ∀ entry ∈ st2.2, entry.2 ≠ [] := by
  refine node_accept_keep x root (fun s => ∀ entry ∈ s.2, entry.2 ≠ []) ?_ fuel n st st2 hne
    hacc
  intro s m key i pos r hK hv
  obtain ⟨_, heff⟩ := nodeVisitValue_effect x root s.1 s.2 m key i _ r hv
  rcases heff with ⟨_, hr⟩ | ⟨what, node, _, _, hr⟩
  · simp only
    rw [hr]
    exact hK
  · simp only
    rw [hr]
    exact emplace_ne_nil s.2 m _ hK

theorem single_of_keys (R : replacement_container) (P : NodePtr) (L : List KeyNode)
    (hnd : (R.map Prod.fst).Nodup) (hmem : (P, L) ∈ R) (hall : ∀ entry ∈ R, entry.1 = P) :
    R = [(P, L)] := by
  cases R with
  | nil => simp at hmem
  | cons a rest =>
    simp only [List.map_cons, List.nodup_cons] at hnd
    have hrest : rest = [] := by
      apply List.eq_nil_iff_forall_not_mem.mpr
      intro b hb
      apply hnd.1
      rw [hall a (List.mem_cons_self _ _), ← hall b (List.mem_cons_of_mem _ hb)]
      exact List.mem_map.mpr ⟨b, hb, rfl⟩
    subst hrest
    simp only [List.mem_singleton] at hmem
    rw [hmem]

/-- A pass of the default node expander over a tree whose only matching scalar is a token
that names a subnode from the root returns. -/
theorem run_single_token (lib : Library) (hlib : lib.Conforms) (sep : Separator)
    (hsep : sep ≠ NUL) (fuel : Nat) (h : Store) (root P : NodePtr) (k path : Str) (i : Nat)
    (e : ElementType value_list) (target : NodePtr) (t : node_list)
    (hfind : find (deref h P).values k = some e)
    (hkeys : ((deref h P).values.map (fun c => c.key)).Nodup)
    (hval : e.value[i]? = some ("%node".toList ++ sep :: path ++ ['%']))
    (hpath : path ≠ []) (hhead : path.head? ≠ some sep)
    (htarget : getNodes h root (some path) sep = target :: t)
    (hvisit : visitCount h P fuel root = 1)
    (hdepth : withinDepth h fuel root = true)
    (honly : ∀ (n : NodePtr) (pos : Nat) (e2 : ElementType value_list) (j : Nat) (v : Str),
      reaches h n fuel root = true → (deref h n).values[pos]? = some e2 →
      e2.value[j]? = some v → (n, e2.key, j) ≠ (P, k, i) →
      nodeRegex (ConfigNodeExpander.construct sep "node".toList NUL) v = none) :
    ∃ h2, (ConfigNodeExpander.construct sep "node".toList NUL).run lib fuel h root
      = .ok h2 := by
  have hre := nodeRegex_token sep hsep path hpath hhead
  have hi : i < e.value.length := by
    by_contra hge
    rw [List.getElem?_eq_none (Nat.le_of_not_lt hge)] at hval
    simp at hval
  have hreachP : reaches h P fuel root = true :=
    reaches_of_visitCount h P fuel root (by rw [hvisit]; exact Nat.one_ne_zero)
  -- the traversal returns
  obtain ⟨R, hacc⟩ := node_accept_total (ConfigNodeExpander.construct sep "node".toList NUL)
    root h fuel root hdepth
    (by
      intro n hn R0 pos key j hs
      obtain ⟨e2, he2, he2k, hj⟩ := value_of_step _ pos key j hs
      rw [valueAt_of_getElem h n pos j e2 e2.value[j] he2 (List.getElem?_eq_getElem hj)]
      by_cases hplace : (n, e2.key, j) = (P, k, i)
      · simp only [Prod.mk.injEq] at hplace
        obtain ⟨h1, h2, h3⟩ := hplace
        subst h1 h3
        have hee := entry_unique _ k e e2 hfind hkeys (List.mem_iff_getElem?.mpr ⟨pos, he2⟩) h2
        subst hee
        have hv2 : e2.value[j] = "%node".toList ++ sep :: path ++ ['%'] := by
          have h4 := hval
          rw [List.getElem?_eq_getElem hi] at h4
          exact Option.some.inj h4
        rw [hv2]
        exact ⟨_, nodeVisitValue_token sep hsep path hpath hhead root h R0 n key j target t
          htarget⟩
      · exact ⟨_, nodeVisitValue_no_match _ root h R0 n key j _
          (honly n pos e2 j _ hn he2 (List.getElem?_eq_getElem hj) hplace)⟩)
    []
  -- what it recorded for `P`
  obtain ⟨L, hL1, hL2, hL3⟩ := node_accept_entries
    (ConfigNodeExpander.construct sep "node".toList NUL) root h P
    (fun kn => kn.place = (k, i) → kn.node = target)
    (by
      intro R0 pos key j r hstep hv kn hr hplace
      obtain ⟨_, heff⟩ := nodeVisitValue_effect _ root h R0 P key j _ r hv
      have hkn : r.1 = R0 ∨ ∃ node, kn = { key := key, node := node, index := j } := by
        rcases heff with ⟨_, h1⟩ | ⟨_, node, _, _, h1⟩
        · exact Or.inl h1
        · right
          refine ⟨node, ?_⟩
          have h2 := congrArg (fun m => entriesAt m P) (hr.symm.trans h1)
          simp only [entriesAt_emplace, if_true] at h2
          simpa using h2
      rcases hkn with h1 | ⟨node, h1⟩
      · have h2 := congrArg (fun m => (entriesAt m P).length) (hr.symm.trans h1)
        simp only [entriesAt_emplace, if_true, List.length_append, List.length_singleton]
          at h2
        omega
      · rw [h1] at hplace
        simp only [KeyNode.place, Prod.mk.injEq] at hplace
        obtain ⟨hk1, hj⟩ := hplace
        subst hk1
        subst hj
        obtain ⟨e2, he2, he2k, _⟩ := value_of_step _ pos key j hstep
        have hee := entry_unique _ key e e2 hfind hkeys
          (List.mem_iff_getElem?.mpr ⟨pos, he2⟩) he2k
        rw [hee] at he2
        rw [valueAt_of_getElem h P pos j e _ he2 hval,
          nodeVisitValue_token sep hsep path hpath hhead root h R0 P key j target t htarget]
          at hv
        simp only [Outcome.ok.injEq] at hv
        rw [← hv] at hr
        have h2 := congrArg (fun m => entriesAt m P) hr
        simp only [entriesAt_emplace, if_true] at h2
        have h3 : kn = { key := key, node := target, index := j } := by simpa using h2.symm
        rw [h3])
    fuel root [] (h, R) hacc
  rw [hvisit] at hL2
  simp only [List.replicate_one, List.flatten_cons, List.flatten_nil, List.append_nil] at hL2
  rw [tokenPlaces_single _ h P k i e _ hfind hkeys hval (by rw [hre]; rfl)
    (fun pos e2 j v he2 hv hne => honly P pos e2 j v hreachP he2 hv
      (fun hx => hne (Prod.mk.inj hx).2))] at hL2
  have hL0 : entriesAt R P = L := by
    rw [hL1]
    rfl
  simp only at hL0
  have hLs : L = [{ key := k, node := target, index := i }] := by
    cases L with
    | nil => simp at hL2
    | cons r0 rest =>
      simp only [List.map_cons, List.cons.injEq, List.map_eq_nil_iff] at hL2
      have hn := hL3 r0 (List.mem_cons_self _ _) hL2.1
      rw [hL2.2]
      have hp := hL2.1
      simp only [KeyNode.place, Prod.mk.injEq] at hp
      cases r0
      simp only at hp hn
      rw [hp.1, hp.2, hn]
  have hnd : (R.map Prod.fst).Nodup :=
    node_accept_keys _ root fuel root (h, []) (h, R) (by simp) hacc
  have hne : ∀ entry ∈ R, entry.2 ≠ [] :=
    node_accept_ne_nil _ root fuel root (h, []) (h, R) (by simp) hacc
  have hPL : (P, L) ∈ R := by
    apply mem_of_findReplacements
    unfold entriesAt at hL0
    cases hfr : findReplacements R P with
    | none =>
      rw [hfr] at hL0
      simp only [Option.getD_none] at hL0
      rw [hLs] at hL0
      simp at hL0
    | some L2 =>
      rw [hfr] at hL0
      simp only [Option.getD_some] at hL0
      rw [hL0]
  -- nothing is recorded for another node
  have hall : ∀ entry ∈ R, entry.1 = P := by
    intro entry hent
    by_contra hq
    obtain ⟨Lq, hq1, hq2, _⟩ := node_accept_entries
      (ConfigNodeExpander.construct sep "node".toList NUL) root h entry.1 (fun _ => True)
      (fun _ _ _ _ _ _ _ _ _ => trivial) fuel root [] (h, R) hacc
    have hempty : Lq = [] := by
      by_cases hc : visitCount h entry.1 fuel root = 0
      · rw [hc] at hq2
        simpa using hq2
      · have hreach := reaches_of_visitCount h entry.1 fuel root hc
        rw [tokenPlaces_nil _ h entry.1 (fun pos e2 j v he2 hv =>
          honly entry.1 pos e2 j v hreach he2 hv (fun hx => hq (Prod.mk.inj hx).1)),
          List.flatten_replicate_nil] at hq2
        simpa using hq2
    have hfr := findReplacements_of_mem R entry.1 entry.2 hnd hent
    simp only [entriesAt, hfr, Option.getD_some] at hq1
    rw [hempty] at hq1
    exact hne entry hent (by simpa using hq1)
  have hR := single_of_keys R P L hnd hPL hall
  -- the replacement phase
  cases hE : eraseValue h P k i with
  | none => simp [eraseValue, hfind, hi] at hE
  | some h1 =>
    obtain ⟨ns, hset, _⟩ := setNode_default h1 P k target
    refine ⟨(setParent h1 target (some P)).set P
      { deref (setParent h1 target (some P)) P with nodes := ns }, ?_⟩
    unfold ConfigNodeExpander.run
    rw [hacc]
    simp only
    rw [hR, hLs, conforms_iterate_single lib hlib]
    simp only [applyLoop, conforms_sort_single lib hlib, eraseLoop, setLoop, hE, hset]

theorem reaches_lt (h : Store) (hcl : Closed h) (target : NodePtr) :
    ∀ (f : Nat) (m : NodePtr), m < h.length → reaches h target f m = true →
      target < h.length := by
  intro f
  induction f with
  | zero =>
    intro m hm hr
    simp only [reaches, decide_eq_true_eq] at hr
    exact hr ▸ hm
  | succ f ih =>
    intro m hm hr
    simp only [reaches, Bool.or_eq_true, decide_eq_true_eq, List.any_eq_true] at hr
    rcases hr with h1 | ⟨c, hc, h1⟩
    · exact h1 ▸ hm
    · exact ih c (hcl m c hc) h1

/-- The only scalar of the template tree that the regex of the default expander matches is
the element 0 under `bind` of the node `service`. -/
theorem templateStore_single_token (n : NodePtr) (pos : Nat) (e2 : ElementType value_list)
    (j : Nat) (v : Str) (hr : reaches templateStore n 3 0 = true)
    (he : (deref templateStore n).values[pos]? = some e2) (hv : e2.value[j]? = some v)
    (hne : (n, e2.key, j) ≠ (2, "bind".toList, 0)) :
    nodeRegex (ConfigNodeExpander.construct '.' "node".toList NUL) v = none := by
  have hn : n < 3 := reaches_lt templateStore
    (closed_parentHolds_of_check templateStore (by decide)).1 n 3 0 (by decide) hr
  have hpos : pos < 1 := by
    by_contra hge
    have hlen : (deref templateStore n).values.length ≤ 1 := by
      interval_cases n <;> decide
    rw [List.getElem?_eq_none (by omega)] at he
    simp at he
  have hj : j < 1 := by
    by_contra hge
    have hlen : e2.value.length ≤ 1 := by
      have hp0 : pos = 0 := by omega
      subst hp0
      interval_cases n
      · simp [deref, templateStore] at he
      · simp [deref, templateStore] at he
        rw [← he]
        decide
      · simp [deref, templateStore] at he
        rw [← he]
        decide
    rw [List.getElem?_eq_none (by omega)] at hv
    simp at hv
  have hp0 : pos = 0 := by omega
  have hj0 : j = 0 := by omega
  subst hp0 hj0
  interval_cases n
  · simp [deref, templateStore] at he
  · simp [deref, templateStore] at he
    rw [← he] at hv
    simp at hv
    rw [← hv]
    decide
  · simp [deref, templateStore] at he
    rw [← he] at hne
    exact absurd rfl hne

/-- C11: take the default node expander (prefix `node`, no level character) and a tree in
which the traversal comes once to the node `P`, the keys of the scalar entries of `P` are
distinct, and element `i` under the key `k` of `P` is the string `%node<sep><path>%`, whose
path is not empty, does not start with the separator and names at least one subnode from the
root.  After every pass that returns, the lookup of the scalars under `k` at `P` no longer
holds that string: it gives the former sequence without the strings that the regex of the
expander matches, so nothing for a sequence of one element; and the lookup of the subnodes
under `k` at `P` holds the first subnode found at the path.  The pass does return when the
subnodes below the root are no deeper than the budget and no other scalar element reached
from the root matches the regex. -/
theorem nodeExpander_graft (lib : Library) (hlib : lib.Conforms) (sep : Separator)
    (hsep : sep ≠ NUL) (fuel : Nat) (h : Store) (root P : NodePtr) (k path : Str) (i : Nat)
    (e : ElementType value_list) (target : NodePtr) (t : node_list)
    (hfind : find (deref h P).values k = some e)
    (hkeys : ((deref h P).values.map (fun c => c.key)).Nodup)
    (hval : e.value[i]? = some ("%node".toList ++ sep :: path ++ ['%']))
    (hpath : path ≠ []) (hhead : path.head? ≠ some sep)
    (htarget : getNodes h root (some path) sep = target :: t)
    (hvisit : visitCount h P fuel root = 1) :
    (∀ h2, (ConfigNodeExpander.construct sep "node".toList NUL).run lib fuel h root = .ok h2 →
      ("%node".toList ++ sep :: path ++ ['%']) ∉ getValuesKey h2 P k ∧
      getValuesKey h2 P k = e.value.filter
        (fun v => (nodeRegex (ConfigNodeExpander.construct sep "node".toList NUL) v).isNone) ∧
      (e.value.length = 1 → getValuesKey h2 P k = []) ∧
      target ∈ getNodesKey h2 P k) ∧
    (withinDepth h fuel root = true →
      (∀ (n : NodePtr) (pos : Nat) (e2 : ElementType value_list) (j : Nat) (v : Str),
        reaches h n fuel root = true → (deref h n).values[pos]? = some e2 →
        e2.value[j]? = some v → (n, e2.key, j) ≠ (P, k, i) →
        nodeRegex (ConfigNodeExpander.construct sep "node".toList NUL) v = none) →
      ∃ h2, (ConfigNodeExpander.construct sep "node".toList NUL).run lib fuel h root
        = .ok h2) := by
  have hre := nodeRegex_token sep hsep path hpath hhead
  refine ⟨?_, fun hdepth honly => run_single_token lib hlib sep hsep fuel h root P k path i e
    target t hfind hkeys hval hpath hhead htarget hvisit hdepth honly⟩
  intro h2 hrun
  obtain ⟨hvals, hnodes⟩ := run_graft lib hlib
    (ConfigNodeExpander.construct sep "node".toList NUL) fuel h root P k i e
    ("%node".toList ++ sep :: path ++ ['%']) target h2 hfind hkeys hval
    (by rw [hre]; rfl)
    (fun R => nodeVisitValue_token sep hsep path hpath hhead root h R P k i target t htarget)
    hvisit hrun
  have hnot : ("%node".toList ++ sep :: path ++ ['%']) ∉ getValuesKey h2 P k := by
    rw [hvals]
    intro hmem
    have h3 := (List.mem_filter.mp hmem).2
    rw [hre] at h3
    simp at h3
  refine ⟨hnot, hvals, ?_, hnodes⟩
  intro hlen
  rw [hvals]
  rw [List.filter_eq_nil_iff]
  intro v hv
  obtain ⟨v0, hv0⟩ := List.length_eq_one.mp hlen
  rw [hv0] at hv hval
  simp only [List.mem_singleton] at hv
  have hi : i = 0 := by
    by_contra hne
    rw [List.getElem?_eq_none (by simp; omega)] at hval
    simp at hval
  subst hi
  simp only [List.getElem?_cons_zero, Option.some.injEq] at hval
  rw [hv, hval, hre]
  simp

/-- Witness of C11: the tree `{template: {port: ["8080"]}, service: {bind:
["%node.template%"]}}`; afterwards `getValues("service.bind")` is empty and
`getValues("service.bind.port")` is `["8080"]`. -/
theorem nodeExpander_graft_witness :
    visitCount templateStore 2 3 0 = 1 ∧
    withinDepth templateStore 3 0 = true ∧
    (∃ h2, (ConfigNodeExpander.construct '.' "node".toList NUL).run insertionLibrary 3
      templateStore 0 = .ok h2) ∧
    (ConfigNodeExpander.construct '.' "node".toList NUL).run insertionLibrary 3 templateStore 0
      = .ok templateAfter ∧
    (("%node".toList ++ '.' :: "template".toList ++ ['%']) ∉
        getValuesKey templateAfter 2 "bind".toList ∧
      getValuesKey templateAfter 2 "bind".toList
        = ["%node.template%".toList].filter (fun v =>
            (nodeRegex (ConfigNodeExpander.construct '.' "node".toList NUL) v).isNone) ∧
      (["%node.template%".toList].length = 1 →
        getValuesKey templateAfter 2 "bind".toList = []) ∧
      1 ∈ getNodesKey templateAfter 2 "bind".toList) ∧
    getValues templateAfter 0 (some "service.bind".toList) '.' = [] ∧
    getValues templateAfter 0 (some "service.bind.port".toList) '.' = ["8080".toList] :=
  ⟨by decide, by decide,
    (nodeExpander_graft insertionLibrary insertionLibrary_conforms '.' (by decide) 3
      templateStore 0 2 "bind".toList "template".toList 0
      { key := "bind".toList, value := ["%node.template%".toList] } 1 []
      (by decide) (by decide) (by decide) (by decide) (by decide) (by decide)
      (by decide)).2 (by decide) templateStore_single_token,
    by decide,
    (nodeExpander_graft insertionLibrary insertionLibrary_conforms '.' (by decide) 3
      templateStore 0 2 "bind".toList "template".toList 0
      { key := "bind".toList, value := ["%node.template%".toList] } 1 []
      (by decide) (by decide) (by decide) (by decide) (by decide) (by decide)
      (by decide)).1 templateAfter (by decide),
    by decide, by decide⟩

theorem invariantI1_mutators_witness :
    invariantI1 templateStore = true ∧
    ((∀ value index h2, setValue templateStore 0 "template".toList value index = some h2 →
        invariantI1 h2 = true) ∧
    (∀ node index h2, setNode templateStore 0 "template".toList node index = some h2 →
        invariantI1 h2 = true) ∧
    invariantI1 (erase templateStore 0 "template".toList) = true ∧
    (∀ other h2, swap templateStore 0 other = some h2 → invariantI1 h2 = true) ∧
    (∀ index h2, (getValuesKey templateStore 0 "template".toList).length ≠ 1 →
      eraseValue templateStore 0 "template".toList index = some h2 → invariantI1 h2 = true) ∧
    (∀ index h2, (getNodesKey templateStore 0 "template".toList).length ≠ 1 →
      eraseNode templateStore 0 "template".toList index = some h2 → invariantI1 h2 = true) ∧
    (∀ lib x fuel h2, Library.Conforms lib →
      ConfigNodeExpander.run lib x fuel templateStore 0 = .ok h2 →
      ∀ n, (deref h2 n).nodes.all (fun e => !e.value.isEmpty) = true)) :=
  ⟨by decide, invariantI1_mutators templateStore (by decide) 0 "template".toList⟩

/-! # Theorems on the resolution of node tokens and on `overwrite` -/

/-! ## C22: a token that asks for a level above the root -/

theorem nodeVisitValue_null_scope (x : ConfigNodeExpander) (root : NodePtr) (h : Store)
    (R : replacement_container) (parent : NodePtr) (key : Str) (index : Nat) (value : Str)
    (what : Str × Str × Str) (hm : nodeRegex x value = some what)
    (hscope : tokenScope x root h parent what = none) :
    nodeVisitValue x root h R parent key index value = .error Failure.null_pointer := by
  simp only [nodeVisitValue, hm, hscope, addKeyNode]

/-- The ascent from a node without parent leaves the tree. -/
theorem ascend_root (h : Store) (n : NodePtr) (count : Nat) (hc : 0 < count)
    (hp : (deref h n).parent = none) : ascend h count (some n) = none := by
  cases count with
  | zero => exact absurd hc (Nat.lt_irrefl 0)
  | succ c =>
    simp only [ascend, getParent, hp]
    cases c with
    | zero => rfl
    | succ c2 => rfl

/-- C22 fails on the code: the loop of the ascent stops at a null scope, but `visit` then
hands that null scope to `addKeyNode`, whose first statement calls `getNodes` through it.
For every token whose ascent leaves the tree the visit ends in this call through a null
pointer and not in `invalid_argument`; this is so for every token with an up-marker on a scalar of a node
without parent; the tree `{k: ["%node..x%"]}` under the default
expander is an instance, for every library. -/
theorem ascent_above_root_null_scope :
    (∀ (x : ConfigNodeExpander) (root : NodePtr) (h : Store) (R : replacement_container)
      (parent : NodePtr) (key : Str) (index : Nat) (value : Str) (what : Str × Str × Str),
      nodeRegex x value = some what → tokenScope x root h parent what = none →
      nodeVisitValue x root h R parent key index value = .error Failure.null_pointer) ∧
    (∀ (x : ConfigNodeExpander) (root : NodePtr) (h : Store) (parent : NodePtr)
      (what : Str × Str × Str), what.2.1 ≠ [] → 0 < what.2.1.length / x.levelUp.length →
      (deref h parent).parent = none → tokenScope x root h parent what = none) ∧
    nodeRegex (ConfigNodeExpander.construct '.' "node".toList NUL) "%node..x%".toList
      = some ([], ".".toList, "x".toList) ∧
    tokenScope (ConfigNodeExpander.construct '.' "node".toList NUL) 0 aboveRootStore 0
      ([], ".".toList, "x".toList) = none ∧
    (∀ lib : Library, (ConfigNodeExpander.construct '.' "node".toList NUL).run lib 0
      aboveRootStore 0 = .error Failure.null_pointer) ∧
    (∀ lib : Library, ∀ text, (ConfigNodeExpander.construct '.' "node".toList NUL).run lib 0
      aboveRootStore 0 ≠ .error (Failure.invalid_argument text)) := by
  refine ⟨fun x root h R parent key index value what hm hs =>
    nodeVisitValue_null_scope x root h R parent key index value what hm hs,
    fun x root h parent what hne hc hp => by
      simp only [tokenScope, hne, ne_eq, not_false_eq_true, if_true]
      exact ascend_root h parent _ hc hp,
    by decide, by decide, ?_, ?_⟩
  · intro lib
    have ha : accept (NodeVisitor (ConfigNodeExpander.construct '.' "node".toList NUL) 0 0) 0
        (aboveRootStore, []) = .error Failure.null_pointer := by decide
    simp only [ConfigNodeExpander.run, ha]
  · intro lib text
    have ha : accept (NodeVisitor (ConfigNodeExpander.construct '.' "node".toList NUL) 0 0) 0
        (aboveRootStore, []) = .error Failure.null_pointer := by decide
    simp only [ConfigNodeExpander.run, ha]
    simp

/-! ### The replacement phase, seen from the subnodes under one key -/

theorem setNode_getNodesKey (s : Store) (p : NodePtr) (key : Str) (node : NodePtr)
    (s2 : Store) (hs : setNode s p key node SIZE_MAX = some s2) (hp : p < s.length)
    (q : NodePtr) (k : Str) :
    getNodesKey s2 q k
      = if p = q ∧ key = k then getNodesKey s q k ++ [node] else getNodesKey s q k := by
  by_cases hq : p = q
  · subst hq
    have hn1 : (deref (setParent s node (some p)) p).nodes = (deref s p).nodes :=
      deref_setParent_nodes s node p (some p)
    have hl2 : p < (setParent s node (some p)).length := by
      rw [length_setParent]
      exact hp
    unfold setNode at hs
    dsimp only at hs
    rw [hn1] at hs
    cases hf : find (deref s p).nodes key with
    | none =>
      rw [hf] at hs
      simp only [Option.some.injEq] at hs
      subst hs
      by_cases hk : key = k
      · subst hk
        rw [if_pos ⟨rfl, rfl⟩]
        unfold getNodesKey
        rw [deref_set_self _ _ _ hl2]
        simp only
        rw [find_append_of_none _ _ key hf rfl, hf]
        rfl
      · rw [if_neg (fun hx => hk hx.2)]
        unfold getNodesKey
        rw [deref_set_self _ _ _ hl2]
        simp only
        have : find ((deref s p).nodes ++ [{ key := key, value := [node] }]) k
            = find (deref s p).nodes k := by
          unfold find
          rw [List.find?_append]
          cases List.find? (fun e => decide (e.key = k)) (deref s p).nodes with
          | none => simp [hk]
          | some c0 => rfl
        rw [this]
    | some it =>
      rw [hf] at hs
      simp only [if_true, Option.some.injEq] at hs
      subst hs
      by_cases hk : key = k
      · subst hk
        rw [if_pos ⟨rfl, rfl⟩]
        unfold getNodesKey
        rw [deref_set_self _ _ _ hl2]
        simp only
        rw [find_modify, hf]
        rfl
      · rw [if_neg (fun hx => hk hx.2)]
        unfold getNodesKey
        rw [deref_set_self _ _ _ hl2]
        simp only
        rw [find_modify_of_ne _ key k hk]
  · rw [if_neg (fun hx => hq hx.1)]
    unfold getNodesKey
    rw [(setNode_frame s p key node s2 hs).2.2.1 q (fun hx => hq hx.symm)]

theorem eraseLoop_length (p : NodePtr) (l : List KeyNode) (s s2 : Store)
    (he : eraseLoop s p l = some s2) : s2.length = s.length :=
  eraseLoop_keep (fun t => t.length = s.length) (fun _ => True) p
    (fun a r b hK _ hv => (eraseValue_frame a p r.key r.index b hv).1.trans hK)
    l s s2 (fun _ _ => trivial) rfl he

theorem setLoop_length (p : NodePtr) (l : List KeyNode) (s s2 : Store)
    (he : setLoop s p l = some s2) : s2.length = s.length :=
  setLoop_keep (fun t => t.length = s.length) (fun _ => True) p
    (fun a r b hK _ hv => (setNode_frame a p r.key r.node b hv).1.trans hK)
    l s s2 (fun _ _ => trivial) rfl he

theorem eraseLoop_nodes (p q : NodePtr) (k : Str) (l : List KeyNode) (s s2 : Store)
    (he : eraseLoop s p l = some s2) : getNodesKey s2 q k = getNodesKey s q k :=
  eraseLoop_keep (fun t => getNodesKey t q k = getNodesKey s q k) (fun _ => True) p
    (fun a r b hK _ hv => by
      show getNodesKey b q k = getNodesKey s q k
      rw [getNodesKey_eraseValue a p r.key r.index b hv q k]
      exact hK)
    l s s2 (fun _ _ => trivial) rfl he

theorem setLoop_nodes (p : NodePtr) (k : Str) : ∀ (l : List KeyNode) (s s2 : Store),
    p < s.length → setLoop s p l = some s2 →
    getNodesKey s2 p k
      = getNodesKey s p k ++ (l.filter (fun r => decide (r.key = k))).map (fun r => r.node)
  | [], s, s2, _, hs => by
    simp only [setLoop, Option.some.injEq] at hs
    subst hs
    simp
  | r :: rest, s, s2, hp, hs => by
    simp only [setLoop] at hs
    cases hv : setNode s p r.key r.node SIZE_MAX with
    | none => rw [hv] at hs; simp at hs
    | some s1 =>
      rw [hv] at hs
      have hl : p < s1.length := by
        rw [(setNode_frame s p r.key r.node s1 hv).1]
        exact hp
      rw [setLoop_nodes p k rest s1 s2 hl hs, setNode_getNodesKey s p r.key r.node s1 hv hp p k]
      by_cases hk : r.key = k
      · rw [if_pos ⟨rfl, hk⟩, List.filter_cons]
        simp [hk]
      · rw [if_neg (fun hx => hk hx.2), List.filter_cons]
        simp [hk]

theorem setLoop_nodes_other (p q : NodePtr) (hpq : p ≠ q) (k : Str) (l : List KeyNode)
    (s s2 : Store) (hs : setLoop s p l = some s2) :
    getNodesKey s2 q k = getNodesKey s q k :=
  setLoop_keep (fun t => getNodesKey t q k = getNodesKey s q k) (fun _ => True) p
    (fun a r b hK _ hv => by
      show getNodesKey b q k = getNodesKey s q k
      unfold getNodesKey
      rw [(setNode_frame a p r.key r.node b hv).2.2.1 q (fun hx => hpq hx.symm)]
      exact hK)
    l s s2 (fun _ _ => trivial) rfl hs

/-- Subnodes and scalars under the key `k` of a node for which the map holds no entry. -/
theorem applyLoop_other (lib : Library) (p : NodePtr) (k : Str) (R : replacement_container)
    (s s2 : Store) (hno : p ∉ R.map Prod.fst) (ha : applyLoop lib s R = .ok s2) :
    getNodesKey s2 p k = getNodesKey s p k ∧ getValuesKey s2 p k = getValuesKey s p k := by
  refine applyLoop_keep lib
    (fun t => getNodesKey t p k = getNodesKey s p k ∧ getValuesKey t p k = getValuesKey s p k)
    (fun q _ => q ≠ p) ?_ ?_ R s s2 ?_ ⟨rfl, rfl⟩ ha
  · intro a q r b hK hq he
    constructor
    · show getNodesKey b p k = getNodesKey s p k
      rw [getNodesKey_eraseValue a q r.key r.index b he p k]
      exact hK.1
    · show getValuesKey b p k = getValuesKey s p k
      rw [eraseValue_getValuesKey a q r.key r.index b he p k, if_neg (fun hx => hq hx.1)]
      exact hK.2
  · intro a q r b hK hq hset
    constructor
    · show getNodesKey b p k = getNodesKey s p k
      unfold getNodesKey
      rw [(setNode_frame a q r.key r.node b hset).2.2.1 p (fun hx => hq hx.symm)]
      exact hK.1
    · show getValuesKey b p k = getValuesKey s p k
      rw [setNode_getValuesKey a q r.key r.node b hset p k]
      exact hK.2
  · intro e2 he2m r _ hx
    apply hno
    rw [← hx]
    exact List.mem_map.mpr ⟨e2, he2m, rfl⟩

/-- Subnodes under the key `k` of the node `p` after the replacement phase, when the map
holds one entry for `p`: the replacements of that key are appended in sorted order. -/
theorem applyLoop_nodes (lib : Library) (p : NodePtr) (k : Str) (L : List KeyNode) :
    ∀ (R : replacement_container) (s s2 : Store), p < s.length → (R.map Prod.fst).Nodup →
      (p, L) ∈ R → applyLoop lib s R = .ok s2 →
      getNodesKey s2 p k
        = getNodesKey s p k
          ++ ((lib.sort L).filter (fun r => decide (r.key = k))).map (fun r => r.node)
  | [], _, _, _, _, hm, _ => by simp at hm
  | entry :: rest, s, s2, hp, hnd, hm, ha => by
    simp only [List.map_cons, List.nodup_cons] at hnd
    simp only [applyLoop] at ha
    cases h1 : eraseLoop s entry.1 (lib.sort entry.2) with
    | none => rw [h1] at ha; simp at ha
    | some s1 =>
      rw [h1] at ha
      simp only at ha
      cases h3 : setLoop s1 entry.1 (lib.sort entry.2) with
      | none => rw [h3] at ha; simp at ha
      | some s3 =>
        rw [h3] at ha
        simp only at ha
        have hp1 : p < s1.length := by
          rw [eraseLoop_length _ _ s s1 h1]
          exact hp
        have hp3 : p < s3.length := by
          rw [setLoop_length _ _ s1 s3 h3]
          exact hp1
        rcases List.mem_cons.mp hm with hme | hme
        · have he1 : entry.1 = p := by rw [← hme]
          have he2 : entry.2 = L := by rw [← hme]
          rw [he1, he2] at h1 h3
          rw [he1] at hnd
          rw [(applyLoop_other lib p k rest s3 s2 hnd.1 ha).1,
            setLoop_nodes p k _ s1 s3 hp1 h3, eraseLoop_nodes p p k _ s s1 h1]
        · have hne : entry.1 ≠ p := by
            intro hx
            apply hnd.1
            rw [hx]
            exact List.mem_map.mpr ⟨(p, L), hme, rfl⟩
          rw [applyLoop_nodes lib p k L rest s3 s2 hp3 hnd.2 hme ha,
            setLoop_nodes_other entry.1 p hne k _ s1 s3 h3,
            eraseLoop_nodes entry.1 p k _ s s1 h1]

/-! ### Tokens that resolve whatever replacements are pending -/

theorem nodeVisitValue_resolves (x : ConfigNodeExpander) (root : NodePtr) (h : Store)
    (R : replacement_container) (parent : NodePtr) (key : Str) (index : Nat) (value : Str)
    (what : Str × Str × Str) (target : NodePtr) (hm : nodeRegex x value = some what)
    (hres : Resolves x root h parent what target) :
    nodeVisitValue x root h R parent key index value
      = .ok (emplace R parent { key := key, node := target, index := index }, value) := by
  rcases hres with ⟨scope, t, hs, hg⟩ | ⟨hs, hroot, hbase, t, hg⟩
  · simp only [nodeVisitValue, hm, hs, addKeyNode, hg, if_true]
  · simp only [nodeVisitValue, hm, hs, addKeyNode, hroot, hbase, hg, if_true,
      Bool.false_eq_true, if_false]

/-- The retry at the parent of the scalar: it is made, and succeeds by the lookup there, when
the scope is the root and the lookup there, its base-node fallback included, finds nothing. -/
theorem nodeVisitValue_retry (x : ConfigNodeExpander) (root : NodePtr) (h : Store)
    (R : replacement_container) (parent : NodePtr) (key : Str) (index : Nat) (value : Str)
    (what : Str × Str × Str) (target : NodePtr) (t : node_list)
    (hm : nodeRegex x value = some what)
    (hs : tokenScope x root h parent what = some root)
    (hfirst : addKeyNode h x.separator R (some root) parent key index what.2.2
      = .ok (false, R))
    (hg : getNodes h parent (some what.2.2) x.separator = target :: t) :
    nodeVisitValue x root h R parent key index value
      = .ok (emplace R parent { key := key, node := target, index := index }, value) := by
  simp only [nodeVisitValue, hm, hs, hfirst, Bool.false_eq_true, if_false, if_true]
  simp only [addKeyNode, hg, if_true]

/-- No retry at the parent of the scalar when the scope is not the root. -/
theorem nodeVisitValue_no_retry (x : ConfigNodeExpander) (root : NodePtr) (h : Store)
    (R : replacement_container) (parent : NodePtr) (key : Str) (index : Nat) (value : Str)
    (what : Str × Str × Str) (scope : NodePtr)
    (hm : nodeRegex x value = some what)
    (hs : tokenScope x root h parent what = some scope) (hne : scope ≠ root)
    (hfirst : addKeyNode h x.separator R (some scope) parent key index what.2.2
      = .ok (false, R)) :
    nodeVisitValue x root h R parent key index value
      = .error (Failure.invalid_argument (couldNotFind value key index)) := by
  have hne2 : ¬ (some scope = some root) := fun hx => hne (Option.some.inj hx)
  simp only [nodeVisitValue, hm, hs, hfirst, Bool.false_eq_true, if_false, hne2]

/-- What the traversal records for the node `P` when the tokens under its key `k` resolve to
the subnodes `tgt`. -/
theorem node_accept_key_entries (x : ConfigNodeExpander) (root : NodePtr) (h : Store)
    (P : NodePtr) (k : Str) (e : ElementType value_list) (tgt : Nat → NodePtr)
    (hfind : find (deref h P).values k = some e)
    (hkeys : ((deref h P).values.map (fun c => c.key)).Nodup)
    (htgt : ∀ (j : Nat) (v : Str) (R : replacement_container), e.value[j]? = some v →
      (nodeRegex x v).isSome = true →
      nodeVisitValue x root h R P k j v
        = .ok (emplace R P { key := k, node := tgt j, index := j }, v))
    (fuel : Nat) (R : replacement_container) (hvisit : visitCount h P fuel root = 1)
    (hacc : accept (NodeVisitor x root fuel) root (h, []) = .ok (h, R)) :
    (entriesAt R P).map KeyNode.place = tokenPlaces x h P ∧
    ∀ r ∈ entriesAt R P, r.key = k → r.node = tgt r.index := by
  obtain ⟨L, hL1, hL2, hL3⟩ := node_accept_entries x root h P
    (fun kn => kn.key = k → kn.node = tgt kn.index)
    (by
      intro R0 pos key j r hstep hv kn hr hkey
      obtain ⟨_, heff⟩ := nodeVisitValue_effect x root h R0 P key j _ r hv
      rcases heff with ⟨_, h1⟩ | ⟨what, node, hmatch, _, h1⟩
      · have h2 := congrArg (fun m => (entriesAt m P).length) (hr.symm.trans h1)
        simp only [entriesAt_emplace, if_true, List.length_append, List.length_singleton]
          at h2
        omega
      · have hkn : kn = { key := key, node := node, index := j } := by
          have h2 := congrArg (fun m => entriesAt m P) (hr.symm.trans h1)
          simp only [entriesAt_emplace, if_true] at h2
          simpa using h2
        rw [hkn] at hkey
        simp only at hkey
        subst hkey
        obtain ⟨e2, he2, he2k, hj⟩ := value_of_step _ pos key j hstep
        have hee := entry_unique _ key e e2 hfind hkeys
          (List.mem_iff_getElem?.mpr ⟨pos, he2⟩) he2k
        rw [hee] at he2
        have hvj : e.value[j]? = some (valueAt h P pos j) := by
          rw [hee] at hj
          rw [valueAt_of_getElem h P pos j e e.value[j] he2 (List.getElem?_eq_getElem hj)]
          exact List.getElem?_eq_getElem hj
        rw [htgt j _ R0 hvj (by rw [hmatch]; rfl)] at hv
        simp only [Outcome.ok.injEq] at hv
        rw [← hv] at hr
        have h2 := congrArg (fun m => entriesAt m P) hr
        simp only [entriesAt_emplace, if_true] at h2
        have h3 : kn = { key := key, node := tgt j, index := j } := by simpa using h2.symm
        rw [h3])
    fuel root [] (h, R) hacc
  rw [hvisit] at hL2
  simp only [List.replicate_one, List.flatten_cons, List.flatten_nil, List.append_nil] at hL2
  have hL0 : entriesAt R P = L := by
    rw [hL1]
    rfl
  simp only at hL0
  rw [hL0]
  exact ⟨hL2, hL3⟩

theorem not_mem_of_findReplacements_none : ∀ (R : replacement_container) (p : NodePtr),
    findReplacements R p = none → p ∉ R.map Prod.fst
  | [], _, _ => by simp
  | e :: rest, p, hf => by
    unfold findReplacements at hf
    by_cases he : e.1 = p
    · rw [if_pos he] at hf
      simp at hf
    · rw [if_neg he] at hf
      simp only [List.map_cons, List.mem_cons, not_or]
      exact ⟨fun hx => he hx.symm, not_mem_of_findReplacements_none rest p hf⟩

/-- Indices of the replacements of the key `k`, in the order in which they are applied. -/
theorem sorted_key_indices (lib : Library) (hlib : lib.Conforms) (x : ConfigNodeExpander)
    (h : Store) (P : NodePtr) (k : Str) (e : ElementType value_list) (L : List KeyNode)
    (hfind : find (deref h P).values k = some e)
    (hkeys : ((deref h P).values.map (fun c => c.key)).Nodup)
    (hL : L.map KeyNode.place = tokenPlaces x h P) :
    ((lib.sort L).filter (fun r => decide (r.key = k))).map (fun r => r.index)
      = ((List.range e.value.length).filter
          (fun j => (nodeRegex x (e.value.getD j [])).isSome)).reverse := by
  have hidx := tokenPlaces_key x h P k e hfind hkeys
  apply sorted_desc_unique
  · rw [← hidx, ← hL, ← places_of_key]
    exact (((hlib.2 L).1).filter _).map _
  · have hs := ((hlib.2 L).2).filter (fun r => decide (r.key = k))
    exact List.pairwise_map.mpr hs
  · exact (List.sorted_lt_range _).filter _

/-- Core of C24: scalars and subnodes under the key `k` of `P` after a pass that returns. -/
theorem run_grafts (lib : Library) (hlib : lib.Conforms) (x : ConfigNodeExpander)
    (fuel : Nat) (h : Store) (root P : NodePtr) (k : Str) (e : ElementType value_list)
    (tgt : Nat → NodePtr) (h2 : Store)
    (hfind : find (deref h P).values k = some e)
    (hkeys : ((deref h P).values.map (fun c => c.key)).Nodup)
    (htgt : ∀ (j : Nat) (v : Str) (R : replacement_container), e.value[j]? = some v →
      (nodeRegex x v).isSome = true →
      nodeVisitValue x root h R P k j v
        = .ok (emplace R P { key := k, node := tgt j, index := j }, v))
    (hvisit : visitCount h P fuel root = 1)
    (hrun : x.run lib fuel h root = .ok h2) :
    getValuesKey h2 P k = e.value.filter (fun v => (nodeRegex x v).isNone) ∧
    getNodesKey h2 P k = getNodesKey h P k ++
      (((List.range e.value.length).filter
        (fun j => (nodeRegex x (e.value.getD j [])).isSome)).reverse).map tgt := by
  unfold ConfigNodeExpander.run at hrun
  cases hacc : accept (NodeVisitor x root fuel) root (h, []) with
  | error err => rw [hacc] at hrun; simp at hrun
  | ok st =>
    rw [hacc] at hrun
    simp only at hrun
    have hst : st.1 = h := node_accept_store x root fuel root (h, []) st hacc
    obtain ⟨s1, R⟩ := st
    simp only at hst hrun
    subst hst
    have hP : P < s1.length := by
      apply lt_length_of_values_ne_nil
      intro hnil
      rw [hnil] at hfind
      simp [find] at hfind
    obtain ⟨hL2, hL3⟩ := node_accept_key_entries x root s1 P k e tgt hfind hkeys htgt fuel R
      hvisit hacc
    have hgv : getValuesKey s1 P k = e.value := by
      unfold getValuesKey
      rw [hfind]
    have hfl := foldr_eraseIdx_filter ([] : Str) (fun v => (nodeRegex x v).isSome) e.value
    simp only at hfl
    have hfilter : e.value.filter (fun a => !(nodeRegex x a).isSome)
        = e.value.filter (fun v => (nodeRegex x v).isNone) := by
      apply List.filter_congr
      intro v _
      cases nodeRegex x v <;> rfl
    have hnd : ((lib.iterate R).map Prod.fst).Nodup :=
      ((hlib.1 R).map Prod.fst).nodup_iff.mpr
        (node_accept_keys x root fuel root (s1, []) (s1, R) (by simp) hacc)
    cases hfr : findReplacements R P with
    | none =>
      have hLnil : entriesAt R P = [] := by simp [entriesAt, hfr]
      rw [hLnil] at hL2
      have hidx := tokenPlaces_key x s1 P k e hfind hkeys
      rw [← hL2] at hidx
      simp only [List.map_nil, List.filter_nil] at hidx
      have hno : P ∉ (lib.iterate R).map Prod.fst := by
        intro hmem
        exact not_mem_of_findReplacements_none R P hfr
          ((((hlib.1 R).map Prod.fst).mem_iff).mp hmem)
      obtain ⟨hn, hv⟩ := applyLoop_other lib P k (lib.iterate R) s1 h2 hno hrun
      rw [hn, hv, hgv, ← hidx, ← hfilter, ← hfl, ← hidx]
      simp
    | some L =>
      have hLe : entriesAt R P = L := by simp [entriesAt, hfr]
      rw [hLe] at hL2 hL3
      have hPL : (P, L) ∈ lib.iterate R :=
        (hlib.1 R).mem_iff.mpr (mem_of_findReplacements R P L hfr)
      have hjs := sorted_key_indices lib hlib x s1 P k e L hfind hkeys hL2
      constructor
      · rw [applyLoop_values lib P k L (lib.iterate R) s1 h2 hnd hPL hrun, hgv, hjs,
          List.foldl_reverse, hfl, hfilter]
      · rw [applyLoop_nodes lib P k L (lib.iterate R) s1 h2 hP hnd hPL hrun, ← hjs,
          List.map_map]
        congr 1
        apply List.map_congr_left
        intro r hr
        have hrL : r ∈ L := (hlib.2 L).1.mem_iff.mp (List.mem_of_mem_filter hr)
        have hrk : r.key = k := by simpa using (List.mem_filter.mp hr).2
        exact hL3 r hrL hrk

/-! ### A pass over a tree whose tokens all sit under one key returns -/

theorem setLoop_total (p : NodePtr) : ∀ (l : List KeyNode) (s : Store),
    ∃ s2, setLoop s p l = some s2
  | [], s => ⟨s, rfl⟩
  | r :: rest, s => by
    cases hv : setNode s p r.key r.node SIZE_MAX with
    | none =>
      obtain ⟨ns, hset, _⟩ := setNode_default s p r.key r.node
      rw [hset] at hv
      simp at hv
    | some s1 =>
      obtain ⟨s2, hs2⟩ := setLoop_total p rest s1
      exact ⟨s2, by simp only [setLoop, hv, hs2]⟩

/-- The first loop of the replacement phase returns when the replacements all belong to one
key and their indices descend strictly and lie within the sequence of that key. -/
theorem eraseLoop_total (p : NodePtr) (k : Str) : ∀ (l : List KeyNode) (s : Store),
    (∀ r ∈ l, r.key = k) → (l.map (fun r => r.index)).Pairwise (fun a b => a > b) →
    (∀ r ∈ l, r.index < (getValuesKey s p k).length) →
    ∃ s2, eraseLoop s p l = some s2
  | [], s, _, _, _ => ⟨s, rfl⟩
  | r :: rest, s, hk, hsorted, hlt => by
    have hrk : r.key = k := hk r (List.mem_cons_self _ _)
    have hri : r.index < (getValuesKey s p k).length := hlt r (List.mem_cons_self _ _)
    simp only [List.map_cons, List.pairwise_cons] at hsorted
    cases hv : eraseValue s p r.key r.index with
    | none =>
      exfalso
      unfold eraseValue at hv
      dsimp only at hv
      unfold getValuesKey at hri
      rw [hrk] at hv
      cases hf : find (deref s p).values k with
      | none => rw [hf] at hv; simp at hv
      | some it =>
        rw [hf] at hv hri
        simp only at hv hri
        rw [if_pos hri] at hv
        simp at hv
    | some s1 =>
      have hval := eraseValue_getValuesKey s p r.key r.index s1 hv p k
      rw [if_pos ⟨rfl, hrk⟩] at hval
      obtain ⟨s2, hs2⟩ := eraseLoop_total p k rest s1
        (fun x hx => hk x (List.mem_cons_of_mem _ hx)) hsorted.2
        (by
          intro x hx
          rw [hval, List.length_eraseIdx, if_pos hri]
          have h1 : r.index > x.index :=
            hsorted.1 x.index (List.mem_map.mpr ⟨x, hx, rfl⟩)
          omega)
      exact ⟨s2, by simp only [eraseLoop, hv, hs2]⟩

/-- A pass returns when the recursion of the traversal stays within the budget, the
traversal comes once to the node `P`, every token under the key `k` of `P` resolves, and no
other scalar reached from the root matches the regex. -/
theorem run_key_tokens (lib : Library) (hlib : lib.Conforms) (x : ConfigNodeExpander)
    (fuel : Nat) (h : Store) (root P : NodePtr) (k : Str) (e : ElementType value_list)
    (tgt : Nat → NodePtr)
    (hfind : find (deref h P).values k = some e)
    (hkeys : ((deref h P).values.map (fun c => c.key)).Nodup)
    (htgt : ∀ (j : Nat) (v : Str) (R : replacement_container), e.value[j]? = some v →
      (nodeRegex x v).isSome = true →
      nodeVisitValue x root h R P k j v
        = .ok (emplace R P { key := k, node := tgt j, index := j }, v))
    (hvisit : visitCount h P fuel root = 1)
    (hdepth : withinDepth h fuel root = true)
    (honly : ∀ (n : NodePtr) (pos : Nat) (e2 : ElementType value_list) (j : Nat) (v : Str),
      reaches h n fuel root = true → (deref h n).values[pos]? = some e2 →
      e2.value[j]? = some v → (n, e2.key) ≠ (P, k) → nodeRegex x v = none) :
    ∃ h2, x.run lib fuel h root = .ok h2 := by
  have hreachP : reaches h P fuel root = true :=
    reaches_of_visitCount h P fuel root (by rw [hvisit]; exact Nat.one_ne_zero)
  -- the traversal returns
  obtain ⟨R, hacc⟩ := node_accept_total x root h fuel root hdepth
    (by
      intro n hn R0 pos key j hs
      obtain ⟨e2, he2, he2k, hj⟩ := value_of_step _ pos key j hs
      rw [valueAt_of_getElem h n pos j e2 e2.value[j] he2 (List.getElem?_eq_getElem hj)]
      by_cases hplace : (n, e2.key) = (P, k)
      · simp only [Prod.mk.injEq] at hplace
        obtain ⟨h1, h2⟩ := hplace
        subst h1
        have hee := entry_unique _ k e e2 hfind hkeys (List.mem_iff_getElem?.mpr ⟨pos, he2⟩) h2
        have hkey : key = k := he2k.symm.trans h2
        subst hkey
        subst hee
        cases hm : nodeRegex x e2.value[j] with
        | none => exact ⟨_, nodeVisitValue_no_match x root h R0 n key j _ hm⟩
        | some what =>
          exact ⟨_, htgt j _ R0 (List.getElem?_eq_getElem hj) (by rw [hm]; rfl)⟩
      · exact ⟨_, nodeVisitValue_no_match _ root h R0 n key j _
          (honly n pos e2 j _ hn he2 (List.getElem?_eq_getElem hj) hplace)⟩)
    []
  obtain ⟨hL2, _⟩ := node_accept_key_entries x root h P k e tgt hfind hkeys htgt fuel R
    hvisit hacc
  have hnd : (R.map Prod.fst).Nodup :=
    node_accept_keys _ root fuel root (h, []) (h, R) (by simp) hacc
  have hne : ∀ entry ∈ R, entry.2 ≠ [] :=
    node_accept_ne_nil _ root fuel root (h, []) (h, R) (by simp) hacc
  -- nothing is recorded for another node
  have hall : ∀ entry ∈ R, entry.1 = P := by
    intro entry hent
    by_contra hq
    obtain ⟨Lq, hq1, hq2, _⟩ := node_accept_entries x root h entry.1 (fun _ => True)
      (fun _ _ _ _ _ _ _ _ _ => trivial) fuel root [] (h, R) hacc
    have hempty : Lq = [] := by
      by_cases hc : visitCount h entry.1 fuel root = 0
      · rw [hc] at hq2
        simpa using hq2
      · have hreach := reaches_of_visitCount h entry.1 fuel root hc
        rw [tokenPlaces_nil _ h entry.1 (fun pos e2 j v he2 hv =>
          honly entry.1 pos e2 j v hreach he2 hv (fun hx => hq (Prod.mk.inj hx).1)),
          List.flatten_replicate_nil] at hq2
        simpa using hq2
    have hfr := findReplacements_of_mem R entry.1 entry.2 hnd hent
    simp only [entriesAt, hfr, Option.getD_some] at hq1
    rw [hempty] at hq1
    exact hne entry hent (by simpa using hq1)
  -- every place recorded for `P` is under the key `k`
  have hplaces : ∀ a ∈ tokenPlaces x h P, a.1 = k := by
    intro a ha
    obtain ⟨pos, e2, v, he2, hek, hv, hmv⟩ := mem_tokenPlaces x h P a ha
    by_contra hne2
    have := honly P pos e2 a.2 v hreachP he2 hv (by rw [hek]; intro hx; exact hne2 (Prod.mk.inj hx).2)
    rw [this] at hmv
    simp at hmv
  unfold ConfigNodeExpander.run
  rw [hacc]
  simp only
  cases hfr : findReplacements R P with
  | none =>
    have hR : R = [] := by
      apply List.eq_nil_iff_forall_not_mem.mpr
      intro entry hent
      apply not_mem_of_findReplacements_none R P hfr
      rw [← hall entry hent]
      exact List.mem_map.mpr ⟨entry, hent, rfl⟩
    rw [hR, conforms_iterate_nil lib hlib]
    exact ⟨h, rfl⟩
  | some L =>
    have hLe : entriesAt R P = L := by simp [entriesAt, hfr]
    rw [hLe] at hL2
    have hR := single_of_keys R P L hnd (mem_of_findReplacements R P L hfr) hall
    rw [hR, conforms_iterate_single lib hlib]
    have hkey : ∀ r ∈ lib.sort L, r.key = k := by
      intro r hr
      have hrL : r ∈ L := (hlib.2 L).1.mem_iff.mp hr
      have : r.place ∈ tokenPlaces x h P := by
        rw [← hL2]
        exact List.mem_map.mpr ⟨r, hrL, rfl⟩
      exact hplaces _ this
    have hjs := sorted_key_indices lib hlib x h P k e L hfind hkeys hL2
    rw [List.filter_eq_self.mpr (fun r hr => by simpa using hkey r hr)] at hjs
    have hgv : getValuesKey h P k = e.value := by
      unfold getValuesKey
      rw [hfind]
    obtain ⟨s1, hs1⟩ := eraseLoop_total P k (lib.sort L) h hkey
      (by
        rw [hjs, List.pairwise_reverse]
        exact List.Pairwise.imp (fun hab => hab) ((List.sorted_lt_range _).filter _))
      (by
        intro r hr
        have hmem : r.index ∈ (lib.sort L).map (fun r => r.index) :=
          List.mem_map.mpr ⟨r, hr, rfl⟩
        rw [hjs, List.mem_reverse, List.mem_filter, List.mem_range] at hmem
        rw [hgv]
        exact hmem.1)
    obtain ⟨s2, hs2⟩ := setLoop_total P (lib.sort L) s1
    exact ⟨s2, by simp only [applyLoop, hs1, hs2]⟩

/-! ## C23: the retry at the parent of the scalar -/

/-- Check over the nodes of a store that only the places marked by `mark` hold a scalar that
the regex matches. -/
theorem only_tokens_of_check (x : ConfigNodeExpander) (h : Store) (fuel : Nat)
    (root : NodePtr) (mark : NodePtr → Str → Nat → Bool)
    (hcheck : (List.range h.length).all (fun n => (deref h n).values.all (fun e2 =>
      (List.range e2.value.length).all (fun j =>
        mark n e2.key j || (nodeRegex x (e2.value.getD j [])).isNone))) = true)
    (n : NodePtr) (pos : Nat) (e2 : ElementType value_list) (j : Nat) (v : Str)
    (_hr : reaches h n fuel root = true)
    (he : (deref h n).values[pos]? = some e2) (hv : e2.value[j]? = some v)
    (hmark : mark n e2.key j = false) : nodeRegex x v = none := by
  have hn : n < h.length := by
    apply lt_length_of_values_ne_nil
    intro hnil
    rw [hnil] at he
    simp at he
  have hj : j < e2.value.length := by
    by_contra hge
    rw [List.getElem?_eq_none (Nat.le_of_not_lt hge)] at hv
    simp at hv
  rw [List.all_eq_true] at hcheck
  have h1 := hcheck n (List.mem_range.mpr hn)
  rw [List.all_eq_true] at h1
  have h2 := h1 e2 (List.mem_iff_getElem?.mpr ⟨pos, he⟩)
  rw [List.all_eq_true] at h2
  have h3 := h2 j (List.mem_range.mpr hj)
  rw [hmark, Bool.false_or, List.getD_eq_getElem?_getD, hv] at h3
  simpa using h3

/-- C23 (refuted as stated): in `pendingStore` the root has no subnode at `a.b` and the
parent `p` of the scalar `%node.a.b%` has one (node 5), yet the token resolves to node 2:
the lookup at the root ends with the base-node fallback, which finds the replacement pending
for the scalar `b` of the subnode `a` of the root, before any retry at the parent. -/
theorem nodeExpander_retry_counterexample :
    nodeRegex (ConfigNodeExpander.construct '.' "node".toList NUL) "%node.a.b%".toList
      = some ([], [], "a.b".toList) ∧
    getNodes pendingStore 0 (some "a.b".toList) '.' = [] ∧
    getNodes pendingStore 3 (some "a.b".toList) '.' = [5] ∧
    (ConfigNodeExpander.construct '.' "node".toList NUL).run insertionLibrary 3 pendingStore 0
      = .ok pendingAfter ∧
    getNodesKey pendingAfter 3 "k".toList = [2] ∧
    getValues pendingAfter 0 (some "p.k.port".toList) '.' = ["1".toList] := by
  refine ⟨by decide, by decide, by decide, by decide, by decide, by decide⟩

/-- C23 (amended): for the default node expander and a token `%node<sep><path>%` without
markers on element `i` under the key `k` of the node `P`, when the root has no subnode at
the path and `P` has one: the visit records the first subnode at the path under `P`, and
raises no error, whenever the lookup at the root, its base-node fallback included, finds
nothing; when that fallback has nothing to start from, every pass that returns has replaced
the scalar by that subnode, and the pass returns if the budget suffices and no other scalar
matches.  For every expander, a token whose scope is not the root and whose lookup there
finds nothing is not retried from the parent: its visit throws `invalid_argument`. -/
theorem nodeExpander_parent_retry (lib : Library) (hlib : lib.Conforms) (sep : Separator)
    (hsep : sep ≠ NUL) (fuel : Nat) (h : Store) (root P : NodePtr) (k path : Str) (i : Nat)
    (e : ElementType value_list) (target : NodePtr) (t : node_list)
    (hfind : find (deref h P).values k = some e)
    (hkeys : ((deref h P).values.map (fun c => c.key)).Nodup)
    (hval : e.value[i]? = some ("%node".toList ++ sep :: path ++ ['%']))
    (hpath : path ≠ []) (hhead : path.head? ≠ some sep)
    (hroot : getNodes h root (some path) sep = [])
    (hparent : getNodes h P (some path) sep = target :: t)
    (hvisit : visitCount h P fuel root = 1) :
    (∀ R, addKeyNode h sep R (some root) P k i path = .ok (false, R) →
      nodeVisitValue (ConfigNodeExpander.construct sep "node".toList NUL) root h R P k i
        ("%node".toList ++ sep :: path ++ ['%'])
        = .ok (emplace R P { key := k, node := target, index := i },
            "%node".toList ++ sep :: path ++ ['%'])) ∧
    (getBaseNode h sep root path = none →
      (∀ h2, (ConfigNodeExpander.construct sep "node".toList NUL).run lib fuel h root
          = .ok h2 →
        ("%node".toList ++ sep :: path ++ ['%']) ∉ getValuesKey h2 P k ∧
        target ∈ getNodesKey h2 P k) ∧
      (withinDepth h fuel root = true →
        (∀ (n : NodePtr) (pos : Nat) (e2 : ElementType value_list) (j : Nat) (v : Str),
          reaches h n fuel root = true → (deref h n).values[pos]? = some e2 →
          e2.value[j]? = some v → (n, e2.key, j) ≠ (P, k, i) →
          nodeRegex (ConfigNodeExpander.construct sep "node".toList NUL) v = none) →
        ∃ h2, (ConfigNodeExpander.construct sep "node".toList NUL).run lib fuel h root
          = .ok h2)) ∧
    (∀ (y : ConfigNodeExpander) (R : replacement_container) (n : NodePtr) (key : Str)
      (j : Nat) (value : Str) (what : Str × Str × Str) (scope : NodePtr),
      nodeRegex y value = some what → tokenScope y root h n what = some scope →
      scope ≠ root →
      addKeyNode h y.separator R (some scope) n key j what.2.2 = .ok (false, R) →
      nodeVisitValue y root h R n key j value
        = .error (Failure.invalid_argument (couldNotFind value key j))) := by
  have hre := nodeRegex_token sep hsep path hpath hhead
  have hs : (ConfigNodeExpander.construct sep "node".toList NUL).separator = sep := by
    simp [ConfigNodeExpander.construct]
  have hscope : tokenScope (ConfigNodeExpander.construct sep "node".toList NUL) root h P
      ([], [], path) = some root := by
    simp [tokenScope]
  refine ⟨?_, ?_, ?_⟩
  · intro R hfirst
    exact nodeVisitValue_retry _ root h R P k i _ ([], [], path) target t hre hscope
      (by rw [hs]; exact hfirst) (by rw [hs]; exact hparent)
  · intro hbase
    have hres : Resolves (ConfigNodeExpander.construct sep "node".toList NUL) root h P
        ([], [], path) target :=
      Or.inr ⟨hscope, by rw [hs]; exact hroot, by rw [hs]; exact hbase,
        t, by rw [hs]; exact hparent⟩
    constructor
    · intro h2 hrun
      obtain ⟨hvals, hnodes⟩ := run_graft lib hlib
        (ConfigNodeExpander.construct sep "node".toList NUL) fuel h root P k i e
        ("%node".toList ++ sep :: path ++ ['%']) target h2 hfind hkeys hval
        (by rw [hre]; rfl)
        (fun R => nodeVisitValue_resolves _ root h R P k i _ _ target hre hres)
        hvisit hrun
      refine ⟨?_, hnodes⟩
      rw [hvals]
      intro hmem
      have h3 := (List.mem_filter.mp hmem).2
      rw [hre] at h3
      simp at h3
    · intro hdepth honly
      have hreachP : reaches h P fuel root = true :=
        reaches_of_visitCount h P fuel root (by rw [hvisit]; exact Nat.one_ne_zero)
      obtain ⟨_, pre, post, hsplit, _, _⟩ := find_split _ k e hfind hkeys
      have hat : (deref h P).values[pre.length]? = some e := by
        rw [hsplit, List.getElem?_append_right (Nat.le_refl _)]
        simp
      have hek : e.key = k := (find_split _ k e hfind hkeys).1
      refine run_key_tokens lib hlib _ fuel h root P k e (fun _ => target) hfind hkeys ?_
        hvisit hdepth ?_
      · intro j v R hv hm
        by_cases hj : j = i
        · subst hj
          rw [hval] at hv
          rw [← Option.some.inj hv]
          exact nodeVisitValue_resolves _ root h R P k j _ _ target hre hres
        · have := honly P pre.length e j v hreachP hat hv
            (by rw [hek]; intro hx; exact hj (Prod.mk.inj (Prod.mk.inj hx).2).2)
          rw [this] at hm
          simp at hm
      · intro n pos e2 j v hr he2 hv hne
        exact honly n pos e2 j v hr he2 hv
          (fun hx => hne (by rw [(Prod.mk.inj hx).1, (Prod.mk.inj (Prod.mk.inj hx).2).1]))
  · intro y R n key j value what scope hm hsc hne hfirst
    exact nodeVisitValue_no_retry y root h R n key j value what scope hm hsc hne hfirst

/-- Witness of C23 (amended): the tree `{svc: {tpl: {port: ["9000"]}, bind: ["%node.tpl%"]}}`
expands through the retry at `svc`; in `{a: {b: {tpl: ..., bind: ["%node..tpl%"]}}}` the
scope of the token is `a`, not the root, and the pass throws although `b` holds `tpl`. -/
theorem nodeExpander_parent_retry_witness :
    getNodes svcStore 0 (some "tpl".toList) '.' = [] ∧
    getNodes svcStore 1 (some "tpl".toList) '.' = [2] ∧
    getBaseNode svcStore '.' 0 "tpl".toList = none ∧
    (ConfigNodeExpander.construct '.' "node".toList NUL).run insertionLibrary 2 svcStore 0
      = .ok svcAfter ∧
    (("%node".toList ++ '.' :: "tpl".toList ++ ['%']) ∉ getValuesKey svcAfter 1 "bind".toList ∧
      2 ∈ getNodesKey svcAfter 1 "bind".toList) ∧
    (∃ h2, (ConfigNodeExpander.construct '.' "node".toList NUL).run insertionLibrary 2
      svcStore 0 = .ok h2) ∧
    getValues svcAfter 0 (some "svc.bind.port".toList) '.' = ["9000".toList] ∧
    (ConfigNodeExpander.construct '.' "node".toList NUL).run insertionLibrary 3 upStore 0
      = .error (Failure.invalid_argument
          "Could not find \"%node..tpl%\" to inject at \"bind[0]\"".toList) :=
  (fun w => ⟨by decide, by decide, by decide, by decide,
      (w.2.1 (by decide)).1 svcAfter (by decide),
      (w.2.1 (by decide)).2 (by decide)
        (fun n pos e2 j v hr he hv hne =>
          only_tokens_of_check (ConfigNodeExpander.construct '.' "node".toList NUL) svcStore 2 0
            (fun n key j => decide ((n, key, j) = (1, "bind".toList, 0))) (by decide)
            n pos e2 j v hr he hv (decide_eq_false hne)),
      by decide, by decide⟩)
    (nodeExpander_parent_retry insertionLibrary insertionLibrary_conforms '.' (by decide) 2
      svcStore 0 1 "bind".toList "tpl".toList 0
      { key := "bind".toList, value := ["%node.tpl%".toList] } 2 []
      (by decide) (by decide) (by decide) (by decide) (by decide) (by decide) (by decide)
      (by decide))

/-! ## C24: the order of several grafts under one key -/

/-- C24: let the traversal come once to the node `P`, whose scalar keys are distinct and
which holds no subnode entry `k`, and let every element under the scalar key `k` of `P` that
the regex matches resolve to the subnode `tgt j`, `j` being its index.  After every pass
that returns, the lookup of the subnodes under `k` at `P` lists these subnodes by descending
index of the scalars they replace, and the lookup of the scalars under `k` gives the
elements that are no tokens in their former order.  The pass returns when the budget
suffices and no scalar under another key or of another node reached from the root matches. -/
theorem nodeExpander_graft_order (lib : Library) (hlib : lib.Conforms)
    (x : ConfigNodeExpander) (fuel : Nat) (h : Store) (root P : NodePtr) (k : Str)
    (e : ElementType value_list) (tgt : Nat → NodePtr)
    (hfind : find (deref h P).values k = some e)
    (hkeys : ((deref h P).values.map (fun c => c.key)).Nodup)
    (hnone : find (deref h P).nodes k = none)
    (hres : ∀ (j : Nat) (v : Str) (what : Str × Str × Str), e.value[j]? = some v →
      nodeRegex x v = some what → Resolves x root h P what (tgt j))
    (hvisit : visitCount h P fuel root = 1) :
    (∀ h2, x.run lib fuel h root = .ok h2 →
      getNodesKey h2 P k
        = (((List.range e.value.length).filter
            (fun j => (nodeRegex x (e.value.getD j [])).isSome)).reverse).map tgt ∧
      getValuesKey h2 P k = e.value.filter (fun v => (nodeRegex x v).isNone)) ∧
    (withinDepth h fuel root = true →
      (∀ (n : NodePtr) (pos : Nat) (e2 : ElementType value_list) (j : Nat) (v : Str),
        reaches h n fuel root = true → (deref h n).values[pos]? = some e2 →
        e2.value[j]? = some v → (n, e2.key) ≠ (P, k) → nodeRegex x v = none) →
      ∃ h2, x.run lib fuel h root = .ok h2) := by
  have htgt : ∀ (j : Nat) (v : Str) (R : replacement_container), e.value[j]? = some v →
      (nodeRegex x v).isSome = true →
      nodeVisitValue x root h R P k j v
        = .ok (emplace R P { key := k, node := tgt j, index := j }, v) := by
    intro j v R hv hm
    cases hw : nodeRegex x v with
    | none => rw [hw] at hm; simp at hm
    | some what =>
      exact nodeVisitValue_resolves x root h R P k j v what (tgt j) hw (hres j v what hv hw)
  refine ⟨?_, fun hdepth honly => run_key_tokens lib hlib x fuel h root P k e tgt hfind hkeys
    htgt hvisit hdepth honly⟩
  intro h2 hrun
  obtain ⟨hv, hn⟩ := run_grafts lib hlib x fuel h root P k e tgt h2 hfind hkeys htgt hvisit
    hrun
  refine ⟨?_, hv⟩
  rw [hn]
  unfold getNodesKey
  rw [hnone]
  rfl

theorem multiStore_resolves (j : Nat) (v : Str) (what : Str × Str × Str)
    (hv : ["%node.t1%".toList, "keep".toList, "%node.t2%".toList, "also".toList][j]? = some v)
    (hm : nodeRegex (ConfigNodeExpander.construct '.' "node".toList NUL) v = some what) :
    Resolves (ConfigNodeExpander.construct '.' "node".toList NUL) 0 multiStore 3 what
      (if j = 0 then 1 else 2) := by
  have hj : j < 4 := by
    by_contra hge
    rw [List.getElem?_eq_none (by simp; omega)] at hv
    simp at hv
  interval_cases j
  · simp only [List.getElem?_cons_zero, Option.some.injEq] at hv
    subst hv
    have h1 : nodeRegex (ConfigNodeExpander.construct '.' "node".toList NUL)
        "%node.t1%".toList = some ([], [], "t1".toList) := by decide
    rw [h1] at hm
    rw [← Option.some.inj hm]
    exact Or.inl ⟨0, [], by decide, by decide⟩
  · simp only [List.getElem?_cons_succ, List.getElem?_cons_zero, Option.some.injEq] at hv
    subst hv
    have h1 : nodeRegex (ConfigNodeExpander.construct '.' "node".toList NUL)
        "keep".toList = none := by decide
    rw [h1] at hm
    simp at hm
  · simp only [List.getElem?_cons_succ, List.getElem?_cons_zero, Option.some.injEq] at hv
    subst hv
    have h1 : nodeRegex (ConfigNodeExpander.construct '.' "node".toList NUL)
        "%node.t2%".toList = some ([], [], "t2".toList) := by decide
    rw [h1] at hm
    rw [← Option.some.inj hm]
    exact Or.inl ⟨0, [], by decide, by decide⟩
  · simp only [List.getElem?_cons_succ, List.getElem?_cons_zero, Option.some.injEq] at hv
    subst hv
    have h1 : nodeRegex (ConfigNodeExpander.construct '.' "node".toList NUL)
        "also".toList = none := by decide
    rw [h1] at hm
    simp at hm

/-- Witness of C24: in `{t1: .., t2: .., p: {k: ["%node.t1%", "keep", "%node.t2%", "also"]}}`
the subnodes under `k` of `p` are `[t2, t1]` afterwards and the scalars `["keep", "also"]`. -/
theorem nodeExpander_graft_order_witness :
    (ConfigNodeExpander.construct '.' "node".toList NUL).run insertionLibrary 1 multiStore 0
      = .ok multiAfter ∧
    (getNodesKey multiAfter 3 "k".toList
        = (((List.range 4).filter (fun j =>
            (nodeRegex (ConfigNodeExpander.construct '.' "node".toList NUL)
              (["%node.t1%".toList, "keep".toList, "%node.t2%".toList, "also".toList].getD j
                [])).isSome)).reverse).map (fun j => if j = 0 then 1 else 2) ∧
      getValuesKey multiAfter 3 "k".toList
        = ["%node.t1%".toList, "keep".toList, "%node.t2%".toList, "also".toList].filter
            (fun v => (nodeRegex (ConfigNodeExpander.construct '.' "node".toList NUL)
              v).isNone)) ∧
    (∃ h2, (ConfigNodeExpander.construct '.' "node".toList NUL).run insertionLibrary 1
      multiStore 0 = .ok h2) ∧
    getNodesKey multiAfter 3 "k".toList = [2, 1] ∧
    getValuesKey multiAfter 3 "k".toList = ["keep".toList, "also".toList] :=
  (fun w => ⟨by decide, w.1 multiAfter (by decide),
      w.2 (by decide)
        (fun n pos e2 j v hr he hv hne =>
          only_tokens_of_check (ConfigNodeExpander.construct '.' "node".toList NUL) multiStore
            1 0 (fun n key _ => decide ((n, key) = (3, "k".toList))) (by decide)
            n pos e2 j v hr he hv (decide_eq_false hne)),
      by decide, by decide⟩)
    (nodeExpander_graft_order insertionLibrary insertionLibrary_conforms
      (ConfigNodeExpander.construct '.' "node".toList NUL) 1 multiStore 0 3 "k".toList
      { key := "k".toList,
        value := ["%node.t1%".toList, "keep".toList, "%node.t2%".toList, "also".toList] }
      (fun j => if j = 0 then 1 else 2)
      (by decide) (by decide) (by decide) multiStore_resolves (by decide))

/-! ## Lemmas on `overwrite`: the part of a store below a node -/

theorem mem_footprint_self (h : Store) (f : Nat) (n : NodePtr) : n ∈ footprint h f n := by
  cases f <;> simp [footprint]

theorem footprint_child (h : Store) (f : Nat) (n c x : NodePtr) (hc : c ∈ children h n)
    (hx : x ∈ footprint h f c) : x ∈ footprint h (f + 1) n := by
  simp only [footprint, List.mem_cons, List.mem_flatMap]
  exact Or.inr ⟨c, hc, hx⟩

/-- Consequences of a footprint without repetition for the subnodes of its node. -/
theorem footprint_nodup (h : Store) (f : Nat) (n : NodePtr)
    (hn : (footprint h (f + 1) n).Nodup) :
    (children h n).Nodup ∧
    (∀ c ∈ children h n, (footprint h f c).Nodup ∧ n ∉ footprint h f c) ∧
    (∀ c ∈ children h n, ∀ d ∈ children h n, c ≠ d →
      List.Disjoint (footprint h f c) (footprint h f d)) := by
  simp only [footprint, List.nodup_cons, List.mem_flatMap, not_exists, not_and] at hn
  obtain ⟨hnot, hflat⟩ := hn
  obtain ⟨heach, hpair⟩ := List.nodup_flatMap.mp hflat
  have hsym : Symmetric (Function.onFun List.Disjoint (footprint h f)) :=
    fun _ _ hab => List.Disjoint.symm hab
  have hdis : ∀ c ∈ children h n, ∀ d ∈ children h n, c ≠ d →
      List.Disjoint (footprint h f c) (footprint h f d) :=
    fun c hc d hd hne => hpair.forall hsym hc hd hne
  refine ⟨?_, fun c hc => ⟨heach c hc, hnot c hc⟩, hdis⟩
  -- the subnodes are distinct, as each lies in its own footprint
  have key : ∀ (l : List NodePtr), (l.flatMap (footprint h f)).Nodup → l.Nodup := by
    intro l
    induction l with
    | nil => intro _; exact List.nodup_nil
    | cons c cs ih =>
      intro hl
      rw [List.flatMap_cons, List.nodup_append] at hl
      rw [List.nodup_cons]
      refine ⟨fun hmem => ?_, ih hl.2.1⟩
      exact hl.2.2 (mem_footprint_self h f c)
        (List.mem_flatMap.mpr ⟨c, hmem, mem_footprint_self h f c⟩)
  exact key _ hflat

theorem getNodesKey_nodup (h : Store) (n : NodePtr) (k : Str)
    (hn : (children h n).Nodup) : (getNodesKey h n k).Nodup := by
  unfold getNodesKey
  cases hf : find (deref h n).nodes k with
  | none => exact List.nodup_nil
  | some child =>
    unfold find at hf
    have hm := List.mem_of_find?_eq_some hf
    unfold children at hn
    exact (List.nodup_flatMap.mp hn).1 child hm

/-- Under distinct keys a node holds distinct subnodes, when no subnode is held twice. -/
theorem getNodesKey_disjoint (h : Store) (n : NodePtr) (k1 k2 : Str) (hk : k1 ≠ k2)
    (hn : (children h n).Nodup) :
    List.Disjoint (getNodesKey h n k1) (getNodesKey h n k2) := by
  unfold getNodesKey
  cases hf1 : find (deref h n).nodes k1 with
  | none => simp [noNodes]
  | some e1 =>
    cases hf2 : find (deref h n).nodes k2 with
    | none => simp [noNodes]
    | some e2 =>
      unfold find at hf1 hf2
      have hm1 := List.mem_of_find?_eq_some hf1
      have hm2 := List.mem_of_find?_eq_some hf2
      have hk1 : e1.key = k1 := by simpa using List.find?_some hf1
      have hk2 : e2.key = k2 := by simpa using List.find?_some hf2
      have hne : e1 ≠ e2 := by
        intro hx
        apply hk
        rw [← hk1, ← hk2, hx]
      unfold children at hn
      have hsym : Symmetric (Function.onFun List.Disjoint
          (fun child : ElementType node_list => child.value)) :=
        fun _ _ hab => List.Disjoint.symm hab
      exact (List.nodup_flatMap.mp hn).2.forall hsym hm1 hm2 hne

/-! ### What depends on the containers below a node only -/

theorem children_congr (s h : Store) (n : NodePtr)
    (hn : (deref s n).nodes = (deref h n).nodes) : children s n = children h n := by
  unfold children
  rw [hn]

theorem footprint_congr (s h : Store) : ∀ (f : Nat) (r : NodePtr),
    (∀ n ∈ footprint h f r, (deref s n).nodes = (deref h n).nodes) →
    footprint s f r = footprint h f r
  | 0, _, _ => rfl
  | f + 1, r, hr => by
    have hc := children_congr s h r (hr r (mem_footprint_self h (f + 1) r))
    simp only [footprint, hc]
    congr 1
    apply List.flatMap_congr
    intro c hcm
    exact footprint_congr s h f c (fun n hn => hr n (footprint_child h f r c n hcm hn))

theorem withinDepth_congr (s h : Store) : ∀ (f : Nat) (r : NodePtr),
    (∀ n ∈ footprint h f r, (deref s n).nodes = (deref h n).nodes) →
    withinDepth s f r = withinDepth h f r
  | 0, r, hr => by
    simp only [withinDepth, children_congr s h r (hr r (mem_footprint_self h 0 r))]
  | f + 1, r, hr => by
    have hc := children_congr s h r (hr r (mem_footprint_self h (f + 1) r))
    simp only [withinDepth, hc]
    rw [Bool.eq_iff_iff, List.all_eq_true, List.all_eq_true]
    constructor
    · intro hx c hcm
      rw [← withinDepth_congr s h f c (fun n hn => hr n (footprint_child h f r c n hcm hn))]
      exact hx c hcm
    · intro hx c hcm
      rw [withinDepth_congr s h f c (fun n hn => hr n (footprint_child h f r c n hcm hn))]
      exact hx c hcm

theorem withinDepth_mono (h : Store) : ∀ (f : Nat) (n : NodePtr),
    withinDepth h f n = true → withinDepth h (f + 1) n = true
  | 0, n, hd => by
    simp only [withinDepth, List.isEmpty_iff] at hd
    simp [withinDepth, hd]
  | f + 1, n, hd => by
    rw [withinDepth, List.all_eq_true] at hd
    rw [withinDepth, List.all_eq_true]
    exact fun c hc => withinDepth_mono h f c (hd c hc)

theorem withinDepth_child (h : Store) (f : Nat) (n c : NodePtr)
    (hd : withinDepth h (f + 1) n = true) (hc : c ∈ children h n) :
    withinDepth h f c = true := by
  rw [withinDepth, List.all_eq_true] at hd
  exact hd c hc

theorem children_nil_of_withinDepth (h : Store) (n : NodePtr)
    (hd : withinDepth h 0 n = true) : children h n = [] := by
  simpa [withinDepth, List.isEmpty_iff] using hd

/-! ### `updateParents(Recurse::yes)` -/

theorem footprint_eq_cons (h : Store) (f : Nat) (n : NodePtr) :
    footprint h f n = n :: (footprint h f n).tail := by
  cases f <;> simp [footprint]

theorem not_mem_footprint_tail (h : Store) (f : Nat) (n : NodePtr)
    (hn : (footprint h f n).Nodup) : n ∉ (footprint h f n).tail := by
  rw [footprint_eq_cons, List.nodup_cons] at hn
  exact hn.1

theorem footprint_nodes_congr (s h : Store) (f : Nat) (r : NodePtr)
    (hn : ∀ n, (deref s n).nodes = (deref h n).nodes) : footprint s f r = footprint h f r :=
  footprint_congr s h f r (fun n _ => hn n)

theorem withinDepth_nodes_congr (s h : Store) (f : Nat) (r : NodePtr)
    (hn : ∀ n, (deref s n).nodes = (deref h n).nodes) : withinDepth s f r = withinDepth h f r :=
  withinDepth_congr s h f r (fun n _ => hn n)

theorem deref_setParent_of_ne (h : Store) (node : NodePtr) (p : Option NodePtr) (n : NodePtr)
    (hn : n ≠ node) : deref (setParent h node p) n = deref h n := by
  rw [deref_setParent, if_neg (fun hx => hn hx.1)]

theorem reattached_congr : ∀ (d : Nat) (h h2 h3 : Store) (node : NodePtr),
    (∀ n ∈ footprint h d node, deref h3 n = deref h2 n) →
    Reattached d h h2 node → Reattached d h h3 node
  | 0, _, _, _, _, _, _ => by simp only [Reattached]
  | d + 1, h, h2, h3, node, hag, hr => by
    simp only [Reattached] at hr ⊢
    intro c hc
    obtain ⟨h1, h2x, h3x, h4x⟩ := hr c hc
    rw [hag c (footprint_child h d node c c hc (mem_footprint_self h d c))]
    exact ⟨h1, h2x, h3x, reattached_congr d h h2 h3 c
      (fun n hn => hag n (footprint_child h d node c n hc hn)) h4x⟩

theorem reattached_congr_left : ∀ (d : Nat) (s h h2 : Store) (node : NodePtr),
    (∀ n ∈ footprint h d node, (deref s n).nodes = (deref h n).nodes ∧
      (deref s n).values = (deref h n).values) →
    Reattached d s h2 node → Reattached d h h2 node
  | 0, _, _, _, _, _, _ => by simp only [Reattached]
  | d + 1, s, h, h2, node, hag, hr => by
    simp only [Reattached] at hr ⊢
    have hch : children s node = children h node :=
      children_congr s h node (hag node (mem_footprint_self h (d + 1) node)).1
    rw [hch] at hr
    intro c hc
    obtain ⟨h1, h2x, h3x, h4x⟩ := hr c hc
    have hcm := hag c (footprint_child h d node c c hc (mem_footprint_self h d c))
    exact ⟨h1, h2x.trans hcm.1, h3x.trans hcm.2, reattached_congr_left d s h h2 c
      (fun n hn => hag n (footprint_child h d node c n hc hn)) h4x⟩

/-- Call `updateParents(Recurse::yes)` on the root of a tree of valid handles that is not
deeper than the budget: it returns, the containers of every node are as before, only nodes
strictly below the root are changed, and every node below the root has the node that holds
it as parent. -/
theorem updateParents_yes : ∀ (f : Nat) (s : Store) (node : NodePtr),
    withinDepth s f node = true → (footprint s f node).Nodup →
    (∀ n ∈ footprint s f node, n < s.length) →
    ∃ s2, updateParents f Recurse.yes s node = some s2 ∧ s2.length = s.length ∧
      (∀ n, (deref s2 n).nodes = (deref s n).nodes) ∧
      (∀ n, (deref s2 n).values = (deref s n).values) ∧
      (∀ n, n ∉ (footprint s f node).tail → deref s2 n = deref s n) ∧
      Reattached f s s2 node
  | 0, s, node, hd, _, _ => by
    refine ⟨s, ?_, rfl, fun _ => rfl, fun _ => rfl, fun _ _ => rfl, ?_⟩
    · simp only [updateParents]
      rw [if_pos]
      simpa [withinDepth] using hd
    · simp only [Reattached]
  | f + 1, s, node, hd, hnd, hvalid => by
    rw [withinDepth, List.all_eq_true] at hd
    have key : ∀ (l : List NodePtr) (s1 : Store), (∀ c ∈ l, withinDepth s f c = true) →
        (l.flatMap (footprint s f)).Nodup →
        (∀ n ∈ l.flatMap (footprint s f), n < s.length) →
        s1.length = s.length →
        (∀ n, (deref s1 n).nodes = (deref s n).nodes) →
        (∀ n, (deref s1 n).values = (deref s n).values) →
        ∃ s2, l.foldl
          (fun r c =>
            match r with
            | none => none
            | some h => updateParents f Recurse.yes (setParent h c (some node)) c)
          (some s1) = some s2 ∧ s2.length = s.length ∧
          (∀ n, (deref s2 n).nodes = (deref s1 n).nodes) ∧
          (∀ n, (deref s2 n).values = (deref s1 n).values) ∧
          (∀ n, n ∉ l.flatMap (footprint s f) → deref s2 n = deref s1 n) ∧
          (∀ c ∈ l, (deref s2 c).parent = some node ∧ Reattached f s s2 c) := by
      intro l
      induction l with
      | nil =>
        intro s1 _ _ _ hl _ _
        exact ⟨s1, rfl, hl, fun _ => rfl, fun _ => rfl, fun _ _ => rfl,
          fun c hc => absurd hc (List.not_mem_nil _)⟩
      | cons c cs ih =>
        intro s1 hcs hlnd hlv hl hnodes hvalues
        rw [List.flatMap_cons, List.nodup_append] at hlnd
        obtain ⟨hcnd, hcsnd, hdis⟩ := hlnd
        have hn1 : ∀ n, (deref (setParent s1 c (some node)) n).nodes = (deref s n).nodes :=
          fun n => (deref_setParent_nodes s1 c n (some node)).trans (hnodes n)
        have hv1 : ∀ n, (deref (setParent s1 c (some node)) n).values = (deref s n).values :=
          fun n => (deref_setParent_values s1 c n (some node)).trans (hvalues n)
        have hfp : footprint (setParent s1 c (some node)) f c = footprint s f c :=
          footprint_nodes_congr _ s f c hn1
        have hd1 : withinDepth (setParent s1 c (some node)) f c = true := by
          rw [withinDepth_nodes_congr _ s f c hn1]
          exact hcs c (List.mem_cons_self _ _)
        have hcl : c < s1.length := by
          rw [hl]
          exact hlv c (List.mem_flatMap.mpr
            ⟨c, List.mem_cons_self _ _, mem_footprint_self s f c⟩)
        obtain ⟨s2, hs2, hl2, hnod2, hval2, hfr2, hre2⟩ :=
          updateParents_yes f (setParent s1 c (some node)) c hd1 (by rw [hfp]; exact hcnd)
            (by
              intro n hn
              rw [hfp] at hn
              rw [length_setParent, hl]
              exact hlv n (by
                rw [List.flatMap_cons]
                exact List.mem_append_left _ hn))
        rw [hfp] at hfr2
        have hn2 : ∀ n, (deref s2 n).nodes = (deref s n).nodes :=
          fun n => (hnod2 n).trans (hn1 n)
        have hv2 : ∀ n, (deref s2 n).values = (deref s n).values :=
          fun n => (hval2 n).trans (hv1 n)
        obtain ⟨s3, hs3, hl3, hnod3, hval3, hfr3, hre3⟩ :=
          ih s2 (fun d hd => hcs d (List.mem_cons_of_mem _ hd)) hcsnd
            (fun n hn => hlv n (by
              rw [List.flatMap_cons]
              exact List.mem_append_right _ hn))
            (by rw [hl2, length_setParent, hl]) hn2 hv2
        have hkeep : ∀ n ∈ footprint s f c, deref s3 n = deref s2 n :=
          fun n hn => hfr3 n (fun hx => hdis hn hx)
        refine ⟨s3, ?_, hl3, ?_, ?_, ?_, ?_⟩
        · rw [List.foldl_cons]
          simp only []
          rw [hs2]
          exact hs3
        · intro n
          rw [hnod3 n, hnod2 n, deref_setParent_nodes]
        · intro n
          rw [hval3 n, hval2 n, deref_setParent_values]
        · intro n hn
          rw [List.flatMap_cons, List.mem_append, not_or] at hn
          rw [hfr3 n hn.2]
          rw [hfr2 n (fun hx => hn.1 (List.mem_of_mem_tail hx))]
          apply deref_setParent_of_ne
          intro hx
          exact hn.1 (hx ▸ mem_footprint_self s f c)
        · intro d hd
          rcases List.mem_cons.mp hd with hx | hx
          · subst hx
            refine ⟨?_, ?_⟩
            · rw [hkeep d (mem_footprint_self s f d),
                hfr2 d (not_mem_footprint_tail s f d hcnd)]
              exact deref_setParent_parent s1 d (some node) hcl
            · apply reattached_congr f s s2 s3 d hkeep
              exact reattached_congr_left f (setParent s1 d (some node)) s s2 d
                (fun n _ => ⟨hn1 n, hv1 n⟩) hre2
          · exact hre3 d hx
    have hnd2 := hnd
    simp only [footprint, List.nodup_cons] at hnd2
    obtain ⟨s2, hs2, hl2, hnod2, hval2, hfr2, hre2⟩ :=
      key (children s node) s hd hnd2.2
        (fun n hn => hvalid n (by
          simp only [footprint]
          exact List.mem_cons_of_mem _ hn))
        rfl (fun _ => rfl) (fun _ => rfl)
    refine ⟨s2, ?_, hl2, hnod2, hval2, ?_, ?_⟩
    · simp only [updateParents]
      exact hs2
    · intro n hn
      apply hfr2 n
      simpa [footprint] using hn
    · simp only [Reattached]
      intro c hc
      exact ⟨(hre2 c hc).1, hnod2 c, hval2 c, (hre2 c hc).2⟩

/-! ### The overlay depends on the two parts of the store only -/

theorem getValuesKey_congr (s h : Store) (n : NodePtr) (hn : deref s n = deref h n) (k : Str) :
    getValuesKey s n k = getValuesKey h n k := by
  unfold getValuesKey
  rw [hn]

theorem getNodesKey_congr (s h : Store) (n : NodePtr) (hn : deref s n = deref h n) (k : Str) :
    getNodesKey s n k = getNodesKey h n k := by
  unfold getNodesKey
  rw [hn]

theorem footprint_getNodesKey (h : Store) (d : Nat) (a : NodePtr) (k : Str) (c n : NodePtr)
    (hc : c ∈ getNodesKey h a k) (hn : n ∈ footprint h d c) : n ∈ footprint h (d + 1) a :=
  footprint_child h d a c n (getNodesKey_subset_children h a k c hc) hn

/-- The overlay of `b` on `a` holds of any later store that agrees with the store after the
call on the parts below `a` and `b`. -/
theorem Overlaid_congr : ∀ (d : Nat) (h h2 h3 : Store) (a b : NodePtr),
    (∀ n ∈ footprint h d a ++ footprint h d b, deref h3 n = deref h2 n) →
    Overlaid d h h2 a b → Overlaid d h h3 a b
  | 0, _, _, _, _, _, _, _ => by simp only [Overlaid]
  | d + 1, h, h2, h3, a, b, hag, ho => by
    have ha : deref h3 a = deref h2 a :=
      hag a (List.mem_append_left _ (mem_footprint_self h (d + 1) a))
    have hb : deref h3 b = deref h2 b :=
      hag b (List.mem_append_right _ (mem_footprint_self h (d + 1) b))
    have hva := getValuesKey_congr h3 h2 a ha
    have hna := getNodesKey_congr h3 h2 a ha
    simp only [Overlaid, hva, hna, ha, hb] at ho ⊢
    obtain ⟨hp, hother, h1, h2x, h4x, h5x, hun, h3x⟩ := ho
    refine ⟨hp, hother, h1, h2x, h4x, h5x, fun own hown hfree n hn => ?_, fun k hk => ?_⟩
    · rw [hag n (List.mem_append_left _ (footprint_child h d a own n hown hn))]
      exact hun own hown hfree n hn
    obtain ⟨e1, e2, e3⟩ := h3x k hk
    refine ⟨e1, fun i own node hown hnode => ?_, fun node hnode => ?_⟩
    · apply Overlaid_congr d h h2 h3 own node _ (e2 i own node hown hnode)
      intro n hn
      apply hag n
      rcases List.mem_append.mp hn with hx | hx
      · exact List.mem_append_left _
          (footprint_getNodesKey h d a k own n (List.getElem?_mem hown) hx)
      · exact List.mem_append_right _
          (footprint_getNodesKey h d b k node n (List.getElem?_mem hnode) hx)
    · have hsub : ∀ n ∈ footprint h d node, deref h3 n = deref h2 n := fun n hn =>
        hag n (List.mem_append_right _
          (footprint_getNodesKey h d b k node n (List.mem_of_mem_drop hnode) hn))
      rw [hsub node (mem_footprint_self h d node)]
      obtain ⟨x1, x2, x3, x4⟩ := e3 node hnode
      exact ⟨x1, x2, x3, reattached_congr d h h2 h3 node hsub x4⟩

/-- The overlay of `b` on `a` holds from any earlier store that agrees with the store before
the call on the parts below `a` and `b`. -/
theorem Overlaid_congr_left : ∀ (d : Nat) (s h h2 : Store) (a b : NodePtr),
    (∀ n ∈ footprint h d a ++ footprint h d b, deref s n = deref h n) →
    Overlaid d s h2 a b → Overlaid d h h2 a b
  | 0, _, _, _, _, _, _, _ => by simp only [Overlaid]
  | d + 1, s, h, h2, a, b, hag, ho => by
    have ha : deref s a = deref h a :=
      hag a (List.mem_append_left _ (mem_footprint_self h (d + 1) a))
    have hb : deref s b = deref h b :=
      hag b (List.mem_append_right _ (mem_footprint_self h (d + 1) b))
    have hva := getValuesKey_congr s h a ha
    have hna := getNodesKey_congr s h a ha
    have hvb := getValuesKey_congr s h b hb
    have hnb := getNodesKey_congr s h b hb
    have hca : children s a = children h a := children_congr s h a (by rw [ha])
    simp only [Overlaid, hva, hna, hvb, hnb, ha, hb, hca] at ho ⊢
    obtain ⟨hp, hother, h1, h2x, h4x, h5x, hun, h3x⟩ := ho
    refine ⟨hp, hother, h1, h2x, h4x, h5x, fun own hown hfree n hn => ?_, fun k hk => ?_⟩
    · have hfo : footprint s d own = footprint h d own :=
        footprint_congr s h d own (fun m hm => by
          rw [hag m (List.mem_append_left _ (footprint_child h d a own m hown hm))])
      rw [← hag n (List.mem_append_left _ (footprint_child h d a own n hown hn))]
      exact hun own hown hfree n (hfo ▸ hn)
    obtain ⟨e1, e2, e3⟩ := h3x k hk
    refine ⟨e1, fun i own node hown hnode => ?_, fun node hnode => ?_⟩
    · apply Overlaid_congr_left d s h h2 own node _ (e2 i own node hown hnode)
      intro n hn
      apply hag n
      rcases List.mem_append.mp hn with hx | hx
      · exact List.mem_append_left _
          (footprint_getNodesKey h d a k own n (List.getElem?_mem hown) hx)
      · exact List.mem_append_right _
          (footprint_getNodesKey h d b k node n (List.getElem?_mem hnode) hx)
    · have hsub : ∀ n ∈ footprint h d node, deref s n = deref h n := fun n hn =>
        hag n (List.mem_append_right _
          (footprint_getNodesKey h d b k node n (List.mem_of_mem_drop hnode) hn))
      rw [← hsub node (mem_footprint_self h d node)]
      obtain ⟨x1, x2, x3, x4⟩ := e3 node hnode
      exact ⟨x1, x2, x3, reattached_congr_left d s h h2 node
        (fun n hn => by rw [hsub n hn]; exact ⟨rfl, rfl⟩) x4⟩

/-! ### The steps of `overwrite` -/

theorem overwriteSteps_eq (s : Store) (self : NodePtr) (theirs : children_container node_list) :
    overwriteSteps (deref s self).nodes theirs
      = theirs.flatMap (fun child => entrySteps (getNodesKey s self child.key) child) := rfl

theorem entrySteps_nil (child : ElementType node_list) :
    entrySteps [] child = child.value.map (fun node => OverwriteStep.attach child.key node) := by
  simp [entrySteps]

theorem entrySteps_cons_nil (a : NodePtr) (own : node_list) (k : Str) :
    entrySteps (a :: own) { key := k, value := [] } = [] := by
  simp [entrySteps]

theorem entrySteps_cons_cons (a b : NodePtr) (own seq : node_list) (k : Str) :
    entrySteps (a :: own) { key := k, value := b :: seq }
      = OverwriteStep.merge a b :: entrySteps own { key := k, value := seq } := by
  simp [entrySteps]

theorem mem_entrySteps_merge (a b : NodePtr) : ∀ (own seq : node_list) (k : Str),
    OverwriteStep.merge a b ∈ entrySteps own { key := k, value := seq }
      ↔ ∃ i : Nat, own[i]? = some a ∧ seq[i]? = some b
  | [], seq, k => by
    rw [entrySteps_nil]
    simp
  | _ :: _, [], k => by
    rw [entrySteps_cons_nil]
    simp
  | x :: own, y :: seq, k => by
    rw [entrySteps_cons_cons, List.mem_cons, mem_entrySteps_merge a b own seq k]
    constructor
    · rintro (hx | ⟨i, hi⟩)
      · injection hx with h1 h2
        exact ⟨0, by simp [h1], by simp [h2]⟩
      · exact ⟨i + 1, by simpa using hi.1, by simpa using hi.2⟩
    · rintro ⟨i, h1, h2⟩
      cases i with
      | zero =>
        left
        simp only [List.getElem?_cons_zero, Option.some.injEq] at h1 h2
        rw [h1, h2]
      | succ i =>
        right
        exact ⟨i, by simpa using h1, by simpa using h2⟩

theorem mem_entrySteps_attach (key : Str) (n : NodePtr) : ∀ (own seq : node_list) (k : Str),
    OverwriteStep.attach key n ∈ entrySteps own { key := k, value := seq }
      ↔ key = k ∧ n ∈ seq.drop own.length
  | [], seq, k => by
    rw [entrySteps_nil]
    simp only [List.mem_map, OverwriteStep.attach.injEq, List.length_nil, List.drop_zero]
    constructor
    · rintro ⟨x, hx, h1, h2⟩
      exact ⟨h1.symm, h2 ▸ hx⟩
    · rintro ⟨h1, h2⟩
      exact ⟨n, h2, h1.symm, rfl⟩
  | _ :: _, [], k => by
    rw [entrySteps_cons_nil]
    simp
  | x :: own, y :: seq, k => by
    rw [entrySteps_cons_cons, List.mem_cons, mem_entrySteps_attach key n own seq k]
    simp

/-- Every element that a step for an entry starts from is an element of `self` or of `other`
under the key of the entry. -/
theorem roots_entrySteps (own : node_list) (child : ElementType node_list)
    (step : OverwriteStep) (hs : step ∈ entrySteps own child) :
    ∀ n ∈ step.roots, n ∈ own ∨ n ∈ child.value := by
  obtain ⟨k, seq⟩ := child
  cases step with
  | merge a b =>
    obtain ⟨i, h1, h2⟩ := (mem_entrySteps_merge a b own seq k).mp hs
    intro n hn
    simp only [OverwriteStep.roots, List.mem_cons, List.mem_singleton, List.not_mem_nil,
      or_false] at hn
    rcases hn with hn | hn
    · exact Or.inl (hn ▸ List.getElem?_mem h1)
    · exact Or.inr (hn ▸ List.getElem?_mem h2)
  | attach key b =>
    obtain ⟨_, h2⟩ := (mem_entrySteps_attach key b own seq k).mp hs
    intro n hn
    simp only [OverwriteStep.roots, List.mem_singleton] at hn
    exact Or.inr (hn ▸ List.mem_of_mem_drop h2)

theorem roots_entrySteps_flatMap (own : node_list) (child : ElementType node_list)
    (n : NodePtr) (hn : n ∈ (entrySteps own child).flatMap OverwriteStep.roots) :
    n ∈ own ∨ n ∈ child.value := by
  obtain ⟨step, hs, hr⟩ := List.mem_flatMap.mp hn
  exact roots_entrySteps own child step hs n hr

/-- The steps for one entry start from distinct elements. -/
theorem entrySteps_roots_nodup : ∀ (own seq : node_list) (k : Str),
    own.Nodup → seq.Nodup → List.Disjoint own seq →
    ((entrySteps own { key := k, value := seq }).flatMap OverwriteStep.roots).Nodup
  | [], seq, k, _, h2, _ => by
    rw [entrySteps_nil, List.flatMap_map]
    simp only [OverwriteStep.roots]
    rw [List.flatMap_singleton']
    exact h2
  | _ :: _, [], k, _, _, _ => by
    rw [entrySteps_cons_nil]
    exact List.nodup_nil
  | a :: own, b :: seq, k, h1, h2, h3 => by
    rw [entrySteps_cons_cons, List.flatMap_cons]
    simp only [OverwriteStep.roots, List.cons_append, List.nil_append]
    rw [List.nodup_cons] at h1 h2
    have hd : List.Disjoint own seq :=
      fun x hx hy => h3 (List.mem_cons_of_mem _ hx) (List.mem_cons_of_mem _ hy)
    have ih := entrySteps_roots_nodup own seq k h1.2 h2.2 hd
    have hab : a ≠ b := fun e =>
      h3 (List.mem_cons_self _ _) (e ▸ List.mem_cons_self _ _)
    rw [List.nodup_cons, List.nodup_cons]
    refine ⟨?_, ?_, ih⟩
    · intro hm
      rcases List.mem_cons.mp hm with hm | hm
      · exact hab hm
      · rcases roots_entrySteps_flatMap own _ a hm with hx | hx
        · exact h1.1 hx
        · exact h3 (List.mem_cons_self _ _) (List.mem_cons_of_mem _ hx)
    · intro hm
      rcases roots_entrySteps_flatMap own _ b hm with hx | hx
      · exact h3 (List.mem_cons_of_mem _ hx) (List.mem_cons_self _ _)
      · exact h2.1 hx

/-- The steps of `overwrite` start from distinct elements, when the elements of `self` and of
`other` are distinct and the keys of `other` are. -/
theorem steps_roots_nodup (own : Str → node_list) (theirs : children_container node_list)
    (hown : ∀ k, (own k).Nodup)
    (hdis : ∀ k1 k2, k1 ≠ k2 → List.Disjoint (own k1) (own k2))
    (hkeys : (theirs.map (fun e => e.key)).Nodup)
    (hvals : (theirs.flatMap (fun e => e.value)).Nodup)
    (hcross : ∀ k, ∀ child ∈ theirs, List.Disjoint (own k) child.value) :
    ((theirs.flatMap (fun child => entrySteps (own child.key) child)).flatMap
      OverwriteStep.roots).Nodup := by
  rw [List.flatMap_assoc, List.nodup_flatMap]
  obtain ⟨hv1, hv2⟩ := List.nodup_flatMap.mp hvals
  constructor
  · intro child hc
    exact entrySteps_roots_nodup (own child.key) child.value child.key (hown _) (hv1 child hc)
      (hcross _ child hc)
  · have hk : theirs.Pairwise (fun c1 c2 => c1.key ≠ c2.key) := List.pairwise_map.mp hkeys
    refine List.Pairwise.imp_of_mem ?_ (hk.and hv2)
    intro c1 c2 hc1 hc2 hR
    obtain ⟨hne, hvd⟩ := hR
    intro n hn1 hn2
    rcases roots_entrySteps_flatMap _ _ n hn1 with hx | hx
    · rcases roots_entrySteps_flatMap _ _ n hn2 with hy | hy
      · exact hdis _ _ hne hx hy
      · exact hcross _ c2 hc2 hx hy
    · rcases roots_entrySteps_flatMap _ _ n hn2 with hy | hy
      · exact hcross _ c1 hc1 hy hx
      · exact hvd hx hy

/-- The elements attached under a key by the steps for one entry. -/
theorem entrySteps_attached (key : Str) : ∀ (own seq : node_list) (k : Str),
    (entrySteps own { key := k, value := seq }).flatMap (OverwriteStep.attached key)
      = if k = key then seq.drop own.length else []
  | [], seq, k => by
    rw [entrySteps_nil, List.flatMap_map]
    simp only [OverwriteStep.attached, List.length_nil, List.drop_zero]
    by_cases hk : k = key
    · simp only [if_pos hk]
      exact List.flatMap_singleton' seq
    · simp only [if_neg hk]
      induction seq with
      | nil => rfl
      | cons x xs ih => rw [List.flatMap_cons, ih]; rfl
  | _ :: _, [], k => by
    rw [entrySteps_cons_nil]
    simp
  | a :: own, b :: seq, k => by
    rw [entrySteps_cons_cons, List.flatMap_cons, entrySteps_attached key own seq k]
    simp [OverwriteStep.attached]

/-- The elements attached under a key by all steps: the elements of `other` under the key
behind the last index that `self` holds. -/
theorem steps_attached (own : Str → node_list) (key : Str) :
    ∀ (theirs : children_container node_list), (theirs.map (fun e => e.key)).Nodup →
    (theirs.flatMap (fun child => entrySteps (own child.key) child)).flatMap
        (OverwriteStep.attached key)
      = (match find theirs key with
          | some child => child.value
          | none => []).drop (own key).length
  | [], _ => by simp [find]
  | c :: cs, hk => by
    rw [List.map_cons, List.nodup_cons] at hk
    rw [List.flatMap_cons, List.flatMap_append, steps_attached own key cs hk.2]
    have he := entrySteps_attached key (own c.key) c.value c.key
    rw [he]
    by_cases hc : c.key = key
    · have hnone : find cs key = none := by
        apply find_eq_none_of_forall
        intro x hx hxk
        apply hk.1
        rw [hc, ← hxk]
        exact List.mem_map_of_mem _ hx
      have hfind : find (c :: cs) key = some c := by
        simp [find, hc]
      rw [hnone, hfind, if_pos hc, hc]
      simp
    · have hfind : find (c :: cs) key = find cs key := by
        simp [find, hc]
      rw [hfind, if_neg hc]
      simp

theorem find_some_mem {L : Type} (c : children_container L) (k : Str) (e : ElementType L)
    (hf : find c k = some e) : e ∈ c ∧ e.key = k := by
  unfold find at hf
  exact ⟨List.mem_of_find?_eq_some hf, by simpa using List.find?_some hf⟩

/-- A merge of the elements at one index of a key of `other` is among the steps. -/
theorem steps_merge (own : Str → node_list) (theirs : children_container node_list)
    (key : Str) (child : ElementType node_list) (hf : find theirs key = some child)
    (i : Nat) (a b : NodePtr) (ha : (own key)[i]? = some a) (hb : child.value[i]? = some b) :
    OverwriteStep.merge a b ∈ theirs.flatMap (fun child => entrySteps (own child.key) child) := by
  obtain ⟨hm, hk⟩ := find_some_mem theirs key child hf
  rw [List.mem_flatMap]
  refine ⟨child, hm, ?_⟩
  rw [hk]
  exact (mem_entrySteps_merge a b (own key) child.value child.key).mpr ⟨i, ha, hb⟩

/-- An extra element of a key of `other` is attached by one of the steps. -/
theorem steps_attach (own : Str → node_list) (theirs : children_container node_list)
    (key : Str) (child : ElementType node_list) (hf : find theirs key = some child)
    (b : NodePtr) (hb : b ∈ child.value.drop (own key).length) :
    OverwriteStep.attach key b
      ∈ theirs.flatMap (fun child => entrySteps (own child.key) child) := by
  obtain ⟨hm, hk⟩ := find_some_mem theirs key child hf
  rw [List.mem_flatMap]
  refine ⟨child, hm, ?_⟩
  rw [hk]
  exact (mem_entrySteps_attach key b (own key) child.value child.key).mpr ⟨hk.symm, hb⟩

/-- Every step starts from elements of `self` and of `other`. -/
theorem steps_roots (own : Str → node_list) (theirs : children_container node_list)
    (step : OverwriteStep)
    (hs : step ∈ theirs.flatMap (fun child => entrySteps (own child.key) child)) :
    ∃ child ∈ theirs, step ∈ entrySteps (own child.key) child ∧
      ∀ n ∈ step.roots, n ∈ own child.key ∨ n ∈ child.value := by
  obtain ⟨child, hc, hstep⟩ := List.mem_flatMap.mp hs
  exact ⟨child, hc, hstep, roots_entrySteps _ child step hstep⟩

/-! ### One step of `overwrite`, and the steps one after the other -/

theorem ConfigNode_ext (a b : ConfigNode) (h1 : a.nodes = b.nodes) (h2 : a.values = b.values)
    (h3 : a.parent = b.parent) : a = b := by
  cases a
  cases b
  simp only [ConfigNode.mk.injEq]
  exact ⟨h1, h2, h3⟩

theorem region_merge (h : Store) (f : Nat) (own node n : NodePtr) :
    n ∈ (OverwriteStep.merge own node).region h f
      ↔ n ∈ footprint h f own ++ footprint h f node := by
  simp [OverwriteStep.region, OverwriteStep.roots]

theorem region_attach (h : Store) (f : Nat) (k : Str) (node n : NodePtr) :
    n ∈ (OverwriteStep.attach k node).region h f ↔ n ∈ footprint h f node := by
  simp [OverwriteStep.region, OverwriteStep.roots]

/-- What a step has established holds of any later store that agrees with the store after
the step on the region of the step. -/
theorem done_congr (f : Nat) (self : NodePtr) (h s2 s3 : Store) (step : OverwriteStep)
    (hag : ∀ n ∈ step.region h f, deref s3 n = deref s2 n)
    (hd : step.Done f self h s2) : step.Done f self h s3 := by
  cases step with
  | merge own node =>
    simp only [OverwriteStep.Done] at hd ⊢
    exact Overlaid_congr f h s2 s3 own node
      (fun n hn => hag n ((region_merge h f own node n).mpr hn)) hd
  | attach k node =>
    simp only [OverwriteStep.Done] at hd ⊢
    rw [hag node ((region_attach h f k node node).mpr (mem_footprint_self h f node))]
    exact ⟨hd.1, hd.2.1, hd.2.2.1, reattached_congr f h s2 s3 node
      (fun n hn => hag n ((region_attach h f k node n).mpr hn)) hd.2.2.2⟩

/-- One step of `overwrite` on a store that agrees with `h` on the region of the step: the
step returns, only its region and the subnode container of `self` are changed, `self`
holds the attached element behind its elements of the key, and the step has established
its part of the overlay. -/
theorem runOverwriteStep_spec (recurse : Store → NodePtr → NodePtr → Option Store) (f : Nat)
    (self : NodePtr) (h : Store) (hself : self < h.length) (step : OverwriteStep) (s : Store)
    (hnot : self ∉ step.region h f)
    (hag : ∀ n ∈ step.region h f, deref s n = deref h n)
    (hl : s.length = h.length)
    (hr : step.Ready recurse f h) :
    ∃ s2, runOverwriteStep recurse f self s step = some s2 ∧ s2.length = s.length ∧
      (∀ n, n ≠ self → n ∉ step.region h f → deref s2 n = deref s n) ∧
      (deref s2 self).values = (deref s self).values ∧
      (deref s2 self).parent = (deref s self).parent ∧
      (∀ k, getNodesKey s2 self k = getNodesKey s self k ++ step.attached k) ∧
      step.Done f self h s2 := by
  cases step with
  | merge own node =>
    simp only [OverwriteStep.Ready] at hr
    obtain ⟨s2, hs2, hl2, hfr, hov⟩ :=
      hr s hl (fun n hn => hag n ((region_merge h f own node n).mpr hn))
    have hme : deref s2 self = deref s self :=
      hfr self (fun hx => hnot ((region_merge h f own node self).mpr hx))
    refine ⟨s2, hs2, hl2, ?_, ?_, ?_, ?_, hov⟩
    · intro n _ hn
      exact hfr n (fun hx => hn ((region_merge h f own node n).mpr hx))
    · rw [hme]
    · rw [hme]
    · intro k
      rw [getNodesKey_congr s2 s self hme k]
      simp [OverwriteStep.attached]
  | attach key node =>
    simp only [OverwriteStep.Ready] at hr
    obtain ⟨hdepth, hnd, hvalid⟩ := hr
    have hnode : node < h.length := hvalid node (mem_footprint_self h f node)
    have hregion : ∀ n, n ∈ footprint h f node → n ≠ self := by
      intro n hn hx
      exact hnot ((region_attach h f key node self).mpr (hx ▸ hn))
    have hne : node ≠ self := hregion node (mem_footprint_self h f node)
    cases hs1 : setNode s self key node SIZE_MAX with
    | none =>
      obtain ⟨ns, hns, _⟩ := setNode_default s self key node
      rw [hs1] at hns
      exact absurd hns (by simp)
    | some s1 =>
      obtain ⟨hl1, hval1, hnod1, _, hpar1, hparn, _, _⟩ := setNode_frame s self key node s1 hs1
      have hnodes : ∀ n ∈ footprint h f node, (deref s1 n).nodes = (deref h n).nodes := by
        intro n hn
        rw [hnod1 n (hregion n hn), hag n ((region_attach h f key node n).mpr hn)]
      have hd1 : withinDepth s1 f node = true := by
        rw [withinDepth_congr s1 h f node hnodes]
        exact hdepth
      have hfp : footprint s1 f node = footprint h f node := footprint_congr s1 h f node hnodes
      obtain ⟨s2, hs2, hl2, hnod2, hval2, hfr2, hre2⟩ := updateParents_yes f s1 node hd1
        (by rw [hfp]; exact hnd)
        (by
          intro n hn
          rw [hfp] at hn
          rw [hl1, hl]
          exact hvalid n hn)
      rw [hfp] at hfr2
      have hnode2 : deref s2 node = deref s1 node :=
        hfr2 node (not_mem_footprint_tail h f node hnd)
      refine ⟨s2, ?_, ?_, ?_, ?_, ?_, ?_, ?_⟩
      · simp only [runOverwriteStep, hs1]
        exact hs2
      · rw [hl2, hl1]
      · intro n hn hnr
        have hnf : n ∉ footprint h f node :=
          fun hx => hnr ((region_attach h f key node n).mpr hx)
        rw [hfr2 n (fun hx => hnf (List.mem_of_mem_tail hx))]
        apply ConfigNode_ext
        · exact hnod1 n hn
        · exact hval1 n
        · exact hpar1 n (fun hx => hnf (hx ▸ mem_footprint_self h f node))
      · rw [hval2, hval1]
      · rw [hfr2 self (fun hx => hregion self (List.mem_of_mem_tail hx) rfl)]
        exact hpar1 self (fun hx => hne hx.symm)
      · intro k
        have h1 : getNodesKey s2 self k = getNodesKey s1 self k := by
          unfold getNodesKey
          rw [hnod2 self]
        rw [h1, setNode_getNodesKey s self key node s1 hs1 (hl ▸ hself) self k]
        by_cases hk : key = k
        · simp [OverwriteStep.attached, hk]
        · simp [OverwriteStep.attached, hk]
      · simp only [OverwriteStep.Done]
        rw [hnode2]
        refine ⟨hparn (hl ▸ hnode), ?_, ?_, ?_⟩
        · rw [hnod1 node hne,
            hag node ((region_attach h f key node node).mpr (mem_footprint_self h f node))]
        · rw [hval1 node,
            hag node ((region_attach h f key node node).mpr (mem_footprint_self h f node))]
        · apply reattached_congr_left f s1 h s2 node _ hre2
          intro n hn
          refine ⟨hnodes n hn, ?_⟩
          rw [hval1 n, hag n ((region_attach h f key node n).mpr hn)]

/-- The steps of `overwrite` with disjoint regions, one after the other, on a store that
agrees with `h` on the regions: they return, only the regions and the subnode container of
`self` are changed, `self` holds the attached elements of each key behind its elements of
the key, and every step has established its part of the overlay. -/
theorem runOverwriteSteps_spec (recurse : Store → NodePtr → NodePtr → Option Store) (f : Nat)
    (self : NodePtr) (h : Store) (hself : self < h.length) :
    ∀ (steps : List OverwriteStep) (s : Store),
      (steps.flatMap (OverwriteStep.region h f)).Nodup →
      self ∉ steps.flatMap (OverwriteStep.region h f) →
      (∀ n ∈ steps.flatMap (OverwriteStep.region h f), deref s n = deref h n) →
      s.length = h.length →
      (∀ step ∈ steps, step.Ready recurse f h) →
      ∃ s2, runOverwriteSteps recurse f self s steps = some s2 ∧ s2.length = s.length ∧
        (∀ n, n ≠ self → n ∉ steps.flatMap (OverwriteStep.region h f) →
          deref s2 n = deref s n) ∧
        (deref s2 self).values = (deref s self).values ∧
        (deref s2 self).parent = (deref s self).parent ∧
        (∀ k, getNodesKey s2 self k
          = getNodesKey s self k ++ steps.flatMap (OverwriteStep.attached k)) ∧
        (∀ step ∈ steps, step.Done f self h s2)
  | [], s, _, _, _, _, _ => by
    refine ⟨s, rfl, rfl, fun _ _ _ => rfl, rfl, rfl, fun k => ?_, fun step hs => ?_⟩
    · simp
    · simp at hs
  | step :: rest, s, hnd, hnot, hag, hl, hready => by
    rw [List.flatMap_cons] at hnd hnot hag
    rw [List.nodup_append] at hnd
    obtain ⟨_, hnd2, hdis⟩ := hnd
    rw [List.mem_append, not_or] at hnot
    obtain ⟨s1, hs1, hl1, hfr1, hval1, hpar1, hget1, hdone1⟩ :=
      runOverwriteStep_spec recurse f self h hself step s hnot.1
        (fun n hn => hag n (List.mem_append_left _ hn)) hl
        (hready step (List.mem_cons_self _ _))
    have hag1 : ∀ n ∈ rest.flatMap (OverwriteStep.region h f), deref s1 n = deref h n := by
      intro n hn
      rw [hfr1 n (fun hx => hnot.2 (hx ▸ hn)) (fun hx => hdis hx hn)]
      exact hag n (List.mem_append_right _ hn)
    obtain ⟨s2, hs2, hl2, hfr2, hval2, hpar2, hget2, hdone2⟩ :=
      runOverwriteSteps_spec recurse f self h hself rest s1 hnd2 hnot.2 hag1 (hl1.trans hl)
        (fun st hst => hready st (List.mem_cons_of_mem _ hst))
    refine ⟨s2, ?_, hl2.trans hl1, ?_, hval2.trans hval1, hpar2.trans hpar1, ?_, ?_⟩
    · simp only [runOverwriteSteps, hs1]
      exact hs2
    · intro n hn hnr
      rw [List.flatMap_cons, List.mem_append, not_or] at hnr
      rw [hfr2 n hn hnr.2, hfr1 n hn hnr.1]
    · intro k
      rw [hget2 k, hget1 k, List.flatMap_cons, List.append_assoc]
    · intro st hst
      rcases List.mem_cons.mp hst with hx | hx
      · subst hx
        apply done_congr f self h s1 s2 st _ hdone1
        intro n hn
        exact hfr2 n (fun hx => hnot.1 (hx ▸ hn)) (fun hx => hdis hn hx)
      · exact hdone2 st hx

/-! ### The containers of `self` before and after the steps -/

theorem find_filter_key {L : Type} (q : Str → Bool) (k : Str) :
    ∀ (c : children_container L),
      find (c.filter (fun e => q e.key)) k = if q k = true then find c k else none
  | [] => by simp [find]
  | e :: es => by
    have ih := find_filter_key q k es
    by_cases hq : q e.key = true
    · rw [List.filter_cons, if_pos hq]
      by_cases hk : e.key = k
      · have hqk : q k = true := hk ▸ hq
        simp [find, hk, hqk]
      · have h1 : find (e :: List.filter (fun e => q e.key) es) k
            = find (List.filter (fun e => q e.key) es) k := by simp [find, hk]
        have h2 : find (e :: es) k = find es k := by simp [find, hk]
        rw [h1, h2, ih]
    · rw [List.filter_cons, if_neg hq, ih]
      by_cases hk : e.key = k
      · have hqk : ¬ q k = true := hk ▸ hq
        rw [if_neg hqk, if_neg hqk]
      · have h2 : find (e :: es) k = find es k := by simp [find, hk]
        rw [h2]

theorem find_append_of_ne {L : Type} (c : children_container L) (x : ElementType L)
    (k : Str) (hx : x.key ≠ k) : find (c ++ [x]) k = find c k := by
  induction c with
  | nil => simp [find, hx]
  | cons e es ih =>
    by_cases hk : e.key = k
    · simp [find, hk]
    · have h1 : find (e :: es ++ [x]) k = find (es ++ [x]) k := by simp [find, hk]
      have h2 : find (e :: es) k = find es k := by simp [find, hk]
      rw [h1, h2, ih]

/-- Lookup after `replaceEntry`. -/
theorem find_replaceEntry {L : Type} (c : children_container L) (key k : Str) (v : L) :
    find (replaceEntry c key v) k
      = if key = k then some { key := key, value := v } else find c k := by
  unfold replaceEntry
  cases hf : find c key with
  | none =>
    simp only []
    by_cases hk : key = k
    · rw [if_pos hk]
      subst hk
      exact find_append_of_none c _ key hf rfl
    · rw [if_neg hk]
      exact find_append_of_ne c _ k hk
  | some e =>
    simp only []
    by_cases hk : key = k
    · rw [if_pos hk]
      subst hk
      rw [find_modify, hf]
      have hek := (find_some_mem c key e hf).2
      simp [hek]
    · rw [if_neg hk]
      exact find_modify_of_ne _ key k hk c

theorem find_foldl_replaceEntry_none {L : Type} (k : Str) :
    ∀ (theirs c : children_container L), find theirs k = none →
      find (theirs.foldl (fun c child => replaceEntry c child.key child.value) c) k = find c k
  | [], _, _ => rfl
  | t :: ts, c, hf => by
    have hk : t.key ≠ k := by
      intro hx
      simp [find, hx] at hf
    have hts : find ts k = none := by
      simpa [find, hk] using hf
    rw [List.foldl_cons, find_foldl_replaceEntry_none k ts _ hts, find_replaceEntry, if_neg hk]

theorem find_foldl_replaceEntry_some {L : Type} (k : Str) :
    ∀ (theirs c : children_container L) (e : ElementType L),
      (theirs.map (fun x => x.key)).Nodup → find theirs k = some e →
      find (theirs.foldl (fun c child => replaceEntry c child.key child.value) c) k = some e
  | [], _, _, _, hf => by simp [find] at hf
  | t :: ts, c, e, hnd, hf => by
    rw [List.map_cons, List.nodup_cons] at hnd
    rw [List.foldl_cons]
    by_cases hk : t.key = k
    · have hte : t = e := by
        simpa [find, hk] using hf
      have hts : find ts k = none := by
        apply find_eq_none_of_forall
        intro x hx hxk
        apply hnd.1
        rw [hk, ← hxk]
        exact List.mem_map_of_mem _ hx
      rw [find_foldl_replaceEntry_none k ts _ hts, find_replaceEntry, if_pos hk, ← hte]
    · have hts : find ts k = some e := by
        simpa [find, hk] using hf
      exact find_foldl_replaceEntry_some k ts _ e hnd.2 hts

/-! ### Trees without shared nodes -/

theorem footprint_mono (h : Store) : ∀ (f : Nat) (r n : NodePtr),
    n ∈ footprint h f r → n ∈ footprint h (f + 1) r
  | 0, r, n, hn => by
    simp only [footprint, List.mem_singleton] at hn
    rw [hn]
    exact mem_footprint_self h 1 r
  | f + 1, r, n, hn => by
    rw [footprint, List.mem_cons, List.mem_flatMap] at hn
    rcases hn with hn | ⟨c, hc, hx⟩
    · rw [hn]
      exact mem_footprint_self h (f + 2) r
    · exact footprint_child h (f + 1) r c n hc (footprint_mono h f c n hx)

theorem nodup_of_flatMap_footprint (h : Store) (f : Nat) : ∀ (l : List NodePtr),
    (l.flatMap (footprint h f)).Nodup → l.Nodup
  | [], _ => List.nodup_nil
  | c :: cs, hl => by
    rw [List.flatMap_cons, List.nodup_append] at hl
    rw [List.nodup_cons]
    refine ⟨fun hmem => ?_, nodup_of_flatMap_footprint h f cs hl.2.1⟩
    exact hl.2.2 (mem_footprint_self h f c)
      (List.mem_flatMap.mpr ⟨c, hmem, mem_footprint_self h f c⟩)

/-- Distinct members of a list of disjoint trees have the trees of the list. -/
theorem flatMap_footprint_nodup (h : Store) (f : Nat) (C L : List NodePtr)
    (hC : (C.flatMap (footprint h f)).Nodup) (hL : L.Nodup) (hsub : ∀ x ∈ L, x ∈ C) :
    (L.flatMap (footprint h f)).Nodup := by
  obtain ⟨heach, hpair⟩ := List.nodup_flatMap.mp hC
  have hsym : Symmetric (Function.onFun List.Disjoint (footprint h f)) :=
    fun _ _ hab => List.Disjoint.symm hab
  rw [List.nodup_flatMap]
  refine ⟨fun x hx => heach x (hsub x hx), ?_⟩
  refine List.Pairwise.imp_of_mem ?_ hL
  intro a b ha hb hne
  exact hpair.forall hsym (hsub a ha) (hsub b hb) hne

theorem mem_flatMap_footprint (h : Store) (f : Nat) (C L : List NodePtr)
    (hsub : ∀ x ∈ L, x ∈ C) (n : NodePtr) (hn : n ∈ L.flatMap (footprint h f)) :
    n ∈ C.flatMap (footprint h f) := by
  obtain ⟨x, hx, hnx⟩ := List.mem_flatMap.mp hn
  exact List.mem_flatMap.mpr ⟨x, hsub x hx, hnx⟩

/-- What two trees without a shared node give for the subnodes of their roots. -/
theorem shape_children (h : Store) (f : Nat) (self other : NodePtr)
    (hshape : (footprint h (f + 1) self ++ footprint h (f + 1) other).Nodup) :
    ((children h self ++ children h other).flatMap (footprint h f)).Nodup ∧
    self ∉ (children h self ++ children h other).flatMap (footprint h f) ∧
    (∀ n ∈ (children h self ++ children h other).flatMap (footprint h f),
      n ∈ footprint h (f + 1) self ++ footprint h (f + 1) other) ∧
    other ∉ (children h self ++ children h other).flatMap (footprint h f) ∧
    self ≠ other := by
  simp only [footprint] at hshape ⊢
  rw [List.nodup_append, List.nodup_cons, List.nodup_cons] at hshape
  obtain ⟨⟨hs1, hs2⟩, ⟨ho1, ho2⟩, hdis⟩ := hshape
  rw [List.flatMap_append]
  refine ⟨?_, ?_, ?_, ?_, ?_⟩
  · rw [List.nodup_append]
    refine ⟨hs2, ho2, ?_⟩
    intro n hn1 hn2
    exact hdis (List.mem_cons_of_mem _ hn1) (List.mem_cons_of_mem _ hn2)
  · rw [List.mem_append, not_or]
    exact ⟨hs1, fun hx => hdis (List.mem_cons_self _ _) (List.mem_cons_of_mem _ hx)⟩
  · intro n hn
    rcases List.mem_append.mp hn with hx | hx
    · exact List.mem_append_left _ (List.mem_cons_of_mem _ hx)
    · exact List.mem_append_right _ (List.mem_cons_of_mem _ hx)
  · rw [List.mem_append, not_or]
    exact ⟨fun hx => hdis (List.mem_cons_of_mem _ hx) (List.mem_cons_self _ _), ho1⟩
  · intro hx
    exact hdis (List.mem_cons_self _ _) (hx ▸ List.mem_cons_self _ _)

/-- Two distinct roots of a list of disjoint trees have no node in common. -/
theorem footprint_disjoint (h : Store) (f : Nat) (C : List NodePtr)
    (hC : (C.flatMap (footprint h f)).Nodup) (a b : NodePtr) (ha : a ∈ C) (hb : b ∈ C)
    (hne : a ≠ b) : List.Disjoint (footprint h f a) (footprint h f b) := by
  have hsym : Symmetric (Function.onFun List.Disjoint (footprint h f)) :=
    fun _ _ hab => List.Disjoint.symm hab
  exact (List.nodup_flatMap.mp hC).2.forall hsym ha hb hne

theorem find_of_mem {L : Type} (c : children_container L) (e : ElementType L)
    (hnd : (c.map (fun x => x.key)).Nodup) (he : e ∈ c) : find c e.key = some e := by
  cases hf : find c e.key with
  | none =>
    unfold find at hf
    rw [List.find?_eq_none] at hf
    exact absurd (hf e he) (by simp)
  | some e2 => rw [entry_unique c e.key e2 e hf hnd he rfl]

/-! ### The first and the last phase of `overwrite` -/

/-- The first phase: only the containers of `self` are changed, and they lose the keys that
`other` holds in the other kind only. -/
theorem kindWins_spec (h : Store) (self other : NodePtr) (hself : self < h.length) :
    (kindWins h self other).length = h.length ∧
    (∀ n, n ≠ self → deref (kindWins h self other) n = deref h n) ∧
    (∀ k, getNodesKey (kindWins h self other) self k
      = if (!((find (deref h other).values k).isSome && (find (deref h other).nodes k).isNone))
          = true
        then getNodesKey h self k else noNodes) ∧
    (∀ k, getValuesKey (kindWins h self other) self k
      = if (!((find (deref h other).nodes k).isSome && (find (deref h other).values k).isNone))
          = true
        then getValuesKey h self k else noValues) ∧
    (deref (kindWins h self other) self).parent = (deref h self).parent := by
  refine ⟨by simp [kindWins], fun n hn => ?_, fun k => ?_, fun k => ?_, ?_⟩
  rotate_right
  · simp only [kindWins]
    rw [deref_set_self h self _ hself]
  · simp only [kindWins]
    exact deref_set_of_ne h self n _ hn
  · unfold getNodesKey
    simp only [kindWins]
    rw [deref_set_self h self _ hself]
    simp only []
    rw [find_filter_key (fun key =>
      !((find (deref h other).values key).isSome && (find (deref h other).nodes key).isNone))]
    by_cases hc : (!((find (deref h other).values k).isSome
        && (find (deref h other).nodes k).isNone)) = true
    · simp only [if_pos hc]
    · simp only [if_neg hc]
  · unfold getValuesKey
    simp only [kindWins]
    rw [deref_set_self h self _ hself]
    simp only []
    rw [find_filter_key (fun key =>
      !((find (deref h other).nodes key).isSome && (find (deref h other).values key).isNone))]
    by_cases hc : (!((find (deref h other).nodes k).isSome
        && (find (deref h other).values k).isNone)) = true
    · simp only [if_pos hc]
    · simp only [if_neg hc]

/-- The last phase: only the scalars of `self` are changed, and every key of `other` has
the sequence of `other`. -/
theorem replaceScalars_spec (theirs : children_container value_list) (s : Store)
    (self : NodePtr) (hself : self < s.length)
    (hnd : (theirs.map (fun x => x.key)).Nodup) :
    (replaceScalars theirs s self).length = s.length ∧
    (∀ n, n ≠ self → deref (replaceScalars theirs s self) n = deref s n) ∧
    (∀ k, getNodesKey (replaceScalars theirs s self) self k = getNodesKey s self k) ∧
    (∀ k e, find theirs k = some e →
      getValuesKey (replaceScalars theirs s self) self k = e.value) ∧
    (∀ k, find theirs k = none →
      getValuesKey (replaceScalars theirs s self) self k = getValuesKey s self k) ∧
    (deref (replaceScalars theirs s self) self).parent = (deref s self).parent := by
  refine ⟨by simp [replaceScalars], fun n hn => ?_, fun k => ?_, fun k e hf => ?_,
    fun k hf => ?_, ?_⟩
  rotate_right
  · simp only [replaceScalars]
    rw [deref_set_self s self _ hself]
  · simp only [replaceScalars]
    exact deref_set_of_ne s self n _ hn
  · unfold getNodesKey
    simp only [replaceScalars]
    rw [deref_set_self s self _ hself]
  · unfold getValuesKey
    simp only [replaceScalars]
    rw [deref_set_self s self _ hself]
    simp only []
    rw [find_foldl_replaceEntry_some k theirs _ e hnd hf]
  · unfold getValuesKey
    simp only [replaceScalars]
    rw [deref_set_self s self _ hself]
    simp only []
    rw [find_foldl_replaceEntry_none k theirs _ hf]

/-! ### One level of `overwrite` -/

theorem getNodesKey_of_find (h : Store) (n : NodePtr) (k : Str) (child : ElementType node_list)
    (hf : find (deref h n).nodes k = some child) : getNodesKey h n k = child.value := by
  unfold getNodesKey
  rw [hf]

theorem getNodesKey_of_none (h : Store) (n : NodePtr) (k : Str)
    (hf : find (deref h n).nodes k = none) : getNodesKey h n k = [] := by
  unfold getNodesKey
  rw [hf]
  rfl

theorem find_isSome_of_mem {L : Type} (c : children_container L) (e : ElementType L)
    (he : e ∈ c) : (find c e.key).isSome = true := by
  unfold find
  rw [List.find?_isSome]
  exact ⟨e, he, by simp⟩

theorem flatMap_region (h : Store) (f : Nat) (steps : List OverwriteStep) :
    steps.flatMap (OverwriteStep.region h f)
      = (steps.flatMap OverwriteStep.roots).flatMap (footprint h f) := by
  rw [List.flatMap_assoc]
  rfl

/-- One level of `overwrite` on two trees without a shared node, the recursive calls for the
merged elements being taken for granted: the call returns the overlay and changes the two
trees only. -/
theorem overwrite_core (f : Nat) (h : Store) (self other : NodePtr)
    (hshape : (footprint h (f + 1) self ++ footprint h (f + 1) other).Nodup)
    (hself : self < h.length)
    (hkeys : keysDistinct (deref h other) = true)
    (hready : ∀ step ∈ (deref h other).nodes.flatMap
        (fun child => entrySteps (getNodesKey h self child.key) child),
      step.Ready (fun s own node => overwrite f s own node) f h) :
    ∃ h2, overwrite (f + 1) h self other = some h2 ∧ h2.length = h.length ∧
      (∀ n, n ∉ footprint h (f + 1) self ++ footprint h (f + 1) other →
        deref h2 n = deref h n) ∧
      Overlaid (f + 1) h h2 self other := by
  obtain ⟨hC, hselfC, hCsub, hotherC, hso⟩ := shape_children h f self other hshape
  have hCnd := nodup_of_flatMap_footprint h f _ hC
  rw [List.nodup_append] at hCnd
  obtain ⟨hA, hB, hAB⟩ := hCnd
  simp only [keysDistinct, Bool.and_eq_true, decide_eq_true_eq] at hkeys
  obtain ⟨hkN, hkV⟩ := hkeys
  obtain ⟨hl1, hfr1, hgn1, hgv1, hpar1⟩ := kindWins_spec h self other hself
  -- the steps
  have hsteps : overwriteSteps (deref (kindWins h self other) self).nodes (deref h other).nodes
      = (deref h other).nodes.flatMap
          (fun child => entrySteps (getNodesKey h self child.key) child) := by
    rw [overwriteSteps_eq]
    apply List.flatMap_congr
    intro child hc
    rw [hgn1 child.key, if_pos]
    simp [find_isSome_of_mem _ child hc]
  have hvalB : ∀ child ∈ (deref h other).nodes, ∀ x ∈ child.value, x ∈ children h other :=
    fun child hc x hx => List.mem_flatMap.mpr ⟨child, hc, hx⟩
  have hcross : ∀ k, ∀ child ∈ (deref h other).nodes,
      List.Disjoint (getNodesKey h self k) child.value :=
    fun k child hc x hx hy =>
      hAB (getNodesKey_subset_children h self k x hx) (hvalB child hc x hy)
  have hroots := steps_roots_nodup (getNodesKey h self) (deref h other).nodes
    (fun k => getNodesKey_nodup h self k hA)
    (fun k1 k2 hk => getNodesKey_disjoint h self k1 k2 hk hA) hkN hB hcross
  have hrootsC : ∀ n ∈ ((deref h other).nodes.flatMap
      (fun child => entrySteps (getNodesKey h self child.key) child)).flatMap
        OverwriteStep.roots, n ∈ children h self ++ children h other := by
    intro n hn
    obtain ⟨step, hstep, hr⟩ := List.mem_flatMap.mp hn
    obtain ⟨child, hc, _, hsub⟩ := steps_roots (getNodesKey h self) _ step hstep
    rcases hsub n hr with hx | hx
    · exact List.mem_append_left _ (getNodesKey_subset_children h self _ n hx)
    · exact List.mem_append_right _ (hvalB child hc n hx)
  have hregion := flatMap_region h f ((deref h other).nodes.flatMap
    (fun child => entrySteps (getNodesKey h self child.key) child))
  have hRnd := flatMap_footprint_nodup h f _ _ hC hroots hrootsC
  have hRsub := mem_flatMap_footprint h f _ _ hrootsC
  rw [← hregion] at hRnd hRsub
  have hselfR : self ∉ ((deref h other).nodes.flatMap
      (fun child => entrySteps (getNodesKey h self child.key) child)).flatMap
        (OverwriteStep.region h f) := fun hx => hselfC (hRsub self hx)
  have hstepR : ∀ step ∈ (deref h other).nodes.flatMap
      (fun child => entrySteps (getNodesKey h self child.key) child),
      ∀ n ∈ step.region h f, n ≠ self := by
    intro step hstep n hn hx
    exact hselfR (List.mem_flatMap.mpr ⟨step, hstep, hx ▸ hn⟩)
  obtain ⟨s2, hs2, hl2, hfr2, hval2, hpar2, hget2, hdone2⟩ :=
    runOverwriteSteps_spec (fun s own node => overwrite f s own node) f self h hself _
      (kindWins h self other) hRnd hselfR
      (fun n hn => hfr1 n (fun hx => hselfR (hx ▸ hn))) hl1 hready
  have hattached : ∀ k, ((deref h other).nodes.flatMap
      (fun child => entrySteps (getNodesKey h self child.key) child)).flatMap
        (OverwriteStep.attached k)
      = (getNodesKey h other k).drop (getNodesKey h self k).length :=
    fun k => steps_attached (getNodesKey h self) k (deref h other).nodes hkN
  have hvs2 : ∀ k, getValuesKey s2 self k = getValuesKey (kindWins h self other) self k := by
    intro k
    unfold getValuesKey
    rw [hval2]
  -- the last phase
  have hself2 : self < s2.length := by rw [hl2, hl1]; exact hself
  obtain ⟨hl3, hfr3, hgn3, hgv3s, hgv3n, hpar3⟩ :=
    replaceScalars_spec (deref h other).values s2 self hself2 hkV
  -- nodes that no step works on
  have hout : ∀ n, n ≠ self → n ∉ ((deref h other).nodes.flatMap
      (fun child => entrySteps (getNodesKey h self child.key) child)).flatMap
        (OverwriteStep.region h f) →
      deref (replaceScalars (deref h other).values s2 self) n = deref h n := by
    intro n hn hnr
    rw [hfr3 n hn, hfr2 n hn hnr, hfr1 n hn]
  refine ⟨replaceScalars (deref h other).values s2 self, ?_, ?_, ?_, ?_⟩
  · simp only [overwrite]
    rw [hsteps, hs2]
  · rw [hl3, hl2, hl1]
  · intro n hn
    have hns : n ≠ self := fun hx =>
      hn (List.mem_append_left _ (hx ▸ mem_footprint_self h (f + 1) self))
    rw [hfr3 n hns, hfr2 n hns (fun hx => hn (hCsub n (hRsub n hx))), hfr1 n hns]
  · simp only [Overlaid]
    refine ⟨by rw [hpar3, hpar2, hpar1],
      hout other (fun hx => hso hx.symm) (fun hx => hotherC (hRsub other hx)),
      fun k hk => ?ka, fun k hv hn => ⟨?kb1, ?kb2⟩, fun k hn hv => ?kd, fun k hv hn => ?ke,
      fun own hown hfree n hn => ?kun, fun k hn => ⟨?kc1, ?kc2, ?kc3⟩⟩
    case ka =>
      obtain ⟨e, he⟩ := Option.isSome_iff_exists.mp hk
      rw [hgv3s k e he]
      unfold getValuesKey
      rw [he]
    case kb1 =>
      rw [hgv3n k hv, hvs2 k, hgv1 k, if_pos (by simp [hn])]
    case kb2 =>
      rw [hgn3 k, hget2 k, hattached k, hgn1 k, if_pos (by simp [hv]),
        getNodesKey_of_none h other k hn]
      simp
    case kd =>
      rw [hgv3n k hv, hvs2 k, hgv1 k, if_neg (by simp [hn, hv])]
    case ke =>
      rw [hgn3 k, hget2 k, hattached k, hgn1 k, if_neg (by simp [hn, hv]),
        getNodesKey_of_none h other k hn]
      simp [noNodes]
    case kc1 =>
      rw [hgn3 k, hget2 k, hattached k, hgn1 k, if_pos (by simp [hn])]
    case kc2 =>
      intro i own node hown hnode
      obtain ⟨child, hf⟩ := Option.isSome_iff_exists.mp hn
      rw [getNodesKey_of_find h other k child hf] at hnode
      have hmem := steps_merge (getNodesKey h self) (deref h other).nodes k child hf i own node
        hown hnode
      have hd := hdone2 _ hmem
      simp only [OverwriteStep.Done] at hd
      apply Overlaid_congr f h s2 _ own node _ hd
      intro n hn2
      exact hfr3 n (hstepR _ hmem n ((region_merge h f own node n).mpr hn2))
    case kc3 =>
      intro node hnode
      obtain ⟨child, hf⟩ := Option.isSome_iff_exists.mp hn
      rw [getNodesKey_of_find h other k child hf] at hnode
      have hmem := steps_attach (getNodesKey h self) (deref h other).nodes k child hf node hnode
      have hd := hdone2 _ hmem
      simp only [OverwriteStep.Done] at hd
      rw [hfr3 node (hstepR _ hmem node
        ((region_attach h f k node node).mpr (mem_footprint_self h f node)))]
      exact ⟨hd.1, hd.2.1, hd.2.2.1, reattached_congr f h s2 _ node
        (fun n hn2 => hfr3 n (hstepR _ hmem n ((region_attach h f k node n).mpr hn2)))
        hd.2.2.2⟩
    case kun =>
      -- a subnode of `self` without a partner is a root of no step
      have hownC : own ∈ children h self ++ children h other := List.mem_append_left _ hown
      have hnC : n ∈ (children h self ++ children h other).flatMap (footprint h f) :=
        List.mem_flatMap.mpr ⟨own, hownC, hn⟩
      apply hout n (fun hx => hselfC (hx ▸ hnC))
      intro hx
      obtain ⟨step, hstep, hreg⟩ := List.mem_flatMap.mp hx
      obtain ⟨r, hr, hnr⟩ := List.mem_flatMap.mp hreg
      have hrC : r ∈ children h self ++ children h other :=
        hrootsC r (List.mem_flatMap.mpr ⟨step, hstep, hr⟩)
      by_cases heq : own = r
      · subst heq
        obtain ⟨child, hc, hmem, _⟩ := steps_roots (getNodesKey h self) _ step hstep
        have hfind := find_of_mem (deref h other).nodes child hkN hc
        cases step with
        | merge a b =>
          obtain ⟨i, h1, h2⟩ :=
            (mem_entrySteps_merge a b (getNodesKey h self child.key) child.value child.key).mp
              hmem
          simp only [OverwriteStep.roots, List.mem_cons, List.mem_singleton,
            List.not_mem_nil, or_false] at hr
          rcases hr with hr | hr
          · have hnone := hfree child.key i (hr ▸ h1)
            rw [getNodesKey_of_find h other child.key child hfind, h2] at hnone
            exact absurd hnone (by simp)
          · exact hAB hown (hr ▸ hvalB child hc b (List.getElem?_mem h2))
        | attach key b =>
          obtain ⟨_, h2⟩ :=
            (mem_entrySteps_attach key b (getNodesKey h self child.key) child.value
              child.key).mp hmem
          simp only [OverwriteStep.roots, List.mem_singleton] at hr
          exact hAB hown (hr ▸ hvalB child hc b (List.mem_of_mem_drop h2))
      · exact footprint_disjoint h f _ hC own r hownC hrC heq hn hnr

/-! ### Distinct keys are kept by `overwrite` -/

theorem keys_modify {L : Type} (f : L → L) (key : Str) : ∀ (c : children_container L),
    (modify f key c).map (fun e => e.key) = c.map (fun e => e.key)
  | [] => rfl
  | e :: es => by
    unfold modify
    by_cases hk : e.key = key
    · rw [if_pos hk]
      rfl
    · rw [if_neg hk, List.map_cons, List.map_cons, keys_modify f key es]

theorem keys_append_nodup {L : Type} (c : children_container L) (key : Str) (v : L)
    (hf : find c key = none) (hnd : (c.map (fun e => e.key)).Nodup) :
    ((c ++ [({ key := key, value := v } : ElementType L)]).map (fun e => e.key)).Nodup := by
  rw [List.map_append, List.nodup_append]
  refine ⟨hnd, by simp, ?_⟩
  intro k hk1 hk2
  simp only [List.map_cons, List.map_nil, List.mem_singleton] at hk2
  obtain ⟨e, he, hek⟩ := List.mem_map.mp hk1
  unfold find at hf
  rw [List.find?_eq_none] at hf
  apply hf e he
  simp only [decide_eq_true_eq]
  exact hek.trans hk2

theorem keys_filter_nodup {L : Type} (p : ElementType L → Bool) (c : children_container L)
    (hnd : (c.map (fun e => e.key)).Nodup) : ((c.filter p).map (fun e => e.key)).Nodup :=
  List.Nodup.sublist ((List.filter_sublist c).map _) hnd

theorem keys_replaceEntry_nodup {L : Type} (c : children_container L) (key : Str) (v : L)
    (hnd : (c.map (fun e => e.key)).Nodup) :
    ((replaceEntry c key v).map (fun e => e.key)).Nodup := by
  unfold replaceEntry
  cases hf : find c key with
  | none => exact keys_append_nodup c key v hf hnd
  | some e =>
    simp only []
    rw [keys_modify]
    exact hnd

theorem keys_foldl_replaceEntry_nodup {L : Type} : ∀ (theirs c : children_container L),
    (c.map (fun e => e.key)).Nodup →
    ((theirs.foldl (fun c child => replaceEntry c child.key child.value) c).map
      (fun e => e.key)).Nodup
  | [], _, hnd => hnd
  | t :: ts, c, hnd => by
    rw [List.foldl_cons]
    exact keys_foldl_replaceEntry_nodup ts _ (keys_replaceEntry_nodup c t.key t.value hnd)

theorem keysDistinct_iff (n : ConfigNode) :
    keysDistinct n = true ↔
      (n.nodes.map (fun e => e.key)).Nodup ∧ (n.values.map (fun e => e.key)).Nodup := by
  simp [keysDistinct]

theorem keysDistinct_set (h : Store) (p : NodePtr) (m : ConfigNode)
    (hk : ∀ n, keysDistinct (deref h n) = true) (hm : keysDistinct m = true) :
    ∀ n, keysDistinct (deref (h.set p m) n) = true := by
  intro n
  rw [deref_set]
  split
  · exact hm
  · exact hk n

theorem keysDistinct_setParent (h : Store) (node : NodePtr) (p : Option NodePtr)
    (hk : ∀ n, keysDistinct (deref h n) = true) :
    ∀ n, keysDistinct (deref (setParent h node p) n) = true := by
  intro n
  rw [keysDistinct_iff, deref_setParent_nodes, deref_setParent_values, ← keysDistinct_iff]
  exact hk n

/-- Member `setNode` keeps the keys of every container distinct. -/
theorem keysDistinct_setNode (h : Store) (self : NodePtr) (key : Str) (node : NodePtr)
    (h2 : Store) (hs : setNode h self key node SIZE_MAX = some h2)
    (hk : ∀ n, keysDistinct (deref h n) = true) :
    ∀ n, keysDistinct (deref h2 n) = true := by
  have hk1 := keysDistinct_setParent h node (some self) hk
  have hme := (keysDistinct_iff _).mp (hk1 self)
  unfold setNode at hs
  simp only [] at hs
  cases hf : find (deref (setParent h node (some self)) self).nodes key with
  | none =>
    rw [hf] at hs
    simp only [Option.some.injEq] at hs
    subst hs
    apply keysDistinct_set _ _ _ hk1
    rw [keysDistinct_iff]
    exact ⟨keys_append_nodup _ key [node] hf hme.1, hme.2⟩
  | some it =>
    rw [hf] at hs
    simp only [if_true, Option.some.injEq] at hs
    subst hs
    apply keysDistinct_set _ _ _ hk1
    rw [keysDistinct_iff]
    simp only []
    rw [keys_modify]
    exact hme

/-- Member `updateParents(Recurse::yes)` leaves the containers of every node as they are. -/
theorem updateParents_containers : ∀ (f : Nat) (s : Store) (node : NodePtr) (s2 : Store),
    updateParents f Recurse.yes s node = some s2 →
    ∀ n, (deref s2 n).nodes = (deref s n).nodes ∧ (deref s2 n).values = (deref s n).values
  | 0, s, node, s2, hu => by
    simp only [updateParents] at hu
    split at hu
    · simp only [Option.some.injEq] at hu
      subst hu
      exact fun _ => ⟨rfl, rfl⟩
    · simp at hu
  | f + 1, s, node, s2, hu => by
    simp only [updateParents] at hu
    have key : ∀ (l : List NodePtr) (r : Option Store) (s3 : Store),
        l.foldl
          (fun r c =>
            match r with
            | none => none
            | some h => updateParents f Recurse.yes (setParent h c (some node)) c) r = some s3 →
        ∃ s1, r = some s1 ∧ ∀ n, (deref s3 n).nodes = (deref s1 n).nodes ∧
          (deref s3 n).values = (deref s1 n).values := by
      intro l
      induction l with
      | nil =>
        intro r s3 hr
        exact ⟨s3, hr, fun _ => ⟨rfl, rfl⟩⟩
      | cons c cs ih =>
        intro r s3 hr
        rw [List.foldl_cons] at hr
        obtain ⟨s1, hs1, hc1⟩ := ih _ s3 hr
        cases r with
        | none => simp at hs1
        | some s0 =>
          simp only at hs1
          have hc0 := updateParents_containers f _ c s1 hs1
          refine ⟨s0, rfl, fun n => ?_⟩
          rw [(hc1 n).1, (hc1 n).2, (hc0 n).1, (hc0 n).2, deref_setParent_nodes,
            deref_setParent_values]
          exact ⟨rfl, rfl⟩
    obtain ⟨s1, hs1, hc⟩ := key _ _ s2 hu
    simp only [Option.some.injEq] at hs1
    subst hs1
    exact hc

/-- Member `overwrite` keeps the keys of every container distinct. -/
theorem keysDistinct_overwrite : ∀ (fuel : Nat) (h : Store) (self other : NodePtr)
    (h2 : Store), overwrite fuel h self other = some h2 →
    (∀ n, keysDistinct (deref h n) = true) → ∀ n, keysDistinct (deref h2 n) = true
  | 0, _, _, _, _, ho, _ => by simp [overwrite] at ho
  | fuel + 1, h, self, other, h2, ho, hk => by
    simp only [overwrite] at ho
    have hk1 : ∀ n, keysDistinct (deref (kindWins h self other) n) = true := by
      simp only [kindWins]
      apply keysDistinct_set _ _ _ hk
      rw [keysDistinct_iff]
      have hme := (keysDistinct_iff _).mp (hk self)
      exact ⟨keys_filter_nodup _ _ hme.1, keys_filter_nodup _ _ hme.2⟩
    have hsteps : ∀ (steps : List OverwriteStep) (s s2 : Store),
        runOverwriteSteps (fun s own node => overwrite fuel s own node) fuel self s steps
          = some s2 →
        (∀ n, keysDistinct (deref s n) = true) → ∀ n, keysDistinct (deref s2 n) = true := by
      intro steps
      induction steps with
      | nil =>
        intro s s2 hr hks
        simp only [runOverwriteSteps, Option.some.injEq] at hr
        subst hr
        exact hks
      | cons step rest ih =>
        intro s s2 hr hks
        simp only [runOverwriteSteps] at hr
        cases h1 : runOverwriteStep (fun s own node => overwrite fuel s own node) fuel self s
            step with
        | none => rw [h1] at hr; simp at hr
        | some s1 =>
          rw [h1] at hr
          simp only at hr
          apply ih s1 s2 hr
          cases step with
          | merge own node =>
            simp only [runOverwriteStep] at h1
            exact keysDistinct_overwrite fuel s own node s1 h1 hks
          | attach key node =>
            simp only [runOverwriteStep] at h1
            cases hset : setNode s self key node SIZE_MAX with
            | none => rw [hset] at h1; simp at h1
            | some s0 =>
              rw [hset] at h1
              simp only at h1
              have hk0 := keysDistinct_setNode s self key node s0 hset hks
              have hc := updateParents_containers fuel s0 node s1 h1
              intro n
              rw [keysDistinct_iff, (hc n).1, (hc n).2, ← keysDistinct_iff]
              exact hk0 n
    cases hr : runOverwriteSteps (fun s own node => overwrite fuel s own node) fuel self
        (kindWins h self other)
        (overwriteSteps (deref (kindWins h self other) self).nodes (deref h other).nodes) with
    | none => rw [hr] at ho; simp at ho
    | some s2 =>
      rw [hr] at ho
      simp only [Option.some.injEq] at ho
      subst ho
      have hk2 := hsteps _ _ s2 hr hk1
      simp only [replaceScalars]
      apply keysDistinct_set _ _ _ hk2
      rw [keysDistinct_iff]
      have hme := (keysDistinct_iff _).mp (hk2 self)
      exact ⟨hme.1, keys_foldl_replaceEntry_nodup _ _ hme.2⟩

/-! ### `overwrite` on two trees -/

theorem steps_merge_inv (own : Str → node_list) (theirs : children_container node_list)
    (a b : NodePtr)
    (hs : OverwriteStep.merge a b
      ∈ theirs.flatMap (fun child => entrySteps (own child.key) child)) :
    ∃ child ∈ theirs, a ∈ own child.key ∧ b ∈ child.value := by
  obtain ⟨child, hc, hstep⟩ := List.mem_flatMap.mp hs
  obtain ⟨i, h1, h2⟩ := (mem_entrySteps_merge a b (own child.key) child.value child.key).mp hstep
  exact ⟨child, hc, List.getElem?_mem h1, List.getElem?_mem h2⟩

theorem steps_attach_inv (own : Str → node_list) (theirs : children_container node_list)
    (k : Str) (b : NodePtr)
    (hs : OverwriteStep.attach k b
      ∈ theirs.flatMap (fun child => entrySteps (own child.key) child)) :
    ∃ child ∈ theirs, b ∈ child.value := by
  obtain ⟨child, hc, hstep⟩ := List.mem_flatMap.mp hs
  obtain ⟨_, h2⟩ := (mem_entrySteps_attach k b (own child.key) child.value child.key).mp hstep
  exact ⟨child, hc, List.mem_of_mem_drop h2⟩

/-- Call `overwrite` on two trees without a shared node, of valid handles, the keys within
each container of `other` being distinct and `other` being no deeper than the budget: the
call returns the overlay, and only the two trees are changed. -/
theorem overwrite_overlaid : ∀ (f : Nat) (h : Store) (self other : NodePtr),
    (footprint h (f + 1) self ++ footprint h (f + 1) other).Nodup →
    (∀ n ∈ footprint h (f + 1) self ++ footprint h (f + 1) other, n < h.length) →
    (∀ n ∈ footprint h (f + 1) other, keysDistinct (deref h n) = true) →
    withinDepth h f other = true →
    ∃ h2, overwrite (f + 1) h self other = some h2 ∧ h2.length = h.length ∧
      (∀ n, n ∉ footprint h (f + 1) self ++ footprint h (f + 1) other →
        deref h2 n = deref h n) ∧
      Overlaid (f + 1) h h2 self other
  | 0, h, self, other, hshape, hvalid, hkeys, hdepth => by
    have hB := children_nil_of_withinDepth h other hdepth
    have hvalB : ∀ child ∈ (deref h other).nodes, ∀ x ∈ child.value, False := by
      intro child hc x hx
      have hm : x ∈ children h other := List.mem_flatMap.mpr ⟨child, hc, hx⟩
      rw [hB] at hm
      exact absurd hm (List.not_mem_nil _)
    apply overwrite_core 0 h self other hshape
      (hvalid self (List.mem_append_left _ (mem_footprint_self h 1 self)))
      (hkeys other (mem_footprint_self h 1 other))
    intro step hstep
    cases step with
    | merge a b =>
      obtain ⟨child, hc, _, hb⟩ := steps_merge_inv _ _ a b hstep
      exact (hvalB child hc b hb).elim
    | attach k b =>
      obtain ⟨child, hc, hb⟩ := steps_attach_inv _ _ k b hstep
      exact (hvalB child hc b hb).elim
  | f + 1, h, self, other, hshape, hvalid, hkeys, hdepth => by
    obtain ⟨hC, _, hCsub, _, _⟩ := shape_children h (f + 1) self other hshape
    have hCnd := nodup_of_flatMap_footprint h (f + 1) _ hC
    rw [List.nodup_append] at hCnd
    obtain ⟨_, _, hAB⟩ := hCnd
    have hvalB : ∀ child ∈ (deref h other).nodes, ∀ x ∈ child.value, x ∈ children h other :=
      fun child hc x hx => List.mem_flatMap.mpr ⟨child, hc, hx⟩
    apply overwrite_core (f + 1) h self other hshape
      (hvalid self (List.mem_append_left _ (mem_footprint_self h (f + 2) self)))
      (hkeys other (mem_footprint_self h (f + 2) other))
    intro step hstep
    cases step with
    | merge own node =>
      obtain ⟨child, hc, ha, hb⟩ := steps_merge_inv _ _ own node hstep
      have hownA : own ∈ children h self := getNodesKey_subset_children h self _ own ha
      have hnodeB : node ∈ children h other := hvalB child hc node hb
      have hne : own ≠ node := fun hx => hAB hownA (hx ▸ hnodeB)
      have hpair : (footprint h (f + 1) own ++ footprint h (f + 1) node).Nodup := by
        have hx := flatMap_footprint_nodup h (f + 1) _ [own, node] hC (by simp [hne])
          (by
            intro x hx
            simp only [List.mem_cons, List.mem_singleton, List.not_mem_nil, or_false] at hx
            rcases hx with hx | hx
            · exact hx ▸ List.mem_append_left _ hownA
            · exact hx ▸ List.mem_append_right _ hnodeB)
        simpa using hx
      simp only [OverwriteStep.Ready]
      intro s hl hag
      have hsn : ∀ n ∈ footprint h (f + 1) own ++ footprint h (f + 1) node,
          (deref s n).nodes = (deref h n).nodes := fun n hn => by rw [hag n hn]
      have hfo : footprint s (f + 1) own = footprint h (f + 1) own :=
        footprint_congr s h (f + 1) own (fun n hn => hsn n (List.mem_append_left _ hn))
      have hfn : footprint s (f + 1) node = footprint h (f + 1) node :=
        footprint_congr s h (f + 1) node (fun n hn => hsn n (List.mem_append_right _ hn))
      have hsub : ∀ n ∈ footprint h (f + 1) own ++ footprint h (f + 1) node,
          n ∈ footprint h (f + 2) self ++ footprint h (f + 2) other := by
        intro n hn
        rcases List.mem_append.mp hn with hx | hx
        · exact List.mem_append_left _ (footprint_child h (f + 1) self own n hownA hx)
        · exact List.mem_append_right _ (footprint_child h (f + 1) other node n hnodeB hx)
      obtain ⟨s2, hs2, hl2, hfr2, hov2⟩ := overwrite_overlaid f s own node
        (by rw [hfo, hfn]; exact hpair)
        (by
          intro n hn
          rw [hfo, hfn] at hn
          rw [hl]
          exact hvalid n (hsub n hn))
        (by
          intro n hn
          rw [hfn] at hn
          rw [hag n (List.mem_append_right _ hn)]
          exact hkeys n (footprint_child h (f + 1) other node n hnodeB hn))
        (by
          rw [withinDepth_congr s h f node
            (fun n hn => hsn n (List.mem_append_right _ (footprint_mono h f node n hn)))]
          exact withinDepth_child h f other node hdepth hnodeB)
      refine ⟨s2, hs2, hl2, ?_, Overlaid_congr_left (f + 1) s h s2 own node hag hov2⟩
      intro n hn
      apply hfr2
      rw [hfo, hfn]
      exact hn
    | attach k node =>
      obtain ⟨child, hc, hb⟩ := steps_attach_inv _ _ k node hstep
      have hnodeB : node ∈ children h other := hvalB child hc node hb
      simp only [OverwriteStep.Ready]
      refine ⟨withinDepth_mono h f node (withinDepth_child h f other node hdepth hnodeB),
        (List.nodup_flatMap.mp hC).1 node (List.mem_append_right _ hnodeB), ?_⟩
      intro n hn
      exact hvalid n (List.mem_append_right _ (footprint_child h (f + 1) other node n hnodeB hn))

/-! ## C21: `overwrite` is a destructive overlay -/

/-- C21 (refuted as stated): in `{k: ["1"]}` the key `k` is a scalar key that only `self`
holds as a scalar; `other` is `{k: {x: ["9"]}}`.  After `self.overwrite(other)` the scalar
entry `k` of `self` is gone, as "the later document's kind wins", and `self` holds the
subnode of `other` under `k`. -/
theorem overwrite_kind_counterexample :
    getValuesKey kindStore 0 "k".toList = ["1".toList] ∧
    find (deref kindStore 1).values "k".toList = none ∧
    overwrite 2 kindStore 0 1 = some kindAfter ∧
    getValuesKey kindAfter 0 "k".toList = [] ∧
    getNodesKey kindAfter 0 "k".toList = [2] := by
  refine ⟨by decide, by decide, by decide, by decide, by decide⟩

/-- C21 (amended): let `self` and `other` be the roots of two trees of valid handles that
share no node, let the keys within each container of every node of `other` be distinct, and
let `other` be no deeper than the budget.  Then `self.overwrite(other)` returns, and
afterwards, at `self` and in turn at every pair of subnode elements that `self` and `other`
hold at the same index of the same key: under every scalar key of `other` the sequence of
`self` is that of `other`; a scalar or subnode entry of `self` whose key `other` holds in
neither kind is as before; a key that `other` holds in one kind only is held by `self` in
that kind only; under a subnode key of `other`, `self` holds its former elements followed by
those of `other` behind the last index of `self`, which have `self` as parent and their own
containers, every node below them having its own containers and its holder as parent; a
subnode of `self` without an element of `other` at its index is as before with all that is
below it.  So a subnode key that only `other` holds gets the whole sequence of `other`, with
`self` as parent of each element.  The parent of `self`, the node `other`, every node of
`other` that is overlaid on a node of `self`, and every node outside the two trees are as
before; when the keys within every container of the store are distinct, they still are.  On the documents `{a: {x: ["1"], y: ["2"]}}` and `{a: {x: ["9"]}}` the call gives
`{a: {x: ["9"], y: ["2"]}}`, and on the trees of `extraStore` it gives `extraAfter`. -/
theorem overwrite_overlay (fuel : Nat) (h : Store) (self other : NodePtr)
    (hshape : (footprint h (fuel + 1) self ++ footprint h (fuel + 1) other).Nodup)
    (hvalid : ∀ n ∈ footprint h (fuel + 1) self ++ footprint h (fuel + 1) other, n < h.length)
    (hkeys : ∀ n ∈ footprint h (fuel + 1) other, keysDistinct (deref h n) = true)
    (hdepth : withinDepth h fuel other = true) :
    (∃ h2, overwrite (fuel + 1) h self other = some h2 ∧
      Overlaid (fuel + 1) h h2 self other ∧
      (∀ k, find (deref h self).nodes k = none →
        getNodesKey h2 self k = getNodesKey h other k ∧
        ∀ node ∈ getNodesKey h other k, (deref h2 node).parent = some self) ∧
      (∀ k, find (deref h other).values k = none →
        getValuesKey h2 self k
          = if (find (deref h other).nodes k).isSome = true then [] else getValuesKey h self k) ∧
      ((∀ n, keysDistinct (deref h n) = true) → ∀ n, keysDistinct (deref h2 n) = true) ∧
      h2.length = h.length ∧
      (∀ n, n ∉ footprint h (fuel + 1) self ++ footprint h (fuel + 1) other →
        deref h2 n = deref h n)) ∧
    overwrite 2 documentStore 0 2 = some documentAfter ∧
    getValues documentAfter 0 (some "a.x".toList) '.' = ["9".toList] ∧
    getValues documentAfter 0 (some "a.y".toList) '.' = ["2".toList] ∧
    overwrite 3 extraStore 0 4 = some extraAfter := by
  refine ⟨?_, by decide, by decide, by decide, by decide⟩
  obtain ⟨h2, hs, hl, hfr, hov⟩ := overwrite_overlaid fuel h self other hshape hvalid hkeys hdepth
  refine ⟨h2, hs, hov, ?_, ?_, keysDistinct_overwrite (fuel + 1) h self other h2 hs, hl, hfr⟩
  · intro k hk
    simp only [Overlaid] at hov
    obtain ⟨_, _, _, hneither, _, hscalar, _, hsub⟩ := hov
    have hself : getNodesKey h self k = [] := getNodesKey_of_none h self k hk
    cases hn : find (deref h other).nodes k with
    | some child =>
      obtain ⟨h1, _, h3⟩ := hsub k (by rw [hn]; rfl)
      rw [hself] at h1 h3
      refine ⟨by rw [h1]; simp, fun node hnode => (h3 node (by simpa using hnode)).1⟩
    | none =>
      rw [getNodesKey_of_none h other k hn]
      refine ⟨?_, fun node hnode => absurd hnode (List.not_mem_nil _)⟩
      cases hv : find (deref h other).values k with
      | some e => exact hscalar k (by rw [hv]; rfl) hn
      | none =>
        rw [(hneither k hv hn).2]
        exact hself
  · intro k hv
    simp only [Overlaid] at hov
    obtain ⟨_, _, _, hneither, hkind, _, _, _⟩ := hov
    cases hn : find (deref h other).nodes k with
    | some child =>
      rw [if_pos (by rfl)]
      exact hkind k (by rw [hn]; rfl) hv
    | none =>
      rw [if_neg (by simp)]
      exact (hneither k hv hn).1

/-- C21 (amended) at the two documents of the specification, `{a: {x: ["1"], y: ["2"]}}`
overwritten with `{a: {x: ["9"]}}`, and at the trees of `extraStore`, where `self` has an
extra element under `a` and a subnode key of its own, and `other` a subnode key of its own
with a subnode below it. -/
theorem overwrite_overlay_witness :
    (footprint documentStore 2 0 ++ footprint documentStore 2 2).Nodup ∧
    (∀ n ∈ footprint documentStore 2 0 ++ footprint documentStore 2 2,
      n < documentStore.length) ∧
    (∀ n ∈ footprint documentStore 2 2, keysDistinct (deref documentStore n) = true) ∧
    withinDepth documentStore 1 2 = true ∧
    Overlaid 2 documentStore documentAfter 0 2 ∧
    getValuesKey documentAfter 1 "x".toList = ["9".toList] ∧
    getValuesKey documentAfter 1 "y".toList = ["2".toList] ∧
    (footprint extraStore 3 0 ++ footprint extraStore 3 4).Nodup ∧
    (∀ n ∈ footprint extraStore 3 0 ++ footprint extraStore 3 4, n < extraStore.length) ∧
    (∀ n ∈ footprint extraStore 3 4, keysDistinct (deref extraStore n) = true) ∧
    withinDepth extraStore 2 4 = true ∧
    Overlaid 3 extraStore extraAfter 0 4 := by
  have hw := overwrite_overlay 1 documentStore 0 2 (by decide) (by decide) (by decide)
    (by decide)
  have hx := overwrite_overlay 2 extraStore 0 4 (by decide) (by decide) (by decide)
    (by decide)
  obtain ⟨⟨h2, hs, hov, _⟩, hdoc, _, _, hextra⟩ := hw
  obtain ⟨⟨h3, hs3, hov3, _⟩, _⟩ := hx
  have he : h2 = documentAfter := by
    rw [hdoc] at hs
    exact (Option.some.inj hs).symm
  have he3 : h3 = extraAfter := by
    rw [hextra] at hs3
    exact (Option.some.inj hs3).symm
  subst he
  subst he3
  exact ⟨by decide, by decide, by decide, by decide, hov, by decide, by decide,
    by decide, by decide, by decide, by decide, hov3⟩

end dconfig
